import Mathlib

/-!
# xv6 (RISC-V) memory management: frame allocator and Sv39 page tables

A shallow embedding of `kernel/kalloc.c` and `kernel/vm.c`.

* Physical memory is a byte-addressed map `Nat → Nat`; 64-bit loads and stores are
  little-endian (RISC-V).  Page-table pages, data pages and the free list all live in
  this one memory, exactly as in the C code.
* `uint64` arithmetic is `Nat` arithmetic reduced modulo `2^64` where the C expression
  can wrap.
* `panic(...)` is the outcome `Outcome.panic`; loops are defined by structural recursion
  on a bound that the loop provably never exhausts (`Outcome.diverge` is the result of an
  exhausted bound and is shown not to occur).
* The spin lock of `kmem` is not modelled: all functions are run by one thread.
-/

namespace XV6

/-! ## Constants and macros of `riscv.h` -/

/-- Modelled from the spec: `riscv.h` is not among the sources; bytes per page
("a fixed-size (4096-byte) unit of physical memory"). -/
def PGSIZE : Nat := 4096

/-- Modelled from the spec: `riscv.h` is not among the sources; bits of offset within a
page ("12-bit page offset"). -/
def PGSHIFT : Nat := 12

/-- Modelled from the spec: `riscv.h` is not among the sources; the Valid flag bit of a
page-table entry, bit 0 as in the RISC-V privileged architecture. -/
def PTE_V : Nat := 1

/-- Modelled from the spec: `riscv.h` is not among the sources; the Read flag, bit 1. -/
def PTE_R : Nat := 2

/-- Modelled from the spec: `riscv.h` is not among the sources; the Write flag, bit 2. -/
def PTE_W : Nat := 4

/-- Modelled from the spec: `riscv.h` is not among the sources; the Execute flag, bit 3. -/
def PTE_X : Nat := 8

/-- Modelled from the spec: `riscv.h` is not among the sources; the User flag, bit 4. -/
def PTE_U : Nat := 16

/-- Modelled from the spec: `riscv.h` is not among the sources;
`PGROUNDUP(sz) = (sz + PGSIZE - 1) & ~(PGSIZE - 1)` on `uint64`. -/
def PGROUNDUP (sz : Nat) : Nat := ((sz + PGSIZE - 1) % 2 ^ 64) &&& (2 ^ 64 - PGSIZE)

/-- Modelled from the spec: `riscv.h` is not among the sources;
`PGROUNDDOWN(a) = a & ~(PGSIZE - 1)` on `uint64`. -/
def PGROUNDDOWN (a : Nat) : Nat := (a % 2 ^ 64) &&& (2 ^ 64 - PGSIZE)

/-- Modelled from the spec: `riscv.h` is not among the sources;
`PA2PTE(pa) = (pa >> 12) << 10`: the frame number placed above the ten flag bits. -/
def PA2PTE (pa : Nat) : Nat := ((pa >>> 12) <<< 10) % 2 ^ 64

/-- Modelled from the spec: `riscv.h` is not among the sources;
`PTE2PA(pte) = (pte >> 10) << 12`, truncated to 64 bits. -/
def PTE2PA (pte : Nat) : Nat := ((pte >>> 10) <<< 12) % 2 ^ 64

/-- Modelled from the spec: `riscv.h` is not among the sources;
`PTE_FLAGS(pte) = pte & 0x3FF`. -/
def PTE_FLAGS (pte : Nat) : Nat := pte &&& 0x3FF

/-- Modelled from the spec: `riscv.h` is not among the sources; nine bits of index. -/
def PXMASK : Nat := 0x1FF

/-- Modelled from the spec: `riscv.h` is not among the sources;
`PXSHIFT(level) = PGSHIFT + 9 * level`. -/
def PXSHIFT (level : Nat) : Nat := PGSHIFT + 9 * level

/-- Modelled from the spec: `riscv.h` is not among the sources;
`PX(level, va) = (va >> PXSHIFT(level)) & PXMASK`, the index of `va` at a level. -/
def PX (level va : Nat) : Nat := (va >>> PXSHIFT level) &&& PXMASK

/-- The constants of `memlayout.h`, `riscv.h` and the linker script that the sources use
but do not define: `MAXVA`, the linker symbol `end` (first address after the kernel) and
`PHYSTOP`.  They are parameters of the model. -/
structure MemLayout where
  MAXVA : Nat
  kend : Nat
  PHYSTOP : Nat

/-- What the model assumes of the layout: `MAXVA` fits the three nine-bit indices and the
page offset and is a multiple of the page size, the kernel image does not end at
address 0, and `PHYSTOP` is a `uint64`. -/
structure MemLayout.Sane (L : MemLayout) : Prop where
  maxva_le : L.MAXVA ≤ 2 ^ 39
  maxva_al : L.MAXVA % 4096 = 0
  kend_pos : 0 < L.kend
  phystop_le : L.PHYSTOP ≤ 2 ^ 64

/-! ## Outcomes -/

/-- The `panic(...)` calls of `kalloc.c` and `vm.c`. -/
inductive Fatal where
  | walk
  | kvmmap
  | kvmpa
  | mappagesSize
  | mappagesRemap
  | uvmunmapNotAligned
  | uvmunmapWalk
  | uvmunmapNotMapped
  | uvmunmapNotALeaf
  | inituvm
  | freewalkLeaf
  | uvmcopyPte
  | uvmcopyNotPresent
  | kvmcopymappingsPte
  | kvmcopymappingsNotPresent
  | uvmclear
  | kfree
  deriving DecidableEq, Repr

/-- Result of running a kernel function: a value, a panic, or an exhausted loop bound. -/
inductive Outcome (α : Type) where
  | ok (v : α)
  | panic (why : Fatal)
  | diverge

/-- Sequencing of kernel calls: a panic stops the computation. -/
def Outcome.bind {α β : Type} (x : Outcome α) (f : α → Outcome β) : Outcome β :=
  match x with
  | .ok v => f v
  | .panic w => .panic w
  | .diverge => .diverge

/-! ## Physical memory -/

/-- Physical memory: byte address to byte value. -/
abbrev Mem := Nat → Nat

/-- A 64-bit little-endian load. -/
def read64 (m : Mem) (a : Nat) : Nat :=
  m a % 256 + 256 * (m (a + 1) % 256 + 256 * (m (a + 2) % 256 + 256 * (m (a + 3) % 256 +
    256 * (m (a + 4) % 256 + 256 * (m (a + 5) % 256 + 256 * (m (a + 6) % 256 +
      256 * (m (a + 7) % 256)))))))

/-- A 64-bit little-endian store. -/
def write64 (m : Mem) (a v : Nat) : Mem :=
  fun x => if a ≤ x ∧ x < a + 8 then (v / 256 ^ (x - a)) % 256 else m x

/-- `memset(p, c, n)`. -/
def memset (m : Mem) (p c n : Nat) : Mem :=
  fun x => if p ≤ x ∧ x < p + n then c % 256 else m x

/-- `memmove(dst, src, n)`. -/
def memmove (m : Mem) (dst src n : Nat) : Mem :=
  fun x => if dst ≤ x ∧ x < dst + n then m (src + (x - dst)) else m x

/-- Kernel state: physical memory and `kmem.freelist` (0 is the null pointer). -/
structure KState where
  mem : Mem
  freelist : Nat

/-! ## `kalloc.c` -/

/-- `kfree(pa)`: check the frame, fill it with junk, and push it on the free list. -/
def kfree (L : MemLayout) (s : KState) (pa : Nat) : Outcome KState :=
  if pa % PGSIZE ≠ 0 ∨ pa < L.kend ∨ pa ≥ L.PHYSTOP then .panic .kfree
  else .ok { mem := write64 (memset s.mem pa 1 PGSIZE) pa s.freelist, freelist := pa }

/-- `kalloc()`: pop the head of the free list and fill the frame with junk; 0 when the
list is empty. -/
def kalloc (s : KState) : Nat × KState :=
  let r := s.freelist
  if r ≠ 0 then (r, { mem := memset s.mem r 5 PGSIZE, freelist := read64 s.mem r })
  else (0, s)

/-! ## `vm.c` -/

/-- The loop of `walk`, from `level` down to 1, then the address of the level-0 entry. -/
def walk_loop : Nat → KState → Nat → Nat → Nat → Nat × KState
  | 0, s, pagetable, va, _ => (pagetable + 8 * PX 0 va, s)
  | level + 1, s, pagetable, va, alloc =>
    let pte := pagetable + 8 * PX (level + 1) va
    if read64 s.mem pte &&& PTE_V ≠ 0 then
      walk_loop level s (PTE2PA (read64 s.mem pte)) va alloc
    else if alloc = 0 then (0, s)
    else
      let r := kalloc s
      if r.1 = 0 then (0, r.2)
      else
        let m1 := memset r.2.mem r.1 0 PGSIZE
        let m2 := write64 m1 pte (PA2PTE r.1 ||| PTE_V)
        walk_loop level { r.2 with mem := m2 } r.1 va alloc

/-- `walk(pagetable, va, alloc)`: the address of the level-0 entry of `va`, or 0. -/
def walk (L : MemLayout) (s : KState) (pagetable va alloc : Nat) : Outcome (Nat × KState) :=
  if va ≥ L.MAXVA then .panic .walk else .ok (walk_loop 2 s pagetable va alloc)

/-- `walkaddr(pagetable, va)`. -/
def walkaddr (L : MemLayout) (s : KState) (pagetable va : Nat) : Outcome (Nat × KState) :=
  if va ≥ L.MAXVA then .ok (0, s)
  else (walk L s pagetable va 0).bind fun r =>
    if r.1 = 0 then .ok (0, r.2)
    else if read64 r.2.mem r.1 &&& PTE_V = 0 then .ok (0, r.2)
    else if read64 r.2.mem r.1 &&& PTE_U = 0 then .ok (0, r.2)
    else .ok (PTE2PA (read64 r.2.mem r.1), r.2)

/-- The `for(;;)` loop of `mappages`. -/
def mappages_loop (L : MemLayout) : Nat → KState → Nat → Nat → Nat → Nat → Nat →
    Outcome (Int × KState)
  | 0, _, _, _, _, _, _ => .diverge
  | fuel + 1, s, pagetable, a, last, pa, perm =>
    (walk L s pagetable a 1).bind fun r =>
      if r.1 = 0 then .ok (-1, r.2)
      else if read64 r.2.mem r.1 &&& PTE_V ≠ 0 then .panic .mappagesRemap
      else
        let s2 : KState := { r.2 with mem := write64 r.2.mem r.1 (PA2PTE pa ||| perm ||| PTE_V) }
        if a = last then .ok (0, s2)
        else mappages_loop L fuel s2 pagetable ((a + PGSIZE) % 2 ^ 64) last
          ((pa + PGSIZE) % 2 ^ 64) perm

/-- `mappages(pagetable, va, size, pa, perm)`; `perm` is the flag word as a `uint64`. -/
def mappages (L : MemLayout) (s : KState) (pagetable va size pa perm : Nat) :
    Outcome (Int × KState) :=
  if size = 0 then .panic .mappagesSize
  else mappages_loop L (L.MAXVA / PGSIZE + 2) s pagetable (PGROUNDDOWN va)
    (PGROUNDDOWN ((va + size - 1) % 2 ^ 64)) pa perm

/-- The `for` loop of `uvmunmap`; `bound` is `va + npages*PGSIZE`. -/
def uvmunmap_loop (L : MemLayout) : Nat → KState → Nat → Nat → Nat → Nat → Outcome KState
  | 0, _, _, _, _, _ => .diverge
  | fuel + 1, s, pagetable, a, bound, do_free =>
    if a < bound then
      (walk L s pagetable a 0).bind fun r =>
        if r.1 = 0 then .panic .uvmunmapWalk
        else if read64 r.2.mem r.1 &&& PTE_V = 0 then .panic .uvmunmapNotMapped
        else if PTE_FLAGS (read64 r.2.mem r.1) = PTE_V then .panic .uvmunmapNotALeaf
        else
          (if do_free ≠ 0 then kfree L r.2 (PTE2PA (read64 r.2.mem r.1)) else .ok r.2).bind
            fun s2 =>
              uvmunmap_loop L fuel { s2 with mem := write64 s2.mem r.1 0 } pagetable
                ((a + PGSIZE) % 2 ^ 64) bound do_free
    else .ok s

/-- `uvmunmap(pagetable, va, npages, do_free)`. -/
def uvmunmap (L : MemLayout) (s : KState) (pagetable va npages do_free : Nat) :
    Outcome KState :=
  if va % PGSIZE ≠ 0 then .panic .uvmunmapNotAligned
  else uvmunmap_loop L (L.MAXVA / PGSIZE + 2) s pagetable va
    ((va + npages * PGSIZE) % 2 ^ 64) do_free

/-- `uvmcreate()`: a zeroed root page, or 0 when out of memory. -/
def uvmcreate (s : KState) : Nat × KState :=
  let r := kalloc s
  if r.1 = 0 then (0, r.2)
  else (r.1, { r.2 with mem := memset r.2.mem r.1 0 PGSIZE })

/-- The value a `uint64` has after it was stored in an `int` and passed as a `uint64`
again (truncation to 32 bits, then sign extension). -/
def viaInt (q : Nat) : Nat :=
  if q % 2 ^ 32 < 2 ^ 31 then q % 2 ^ 32 else q % 2 ^ 32 + (2 ^ 64 - 2 ^ 32)

/-- `uvmdealloc(pagetable, oldsz, newsz)`. -/
def uvmdealloc (L : MemLayout) (s : KState) (pagetable oldsz newsz : Nat) :
    Outcome (Nat × KState) :=
  if newsz ≥ oldsz then .ok (oldsz, s)
  else if PGROUNDUP newsz < PGROUNDUP oldsz then
    let npages := viaInt ((PGROUNDUP oldsz - PGROUNDUP newsz) / PGSIZE)
    (uvmunmap L s pagetable (PGROUNDUP newsz) npages 1).bind fun s1 => .ok (newsz, s1)
  else .ok (newsz, s)

/-- The `for` loop of `uvmalloc`; `oldsz` is already rounded up. -/
def uvmalloc_loop (L : MemLayout) : Nat → KState → Nat → Nat → Nat → Nat →
    Outcome (Nat × KState)
  | 0, _, _, _, _, _ => .diverge
  | fuel + 1, s, pagetable, a, oldsz, newsz =>
    if a < newsz then
      let r := kalloc s
      if r.1 = 0 then
        (uvmdealloc L r.2 pagetable a oldsz).bind fun d => .ok (0, d.2)
      else
        let s2 : KState := { r.2 with mem := memset r.2.mem r.1 0 PGSIZE }
        (mappages L s2 pagetable a PGSIZE r.1 (PTE_W ||| PTE_X ||| PTE_R ||| PTE_U)).bind
          fun mp =>
            if mp.1 ≠ 0 then
              (kfree L mp.2 r.1).bind fun s4 =>
                (uvmdealloc L s4 pagetable a oldsz).bind fun d => .ok (0, d.2)
            else uvmalloc_loop L fuel mp.2 pagetable ((a + PGSIZE) % 2 ^ 64) oldsz newsz
    else .ok (newsz, s)

/-- `uvmalloc(pagetable, oldsz, newsz)`. -/
def uvmalloc (L : MemLayout) (s : KState) (pagetable oldsz newsz : Nat) :
    Outcome (Nat × KState) :=
  if newsz < oldsz then .ok (oldsz, s)
  else uvmalloc_loop L (L.MAXVA / PGSIZE + 2) s pagetable (PGROUNDUP oldsz)
    (PGROUNDUP oldsz) newsz

/-- The `for` loop of `freewalk` over the 512 entries of one page; `child` frees a
lower-level table. -/
def freewalk_loop (child : KState → Nat → Outcome KState) :
    Nat → KState → Nat → Nat → Outcome KState
  | 0, _, _, _ => .diverge
  | fuel + 1, s, pagetable, i =>
    if i < 512 then
      let pte := read64 s.mem (pagetable + 8 * i)
      if pte &&& PTE_V ≠ 0 ∧ pte &&& (PTE_R ||| PTE_W ||| PTE_X) = 0 then
        (child s (PTE2PA pte)).bind fun s1 =>
          freewalk_loop child fuel { s1 with mem := write64 s1.mem (pagetable + 8 * i) 0 }
            pagetable (i + 1)
      else if pte &&& PTE_V ≠ 0 then .panic .freewalkLeaf
      else freewalk_loop child fuel s pagetable (i + 1)
    else .ok s

/-- `freewalk(pagetable)`; `depth` bounds the nesting of the recursive calls. -/
def freewalk (L : MemLayout) : Nat → KState → Nat → Outcome KState
  | 0, _, _ => .diverge
  | depth + 1, s, pagetable =>
    (freewalk_loop (freewalk L depth) 513 s pagetable 0).bind fun s1 => kfree L s1 pagetable

/-- The `for` loop of `kvm_free_kernelpgtbl` over the 512 entries of one page; `child`
frees a lower-level table.  A valid entry with one of R, W, X set is left alone. -/
def kvmfree_loop (child : KState → Nat → Outcome KState) :
    Nat → KState → Nat → Nat → Outcome KState
  | 0, _, _, _ => .diverge
  | fuel + 1, s, pagetable, i =>
    if i < 512 then
      let pte := read64 s.mem (pagetable + 8 * i)
      if pte &&& PTE_V ≠ 0 ∧ pte &&& (PTE_R ||| PTE_W ||| PTE_X) = 0 then
        (child s (PTE2PA pte)).bind fun s1 =>
          kvmfree_loop child fuel { s1 with mem := write64 s1.mem (pagetable + 8 * i) 0 }
            pagetable (i + 1)
      else kvmfree_loop child fuel s pagetable (i + 1)
    else .ok s

/-- `kvm_free_kernelpgtbl(pagetable)`; `depth` bounds the nesting of the recursive
calls. -/
def kvm_free_kernelpgtbl (L : MemLayout) : Nat → KState → Nat → Outcome KState
  | 0, _, _ => .diverge
  | depth + 1, s, pagetable =>
    (kvmfree_loop (kvm_free_kernelpgtbl L depth) 513 s pagetable 0).bind fun s1 =>
      kfree L s1 pagetable

/-- `uvmfree(pagetable, sz)`; `depth` bounds the recursion of `freewalk`. -/
def uvmfree (L : MemLayout) (depth : Nat) (s : KState) (pagetable sz : Nat) :
    Outcome KState :=
  (if sz > 0 then uvmunmap L s pagetable 0 (PGROUNDUP sz / PGSIZE) 1 else .ok s).bind
    fun s1 => freewalk L depth s1 pagetable

/-- The code at label `err` of `uvmcopy`. -/
def uvmcopy_err (L : MemLayout) (s : KState) (new i : Nat) : Outcome (Int × KState) :=
  (uvmunmap L s new 0 (i / PGSIZE) 1).bind fun s1 => .ok (-1, s1)

/-- The `for` loop of `uvmcopy`. -/
def uvmcopy_loop (L : MemLayout) : Nat → KState → Nat → Nat → Nat → Nat →
    Outcome (Int × KState)
  | 0, _, _, _, _, _ => .diverge
  | fuel + 1, s, old, new, i, sz =>
    if i < sz then
      (walk L s old i 0).bind fun r =>
        if r.1 = 0 then .panic .uvmcopyPte
        else if read64 r.2.mem r.1 &&& PTE_V = 0 then .panic .uvmcopyNotPresent
        else
          let pa := PTE2PA (read64 r.2.mem r.1)
          let flags := PTE_FLAGS (read64 r.2.mem r.1)
          let k := kalloc r.2
          if k.1 = 0 then uvmcopy_err L k.2 new i
          else
            let s2 : KState := { k.2 with mem := memmove k.2.mem k.1 pa PGSIZE }
            (mappages L s2 new i PGSIZE k.1 flags).bind fun mp =>
              if mp.1 ≠ 0 then (kfree L mp.2 k.1).bind fun s4 => uvmcopy_err L s4 new i
              else uvmcopy_loop L fuel mp.2 old new ((i + PGSIZE) % 2 ^ 64) sz
    else .ok (0, s)

/-- `uvmcopy(old, new, sz)`. -/
def uvmcopy (L : MemLayout) (s : KState) (old new sz : Nat) : Outcome (Int × KState) :=
  uvmcopy_loop L (L.MAXVA / PGSIZE + 2) s old new 0 sz

/-! ## Specification vocabulary -/

/-- The Valid bit of an entry is set (`e & PTE_V`). -/
def pteValid (e : Nat) : Prop := e &&& PTE_V ≠ 0

instance (e : Nat) : Decidable (pteValid e) := by unfold pteValid; infer_instance

/-- Address `x` lies in the 4096-byte frame that starts at `f`. -/
def inFrame (f x : Nat) : Prop := f ≤ x ∧ x < f + PGSIZE

instance (f x : Nat) : Decidable (inFrame f x) := by unfold inFrame; infer_instance

/-- The chain of `next` pointers that starts at `h` visits exactly the frames of the list,
in order, and ends with the null pointer. -/
def FreeList (m : Mem) : Nat → List Nat → Prop
  | h, [] => h = 0
  | h, f :: F => h = f ∧ f ≠ 0 ∧ FreeList m (read64 m f) F

/-- A frame that `kfree` accepts: page-aligned and inside `[end, PHYSTOP)`. -/
def goodFrame (L : MemLayout) (f : Nat) : Prop := f % PGSIZE = 0 ∧ L.kend ≤ f ∧ f < L.PHYSTOP

instance (L : MemLayout) (f : Nat) : Decidable (goodFrame L f) := by
  unfold goodFrame; infer_instance

/-- The free list of state `s` is the list `F` of distinct frames that `kfree` accepts. -/
def FreeOK (L : MemLayout) (s : KState) (F : List Nat) : Prop :=
  FreeList s.mem s.freelist F ∧ F.Nodup ∧ ∀ f ∈ F, goodFrame L f

/-- Entry `i` of the root page `T`. -/
def rootE (m : Mem) (T i : Nat) : Nat := read64 m (T + 8 * i)

/-- The level-1 page that root entry `i` references. -/
def l1page (m : Mem) (T i : Nat) : Nat := PTE2PA (rootE m T i)

/-- Entry `j` of the level-1 page under root entry `i`. -/
def l1E (m : Mem) (T i j : Nat) : Nat := read64 m (l1page m T i + 8 * j)

/-- The level-0 page that entry `j` of the level-1 page under root entry `i` references. -/
def l0page (m : Mem) (T i j : Nat) : Nat := PTE2PA (l1E m T i j)

/-- The level-0 entry with indices `i`, `j`, `k`; 0 when one of its tables is missing. -/
def ent (m : Mem) (T i j k : Nat) : Nat :=
  if pteValid (rootE m T i) ∧ pteValid (l1E m T i j) then read64 m (l0page m T i j + 8 * k)
  else 0

/-- Frame `p` is a page-table page of the tree rooted at `T`: the root, a level-1 page or a
level-0 page reached through valid entries. -/
def IsTablePage (m : Mem) (T p : Nat) : Prop :=
  p = T ∨ (∃ i, i < 512 ∧ pteValid (rootE m T i) ∧ p = l1page m T i) ∨
    (∃ i j, i < 512 ∧ j < 512 ∧ pteValid (rootE m T i) ∧ pteValid (l1E m T i j) ∧
      p = l0page m T i j)

/-- The place of a page-table page in its tree. -/
inductive Role where
  | root
  | l1 (i : Nat)
  | l0 (i j : Nat)
  deriving DecidableEq

/-- The tree rooted at `T` is a well-formed three-level page table that is separate from
the free frames `F`: every page-table page has one place in the tree (`lab` names it), so
no page is reached along two paths, none is the null frame and none is free; and the
valid entries of the root and of the level-1 pages are internal entries, with none of
R, W, X set. -/
def WFT (m : Mem) (T : Nat) (F : List Nat) : Prop :=
  T % PGSIZE = 0 ∧ T < 2 ^ 64 ∧ ∃ lab : Nat → Option Role,
    lab 0 = none ∧ lab T = some Role.root ∧ (∀ f ∈ F, lab f = none) ∧
    (∀ i, i < 512 → pteValid (rootE m T i) → lab (l1page m T i) = some (Role.l1 i)) ∧
    (∀ i j, i < 512 → j < 512 → pteValid (rootE m T i) → pteValid (l1E m T i j) →
      lab (l0page m T i j) = some (Role.l0 i j)) ∧
    (∀ i, i < 512 → pteValid (rootE m T i) →
      rootE m T i &&& (PTE_R ||| PTE_W ||| PTE_X) = 0) ∧
    (∀ i j, i < 512 → j < 512 → pteValid (rootE m T i) → pteValid (l1E m T i j) →
      l1E m T i j &&& (PTE_R ||| PTE_W ||| PTE_X) = 0)

/-- The valid level-0 entry that `walk` finds for `va`, if there is one. -/
def leafAt (L : MemLayout) (s : KState) (T va : Nat) : Option Nat :=
  match walk L s T va 0 with
  | .ok r => if r.1 ≠ 0 ∧ pteValid (read64 r.2.mem r.1) then some (read64 r.2.mem r.1) else none
  | _ => none

/-- State `s'` with free frames `F'` comes from state `s` with free frames `F` by work on
the table rooted at `T` that took the frames `P` from the free list: the frames of `P`
are exactly the new page-table pages, and memory changed only inside them and inside the
page-table pages that `T` already had. -/
structure TableStep (L : MemLayout) (T : Nat) (s : KState) (F : List Nat) (s' : KState)
    (F' P : List Nat) : Prop where
  split : F = P ++ F'
  free : FreeOK L s' F'
  wft : WFT s'.mem T F'
  pages : ∀ q, IsTablePage s'.mem T q ↔ IsTablePage s.mem T q ∨ q ∈ P
  foot : ∀ x, s'.mem x ≠ s.mem x → (∃ f, f ∈ P ∧ f ≤ x ∧ x < f + 4096) ∨
    (∃ q, IsTablePage s.mem T q ∧ q ≤ x ∧ x < q + 4096)

/-- Memory `m'` has, compared with `m`, the `t` pages from `a` on mapped to the frames
from `pa` on with flags `perm`, and every other level-0 entry as it was. -/
def Installed (m m' : Mem) (T a pa perm t : Nat) : Prop :=
  (∀ u, u < t → ent m' T (PX 2 (a + u * 4096)) (PX 1 (a + u * 4096)) (PX 0 (a + u * 4096)) =
      PA2PTE ((pa + u * 4096) % 2 ^ 64) ||| perm ||| PTE_V) ∧
  (∀ i j k, i < 512 → j < 512 → k < 512 →
    (∀ u, u < t → ¬ (i = PX 2 (a + u * 4096) ∧ j = PX 1 (a + u * 4096) ∧
      k = PX 0 (a + u * 4096))) → ent m' T i j k = ent m T i j k)

/-- The level-0 entry that `walk` finds for `va`; 0 when `va` has no level-0 table. -/
def pteAt (L : MemLayout) (s : KState) (T va : Nat) : Nat :=
  match walk L s T va 0 with
  | .ok r => if r.1 = 0 then 0 else read64 r.2.mem r.1
  | _ => 0

/-- Memory `m'` has, compared with `m`, the level-0 entries of the `t` pages from `a` on
set to `val 0`, `val 1`, ..., and every other level-0 entry as it was. -/
def EntUpd (m m' : Mem) (T a t : Nat) (val : Nat → Nat) : Prop :=
  (∀ u, u < t → ent m' T (PX 2 (a + u * 4096)) (PX 1 (a + u * 4096)) (PX 0 (a + u * 4096)) =
      val u) ∧
  (∀ i j k, i < 512 → j < 512 → k < 512 →
    (∀ u, u < t → ¬ (i = PX 2 (a + u * 4096) ∧ j = PX 1 (a + u * 4096) ∧
      k = PX 0 (a + u * 4096))) → ent m' T i j k = ent m T i j k)

/-- The frame that the level-0 entry of `va` references. -/
def frameOf (m : Mem) (T va : Nat) : Nat := PTE2PA (ent m T (PX 2 va) (PX 1 va) (PX 0 va))

/-- The frames that the level-0 entries of the `n` pages from `a` on reference. -/
def framesOf (m : Mem) (T : Nat) : Nat → Nat → List Nat
  | _, 0 => []
  | a, n + 1 => frameOf m T a :: framesOf m T (a + 4096) n

/-- Memories `m` and `m'` hold the same root page and the same level-1 pages of the table
rooted at `T`, so that the tree has the same shape in both. -/
def SameTable (m m' : Mem) (T : Nat) : Prop :=
  (∀ i, i < 512 → rootE m' T i = rootE m T i) ∧
  (∀ i j, i < 512 → j < 512 → pteValid (rootE m T i) → l1E m' T i j = l1E m T i j)

/-- The frames that the level-0 entries of the `n` pages from `a` on reference, as `walk`
finds them, lowest page first. -/
def leafFrames (L : MemLayout) (s : KState) (T : Nat) : Nat → Nat → List Nat
  | _, 0 => []
  | a, n + 1 => PTE2PA (pteAt L s T a) :: leafFrames L s T (a + PGSIZE) n

/-- Entry `e` is a leaf in the sense of the data model: Valid with one of R, W, X set. -/
def isLeaf (e : Nat) : Prop := pteValid e ∧ e &&& (PTE_R ||| PTE_W ||| PTE_X) ≠ 0

instance (e : Nat) : Decidable (isLeaf e) := by unfold isLeaf; infer_instance

/-- The result of mapping `n` fresh frames at the pages from `a` on: state `s'` with free
frames `F'` comes from `s` with free frames `F`; the data frames `D` (page order) and the
new page-table pages `Pt` were taken from the free list; page `u` of the range holds
`PA2PTE(D[u]) | fl u | PTE_V`; every other level-0 entry is as before, and memory changed
only inside the frames taken and inside the page-table pages that `T` already had. -/
structure GrowOK (L : MemLayout) (T : Nat) (s : KState) (F : List Nat) (a n : Nat)
    (fl : Nat → Nat) (s' : KState) (D Pt F' : List Nat) : Prop where
  len : D.length = n
  free : FreeOK L s' F'
  wft : WFT s'.mem T F'
  perm : F.Perm (D ++ Pt ++ F')
  pages : ∀ q, IsTablePage s'.mem T q ↔ IsTablePage s.mem T q ∨ q ∈ Pt
  upd : EntUpd s.mem s'.mem T a n (fun u => PA2PTE (D.getD u 0) ||| fl u ||| PTE_V)
  foot : ∀ x, s'.mem x ≠ s.mem x → (∃ f, f ∈ D ++ Pt ∧ f ≤ x ∧ x < f + 4096) ∨
    (∃ q, IsTablePage s.mem T q ∧ q ≤ x ∧ x < q + 4096)

/-- The result of a rolled-back grow: the `t0` pages from `lo` on, which were mapped
before, are cleared and their frames are free again together with every frame that was
free before, except the frames `Pt` that became page-table pages; every other level-0
entry is as before or was invalid and is now 0; memory changed only inside those frames and
inside the page-table pages that `T` already had. -/
structure GrowFail (L : MemLayout) (T : Nat) (s : KState) (F : List Nat) (lo t0 : Nat)
    (s' : KState) (Pt F' : List Nat) : Prop where
  free : FreeOK L s' F'
  wft : WFT s'.mem T F'
  perm : (framesOf s.mem T lo t0 ++ F).Perm (Pt ++ F')
  pages : ∀ q, IsTablePage s'.mem T q ↔ IsTablePage s.mem T q ∨ q ∈ Pt
  cleared : ∀ u, u < t0 →
    ent s'.mem T (PX 2 (lo + u * 4096)) (PX 1 (lo + u * 4096)) (PX 0 (lo + u * 4096)) = 0
  others : ∀ i j k, i < 512 → j < 512 → k < 512 →
    (∀ u, u < t0 → ¬ (i = PX 2 (lo + u * 4096) ∧ j = PX 1 (lo + u * 4096) ∧
      k = PX 0 (lo + u * 4096))) →
    ent s'.mem T i j k = ent s.mem T i j k ∨
      (¬ pteValid (ent s.mem T i j k) ∧ ent s'.mem T i j k = 0)
  foot : ∀ x, s'.mem x ≠ s.mem x →
    (∃ f, f ∈ framesOf s.mem T lo t0 ++ F ∧ f ≤ x ∧ x < f + 4096) ∨
    (∃ q, IsTablePage s.mem T q ∧ q ≤ x ∧ x < q + 4096)

/-- The source table `O` of a copy of the `n` pages from `a` on, in a state where the
destination table is `N` and the frames `F` are free: `O` is well formed, the pages are
mapped in it by leaf entries, and neither its page-table pages nor the frames of those
pages are free or page-table pages of `N`. -/
structure OldOK (s : KState) (O N : Nat) (F : List Nat) (a n : Nat) : Prop where
  wft : WFT s.mem O F
  mapped : ∀ u, u < n →
    pteValid (ent s.mem O (PX 2 (a + u * 4096)) (PX 1 (a + u * 4096)) (PX 0 (a + u * 4096))) ∧
    PTE_FLAGS (ent s.mem O (PX 2 (a + u * 4096)) (PX 1 (a + u * 4096))
      (PX 0 (a + u * 4096))) ≠ PTE_V
  sepT : ∀ q, IsTablePage s.mem O q → ¬ IsTablePage s.mem N q
  sepF : ∀ u, u < n → frameOf s.mem O (a + u * 4096) ∉ F ∧
    ¬ IsTablePage s.mem N (frameOf s.mem O (a + u * 4096))

/-- The number of page-table pages missing on the path of `va`: 2 when the root entry is
invalid, 1 when only the level-1 entry is, 0 when both tables exist. -/
def missingTables (m : Mem) (T va : Nat) : Nat :=
  if pteValid (rootE m T (PX 2 va)) then
    (if pteValid (l1E m T (PX 2 va) (PX 1 va)) then 0 else 1)
  else 2

/-- The frames that the entries `i`, `i+1`, ..., `i+n-1` of a page contribute, entry `e`
contributing the list `sub e`, in the order of a stack onto which the entries are pushed
in turn: the frames of the last entry come first. -/
def stackOf (sub : Nat → List Nat) : Nat → Nat → List Nat
  | _, 0 => []
  | i, n + 1 => stackOf sub (i + 1) n ++ sub i

/-- The level-0 pages under root entry `i`, highest index first. -/
def l0pagesOf (m : Mem) (T i : Nat) : List Nat :=
  stackOf (fun j => if pteValid (l1E m T i j) then [l0page m T i j] else []) 0 512

/-- The page-table pages of the subtree under root entry `i`: its level-1 page, then its
level-0 pages; empty when the root entry is invalid. -/
def subtreeOf (m : Mem) (T i : Nat) : List Nat :=
  if pteValid (rootE m T i) then l1page m T i :: l0pagesOf m T i else []

/-- The page-table pages below the root, subtree of the highest root index first. -/
def lowerPages (m : Mem) (T : Nat) : List Nat := stackOf (subtreeOf m T) 0 512

instance FreeList.dec (m : Mem) : (h : Nat) → (F : List Nat) → Decidable (FreeList m h F)
  | h, [] => inferInstanceAs (Decidable (h = 0))
  | h, f :: F =>
    have := FreeList.dec m (read64 m f) F
    inferInstanceAs (Decidable (h = f ∧ f ≠ 0 ∧ FreeList m (read64 m f) F))

instance (L : MemLayout) (s : KState) (F : List Nat) : Decidable (FreeOK L s F) := by
  unfold FreeOK; infer_instance

/-- The table rooted at `T` is dense for size `sz`: every page below `sz` has a valid
level-0 entry and no page at or above `sz` has one. -/
def Dense (L : MemLayout) (s : KState) (T sz : Nat) : Prop :=
  ∀ a, a % PGSIZE = 0 →
    (a < sz → ∃ e, leafAt L s T a = some e) ∧ (sz ≤ a → leafAt L s T a = none)

/-- A projection of the value of an outcome; `none` for a panic. -/
def Outcome.val {α β : Type} (f : α → β) : Outcome α → Option β
  | .ok v => some (f v)
  | _ => none

/-- The state in which a call ends; the state `s0` for a panic. -/
def Outcome.state {α : Type} (s0 : KState) : Outcome (α × KState) → KState
  | .ok v => v.2
  | _ => s0

/-- The state in which a call without a return value ends; the state `s0` for a panic. -/
def Outcome.stateOf (s0 : KState) : Outcome KState → KState
  | .ok v => v
  | _ => s0

/-- The panic in which a call ends, if it ends in one. -/
def Outcome.fatal {α : Type} : Outcome α → Option Fatal
  | .panic w => some w
  | _ => none

/-! ## A concrete machine for the examples -/

/-- A layout like that of xv6 on qemu: `MAXVA = 2^38`, RAM up to `0x88000000`. -/
def exL : MemLayout := ⟨2 ^ 38, 0x80020000, 0x88000000⟩

/-- The root page of the example table (all of its entries are zero). -/
def exT : Nat := 0x87ff0000

/-- Zero memory with a free list of the two frames `0x87fff000` and `0x87ffe000`. -/
def exS2 : KState := ⟨write64 (fun _ => 0) 0x87fff000 0x87ffe000, 0x87fff000⟩

/-- Zero memory with a free list of the three frames `0x87fff000`, `0x87ffe000` and
`0x87ffd000`. -/
def exS3 : KState :=
  ⟨write64 (write64 (fun _ => 0) 0x87fff000 0x87ffe000) 0x87ffe000 0x87ffd000, 0x87fff000⟩

/-- Zero memory with a free list of the six frames from `0x87fff000` down to
`0x87ffa000`. -/
def exS6 : KState :=
  ⟨write64 (write64 (write64 (write64 (write64 (fun _ => 0) 0x87fff000 0x87ffe000)
    0x87ffe000 0x87ffd000) 0x87ffd000 0x87ffc000) 0x87ffc000 0x87ffb000)
    0x87ffb000 0x87ffa000, 0x87fff000⟩

/-- The free frames of `exS6`. -/
def exF6 : List Nat := [0x87fff000, 0x87ffe000, 0x87ffd000, 0x87ffc000, 0x87ffb000, 0x87ffa000]

/-- The example state after `uvmalloc(exT, 0, 8192)` in `exS6`: two mapped pages. -/
def exG : KState := (uvmalloc exL exS6 exT 0 8192).state exS6

/-- The example state after `uvmalloc(exT, 0, 4096)` in `exS6`: one mapped page. -/
def exG1 : KState := (uvmalloc exL exS6 exT 0 4096).state exS6

/-- The root page of a second example table (all of its entries are zero). -/
def exN : Nat := 0x87fe0000

/-- The example state after `mappages(exT, 0, 4096, 0x80000000, PTE_U)` in `exS3`: page 0
has a valid level-0 entry with the flags `V|U`, none of R, W, X. -/
def exU : KState := (mappages exL exS3 exT 0 4096 0x80000000 PTE_U).state exS3

/-- The example state after `mappages(exT, 0, 4096, 0x80000000, 0)` in `exS3`: page 0 has
a valid level-0 entry with no flag but `V`. -/
def exV : KState := (mappages exL exS3 exT 0 4096 0x80000000 0).state exS3

/-- The example state after `uvmcreate()` in `exS6`; the new root is `0x87fff000`. -/
def exC1 : KState := (uvmcreate exS6).2

/-- The example state after `uvmcreate()` and `uvmalloc(T, 0, 8192)`. -/
def exC2 : KState := (uvmalloc exL exC1 0x87fff000 0 8192).state exC1

/-- The example state after `uvmcreate()`, `uvmalloc(T, 0, 8192)` and
`uvmdealloc(T, 8192, 0)`. -/
def exC3 : KState := (uvmdealloc exL exC2 0x87fff000 8192 0).state exC2

/-! ## Further functions of `kalloc.c`, `vm.c` and `exec.c` -/

/-- The kernel state in which `kfree(pa)` stops.  The check is the first statement of
`kfree`, so at its `panic` nothing has been stored yet and the state is the one of the
call; otherwise it is the state at the return. -/
def kfree_final (L : MemLayout) (s : KState) (pa : Nat) : KState :=
  if pa % PGSIZE ≠ 0 ∨ pa < L.kend ∨ pa ≥ L.PHYSTOP then s
  else { mem := write64 (memset s.mem pa 1 PGSIZE) pa s.freelist, freelist := pa }

/-- The code at label `err` of `kvmcopymappings`: the pages from `PGROUNDUP(start)` up to
page `i` are unmapped in `dst`, without freeing their frames. -/
def kvmcopymappings_err (L : MemLayout) (s : KState) (dst start i : Nat) :
    Outcome (Int × KState) :=
  (uvmunmap L s dst (PGROUNDUP start)
    ((i + 2 ^ 64 - PGROUNDUP start) % 2 ^ 64 / PGSIZE) 0).bind fun s1 => .ok (-1, s1)

/-- The `for` loop of `kvmcopymappings`; `bound` is `start + sz`. -/
def kvmcopymappings_loop (L : MemLayout) : Nat → KState → Nat → Nat → Nat → Nat → Nat →
    Outcome (Int × KState)
  | 0, _, _, _, _, _, _ => .diverge
  | fuel + 1, s, src, dst, start, i, bound =>
    if i < bound then
      (walk L s src i 0).bind fun r =>
        if r.1 = 0 then .panic .kvmcopymappingsPte
        else if read64 r.2.mem r.1 &&& PTE_V = 0 then .panic .kvmcopymappingsNotPresent
        else
          let pa := PTE2PA (read64 r.2.mem r.1)
          let flags := PTE_FLAGS (read64 r.2.mem r.1)
          (mappages L r.2 dst i PGSIZE pa (flags &&& (2 ^ 64 - 1 - PTE_U))).bind fun mp =>
            if mp.1 ≠ 0 then kvmcopymappings_err L mp.2 dst start i
            else kvmcopymappings_loop L fuel mp.2 src dst start ((i + PGSIZE) % 2 ^ 64) bound
    else .ok (0, s)

/-- `kvmcopymappings(src, dst, start, sz)`. -/
def kvmcopymappings (L : MemLayout) (s : KState) (src dst start sz : Nat) :
    Outcome (Int × KState) :=
  kvmcopymappings_loop L (L.MAXVA / PGSIZE + 2) s src dst start (PGROUNDUP start)
    ((start + sz) % 2 ^ 64)

/-- The entry that `kvmcopymappings` installs in `dst` for the source entry `e`:
`mappages` writes `PA2PTE(pa) | perm | PTE_V` with `pa = PTE2PA(e)` and
`perm = PTE_FLAGS(e) & ~PTE_U`. -/
def mirrorOf (e : Nat) : Nat :=
  PA2PTE (PTE2PA e) ||| (PTE_FLAGS e &&& (2 ^ 64 - 1 - PTE_U)) ||| PTE_V

/-- The `while` loop of `copyout`; `src` is the kernel address of the source bytes. -/
def copyout_loop (L : MemLayout) : Nat → KState → Nat → Nat → Nat → Nat →
    Outcome (Int × KState)
  | 0, _, _, _, _, _ => .diverge
  | fuel + 1, s, pagetable, dstva, src, len =>
    if len > 0 then
      let va0 := PGROUNDDOWN dstva
      (walkaddr L s pagetable va0).bind fun r =>
        if r.1 = 0 then .ok (-1, r.2)
        else
          let off := (dstva + 2 ^ 64 - va0) % 2 ^ 64
          let n0 := (PGSIZE + 2 ^ 64 - off) % 2 ^ 64
          let n := if n0 > len then len else n0
          let m2 := memmove r.2.mem ((r.1 + off) % 2 ^ 64) src n
          let s2 : KState := { r.2 with mem := m2 }
          copyout_loop L fuel s2 pagetable ((va0 + PGSIZE) % 2 ^ 64) ((src + n) % 2 ^ 64)
            (len - n)
    else .ok (0, s)

/-- `copyout(pagetable, dstva, src, len)`. -/
def copyout (L : MemLayout) (s : KState) (pagetable dstva src len : Nat) :
    Outcome (Int × KState) :=
  copyout_loop L (L.MAXVA / PGSIZE + 2) s pagetable dstva src len

/-- The physical address that `walkaddr(pagetable, va)` returns; 0 is its answer for an
address that does not translate. -/
def uaddr (L : MemLayout) (s : KState) (pagetable va : Nat) : Nat :=
  match walkaddr L s pagetable va with
  | .ok r => r.1
  | _ => 0

/-- Where one pass of the program-header loop of `exec` over a `LOAD` segment leaves the
loop before `loadseg` is called: at the label `bad`, with the value that the variable `sz`
has there, or at the call of `loadseg`, with the new value of `sz`. -/
inductive ExecStep where
  | bad (sz : Nat)
  | load (sz : Nat)
  deriving DecidableEq

/-- The value of the variable `sz` with which the pass over a segment leaves the loop. -/
def ExecStep.size : ExecStep → Nat
  | .bad sz => sz
  | .load sz => sz

/-- Exclusive frame ownership in a state with the live table roots `Ts` and the free
frames `F`.  The free list holds no frame twice (`free`); every table is a well-formed
tree none of whose pages is free (`wft`), and no page belongs to two tables (`sepT`);
every valid level-0 entry is a leaf whose frame is an allocator frame that is not free
and is no page-table page of a live table (`leaf`); and no frame is referenced by two
level-0 entries of the live tables (`inj`). -/
structure Exclusive (L : MemLayout) (s : KState) (Ts F : List Nat) : Prop where
  free : FreeOK L s F
  wft : ∀ T ∈ Ts, WFT s.mem T F
  sepT : ∀ T ∈ Ts, ∀ T' ∈ Ts, ∀ q, IsTablePage s.mem T q → IsTablePage s.mem T' q → T = T'
  leaf : ∀ T ∈ Ts, ∀ i j k, i < 512 → j < 512 → k < 512 → pteValid (ent s.mem T i j k) →
    isLeaf (ent s.mem T i j k) ∧ goodFrame L (PTE2PA (ent s.mem T i j k)) ∧
    PTE2PA (ent s.mem T i j k) ∉ F ∧
    ∀ T' ∈ Ts, ¬ IsTablePage s.mem T' (PTE2PA (ent s.mem T i j k))
  inj : ∀ T ∈ Ts, ∀ T' ∈ Ts, ∀ i j k i' j' k', i < 512 → j < 512 → k < 512 →
    i' < 512 → j' < 512 → k' < 512 →
    pteValid (ent s.mem T i j k) → pteValid (ent s.mem T' i' j' k') →
    PTE2PA (ent s.mem T i j k) = PTE2PA (ent s.mem T' i' j' k') →
    T = T' ∧ i = i' ∧ j = j' ∧ k = k'

/-! ## Further example states -/

/-- The example state `exS6` after one `kalloc()`: five free frames, from `0x87ffe000`
down to `0x87ffa000`. -/
def exS5 : KState := (kalloc exS6).2

/-- The example state after `mappages(exT, 0x1ff000, 0x2000, 0x80000000, PTE_R|PTE_U)` in
`exS5`: the pages `0x1ff000` and `0x200000`, which lie in different level-0 tables, are
mapped, and two frames are still free. -/
def exM : KState :=
  (mappages exL exS5 exT 0x1ff000 0x2000 0x80000000 (PTE_R ||| PTE_U)).state exS5

theorem and_mask_eq (x : Nat) (hx : x < 2 ^ 64) : x &&& (2 ^ 64 - 4096) = x / 4096 * 4096 := by
  apply Nat.eq_of_testBit_eq
  intro i
  have h1 : (2:Nat) ^ 64 - 4096 = (2 ^ 52 - 1) <<< 12 := by decide
  rw [h1, Nat.testBit_and, Nat.testBit_shiftLeft, Nat.testBit_two_pow_sub_one]
  rw [show x / 4096 * 4096 = (x >>> 12) <<< 12 by rw [Nat.shiftLeft_eq, Nat.shiftRight_eq_div_pow]]
  rw [Nat.testBit_shiftLeft, Nat.testBit_shiftRight]
  by_cases h : 12 ≤ i
  · simp [h]
    intro hb
    by_contra hc
    have : 64 ≤ i := by omega
    have := Nat.testBit_lt_two_pow (Nat.lt_of_lt_of_le hx (Nat.pow_le_pow_right (by decide) this))
    simp_all
  · simp [h]

theorem PGROUNDDOWN_eq (a : Nat) : PGROUNDDOWN a = a % 2 ^ 64 / 4096 * 4096 := by
  unfold PGROUNDDOWN PGSIZE
  exact and_mask_eq _ (Nat.mod_lt _ (by decide))

theorem PGROUNDUP_eq (a : Nat) : PGROUNDUP a = (a + 4095) % 2 ^ 64 / 4096 * 4096 := by
  unfold PGROUNDUP PGSIZE
  exact and_mask_eq _ (Nat.mod_lt _ (by decide))

theorem PX_eq (l va : Nat) : PX l va = va / 2 ^ (12 + 9 * l) % 512 := by
  unfold PX PXSHIFT PGSHIFT PXMASK
  rw [Nat.shiftRight_eq_div_pow, show (511 : Nat) = 2 ^ 9 - 1 by decide, Nat.and_pow_two_sub_one_eq_mod]

theorem PTE2PA_eq (e : Nat) : PTE2PA e = e / 1024 % 2 ^ 52 * 4096 := by
  unfold PTE2PA
  rw [Nat.shiftLeft_eq, Nat.shiftRight_eq_div_pow]
  omega

theorem PA2PTE_eq (pa : Nat) : PA2PTE pa = pa / 4096 % 2 ^ 54 * 1024 := by
  unfold PA2PTE
  rw [Nat.shiftLeft_eq, Nat.shiftRight_eq_div_pow]
  omega

theorem or_flags_eq (pa f : Nat) (hf : f < 1024) : PA2PTE pa ||| f = PA2PTE pa + f := by
  rw [PA2PTE_eq, Nat.mul_comm, show (1024:Nat) = 2 ^ 10 by decide]
  exact (Nat.mul_add_lt_is_or hf _).symm

theorem PTE_FLAGS_eq (e : Nat) : PTE_FLAGS e = e % 1024 := by
  unfold PTE_FLAGS
  rw [show (0x3FF : Nat) = 2 ^ 10 - 1 by decide, Nat.and_pow_two_sub_one_eq_mod]

/-! ## Memory lemmas -/

theorem read64_congr {m m' : Mem} {a : Nat} (h : ∀ x, a ≤ x → x < a + 8 → m' x = m x) :
    read64 m' a = read64 m a := by
  unfold read64
  rw [h a (by omega) (by omega), h (a + 1) (by omega) (by omega),
    h (a + 2) (by omega) (by omega), h (a + 3) (by omega) (by omega),
    h (a + 4) (by omega) (by omega), h (a + 5) (by omega) (by omega),
    h (a + 6) (by omega) (by omega), h (a + 7) (by omega) (by omega)]

theorem read64_lt (m : Mem) (a : Nat) : read64 m a < 2 ^ 64 := by
  unfold read64; omega

theorem write64_outside (m : Mem) (a v x : Nat) (h : x < a ∨ a + 8 ≤ x) :
    write64 m a v x = m x := by
  unfold write64
  rw [if_neg (by omega)]

theorem memset_outside (m : Mem) (p c n x : Nat) (h : x < p ∨ p + n ≤ x) :
    memset m p c n x = m x := by
  unfold memset
  rw [if_neg (by omega)]

theorem memset_inside (m : Mem) (p c n x : Nat) (h1 : p ≤ x) (h2 : x < p + n) :
    memset m p c n x = c % 256 := by
  unfold memset
  rw [if_pos ⟨h1, h2⟩]

theorem memmove_outside (m : Mem) (d s n x : Nat) (h : x < d ∨ d + n ≤ x) :
    memmove m d s n x = m x := by
  unfold memmove
  rw [if_neg (by omega)]

theorem memmove_inside (m : Mem) (d s n x : Nat) (h1 : d ≤ x) (h2 : x < d + n) :
    memmove m d s n x = m (s + (x - d)) := by
  unfold memmove
  rw [if_pos ⟨h1, h2⟩]

theorem read64_write64_same (m : Mem) (a v : Nat) : read64 (write64 m a v) a = v % 2 ^ 64 := by
  unfold read64 write64
  simp only [Nat.le_refl, Nat.le_add_right, true_and, Nat.lt_add_right_iff_pos, Nat.add_lt_add_iff_left,
    Nat.sub_self, Nat.add_sub_cancel_left]
  norm_num
  omega

theorem read64_write64_other (m : Mem) (a v b : Nat) (h : b + 8 ≤ a ∨ a + 8 ≤ b) :
    read64 (write64 m a v) b = read64 m b :=
  read64_congr fun x h1 h2 => write64_outside m a v x (by omega)

theorem read64_eq_zero {m : Mem} {a : Nat} (h : ∀ x, a ≤ x → x < a + 8 → m x = 0) :
    read64 m a = 0 := by
  unfold read64
  rw [h a (by omega) (by omega), h (a + 1) (by omega) (by omega),
    h (a + 2) (by omega) (by omega), h (a + 3) (by omega) (by omega),
    h (a + 4) (by omega) (by omega), h (a + 5) (by omega) (by omega),
    h (a + 6) (by omega) (by omega), h (a + 7) (by omega) (by omega)]

/-! ## The free list -/

theorem PTE2PA_aligned (e : Nat) : PTE2PA e % 4096 = 0 := by
  rw [PTE2PA_eq]; omega

theorem PTE2PA_lt (e : Nat) : PTE2PA e < 2 ^ 64 := by
  rw [PTE2PA_eq]; omega

theorem frames_disjoint {f g x : Nat} (hf : f % 4096 = 0) (hg : g % 4096 = 0) (hne : f ≠ g)
    (hx : f ≤ x ∧ x < f + 4096) : ¬ (g ≤ x ∧ x < g + 4096) := by
  omega

theorem FreeList_congr {m m' : Mem} : ∀ {F : List Nat} {h : Nat}, FreeList m h F →
    (∀ f ∈ F, ∀ x, f ≤ x → x < f + 8 → m' x = m x) → FreeList m' h F
  | [], _, hF, _ => hF
  | f :: F, h, hF, hag => by
    obtain ⟨h1, h2, h3⟩ := hF
    refine ⟨h1, h2, ?_⟩
    rw [read64_congr (hag f (List.mem_cons_self _ _))]
    exact FreeList_congr h3 fun g hg => hag g (List.mem_cons_of_mem _ hg)

theorem FreeList_head_lt {L : MemLayout} (hL : L.Sane) {s : KState} {F : List Nat}
    (h : FreeOK L s F) : s.freelist < 2 ^ 64 := by
  obtain ⟨h1, _, h3⟩ := h
  cases F with
  | nil => simp [FreeList] at h1; omega
  | cons f F =>
    obtain ⟨h1, _, _⟩ := h1
    have := h3 f (List.mem_cons_self _ _)
    unfold goodFrame at this
    have := hL.phystop_le
    omega

theorem goodFrame_ne_zero {L : MemLayout} (hL : L.Sane) {f : Nat} (h : goodFrame L f) : f ≠ 0 := by
  have := hL.kend_pos; unfold goodFrame at h; omega

theorem goodFrame_lt {L : MemLayout} (hL : L.Sane) {f : Nat} (h : goodFrame L f) :
    f < 2 ^ 64 := by
  have := hL.phystop_le; unfold goodFrame at h; omega

theorem goodFrame_al {L : MemLayout} {f : Nat} (h : goodFrame L f) : f % 4096 = 0 := h.1

theorem FreeOK_congr {L : MemLayout} {s s' : KState} {F : List Nat} (h : FreeOK L s F)
    (hh : s'.freelist = s.freelist)
    (hag : ∀ f ∈ F, ∀ x, f ≤ x → x < f + 4096 → s'.mem x = s.mem x) : FreeOK L s' F := by
  obtain ⟨h1, h2, h3⟩ := h
  refine ⟨?_, h2, h3⟩
  rw [hh]
  exact FreeList_congr h1 fun f hf x hx1 hx2 => hag f hf x hx1 (by omega)

theorem kalloc_nil {L : MemLayout} {s : KState} (h : FreeOK L s []) : kalloc s = (0, s) := by
  have : s.freelist = 0 := h.1
  simp [kalloc, this]

theorem kalloc_cons {L : MemLayout} {s : KState} {f : Nat} {F : List Nat}
    (h : FreeOK L s (f :: F)) :
    kalloc s = (f, { mem := memset s.mem f 5 PGSIZE, freelist := read64 s.mem f }) ∧
      f ≠ 0 ∧ FreeOK L { mem := memset s.mem f 5 PGSIZE, freelist := read64 s.mem f } F := by
  obtain ⟨⟨h1, h2, h3⟩, hnd, hg⟩ := h
  have hnd' := List.nodup_cons.mp hnd
  refine ⟨?_, h2, ?_, hnd'.2, fun g hg' => hg g (List.mem_cons_of_mem _ hg')⟩
  · simp [kalloc, h1, h2]
  · refine FreeList_congr h3 fun g hg' x hx1 hx2 => ?_
    have hgf : g ≠ f := fun e => hnd'.1 (e ▸ hg')
    have a1 := (hg g (List.mem_cons_of_mem _ hg')).1
    have a2 := (hg f (List.mem_cons_self _ _)).1
    unfold PGSIZE at a1 a2 ⊢
    exact memset_outside _ _ _ _ _ (by omega)

theorem kfree_ok {L : MemLayout} (hL : L.Sane) {s : KState} {F : List Nat} {pa : Nat}
    (h : FreeOK L s F) (hg : goodFrame L pa) (hn : pa ∉ F) :
    kfree L s pa = .ok { mem := write64 (memset s.mem pa 1 PGSIZE) pa s.freelist, freelist := pa } ∧
      FreeOK L { mem := write64 (memset s.mem pa 1 PGSIZE) pa s.freelist, freelist := pa }
        (pa :: F) := by
  have hlt := FreeList_head_lt hL h
  obtain ⟨h1, h2, h3⟩ := h
  have hg' := hg
  unfold goodFrame at hg'
  refine ⟨?_, ⟨rfl, goodFrame_ne_zero hL hg, ?_⟩, List.nodup_cons.mpr ⟨hn, h2⟩, ?_⟩
  · unfold kfree
    rw [if_neg (by omega)]
  · show FreeList _ (read64 (write64 _ pa s.freelist) pa) F
    rw [read64_write64_same, Nat.mod_eq_of_lt hlt]
    refine FreeList_congr h1 fun g hg2 x hx1 hx2 => ?_
    have hgf : g ≠ pa := fun e => hn (e ▸ hg2)
    have a1 := (h3 g hg2).1
    unfold PGSIZE at a1 hg' ⊢
    show write64 (memset s.mem pa 1 4096) pa s.freelist x = s.mem x
    rw [write64_outside _ _ _ _ (by omega), memset_outside _ _ _ _ _ (by omega)]
  · intro g hg2
    rcases List.mem_cons.mp hg2 with e | e
    · exact e ▸ hg
    · exact h3 g e

/-! ## Page-table structure lemmas -/

theorem pteValid_iff (e : Nat) : pteValid e ↔ e % 2 = 1 := by
  unfold pteValid PTE_V
  rw [Nat.and_one_is_mod]; omega

theorem not_pteValid_zero : ¬ pteValid 0 := by
  rw [pteValid_iff]; omega

theorem pteValid_link (f : Nat) : pteValid (PA2PTE f ||| PTE_V) := by
  rw [pteValid_iff, or_flags_eq _ _ (by decide), PA2PTE_eq]; unfold PTE_V; omega

theorem link_plain (f : Nat) : (PA2PTE f ||| PTE_V) &&& (PTE_R ||| PTE_W ||| PTE_X) = 0 := by
  have e : (PA2PTE f ||| PTE_V) &&& 15 = 1 := by
    rw [or_flags_eq _ _ (by decide), PA2PTE_eq, show (15 : Nat) = 2 ^ 4 - 1 by decide,
      Nat.and_pow_two_sub_one_eq_mod]
    unfold PTE_V; omega
  have h : (PA2PTE f ||| PTE_V) &&& (PTE_R ||| PTE_W ||| PTE_X) =
      ((PA2PTE f ||| PTE_V) &&& 15) &&& 14 := by
    rw [Nat.and_assoc]; rfl
  rw [h, e]; rfl

theorem PTE2PA_link {f : Nat} (hal : f % 4096 = 0) (hlt : f < 2 ^ 64) :
    PTE2PA (PA2PTE f ||| PTE_V) = f := by
  rw [or_flags_eq _ _ (by decide), PTE2PA_eq, PA2PTE_eq]; unfold PTE_V; omega

theorem read_other_page {m m' : Mem} {p n f t s : Nat} (hn : n < 512) (hp : p % 4096 = 0)
    (hf : f % 4096 = 0) (ht : t % 4096 = 0) (hs : s < 512)
    (hout : ∀ x, ¬ (f ≤ x ∧ x < f + 4096) → ¬ (t + 8 * s ≤ x ∧ x < t + 8 * s + 8) →
      m' x = m x)
    (hpf : p ≠ f) (hpt : p ≠ t ∨ n ≠ s) : read64 m' (p + 8 * n) = read64 m (p + 8 * n) :=
  read64_congr fun x h1 h2 => hout x (by omega) (by omega)

theorem read_other_slot {m m' : Mem} {p n t s : Nat} (hn : n < 512) (hp : p % 4096 = 0)
    (ht : t % 4096 = 0) (hs : s < 512)
    (hout : ∀ x, ¬ (t + 8 * s ≤ x ∧ x < t + 8 * s + 8) → m' x = m x)
    (hpt : p ≠ t ∨ n ≠ s) : read64 m' (p + 8 * n) = read64 m (p + 8 * n) :=
  read64_congr fun x h1 h2 => hout x (by omega)

theorem read_zero_page {m' : Mem} {f n : Nat} (hn : n < 512)
    (hzero : ∀ x, f ≤ x → x < f + 4096 → m' x = 0) : read64 m' (f + 8 * n) = 0 :=
  read64_eq_zero fun x h1 h2 => hzero x (by omega) (by omega)

theorem ent_of_valid {m : Mem} {T i j k : Nat} (h1 : pteValid (rootE m T i))
    (h2 : pteValid (l1E m T i j)) : ent m T i j k = read64 m (l0page m T i j + 8 * k) := by
  unfold ent; rw [if_pos ⟨h1, h2⟩]

theorem ent_of_root_invalid {m : Mem} {T i j k : Nat} (h1 : ¬ pteValid (rootE m T i)) :
    ent m T i j k = 0 := by
  unfold ent; rw [if_neg (fun h => h1 h.1)]

theorem ent_of_l1_invalid {m : Mem} {T i j k : Nat} (h1 : ¬ pteValid (l1E m T i j)) :
    ent m T i j k = 0 := by
  unfold ent; rw [if_neg (fun h => h1 h.2)]

theorem l1E_congr {m m' : Mem} {T i j : Nat} (h1 : rootE m' T i = rootE m T i)
    (h2 : read64 m' (l1page m T i + 8 * j) = read64 m (l1page m T i + 8 * j)) :
    l1E m' T i j = l1E m T i j := by
  unfold l1E l1page; rw [h1]; exact h2

/-- Facts about the pages of a well-formed table. -/
theorem WFT_page {m : Mem} {T : Nat} {F : List Nat} (hw : WFT m T F) {p : Nat}
    (hp : IsTablePage m T p) : p % 4096 = 0 ∧ p < 2 ^ 64 ∧ p ≠ 0 ∧ p ∉ F := by
  obtain ⟨hTal, hTlt, lab, h0, hroot, hF, h1, h2, _, _⟩ := hw
  have key : ∀ r, lab p = some r → p ≠ 0 ∧ p ∉ F := by
    intro r hr
    refine ⟨fun e => ?_, fun hm => ?_⟩
    · rw [e, h0] at hr; cases hr
    · rw [hF p hm] at hr; cases hr
  rcases hp with e | ⟨i, hi, hv, e⟩ | ⟨i, j, hi, hj, hv, hv2, e⟩
  · subst e; exact ⟨hTal, hTlt, key _ hroot⟩
  · subst e; exact ⟨PTE2PA_aligned _, PTE2PA_lt _, key _ (h1 i hi hv)⟩
  · subst e; exact ⟨PTE2PA_aligned _, PTE2PA_lt _, key _ (h2 i j hi hj hv hv2)⟩

theorem struct_congr {m m' : Mem} {T : Nat}
    (h1 : ∀ i, i < 512 → rootE m' T i = rootE m T i)
    (h2 : ∀ i j, i < 512 → j < 512 → pteValid (rootE m T i) → l1E m' T i j = l1E m T i j) :
    (∀ p, IsTablePage m' T p ↔ IsTablePage m T p) ∧ (∀ F, WFT m T F → WFT m' T F) := by
  have e1 : ∀ i, i < 512 → l1page m' T i = l1page m T i := fun i hi => by
    unfold l1page; rw [h1 i hi]
  have e0 : ∀ i j, i < 512 → j < 512 → pteValid (rootE m T i) →
      l0page m' T i j = l0page m T i j := fun i j hi hj hv => by
    unfold l0page; rw [h2 i j hi hj hv]
  refine ⟨fun p => ⟨?_, ?_⟩, ?_⟩
  · rintro (e | ⟨i, hi, hv, e⟩ | ⟨i, j, hi, hj, hv, hv2, e⟩)
    · exact Or.inl e
    · rw [h1 i hi] at hv; rw [e1 i hi] at e
      exact Or.inr (Or.inl ⟨i, hi, hv, e⟩)
    · rw [h1 i hi] at hv; rw [h2 i j hi hj hv] at hv2; rw [e0 i j hi hj hv] at e
      exact Or.inr (Or.inr ⟨i, j, hi, hj, hv, hv2, e⟩)
  · rintro (e | ⟨i, hi, hv, e⟩ | ⟨i, j, hi, hj, hv, hv2, e⟩)
    · exact Or.inl e
    · rw [← h1 i hi] at hv; rw [← e1 i hi] at e
      exact Or.inr (Or.inl ⟨i, hi, hv, e⟩)
    · rw [← h2 i j hi hj hv] at hv2; rw [← e0 i j hi hj hv] at e; rw [← h1 i hi] at hv
      exact Or.inr (Or.inr ⟨i, j, hi, hj, hv, hv2, e⟩)
  · rintro F ⟨hTal, hTlt, lab, h0, hroot, hF, g1, g2, p1, p2⟩
    refine ⟨hTal, hTlt, lab, h0, hroot, hF, fun i hi hv => ?_, fun i j hi hj hv hv2 => ?_,
      fun i hi hv => ?_, fun i j hi hj hv hv2 => ?_⟩
    · rw [h1 i hi] at hv; rw [e1 i hi]; exact g1 i hi hv
    · rw [h1 i hi] at hv; rw [h2 i j hi hj hv] at hv2; rw [e0 i j hi hj hv]
      exact g2 i j hi hj hv hv2
    · rw [h1 i hi] at hv ⊢; exact p1 i hi hv
    · rw [h1 i hi] at hv; rw [h2 i j hi hj hv] at hv2 ⊢
      exact p2 i j hi hj hv hv2

theorem WFT_mono {m : Mem} {T : Nat} {F F' : List Nat} (hw : WFT m T F)
    (h : ∀ g ∈ F', g ∈ F) : WFT m T F' := by
  obtain ⟨hTal, hTlt, lab, h0, hroot, hF, g1, g2, p1, p2⟩ := hw
  exact ⟨hTal, hTlt, lab, h0, hroot, fun g hg => hF g (h g hg), g1, g2, p1, p2⟩

/-- Memory that agrees on every page-table page describes the same table. -/
theorem agree_tables {m m' : Mem} {T : Nat}
    (h : ∀ p, IsTablePage m T p → ∀ x, p ≤ x → x < p + 4096 → m' x = m x) :
    (∀ i, i < 512 → rootE m' T i = rootE m T i) ∧
    (∀ i j, i < 512 → j < 512 → pteValid (rootE m T i) → l1E m' T i j = l1E m T i j) ∧
    (∀ i j k, i < 512 → j < 512 → k < 512 → ent m' T i j k = ent m T i j k) := by
  have r1 : ∀ i, i < 512 → rootE m' T i = rootE m T i := fun i hi =>
    read64_congr fun x hx1 hx2 => h T (Or.inl rfl) x (by omega) (by omega)
  have r2 : ∀ i j, i < 512 → j < 512 → pteValid (rootE m T i) →
      l1E m' T i j = l1E m T i j := fun i j hi hj hv =>
    l1E_congr (r1 i hi) (read64_congr fun x hx1 hx2 =>
      h _ (Or.inr (Or.inl ⟨i, hi, hv, rfl⟩)) x (by omega) (by omega))
  refine ⟨r1, r2, fun i j k hi hj hk => ?_⟩
  by_cases hv : pteValid (rootE m T i)
  · by_cases hv2 : pteValid (l1E m T i j)
    · rw [ent_of_valid hv hv2, ent_of_valid (by rw [r1 i hi]; exact hv)
        (by rw [r2 i j hi hj hv]; exact hv2)]
      have e0 : l0page m' T i j = l0page m T i j := by unfold l0page; rw [r2 i j hi hj hv]
      rw [e0]
      exact read64_congr fun x hx1 hx2 =>
        h _ (Or.inr (Or.inr ⟨i, j, hi, hj, hv, hv2, rfl⟩)) x (by omega) (by omega)
    · rw [ent_of_l1_invalid hv2, ent_of_l1_invalid (by rw [r2 i j hi hj hv]; exact hv2)]
  · rw [ent_of_root_invalid hv, ent_of_root_invalid (by rw [r1 i hi]; exact hv)]

theorem agree_tables_WFT {m m' : Mem} {T : Nat} {F : List Nat} (hw : WFT m T F)
    (h : ∀ p, IsTablePage m T p → ∀ x, p ≤ x → x < p + 4096 → m' x = m x) :
    WFT m' T F ∧ (∀ p, IsTablePage m' T p ↔ IsTablePage m T p) := by
  obtain ⟨r1, r2, _⟩ := agree_tables h
  exact ⟨(struct_congr r1 r2).2 F hw, (struct_congr r1 r2).1⟩

/-- Linking a fresh zeroed frame `f` at the invalid root entry `i`. -/
theorem link_l1 {m m' : Mem} {T f i : Nat} {F F' : List Nat} (hw : WFT m T F) (hf : f ∈ F)
    (hfal : f % 4096 = 0) (hf0 : f ≠ 0) (hflt : f < 2 ^ 64) (hi : i < 512)
    (hinv : ¬ pteValid (rootE m T i))
    (hout : ∀ x, ¬ (f ≤ x ∧ x < f + 4096) → ¬ (T + 8 * i ≤ x ∧ x < T + 8 * i + 8) →
      m' x = m x)
    (hzero : ∀ x, f ≤ x → x < f + 4096 → m' x = 0)
    (hslot : read64 m' (T + 8 * i) = PA2PTE f ||| PTE_V)
    (hF' : ∀ g ∈ F', g ∈ F ∧ g ≠ f) :
    WFT m' T F' ∧ (∀ p, IsTablePage m' T p ↔ IsTablePage m T p ∨ p = f) ∧
      (∀ a b c, a < 512 → b < 512 → c < 512 → ent m' T a b c = ent m T a b c) ∧
      pteValid (rootE m' T i) ∧ l1page m' T i = f ∧
      (∀ j, j < 512 → ¬ pteValid (l1E m' T i j)) := by
  have hw0 := hw
  obtain ⟨hTal, hTlt, lab, h0, hroot, hF, g1, g2, p1, p2⟩ := hw
  unfold PGSIZE at hTal
  have hTf : T ≠ f := fun e => by rw [e, hF f hf] at hroot; cases hroot
  have hne : ∀ {p q : Nat} {r : Role}, lab p = some r → lab q ≠ some r → p ≠ q :=
    fun h1 h2 e => h2 (e ▸ h1)
  have rA : rootE m' T i = PA2PTE f ||| PTE_V := hslot
  have vA : pteValid (rootE m' T i) := by rw [rA]; exact pteValid_link f
  have pA : l1page m' T i = f := by unfold l1page; rw [rA]; exact PTE2PA_link hfal hflt
  have rB : ∀ a, a < 512 → a ≠ i → rootE m' T a = rootE m T a := fun a ha hne =>
    read_other_page ha hTal hfal hTal hi hout hTf (Or.inr hne)
  have pB : ∀ a, a < 512 → a ≠ i → l1page m' T a = l1page m T a := fun a ha hne => by
    unfold l1page; rw [rB a ha hne]
  have rC : ∀ j, j < 512 → l1E m' T i j = 0 := fun j hj => by
    unfold l1E; rw [pA]; exact read_zero_page hj hzero
  have l1ne : ∀ a, a < 512 → pteValid (rootE m T a) → l1page m T a ≠ f ∧ l1page m T a ≠ T :=
    fun a ha hv => by
      have := g1 a ha hv
      exact ⟨hne this (by rw [hF f hf]; simp), hne this (by rw [hroot]; simp)⟩
  have rD : ∀ a b, a < 512 → b < 512 → a ≠ i → pteValid (rootE m T a) →
      l1E m' T a b = l1E m T a b := fun a b ha hb hne hv =>
    l1E_congr (rB a ha hne) (read_other_page hb (PTE2PA_aligned _) hfal hTal hi hout
      (l1ne a ha hv).1 (Or.inl (l1ne a ha hv).2))
  have l0ne : ∀ a b, a < 512 → b < 512 → pteValid (rootE m T a) → pteValid (l1E m T a b) →
      l0page m T a b ≠ f ∧ l0page m T a b ≠ T := fun a b ha hb hv hv2 => by
    have := g2 a b ha hb hv hv2
    exact ⟨hne this (by rw [hF f hf]; simp), hne this (by rw [hroot]; simp)⟩
  have pD : ∀ a b, a < 512 → b < 512 → a ≠ i → pteValid (rootE m T a) →
      l0page m' T a b = l0page m T a b := fun a b ha hb hne hv => by
    unfold l0page; rw [rD a b ha hb hne hv]
  refine ⟨?_, ?_, ?_, vA, pA, fun j hj => by rw [rC j hj]; exact not_pteValid_zero⟩
  · refine ⟨hTal, hTlt, fun x => if x = f then some (Role.l1 i) else lab x, ?_, ?_, ?_, ?_, ?_,
      ?_, ?_⟩
    · show (if 0 = f then _ else _) = _
      rw [if_neg (Ne.symm hf0)]; exact h0
    · show (if T = f then _ else _) = _
      rw [if_neg hTf]; exact hroot
    · intro g hg
      show (if g = f then _ else _) = _
      rw [if_neg (hF' g hg).2]; exact hF g (hF' g hg).1
    · intro a ha hv
      show (if l1page m' T a = f then _ else _) = _
      by_cases hai : a = i
      · subst hai; rw [if_pos pA]
      · rw [rB a ha hai] at hv
        rw [pB a ha hai, if_neg (l1ne a ha hv).1]; exact g1 a ha hv
    · intro a b ha hb hv hv2
      show (if l0page m' T a b = f then _ else _) = _
      by_cases hai : a = i
      · subst hai; rw [rC b hb] at hv2; exact absurd hv2 not_pteValid_zero
      · rw [rB a ha hai] at hv
        rw [rD a b ha hb hai hv] at hv2
        rw [pD a b ha hb hai hv, if_neg (l0ne a b ha hb hv hv2).1]; exact g2 a b ha hb hv hv2
    · intro a ha hv
      by_cases hai : a = i
      · subst hai; rw [rA]; exact link_plain f
      · rw [rB a ha hai] at hv ⊢; exact p1 a ha hv
    · intro a b ha hb hv hv2
      by_cases hai : a = i
      · subst hai; rw [rC b hb] at hv2; exact absurd hv2 not_pteValid_zero
      · rw [rB a ha hai] at hv
        rw [rD a b ha hb hai hv] at hv2 ⊢
        exact p2 a b ha hb hv hv2
  · intro p
    constructor
    · rintro (e | ⟨a, ha, hv, e⟩ | ⟨a, b, ha, hb, hv, hv2, e⟩)
      · exact Or.inl (Or.inl e)
      · by_cases hai : a = i
        · subst hai; rw [pA] at e; exact Or.inr e
        · rw [rB a ha hai] at hv; rw [pB a ha hai] at e
          exact Or.inl (Or.inr (Or.inl ⟨a, ha, hv, e⟩))
      · by_cases hai : a = i
        · subst hai; rw [rC b hb] at hv2; exact absurd hv2 not_pteValid_zero
        · rw [rB a ha hai] at hv
          rw [rD a b ha hb hai hv] at hv2; rw [pD a b ha hb hai hv] at e
          exact Or.inl (Or.inr (Or.inr ⟨a, b, ha, hb, hv, hv2, e⟩))
    · rintro ((e | ⟨a, ha, hv, e⟩ | ⟨a, b, ha, hb, hv, hv2, e⟩) | e)
      · exact Or.inl e
      · have hai : a ≠ i := fun e => hinv (e ▸ hv)
        refine Or.inr (Or.inl ⟨a, ha, ?_, ?_⟩)
        · rw [rB a ha hai]; exact hv
        · rw [pB a ha hai]; exact e
      · have hai : a ≠ i := fun e => hinv (e ▸ hv)
        refine Or.inr (Or.inr ⟨a, b, ha, hb, ?_, ?_, ?_⟩)
        · rw [rB a ha hai]; exact hv
        · rw [rD a b ha hb hai hv]; exact hv2
        · rw [pD a b ha hb hai hv]; exact e
      · exact Or.inr (Or.inl ⟨i, hi, vA, by rw [pA]; exact e⟩)
  · intro a b c ha hb hc
    by_cases hai : a = i
    · subst hai
      rw [ent_of_root_invalid hinv, ent_of_l1_invalid (by rw [rC b hb]; exact not_pteValid_zero)]
    · by_cases hv : pteValid (rootE m T a)
      · by_cases hv2 : pteValid (l1E m T a b)
        · rw [ent_of_valid hv hv2, ent_of_valid (by rw [rB a ha hai]; exact hv)
            (by rw [rD a b ha hb hai hv]; exact hv2), pD a b ha hb hai hv]
          exact read_other_page hc (PTE2PA_aligned _) hfal hTal hi hout
            (l0ne a b ha hb hv hv2).1 (Or.inl (l0ne a b ha hb hv hv2).2)
        · rw [ent_of_l1_invalid hv2,
            ent_of_l1_invalid (by rw [rD a b ha hb hai hv]; exact hv2)]
      · rw [ent_of_root_invalid hv, ent_of_root_invalid (by rw [rB a ha hai]; exact hv)]

/-- Linking a fresh zeroed frame `f` at the invalid entry `j` of an existing level-1 page. -/
theorem link_l0 {m m' : Mem} {T f i j : Nat} {F F' : List Nat} (hw : WFT m T F) (hf : f ∈ F)
    (hfal : f % 4096 = 0) (hf0 : f ≠ 0) (hflt : f < 2 ^ 64) (hi : i < 512) (hj : j < 512)
    (hv : pteValid (rootE m T i)) (hinv : ¬ pteValid (l1E m T i j))
    (hout : ∀ x, ¬ (f ≤ x ∧ x < f + 4096) →
      ¬ (l1page m T i + 8 * j ≤ x ∧ x < l1page m T i + 8 * j + 8) → m' x = m x)
    (hzero : ∀ x, f ≤ x → x < f + 4096 → m' x = 0)
    (hslot : read64 m' (l1page m T i + 8 * j) = PA2PTE f ||| PTE_V)
    (hF' : ∀ g ∈ F', g ∈ F ∧ g ≠ f) :
    WFT m' T F' ∧ (∀ p, IsTablePage m' T p ↔ IsTablePage m T p ∨ p = f) ∧
      (∀ a b c, a < 512 → b < 512 → c < 512 → ent m' T a b c = ent m T a b c) ∧
      pteValid (rootE m' T i) ∧ pteValid (l1E m' T i j) ∧ l0page m' T i j = f := by
  obtain ⟨hTal, hTlt, lab, h0, hroot, hF, g1, g2, p1, p2⟩ := hw
  unfold PGSIZE at hTal
  have hne : ∀ {p q : Nat} {r : Role}, lab p = some r → lab q ≠ some r → p ≠ q :=
    fun h1 h2 e => h2 (e ▸ h1)
  have hP1 := g1 i hi hv
  have hP1al : l1page m T i % 4096 = 0 := PTE2PA_aligned _
  have rR : ∀ a, a < 512 → rootE m' T a = rootE m T a := fun a ha =>
    read_other_page ha hTal hfal hP1al hj hout (hne hroot (by rw [hF f hf]; simp))
      (Or.inl (hne hroot (by rw [hP1]; simp)))
  have pR : ∀ a, a < 512 → l1page m' T a = l1page m T a := fun a ha => by
    unfold l1page; rw [rR a ha]
  have rA : l1E m' T i j = PA2PTE f ||| PTE_V := by
    unfold l1E; rw [pR i hi]; exact hslot
  have vA : pteValid (l1E m' T i j) := by rw [rA]; exact pteValid_link f
  have pA : l0page m' T i j = f := by unfold l0page; rw [rA]; exact PTE2PA_link hfal hflt
  have rB : ∀ a b, a < 512 → b < 512 → (a ≠ i ∨ b ≠ j) → pteValid (rootE m T a) →
      l1E m' T a b = l1E m T a b := fun a b ha hb hab hva => by
    refine l1E_congr (rR a ha) (read_other_page hb (PTE2PA_aligned _) hfal hP1al hj hout
      (hne (g1 a ha hva) (by rw [hF f hf]; simp)) ?_)
    by_cases hai : a = i
    · have hbj : b ≠ j := by omega
      exact Or.inr hbj
    · refine Or.inl (hne (g1 a ha hva) ?_)
      rw [hP1]; intro e
      simp only [Option.some.injEq, Role.l1.injEq] at e
      exact hai e.symm
  have pB : ∀ a b, a < 512 → b < 512 → (a ≠ i ∨ b ≠ j) → pteValid (rootE m T a) →
      l0page m' T a b = l0page m T a b := fun a b ha hb hab hva => by
    unfold l0page; rw [rB a b ha hb hab hva]
  have habne : ∀ a b, pteValid (l1E m T a b) → a ≠ i ∨ b ≠ j := fun a b h => by
    by_contra hc
    have : a = i ∧ b = j := by omega
    rw [this.1, this.2] at h; exact hinv h
  have l0ne : ∀ a b, a < 512 → b < 512 → pteValid (rootE m T a) → pteValid (l1E m T a b) →
      l0page m T a b ≠ f ∧ l0page m T a b ≠ l1page m T i := fun a b ha hb hva hv2 => by
    have := g2 a b ha hb hva hv2
    exact ⟨hne this (by rw [hF f hf]; simp), hne this (by rw [hP1]; simp)⟩
  have hvr : pteValid (rootE m' T i) := by rw [rR i hi]; exact hv
  refine ⟨?_, ?_, ?_, hvr, vA, pA⟩
  · refine ⟨hTal, hTlt, fun x => if x = f then some (Role.l0 i j) else lab x, ?_, ?_, ?_, ?_, ?_,
      ?_, ?_⟩
    · show (if 0 = f then _ else _) = _
      rw [if_neg (Ne.symm hf0)]; exact h0
    · show (if T = f then _ else _) = _
      rw [if_neg (hne hroot (by rw [hF f hf]; simp))]; exact hroot
    · intro g hg
      show (if g = f then _ else _) = _
      rw [if_neg (hF' g hg).2]; exact hF g (hF' g hg).1
    · intro a ha hva
      show (if l1page m' T a = f then _ else _) = _
      rw [rR a ha] at hva
      rw [pR a ha, if_neg (hne (g1 a ha hva) (by rw [hF f hf]; simp))]; exact g1 a ha hva
    · intro a b ha hb hva hv2
      show (if l0page m' T a b = f then _ else _) = _
      rw [rR a ha] at hva
      by_cases hab : a = i ∧ b = j
      · rw [hab.1, hab.2, if_pos pA]
      · have hab' : a ≠ i ∨ b ≠ j := by omega
        rw [rB a b ha hb hab' hva] at hv2
        rw [pB a b ha hb hab' hva, if_neg (l0ne a b ha hb hva hv2).1]
        exact g2 a b ha hb hva hv2
    · intro a ha hva
      rw [rR a ha] at hva ⊢; exact p1 a ha hva
    · intro a b ha hb hva hv2
      rw [rR a ha] at hva
      by_cases hab : a = i ∧ b = j
      · rw [hab.1, hab.2, rA]; exact link_plain f
      · have hab' : a ≠ i ∨ b ≠ j := by omega
        rw [rB a b ha hb hab' hva] at hv2 ⊢
        exact p2 a b ha hb hva hv2
  · intro p
    constructor
    · rintro (e | ⟨a, ha, hva, e⟩ | ⟨a, b, ha, hb, hva, hv2, e⟩)
      · exact Or.inl (Or.inl e)
      · rw [rR a ha] at hva; rw [pR a ha] at e
        exact Or.inl (Or.inr (Or.inl ⟨a, ha, hva, e⟩))
      · rw [rR a ha] at hva
        by_cases hab : a = i ∧ b = j
        · rw [hab.1, hab.2, pA] at e; exact Or.inr e
        · have hab' : a ≠ i ∨ b ≠ j := by omega
          rw [rB a b ha hb hab' hva] at hv2; rw [pB a b ha hb hab' hva] at e
          exact Or.inl (Or.inr (Or.inr ⟨a, b, ha, hb, hva, hv2, e⟩))
    · rintro ((e | ⟨a, ha, hva, e⟩ | ⟨a, b, ha, hb, hva, hv2, e⟩) | e)
      · exact Or.inl e
      · refine Or.inr (Or.inl ⟨a, ha, ?_, ?_⟩)
        · rw [rR a ha]; exact hva
        · rw [pR a ha]; exact e
      · have hab' := habne a b hv2
        refine Or.inr (Or.inr ⟨a, b, ha, hb, ?_, ?_, ?_⟩)
        · rw [rR a ha]; exact hva
        · rw [rB a b ha hb hab' hva]; exact hv2
        · rw [pB a b ha hb hab' hva]; exact e
      · exact Or.inr (Or.inr ⟨i, j, hi, hj, hvr, vA, by rw [pA]; exact e⟩)
  · intro a b c ha hb hc
    by_cases hva : pteValid (rootE m T a)
    · by_cases hab : a = i ∧ b = j
      · rw [hab.1, hab.2, ent_of_l1_invalid hinv, ent_of_valid hvr vA, pA]
        exact read_zero_page hc hzero
      · have hab' : a ≠ i ∨ b ≠ j := by omega
        by_cases hv2 : pteValid (l1E m T a b)
        · rw [ent_of_valid hva hv2, ent_of_valid (by rw [rR a ha]; exact hva)
            (by rw [rB a b ha hb hab' hva]; exact hv2), pB a b ha hb hab' hva]
          exact read_other_page hc (PTE2PA_aligned _) hfal hP1al hj hout
            (l0ne a b ha hb hva hv2).1 (Or.inl (l0ne a b ha hb hva hv2).2)
        · rw [ent_of_l1_invalid hv2,
            ent_of_l1_invalid (by rw [rB a b ha hb hab' hva]; exact hv2)]
    · rw [ent_of_root_invalid hva, ent_of_root_invalid (by rw [rR a ha]; exact hva)]

/-- Storing into a level-0 entry changes that entry and nothing else of the table. -/
theorem write_leaf {m m' : Mem} {T i j k : Nat} {F : List Nat} (hw : WFT m T F)
    (hi : i < 512) (hj : j < 512) (hk : k < 512)
    (hv : pteValid (rootE m T i)) (hv2 : pteValid (l1E m T i j))
    (hout : ∀ x, ¬ (l0page m T i j + 8 * k ≤ x ∧ x < l0page m T i j + 8 * k + 8) →
      m' x = m x) :
    WFT m' T F ∧ (∀ p, IsTablePage m' T p ↔ IsTablePage m T p) ∧
      ent m' T i j k = read64 m' (l0page m T i j + 8 * k) ∧
      (∀ a b c, a < 512 → b < 512 → c < 512 → (a ≠ i ∨ b ≠ j ∨ c ≠ k) →
        ent m' T a b c = ent m T a b c) := by
  have hw0 := hw
  obtain ⟨hTal, hTlt, lab, h0, hroot, hF, g1, g2, p1, p2⟩ := hw
  unfold PGSIZE at hTal
  have hne : ∀ {p q : Nat} {r : Role}, lab p = some r → lab q ≠ some r → p ≠ q :=
    fun h1 h2 e => h2 (e ▸ h1)
  have hP0 := g2 i j hi hj hv hv2
  have hP0al : l0page m T i j % 4096 = 0 := PTE2PA_aligned _
  have rR : ∀ a, a < 512 → rootE m' T a = rootE m T a := fun a ha =>
    read_other_slot ha hTal hP0al hk hout (Or.inl (hne hroot (by rw [hP0]; simp)))
  have rB : ∀ a b, a < 512 → b < 512 → pteValid (rootE m T a) →
      l1E m' T a b = l1E m T a b := fun a b ha hb hva =>
    l1E_congr (rR a ha) (read_other_slot hb (PTE2PA_aligned _) hP0al hk hout
      (Or.inl (hne (g1 a ha hva) (by rw [hP0]; simp))))
  have pB : ∀ a b, a < 512 → b < 512 → pteValid (rootE m T a) →
      l0page m' T a b = l0page m T a b := fun a b ha hb hva => by
    unfold l0page; rw [rB a b ha hb hva]
  have hsc := struct_congr rR rB
  have hvr : pteValid (rootE m' T i) := by rw [rR i hi]; exact hv
  have hv2' : pteValid (l1E m' T i j) := by rw [rB i j hi hj hv]; exact hv2
  refine ⟨hsc.2 F hw0, hsc.1, ?_, ?_⟩
  · rw [ent_of_valid hvr hv2', pB i j hi hj hv]
  · intro a b c ha hb hc habc
    by_cases hva : pteValid (rootE m T a)
    · by_cases hvb : pteValid (l1E m T a b)
      · rw [ent_of_valid hva hvb, ent_of_valid (by rw [rR a ha]; exact hva)
          (by rw [rB a b ha hb hva]; exact hvb), pB a b ha hb hva]
        refine read_other_slot hc (PTE2PA_aligned _) hP0al hk hout ?_
        by_cases hab : a = i ∧ b = j
        · have hck : c ≠ k := by omega
          exact Or.inr hck
        · refine Or.inl (hne (g2 a b ha hb hva hvb) ?_)
          rw [hP0]; intro e
          simp only [Option.some.injEq, Role.l0.injEq] at e
          exact hab ⟨e.1.symm, e.2.symm⟩
      · rw [ent_of_l1_invalid hvb, ent_of_l1_invalid (by rw [rB a b ha hb hva]; exact hvb)]
    · rw [ent_of_root_invalid hva, ent_of_root_invalid (by rw [rR a ha]; exact hva)]

/-! ## `walk` -/

theorem PX_lt (l va : Nat) : PX l va < 512 := by
  rw [PX_eq]; omega

theorem walk_loop_zero (s : KState) (pt va alloc : Nat) :
    walk_loop 0 s pt va alloc = (pt + 8 * PX 0 va, s) := rfl

theorem walk_loop_valid {l : Nat} {s : KState} {pt va alloc : Nat}
    (h : pteValid (read64 s.mem (pt + 8 * PX (l + 1) va))) :
    walk_loop (l + 1) s pt va alloc =
      walk_loop l s (PTE2PA (read64 s.mem (pt + 8 * PX (l + 1) va))) va alloc := by
  unfold pteValid at h
  rw [walk_loop]; simp only [h, ne_eq, not_false_eq_true, if_true]

theorem walk_loop_noalloc {l : Nat} {s : KState} {pt va : Nat}
    (h : ¬ pteValid (read64 s.mem (pt + 8 * PX (l + 1) va))) :
    walk_loop (l + 1) s pt va 0 = (0, s) := by
  unfold pteValid at h
  rw [walk_loop]; simp only [h, if_false, if_true]

theorem walk_loop_fail {l : Nat} {s : KState} {pt va alloc : Nat}
    (h : ¬ pteValid (read64 s.mem (pt + 8 * PX (l + 1) va))) (ha : alloc ≠ 0)
    (hk : (kalloc s).1 = 0) :
    walk_loop (l + 1) s pt va alloc = (0, (kalloc s).2) := by
  unfold pteValid at h
  rw [walk_loop]; simp only [h, ha, hk, if_false, if_true]

theorem walk_loop_alloc {l : Nat} {s : KState} {pt va alloc : Nat}
    (h : ¬ pteValid (read64 s.mem (pt + 8 * PX (l + 1) va))) (ha : alloc ≠ 0)
    (hk : (kalloc s).1 ≠ 0) :
    walk_loop (l + 1) s pt va alloc =
      walk_loop l ⟨write64 (memset (kalloc s).2.mem (kalloc s).1 0 PGSIZE)
        (pt + 8 * PX (l + 1) va) (PA2PTE (kalloc s).1 ||| PTE_V), (kalloc s).2.freelist⟩
        (kalloc s).1 va alloc := by
  unfold pteValid at h
  rw [walk_loop]; simp only [h, ha, hk, if_false, if_true]

/-- The slot that `walk` without allocation returns, in terms of the table's entries. -/
theorem walk_loop_lookup (s : KState) (T va : Nat) :
    walk_loop 2 s T va 0 =
      (if pteValid (rootE s.mem T (PX 2 va)) ∧ pteValid (l1E s.mem T (PX 2 va) (PX 1 va))
        then l0page s.mem T (PX 2 va) (PX 1 va) + 8 * PX 0 va else 0, s) := by
  by_cases h2 : pteValid (rootE s.mem T (PX 2 va))
  · refine (@walk_loop_valid 1 s T va 0 h2).trans ?_
    by_cases h1 : pteValid (l1E s.mem T (PX 2 va) (PX 1 va))
    · refine (@walk_loop_valid 0 s _ va 0 h1).trans ?_
      rw [walk_loop_zero, if_pos ⟨h2, h1⟩]
      rfl
    · refine (@walk_loop_noalloc 0 s _ va h1).trans ?_
      rw [if_neg (fun h => h1 h.2)]
  · refine (@walk_loop_noalloc 1 s T va h2).trans ?_
    rw [if_neg (fun h => h2 h.1)]

theorem PA2PTE_or_lt (f : Nat) : PA2PTE f ||| PTE_V < 2 ^ 64 := by
  rw [or_flags_eq _ _ (by decide), PA2PTE_eq]; unfold PTE_V; omega

theorem alloc_mem (m : Mem) (f q v : Nat)
    (hq : ∀ x, q ≤ x → x < q + 8 → ¬ (f ≤ x ∧ x < f + 4096)) (hv : v < 2 ^ 64) :
    (∀ x, ¬ (f ≤ x ∧ x < f + 4096) → ¬ (q ≤ x ∧ x < q + 8) →
      write64 (memset (memset m f 5 PGSIZE) f 0 PGSIZE) q v x = m x) ∧
    (∀ x, f ≤ x → x < f + 4096 → write64 (memset (memset m f 5 PGSIZE) f 0 PGSIZE) q v x = 0) ∧
    read64 (write64 (memset (memset m f 5 PGSIZE) f 0 PGSIZE) q v) q = v := by
  unfold PGSIZE
  refine ⟨fun x h1 h2 => ?_, fun x h1 h2 => ?_, ?_⟩
  · rw [write64_outside _ _ _ _ (by omega), memset_outside _ _ _ _ _ (by omega),
      memset_outside _ _ _ _ _ (by omega)]
  · have := hq x
    rw [write64_outside _ _ _ _ (by omega), memset_inside _ _ _ _ _ h1 h2]
  · rw [read64_write64_same, Nat.mod_eq_of_lt hv]

theorem TableStep.refl {L : MemLayout} {T : Nat} {s : KState} {F : List Nat}
    (hfo : FreeOK L s F) (hw : WFT s.mem T F) : TableStep L T s F s F [] :=
  ⟨rfl, hfo, hw, fun q => by simp, fun x hx => absurd rfl hx⟩

theorem TableStep.trans {L : MemLayout} {T : Nat} {s s1 s2 : KState} {F F1 F2 P1 P2 : List Nat}
    (h1 : TableStep L T s F s1 F1 P1) (h2 : TableStep L T s1 F1 s2 F2 P2) :
    TableStep L T s F s2 F2 (P1 ++ P2) := by
  refine ⟨by rw [h1.split, h2.split, List.append_assoc], h2.free, h2.wft, fun q => ?_,
    fun x hx => ?_⟩
  · rw [h2.pages, h1.pages, List.mem_append, or_assoc]
  · by_cases e : s1.mem x = s.mem x
    · rcases h2.foot x (by rw [e]; exact hx) with ⟨f, hf, hx1⟩ | ⟨q, hq, hx1⟩
      · exact Or.inl ⟨f, List.mem_append_right _ hf, hx1⟩
      · rcases (h1.pages q).mp hq with hq' | hq'
        · exact Or.inr ⟨q, hq', hx1⟩
        · exact Or.inl ⟨q, List.mem_append_left _ hq', hx1⟩
    · rcases h1.foot x e with ⟨f, hf, hx1⟩ | ⟨q, hq, hx1⟩
      · exact Or.inl ⟨f, List.mem_append_left _ hf, hx1⟩
      · exact Or.inr ⟨q, hq, hx1⟩

/-- One allocation step of `walk` at the level-1 page: a new level-0 page is linked. -/
theorem step_l0 {L : MemLayout} (hL : L.Sane) {s : KState} {T f i j : Nat} {F1 : List Nat}
    (hfo : FreeOK L s (f :: F1)) (hw : WFT s.mem T (f :: F1)) (hi : i < 512) (hj : j < 512)
    (hv : pteValid (rootE s.mem T i)) (hinv : ¬ pteValid (l1E s.mem T i j)) :
    let s2 : KState := ⟨write64 (memset (memset s.mem f 5 PGSIZE) f 0 PGSIZE)
      (l1page s.mem T i + 8 * j) (PA2PTE f ||| PTE_V), read64 s.mem f⟩
    TableStep L T s (f :: F1) s2 F1 [f] ∧
      (∀ a b c, a < 512 → b < 512 → c < 512 → ent s2.mem T a b c = ent s.mem T a b c) ∧
      pteValid (rootE s2.mem T i) ∧ pteValid (l1E s2.mem T i j) ∧ l0page s2.mem T i j = f := by
  intro s2
  have hgf := hfo.2.2 f (List.mem_cons_self _ _)
  have hfal := goodFrame_al hgf
  have hP1 : IsTablePage s.mem T (l1page s.mem T i) := Or.inr (Or.inl ⟨i, hi, hv, rfl⟩)
  have hP1f := WFT_page hw hP1
  have hq : ∀ g ∈ f :: F1, ∀ x, l1page s.mem T i + 8 * j ≤ x → x < l1page s.mem T i + 8 * j + 8 →
      ¬ (g ≤ x ∧ x < g + 4096) := fun g hg x hx1 hx2 => by
    have hne : l1page s.mem T i ≠ g := fun e => hP1f.2.2.2 (e ▸ hg)
    have := goodFrame_al (hfo.2.2 g hg)
    have := hP1f.1
    omega
  obtain ⟨hout, hzero, hslot⟩ := alloc_mem s.mem f (l1page s.mem T i + 8 * j) _
    (hq f (List.mem_cons_self _ _)) (PA2PTE_or_lt f)
  obtain ⟨hk, hf0, hfo1⟩ := kalloc_cons hfo
  have hnd := List.nodup_cons.mp hfo.2.1
  obtain ⟨hw2, hpg, hent, hvr, hv1, hp0⟩ := @link_l0 s.mem s2.mem T f i j (f :: F1) F1 hw
    (List.mem_cons_self _ _) hfal hf0 (goodFrame_lt hL hgf) hi hj hv hinv hout hzero hslot
    (fun g hg => ⟨List.mem_cons_of_mem _ hg, fun e => hnd.1 (e ▸ hg)⟩)
  refine ⟨⟨rfl, ?_, hw2, fun q => by rw [hpg, List.mem_singleton], fun x hx => ?_⟩,
    hent, hvr, hv1, hp0⟩
  · refine FreeOK_congr hfo1 rfl fun g hg x hx1 hx2 => ?_
    have hgf' : g ≠ f := fun e => hnd.1 (e ▸ hg)
    have hga := goodFrame_al (hfo.2.2 g (List.mem_cons_of_mem _ hg))
    have := hq g (List.mem_cons_of_mem _ hg) x
    show write64 (memset (memset s.mem f 5 PGSIZE) f 0 PGSIZE) _ _ x = memset s.mem f 5 PGSIZE x
    unfold PGSIZE at hfal hga ⊢
    rw [write64_outside _ _ _ _ (by omega), memset_outside _ _ _ _ _ (by omega)]
  · by_cases hxf : f ≤ x ∧ x < f + 4096
    · exact Or.inl ⟨f, List.mem_singleton.mpr rfl, hxf⟩
    · by_cases hxq : l1page s.mem T i + 8 * j ≤ x ∧ x < l1page s.mem T i + 8 * j + 8
      · exact Or.inr ⟨_, hP1, by omega, by omega⟩
      · exact absurd (hout x hxf hxq) hx

/-- One allocation step of `walk` at the root: a new level-1 page is linked. -/
theorem step_l1 {L : MemLayout} (hL : L.Sane) {s : KState} {T f i : Nat} {F1 : List Nat}
    (hfo : FreeOK L s (f :: F1)) (hw : WFT s.mem T (f :: F1)) (hi : i < 512)
    (hinv : ¬ pteValid (rootE s.mem T i)) :
    let s2 : KState := ⟨write64 (memset (memset s.mem f 5 PGSIZE) f 0 PGSIZE)
      (T + 8 * i) (PA2PTE f ||| PTE_V), read64 s.mem f⟩
    TableStep L T s (f :: F1) s2 F1 [f] ∧
      (∀ a b c, a < 512 → b < 512 → c < 512 → ent s2.mem T a b c = ent s.mem T a b c) ∧
      pteValid (rootE s2.mem T i) ∧ l1page s2.mem T i = f ∧
      (∀ j, j < 512 → ¬ pteValid (l1E s2.mem T i j)) := by
  intro s2
  have hgf := hfo.2.2 f (List.mem_cons_self _ _)
  have hfal := goodFrame_al hgf
  have hP1 : IsTablePage s.mem T T := Or.inl rfl
  have hP1f := WFT_page hw hP1
  have hq : ∀ g ∈ f :: F1, ∀ x, T + 8 * i ≤ x → x < T + 8 * i + 8 →
      ¬ (g ≤ x ∧ x < g + 4096) := fun g hg x hx1 hx2 => by
    have hne : T ≠ g := fun e => hP1f.2.2.2 (e ▸ hg)
    have := goodFrame_al (hfo.2.2 g hg)
    have := hP1f.1
    omega
  obtain ⟨hout, hzero, hslot⟩ := alloc_mem s.mem f (T + 8 * i) _
    (hq f (List.mem_cons_self _ _)) (PA2PTE_or_lt f)
  obtain ⟨hk, hf0, hfo1⟩ := kalloc_cons hfo
  have hnd := List.nodup_cons.mp hfo.2.1
  obtain ⟨hw2, hpg, hent, hvr, hv1, hp0⟩ := @link_l1 s.mem s2.mem T f i (f :: F1) F1 hw
    (List.mem_cons_self _ _) hfal hf0 (goodFrame_lt hL hgf) hi hinv hout hzero hslot
    (fun g hg => ⟨List.mem_cons_of_mem _ hg, fun e => hnd.1 (e ▸ hg)⟩)
  refine ⟨⟨rfl, ?_, hw2, fun q => by rw [hpg, List.mem_singleton], fun x hx => ?_⟩,
    hent, hvr, hv1, hp0⟩
  · refine FreeOK_congr hfo1 rfl fun g hg x hx1 hx2 => ?_
    have hgf' : g ≠ f := fun e => hnd.1 (e ▸ hg)
    have hga := goodFrame_al (hfo.2.2 g (List.mem_cons_of_mem _ hg))
    have := hq g (List.mem_cons_of_mem _ hg) x
    show write64 (memset (memset s.mem f 5 PGSIZE) f 0 PGSIZE) _ _ x = memset s.mem f 5 PGSIZE x
    unfold PGSIZE at hfal hga ⊢
    rw [write64_outside _ _ _ _ (by omega), memset_outside _ _ _ _ _ (by omega)]
  · by_cases hxf : f ≤ x ∧ x < f + 4096
    · exact Or.inl ⟨f, List.mem_singleton.mpr rfl, hxf⟩
    · by_cases hxq : T + 8 * i ≤ x ∧ x < T + 8 * i + 8
      · exact Or.inr ⟨_, hP1, by omega, by omega⟩
      · exact absurd (hout x hxf hxq) hx

/-- The effect of `walk` with allocation on a well-formed table. -/
theorem walk_alloc {L : MemLayout} (hL : L.Sane) {s : KState} {T : Nat} {F : List Nat}
    (va : Nat) (hfo : FreeOK L s F) (hw : WFT s.mem T F) :
    ∃ P F', TableStep L T s F (walk_loop 2 s T va 1).2 F' P ∧
      (∀ a b c, a < 512 → b < 512 → c < 512 →
        ent (walk_loop 2 s T va 1).2.mem T a b c = ent s.mem T a b c) ∧
      P.length ≤ 2 ∧
      (((walk_loop 2 s T va 1).1 = 0 ∧ F' = [] ∧ P.length ≤ 1) ∨
       (pteValid (rootE (walk_loop 2 s T va 1).2.mem T (PX 2 va)) ∧
        pteValid (l1E (walk_loop 2 s T va 1).2.mem T (PX 2 va) (PX 1 va)) ∧
        (walk_loop 2 s T va 1).1 =
          l0page (walk_loop 2 s T va 1).2.mem T (PX 2 va) (PX 1 va) + 8 * PX 0 va)) := by
  have hi := PX_lt 2 va
  have hj := PX_lt 1 va
  by_cases h2 : pteValid (rootE s.mem T (PX 2 va))
  · have e2 := @walk_loop_valid 1 s T va 1 h2
    by_cases h1 : pteValid (l1E s.mem T (PX 2 va) (PX 1 va))
    · have e : walk_loop 2 s T va 1 = (l0page s.mem T (PX 2 va) (PX 1 va) + 8 * PX 0 va, s) :=
        e2.trans ((@walk_loop_valid 0 s _ va 1 h1).trans (walk_loop_zero _ _ _ _))
      rw [e]
      exact ⟨[], F, TableStep.refl hfo hw, fun _ _ _ _ _ _ => rfl, by simp, Or.inr ⟨h2, h1, rfl⟩⟩
    · cases F with
      | nil =>
        have hk := kalloc_nil hfo
        have e : walk_loop 2 s T va 1 = (0, s) :=
          e2.trans ((@walk_loop_fail 0 s _ va 1 h1 (by decide) (by rw [hk])).trans (by rw [hk]))
        rw [e]
        exact ⟨[], [], TableStep.refl hfo hw, fun _ _ _ _ _ _ => rfl, by simp,
          Or.inl ⟨rfl, rfl, by simp⟩⟩
      | cons f F1 =>
        obtain ⟨hk, hf0, _⟩ := kalloc_cons hfo
        obtain ⟨hts, hent, hvr, hv1, hp0⟩ := step_l0 hL hfo hw hi hj h2 h1
        have e : walk_loop 2 s T va 1 = (f + 8 * PX 0 va,
            ⟨write64 (memset (memset s.mem f 5 PGSIZE) f 0 PGSIZE)
              (l1page s.mem T (PX 2 va) + 8 * PX 1 va) (PA2PTE f ||| PTE_V), read64 s.mem f⟩) := by
          refine e2.trans ((@walk_loop_alloc 0 s _ va 1 h1 (by decide) (by rw [hk]; exact hf0)).trans ?_)
          rw [hk, walk_loop_zero]
        rw [e]
        exact ⟨[f], F1, hts, hent, by simp, Or.inr ⟨hvr, hv1, by rw [hp0]⟩⟩
  · cases F with
    | nil =>
      have hk := kalloc_nil hfo
      have e : walk_loop 2 s T va 1 = (0, s) :=
        (@walk_loop_fail 1 s _ va 1 h2 (by decide) (by rw [hk])).trans (by rw [hk])
      rw [e]
      exact ⟨[], [], TableStep.refl hfo hw, fun _ _ _ _ _ _ => rfl, by simp,
        Or.inl ⟨rfl, rfl, by simp⟩⟩
    | cons f F1 =>
      obtain ⟨hk, hf0, _⟩ := kalloc_cons hfo
      obtain ⟨hts, hent, hvr, hp1, hl1⟩ := step_l1 hL hfo hw hi h2
      generalize hs2 : (⟨write64 (memset (memset s.mem f 5 PGSIZE) f 0 PGSIZE)
        (T + 8 * PX 2 va) (PA2PTE f ||| PTE_V), read64 s.mem f⟩ : KState) = s2 at hts hent hvr hp1 hl1
      have e1 : walk_loop 2 s T va 1 = walk_loop 1 s2 f va 1 := by
        refine (@walk_loop_alloc 1 s _ va 1 h2 (by decide) (by rw [hk]; exact hf0)).trans ?_
        rw [hk, ← hs2]
      have h1 : ¬ pteValid (read64 s2.mem (f + 8 * PX (0 + 1) va)) := by
        have := hl1 _ hj
        unfold l1E at this; rw [hp1] at this; exact this
      have h1' : ¬ pteValid (l1E s2.mem T (PX 2 va) (PX 1 va)) := hl1 _ hj
      cases F1 with
      | nil =>
        have hk2 := kalloc_nil hts.free
        have e : walk_loop 2 s T va 1 = (0, s2) :=
          e1.trans ((@walk_loop_fail 0 s2 _ va 1 h1 (by decide) (by rw [hk2])).trans (by rw [hk2]))
        rw [e]
        exact ⟨[f], [], hts, hent, by simp, Or.inl ⟨rfl, rfl, by simp⟩⟩
      | cons f2 F2 =>
        obtain ⟨hk2, hf20, _⟩ := kalloc_cons hts.free
        obtain ⟨hts2, hent2, hvr2, hv12, hp02⟩ := step_l0 hL hts.free hts.wft hi hj hvr h1'
        have e : walk_loop 2 s T va 1 = (f2 + 8 * PX 0 va,
            ⟨write64 (memset (memset s2.mem f2 5 PGSIZE) f2 0 PGSIZE)
              (l1page s2.mem T (PX 2 va) + 8 * PX 1 va) (PA2PTE f2 ||| PTE_V),
              read64 s2.mem f2⟩) := by
          refine e1.trans ((@walk_loop_alloc 0 s2 _ va 1 h1 (by decide)
            (by rw [hk2]; exact hf20)).trans ?_)
          rw [hk2, walk_loop_zero, hp1]
        rw [e]
        refine ⟨[f, f2], F2, hts.trans hts2, fun a b c ha hb hc => ?_, by simp,
          Or.inr ⟨hvr2, hv12, by rw [hp02]⟩⟩
        rw [hent2 a b c ha hb hc, hent a b c ha hb hc]

/-! ## `mappages` -/

theorem PX_inj {a b : Nat} (ha : a % 4096 = 0) (hb : b % 4096 = 0) (ha2 : a < 2 ^ 39)
    (hb2 : b < 2 ^ 39) (h2 : PX 2 a = PX 2 b) (h1 : PX 1 a = PX 1 b) (h0 : PX 0 a = PX 0 b) :
    a = b := by
  rw [PX_eq, PX_eq] at h2 h1 h0
  norm_num at h2 h1 h0
  omega

theorem bind_ok {α β : Type} (v : α) (f : α → Outcome β) : (Outcome.ok v).bind f = f v := rfl

theorem walk_ok {L : MemLayout} {s : KState} {T va alloc : Nat} (h : va < L.MAXVA) :
    walk L s T va alloc = .ok (walk_loop 2 s T va alloc) := by
  unfold walk; rw [if_neg (by omega)]

/-- Storing `v` into the level-0 entry `(i, j, k)` of a well-formed table. -/
theorem leaf_step {L : MemLayout} {s : KState} {T i j k v : Nat} {F : List Nat}
    (hfo : FreeOK L s F) (hw : WFT s.mem T F) (hi : i < 512) (hj : j < 512) (hk : k < 512)
    (hv : pteValid (rootE s.mem T i)) (hv2 : pteValid (l1E s.mem T i j)) (hvlt : v < 2 ^ 64) :
    TableStep L T s F ⟨write64 s.mem (l0page s.mem T i j + 8 * k) v, s.freelist⟩ F [] ∧
      ent (write64 s.mem (l0page s.mem T i j + 8 * k) v) T i j k = v ∧
      (∀ a b c, a < 512 → b < 512 → c < 512 → (a ≠ i ∨ b ≠ j ∨ c ≠ k) →
        ent (write64 s.mem (l0page s.mem T i j + 8 * k) v) T a b c = ent s.mem T a b c) := by
  have hP0 : IsTablePage s.mem T (l0page s.mem T i j) :=
    Or.inr (Or.inr ⟨i, j, hi, hj, hv, hv2, rfl⟩)
  have hP0f := WFT_page hw hP0
  obtain ⟨hw2, hpg, he1, he2⟩ := @write_leaf s.mem (write64 s.mem (l0page s.mem T i j + 8 * k) v) T i j k F
    hw hi hj hk hv hv2 (fun x hx => write64_outside _ _ _ _ (by omega))
  refine ⟨⟨rfl, ?_, hw2, fun q => by rw [hpg]; simp, fun x hx => ?_⟩, ?_, he2⟩
  · refine FreeOK_congr hfo rfl fun g hg x hx1 hx2 => ?_
    have hne : l0page s.mem T i j ≠ g := fun e => hP0f.2.2.2 (e ▸ hg)
    have := goodFrame_al (hfo.2.2 g hg)
    have := hP0f.1
    exact write64_outside _ _ _ _ (by omega)
  · refine Or.inr ⟨_, hP0, ?_⟩
    by_contra hc
    exact hx (write64_outside _ _ _ _ (by omega))
  · rw [he1, read64_write64_same, Nat.mod_eq_of_lt hvlt]

theorem pte_val_lt {pa perm : Nat} (hperm : perm < 2 ^ 64) :
    PA2PTE pa ||| perm ||| PTE_V < 2 ^ 64 := by
  have h1 : PA2PTE pa < 2 ^ 64 := by rw [PA2PTE_eq]; omega
  exact Nat.or_lt_two_pow (Nat.or_lt_two_pow h1 hperm) (by decide)

theorem pteValid_or_V (x : Nat) : pteValid (x ||| PTE_V) := by
  rw [pteValid_iff, Nat.or_mod_two_eq_one]; right; rfl

theorem installed_zero {m m' : Mem} {T a pa perm : Nat}
    (h : ∀ i j k, i < 512 → j < 512 → k < 512 → ent m' T i j k = ent m T i j k) :
    Installed m m' T a pa perm 0 :=
  ⟨fun u hu => absurd hu (Nat.not_lt_zero _), fun i j k hi hj hk _ => h i j k hi hj hk⟩

theorem installed_cons {m m1 m2 : Mem} {T a pa perm t : Nat}
    (h1 : Installed m m1 T a pa perm 1)
    (h2 : Installed m1 m2 T (a + 4096) ((pa + 4096) % 2 ^ 64) perm t)
    (ha : a % 4096 = 0) (hlt : a + t * 4096 < 2 ^ 39) :
    Installed m m2 T a pa perm (t + 1) := by
  have hne : ∀ u, u < t → ¬ (PX 2 a = PX 2 (a + 4096 + u * 4096) ∧
      PX 1 a = PX 1 (a + 4096 + u * 4096) ∧ PX 0 a = PX 0 (a + 4096 + u * 4096)) := by
    intro u hu hc
    have := PX_inj (a := a) (b := a + 4096 + u * 4096) ha (by omega) (by omega) (by omega)
      hc.1 hc.2.1 hc.2.2
    omega
  constructor
  · intro u hu
    cases u with
    | zero =>
      have e := h1.1 0 (by omega)
      simp only [Nat.zero_mul, Nat.add_zero] at e ⊢
      rw [h2.2 _ _ _ (PX_lt _ _) (PX_lt _ _) (PX_lt _ _) hne]
      exact e
    | succ u =>
      have e := h2.1 u (by omega)
      rw [show a + 4096 + u * 4096 = a + (u + 1) * 4096 by omega,
        show ((pa + 4096) % 2 ^ 64 + u * 4096) % 2 ^ 64 = (pa + (u + 1) * 4096) % 2 ^ 64
          by omega] at e
      exact e
  · intro i j k hi hj hk hu
    rw [h2.2 i j k hi hj hk (fun u hlt' hc => hu (u + 1) (by omega)
      (by rw [show a + (u + 1) * 4096 = a + 4096 + u * 4096 by omega]; exact hc))]
    exact h1.2 i j k hi hj hk (fun u hu' hc => hu 0 (by omega)
      (by have : u = 0 := by omega
          subst this; exact hc))

/-- One iteration of the loop of `mappages`: the walk and the store of the new entry. -/
theorem mappages_iter {L : MemLayout} (hL : L.Sane) {s : KState} {T a pa perm : Nat}
    {F : List Nat} (hfo : FreeOK L s F) (hw : WFT s.mem T F) (hperm : perm < 2 ^ 64)
    (hpa : pa < 2 ^ 64) :
    ∃ P F', TableStep L T s F (walk_loop 2 s T a 1).2 F' P ∧ P.length ≤ 2 ∧
      (∀ i j k, i < 512 → j < 512 → k < 512 →
        ent (walk_loop 2 s T a 1).2.mem T i j k = ent s.mem T i j k) ∧
      (((walk_loop 2 s T a 1).1 = 0 ∧ F' = [] ∧ P.length ≤ 1) ∨
       ((walk_loop 2 s T a 1).1 ≠ 0 ∧
        read64 (walk_loop 2 s T a 1).2.mem (walk_loop 2 s T a 1).1 =
          ent s.mem T (PX 2 a) (PX 1 a) (PX 0 a) ∧
        TableStep L T s F ⟨write64 (walk_loop 2 s T a 1).2.mem (walk_loop 2 s T a 1).1
          (PA2PTE pa ||| perm ||| PTE_V), (walk_loop 2 s T a 1).2.freelist⟩ F' P ∧
        Installed s.mem (write64 (walk_loop 2 s T a 1).2.mem (walk_loop 2 s T a 1).1
          (PA2PTE pa ||| perm ||| PTE_V)) T a pa perm 1)) := by
  obtain ⟨P, F', hts, hent, hlen, hcase⟩ := walk_alloc hL a hfo hw
  refine ⟨P, F', hts, hlen, hent, ?_⟩
  rcases hcase with h | ⟨hv, hv2, hp⟩
  · exact Or.inl h
  · right
    have hi := PX_lt 2 a
    have hj := PX_lt 1 a
    have hk := PX_lt 0 a
    have hP0 := WFT_page hts.wft (Or.inr (Or.inr ⟨_, _, hi, hj, hv, hv2, rfl⟩))
    obtain ⟨hts2, he1, he2⟩ := leaf_step (v := PA2PTE pa ||| perm ||| PTE_V) hts.free hts.wft
      hi hj hk hv hv2 (pte_val_lt hperm)
    rw [hp]
    refine ⟨by omega, ?_, ?_, ?_, ?_⟩
    · rw [← hent _ _ _ hi hj hk, ent_of_valid hv hv2]
    · have := hts.trans hts2
      rw [List.append_nil] at this
      exact this
    · intro u hu
      have : u = 0 := by omega
      subst this
      simp only [Nat.zero_mul, Nat.add_zero]
      rw [he1, Nat.mod_eq_of_lt hpa]
    · intro i j k hi' hj' hk' hu
      rw [he2 i j k hi' hj' hk' (by
        have := hu 0 (by omega)
        simp only [Nat.zero_mul, Nat.add_zero] at this
        omega)]
      exact hent i j k hi' hj' hk'

theorem mappages_loop_succ (L : MemLayout) (fuel : Nat) (s : KState) (T a last pa perm : Nat)
    (h : a < L.MAXVA) :
    mappages_loop L (fuel + 1) s T a last pa perm =
      if (walk_loop 2 s T a 1).1 = 0 then .ok (-1, (walk_loop 2 s T a 1).2)
      else if pteValid (read64 (walk_loop 2 s T a 1).2.mem (walk_loop 2 s T a 1).1) then
        .panic .mappagesRemap
      else if a = last then
        .ok (0, ⟨write64 (walk_loop 2 s T a 1).2.mem (walk_loop 2 s T a 1).1
          (PA2PTE pa ||| perm ||| PTE_V), (walk_loop 2 s T a 1).2.freelist⟩)
      else mappages_loop L fuel ⟨write64 (walk_loop 2 s T a 1).2.mem (walk_loop 2 s T a 1).1
          (PA2PTE pa ||| perm ||| PTE_V), (walk_loop 2 s T a 1).2.freelist⟩ T
          ((a + PGSIZE) % 2 ^ 64) last ((pa + PGSIZE) % 2 ^ 64) perm := by
  rw [mappages_loop, walk_ok h, bind_ok]
  rfl

/-- The loop of `mappages` on a well-formed table: it maps all pages, or stops at the
first page whose tables cannot be allocated, or panics at the first page already mapped. -/
theorem mappages_loop_spec {L : MemLayout} (hL : L.Sane) {T perm : Nat} (hperm : perm < 2 ^ 64) :
    ∀ (n fuel : Nat) (s : KState) (F : List Nat) (a pa : Nat), n < fuel → FreeOK L s F →
      WFT s.mem T F → a % 4096 = 0 → a + n * 4096 < L.MAXVA → pa < 2 ^ 64 →
      (∃ s' P F', mappages_loop L fuel s T a (a + n * 4096) pa perm = .ok (0, s') ∧
        TableStep L T s F s' F' P ∧ P.length ≤ 2 * (n + 1) ∧
        Installed s.mem s'.mem T a pa perm (n + 1) ∧
        (∀ u, u ≤ n → ¬ pteValid (ent s.mem T (PX 2 (a + u * 4096)) (PX 1 (a + u * 4096))
          (PX 0 (a + u * 4096))))) ∨
      (∃ s' P F' t, t ≤ n ∧ mappages_loop L fuel s T a (a + n * 4096) pa perm = .ok (-1, s') ∧
        TableStep L T s F s' F' P ∧ F' = [] ∧ P.length ≤ 2 * t + 1 ∧
        Installed s.mem s'.mem T a pa perm t) ∨
      (mappages_loop L fuel s T a (a + n * 4096) pa perm = .panic .mappagesRemap ∧
        ∃ t, t ≤ n ∧ pteValid (ent s.mem T (PX 2 (a + t * 4096)) (PX 1 (a + t * 4096))
          (PX 0 (a + t * 4096)))) := by
  have hM := hL.maxva_le
  intro n
  induction n with
  | zero =>
    intro fuel s F a pa hfuel hfo hw ha hlt hpa
    obtain ⟨fuel, rfl⟩ : ∃ f, fuel = f + 1 := ⟨fuel - 1, by omega⟩
    rw [mappages_loop_succ L fuel s T a _ pa perm (by omega)]
    obtain ⟨P, F', hts, hlen, hent, hcase⟩ := @mappages_iter L hL s T a pa perm F hfo hw hperm hpa
    rcases hcase with ⟨h0, hF', hl1⟩ | ⟨hne, hread, hts2, hinst⟩
    · right; left
      rw [if_pos h0]
      exact ⟨_, P, F', 0, by omega, rfl, hts, hF', by omega, installed_zero hent⟩
    · rw [if_neg hne, hread]
      by_cases hv : pteValid (ent s.mem T (PX 2 a) (PX 1 a) (PX 0 a))
      · right; right
        rw [if_pos hv]
        exact ⟨rfl, 0, by omega, by simpa using hv⟩
      · left
        rw [if_neg hv, if_pos (by omega)]
        refine ⟨_, P, F', rfl, hts2, by omega, hinst, fun u hu => ?_⟩
        have : u = 0 := by omega
        subst this; simpa using hv
  | succ n ih =>
    intro fuel s F a pa hfuel hfo hw ha hlt hpa
    obtain ⟨fuel, rfl⟩ : ∃ f, fuel = f + 1 := ⟨fuel - 1, by omega⟩
    rw [mappages_loop_succ L fuel s T a _ pa perm (by omega)]
    obtain ⟨P, F', hts, hlen, hent, hcase⟩ := @mappages_iter L hL s T a pa perm F hfo hw hperm hpa
    rcases hcase with ⟨h0, hF', hl1⟩ | ⟨hne, hread, hts2, hinst⟩
    · right; left
      rw [if_pos h0]
      exact ⟨_, P, F', 0, by omega, rfl, hts, hF', by omega, installed_zero hent⟩
    · rw [if_neg hne, hread]
      by_cases hv : pteValid (ent s.mem T (PX 2 a) (PX 1 a) (PX 0 a))
      · right; right
        rw [if_pos hv]
        exact ⟨rfl, 0, by omega, by simpa using hv⟩
      · rw [if_neg hv, if_neg (by omega)]
        have ea : (a + PGSIZE) % 2 ^ 64 = a + 4096 := by unfold PGSIZE; omega
        have el : a + (n + 1) * 4096 = a + 4096 + n * 4096 := by omega
        rw [ea, el]
        have hidx : ∀ u, ¬ (PX 2 (a + 4096 + u * 4096) = PX 2 (a + 0 * 4096) ∧
            PX 1 (a + 4096 + u * 4096) = PX 1 (a + 0 * 4096) ∧
            PX 0 (a + 4096 + u * 4096) = PX 0 (a + 0 * 4096)) ∨ ¬ (a + 4096 + u * 4096 < 2 ^ 39) := by
          intro u
          by_cases hu : a + 4096 + u * 4096 < 2 ^ 39
          · left
            intro hc
            have := PX_inj (a := a + 4096 + u * 4096) (b := a + 0 * 4096) (by omega) (by omega)
              hu (by omega) hc.1 hc.2.1 hc.2.2
            omega
          · right; exact hu
        have hsame : ∀ u, u ≤ n →
            ent (write64 (walk_loop 2 s T a 1).2.mem (walk_loop 2 s T a 1).1
              (PA2PTE pa ||| perm ||| PTE_V)) T (PX 2 (a + 4096 + u * 4096))
              (PX 1 (a + 4096 + u * 4096)) (PX 0 (a + 4096 + u * 4096)) =
            ent s.mem T (PX 2 (a + 4096 + u * 4096))
              (PX 1 (a + 4096 + u * 4096)) (PX 0 (a + 4096 + u * 4096)) := by
          intro u hu
          refine hinst.2 _ _ _ (PX_lt _ _) (PX_lt _ _) (PX_lt _ _) (fun u' hu' hc => ?_)
          have : u' = 0 := by omega
          subst this
          rcases hidx u with h | h
          · exact h hc
          · omega
        rcases ih fuel _ F' (a + 4096) ((pa + PGSIZE) % 2 ^ 64) (by omega) hts2.free hts2.wft
          (by omega) (by omega) (Nat.mod_lt _ (by decide)) with
          ⟨s', P2, F2, he, hts3, hl3, hinst2, hinv⟩ |
          ⟨s', P2, F2, t, ht, he, hts3, hF2, hl2, hinst2⟩ |
          ⟨he, t, ht, hvt⟩
        · left
          refine ⟨s', P ++ P2, F2, he, hts2.trans hts3, by rw [List.length_append]; omega,
            installed_cons hinst hinst2 ha (by omega), fun u hu => ?_⟩
          cases u with
          | zero => simpa using hv
          | succ u =>
            rw [show a + (u + 1) * 4096 = a + 4096 + u * 4096 by omega, ← hsame u (by omega)]
            exact hinv u (by omega)
        · right; left
          refine ⟨s', P ++ P2, F2, t + 1, by omega, he, hts2.trans hts3, hF2, ?_,
            installed_cons hinst hinst2 ha (by omega)⟩
          rw [List.length_append]; omega
        · right; right
          refine ⟨he, t + 1, by omega, ?_⟩
          rw [show a + (t + 1) * 4096 = a + 4096 + t * 4096 by omega, ← hsame t ht]
          exact hvt

/-! ## Entries as `walk` sees them -/

theorem pteAt_eq {L : MemLayout} {s : KState} {T va : Nat} {F : List Nat}
    (hw : WFT s.mem T F) (hva : va < L.MAXVA) :
    pteAt L s T va = ent s.mem T (PX 2 va) (PX 1 va) (PX 0 va) := by
  unfold pteAt
  rw [walk_ok hva, walk_loop_lookup]
  by_cases h : pteValid (rootE s.mem T (PX 2 va)) ∧ pteValid (l1E s.mem T (PX 2 va) (PX 1 va))
  · have hp := WFT_page hw (Or.inr (Or.inr ⟨_, _, PX_lt 2 va, PX_lt 1 va, h.1, h.2, rfl⟩))
    simp only [if_pos h]
    rw [if_neg (by omega), ent_of_valid h.1 h.2]
  · simp only [if_neg h, if_true]
    unfold ent; rw [if_neg h]

theorem pteAt_high {L : MemLayout} {s : KState} {T va : Nat} (hva : L.MAXVA ≤ va) :
    pteAt L s T va = 0 := by
  unfold pteAt walk
  rw [if_pos hva]

theorem leafAt_eq (L : MemLayout) (s : KState) (T va : Nat) :
    leafAt L s T va = if pteValid (pteAt L s T va) then some (pteAt L s T va) else none := by
  unfold leafAt pteAt
  cases h : walk L s T va 0 with
  | ok r =>
    simp only
    by_cases h0 : r.1 = 0
    · simp [h0, not_pteValid_zero]
    · simp [h0]
  | panic w => simp [not_pteValid_zero]
  | diverge => simp [not_pteValid_zero]

theorem PX_PGROUNDDOWN (l va : Nat) (hl : l ≤ 2) (hva : va < 2 ^ 64) :
    PX l (PGROUNDDOWN va) = PX l va := by
  rw [PX_eq, PX_eq, PGROUNDDOWN_eq, Nat.mod_eq_of_lt hva]
  have : l = 0 ∨ l = 1 ∨ l = 2 := by omega
  rcases this with rfl | rfl | rfl <;> norm_num <;> omega

theorem PGROUNDDOWN_facts (va : Nat) (hva : va < 2 ^ 64) :
    PGROUNDDOWN va % 4096 = 0 ∧ PGROUNDDOWN va ≤ va ∧ va < PGROUNDDOWN va + 4096 := by
  rw [PGROUNDDOWN_eq, Nat.mod_eq_of_lt hva]; omega

/-- The outcome of `mappages` on a well-formed table, for a range below `MAXVA`. -/
theorem mappages_spec {L : MemLayout} (hL : L.Sane) {s : KState} {T va size pa perm : Nat}
    {F : List Nat} (hfo : FreeOK L s F) (hw : WFT s.mem T F) (hsize : 0 < size)
    (hlt : va + size - 1 < L.MAXVA) (hperm : perm < 2 ^ 64) (hpa : pa < 2 ^ 64) :
    ∃ n, PGROUNDDOWN (va + size - 1) = PGROUNDDOWN va + n * 4096 ∧
      ((∃ s' P F', mappages L s T va size pa perm = .ok (0, s') ∧
        TableStep L T s F s' F' P ∧ P.length ≤ 2 * (n + 1) ∧
        Installed s.mem s'.mem T (PGROUNDDOWN va) pa perm (n + 1) ∧
        (∀ u, u ≤ n → ¬ pteValid (ent s.mem T (PX 2 (PGROUNDDOWN va + u * 4096))
          (PX 1 (PGROUNDDOWN va + u * 4096)) (PX 0 (PGROUNDDOWN va + u * 4096))))) ∨
      (∃ s' P F' t, t ≤ n ∧ mappages L s T va size pa perm = .ok (-1, s') ∧
        TableStep L T s F s' F' P ∧ F' = [] ∧ P.length ≤ 2 * t + 1 ∧
        Installed s.mem s'.mem T (PGROUNDDOWN va) pa perm t) ∨
      (mappages L s T va size pa perm = .panic .mappagesRemap ∧
        ∃ t, t ≤ n ∧ pteValid (ent s.mem T (PX 2 (PGROUNDDOWN va + t * 4096))
          (PX 1 (PGROUNDDOWN va + t * 4096)) (PX 0 (PGROUNDDOWN va + t * 4096))))) := by
  have hM := hL.maxva_le
  have h1 := PGROUNDDOWN_facts va (by omega)
  have h2 := PGROUNDDOWN_facts (va + size - 1) (by omega)
  have e1 := PGROUNDDOWN_eq va
  have e2 := PGROUNDDOWN_eq (va + size - 1)
  rw [Nat.mod_eq_of_lt (by omega)] at e1 e2
  refine ⟨(PGROUNDDOWN (va + size - 1) - PGROUNDDOWN va) / 4096, by omega, ?_⟩
  have hm : mappages L s T va size pa perm = mappages_loop L (L.MAXVA / PGSIZE + 2) s T
      (PGROUNDDOWN va) (PGROUNDDOWN va +
        (PGROUNDDOWN (va + size - 1) - PGROUNDDOWN va) / 4096 * 4096) pa perm := by
    unfold mappages
    rw [if_neg (by omega), Nat.mod_eq_of_lt (by omega)]
    congr 1
    omega
  rw [hm]
  exact mappages_loop_spec hL hperm _ _ s F _ pa (by unfold PGSIZE; omega) hfo hw h1.1
    (by omega) hpa

/-! ## Updates of level-0 entries -/

theorem installed_entUpd {m m' : Mem} {T a pa perm t : Nat} (h : Installed m m' T a pa perm t) :
    EntUpd m m' T a t (fun u => PA2PTE ((pa + u * 4096) % 2 ^ 64) ||| perm ||| PTE_V) := h

theorem idx_ne_succ {a u : Nat} (ha : a % 4096 = 0) (hlt : a + 4096 + u * 4096 < 2 ^ 39) :
    ¬ (PX 2 a = PX 2 (a + 4096 + u * 4096) ∧ PX 1 a = PX 1 (a + 4096 + u * 4096) ∧
      PX 0 a = PX 0 (a + 4096 + u * 4096)) := by
  intro hc
  have := PX_inj (a := a) (b := a + 4096 + u * 4096) ha (by omega) (by omega) hlt
    hc.1 hc.2.1 hc.2.2
  omega

theorem entUpd_zero {m m' : Mem} {T a : Nat} {val : Nat → Nat}
    (h : ∀ i j k, i < 512 → j < 512 → k < 512 → ent m' T i j k = ent m T i j k) :
    EntUpd m m' T a 0 val :=
  ⟨fun _ hu => absurd hu (Nat.not_lt_zero _), fun i j k hi hj hk _ => h i j k hi hj hk⟩

theorem entUpd_one {m m' : Mem} {T a v : Nat} {val : Nat → Nat} (hv : val 0 = v)
    (h1 : ent m' T (PX 2 a) (PX 1 a) (PX 0 a) = v)
    (h2 : ∀ i j k, i < 512 → j < 512 → k < 512 →
      (i ≠ PX 2 a ∨ j ≠ PX 1 a ∨ k ≠ PX 0 a) → ent m' T i j k = ent m T i j k) :
    EntUpd m m' T a 1 val := by
  constructor
  · intro u hu
    have : u = 0 := by omega
    subst this
    simp only [Nat.zero_mul, Nat.add_zero]
    rw [h1, hv]
  · intro i j k hi hj hk hu
    have := hu 0 (by omega)
    simp only [Nat.zero_mul, Nat.add_zero] at this
    exact h2 i j k hi hj hk (by omega)

theorem entUpd_cons {m m1 m2 : Mem} {T a t : Nat} {val : Nat → Nat}
    (h1 : EntUpd m m1 T a 1 val)
    (h2 : EntUpd m1 m2 T (a + 4096) t (fun u => val (u + 1)))
    (ha : a % 4096 = 0) (hlt : a + t * 4096 < 2 ^ 39) :
    EntUpd m m2 T a (t + 1) val := by
  constructor
  · intro u hu
    cases u with
    | zero =>
      have e := h1.1 0 (by omega)
      simp only [Nat.zero_mul, Nat.add_zero] at e ⊢
      rw [h2.2 _ _ _ (PX_lt _ _) (PX_lt _ _) (PX_lt _ _)
        (fun u hu => idx_ne_succ ha (by omega))]
      exact e
    | succ u =>
      have e := h2.1 u (by omega)
      rw [show a + 4096 + u * 4096 = a + (u + 1) * 4096 by omega] at e
      exact e
  · intro i j k hi hj hk hu
    rw [h2.2 i j k hi hj hk (fun u hlt' hc => hu (u + 1) (by omega)
      (by rw [show a + (u + 1) * 4096 = a + 4096 + u * 4096 by omega]; exact hc))]
    exact h1.2 i j k hi hj hk (fun u hu' hc => hu 0 (by omega)
      (by have : u = 0 := by omega
          subst this; exact hc))

theorem entUpd_other {m m' : Mem} {T a t b : Nat} {val : Nat → Nat} (h : EntUpd m m' T a t val)
    (ha : a % 4096 = 0) (hb : b % 4096 = 0) (hlt : a + t * 4096 ≤ 2 ^ 39) (hb2 : b < 2 ^ 39)
    (hout : b < a ∨ a + t * 4096 ≤ b) :
    ent m' T (PX 2 b) (PX 1 b) (PX 0 b) = ent m T (PX 2 b) (PX 1 b) (PX 0 b) := by
  refine h.2 _ _ _ (PX_lt _ _) (PX_lt _ _) (PX_lt _ _) (fun u hu hc => ?_)
  have := PX_inj (a := b) (b := a + u * 4096) hb (by omega) hb2 (by omega) hc.1 hc.2.1 hc.2.2
  omega

theorem sameTable_l0page {m m' : Mem} {T i j : Nat} (h : SameTable m m' T) (hi : i < 512)
    (hj : j < 512) (hv : pteValid (rootE m T i)) :
    pteValid (rootE m' T i) ∧ l1E m' T i j = l1E m T i j ∧ l0page m' T i j = l0page m T i j := by
  refine ⟨by rw [h.1 i hi]; exact hv, h.2 i j hi hj hv, ?_⟩
  unfold l0page; rw [h.2 i j hi hj hv]

theorem ent_valid_tables {m : Mem} {T i j k : Nat} (h : pteValid (ent m T i j k)) :
    pteValid (rootE m T i) ∧ pteValid (l1E m T i j) := by
  unfold ent at h
  by_cases hc : pteValid (rootE m T i) ∧ pteValid (l1E m T i j)
  · exact hc
  · rw [if_neg hc] at h; exact absurd h not_pteValid_zero

theorem framesOf_congr {m m' : Mem} {T : Nat} : ∀ (n a : Nat),
    (∀ u, u < n → ent m' T (PX 2 (a + u * 4096)) (PX 1 (a + u * 4096)) (PX 0 (a + u * 4096)) =
      ent m T (PX 2 (a + u * 4096)) (PX 1 (a + u * 4096)) (PX 0 (a + u * 4096))) →
    framesOf m' T a n = framesOf m T a n
  | 0, _, _ => rfl
  | n + 1, a, h => by
    have h0 := h 0 (by omega)
    simp only [Nat.zero_mul, Nat.add_zero] at h0
    have hrec := @framesOf_congr m m' T n (a + 4096) (fun u hu => by
      have e : a + (u + 1) * 4096 = a + 4096 + u * 4096 := by omega
      rw [← e]; exact h (u + 1) (by omega))
    show frameOf m' T a :: framesOf m' T (a + 4096) n =
      frameOf m T a :: framesOf m T (a + 4096) n
    rw [hrec]; unfold frameOf; rw [h0]

theorem mem_framesOf {m : Mem} {T : Nat} : ∀ (n a d : Nat),
    d ∈ framesOf m T a n ↔ ∃ u, u < n ∧ d = frameOf m T (a + u * 4096)
  | 0, a, d => by simp [framesOf]
  | n + 1, a, d => by
    unfold framesOf
    rw [List.mem_cons, mem_framesOf n (a + 4096) d]
    constructor
    · rintro (h | ⟨u, hu, h⟩)
      · exact ⟨0, by omega, by simpa using h⟩
      · exact ⟨u + 1, by omega, by
          rw [show a + (u + 1) * 4096 = a + 4096 + u * 4096 by omega]; exact h⟩
    · rintro ⟨u, hu, h⟩
      cases u with
      | zero => left; simpa using h
      | succ u =>
        right
        exact ⟨u, by omega, by
          rw [show a + (u + 1) * 4096 = a + 4096 + u * 4096 by omega] at h; exact h⟩

theorem WFT_cons_free {m : Mem} {T d : Nat} {F : List Nat} (hw : WFT m T F)
    (hd : ¬ IsTablePage m T d) : WFT m T (d :: F) := by
  obtain ⟨hTal, hTlt, lab, h0, hroot, hF, g1, g2, p1, p2⟩ := hw
  refine ⟨hTal, hTlt, fun x => if x = d then none else lab x, ?_, ?_, ?_, ?_, ?_, p1, p2⟩
  · show (if 0 = d then _ else _) = _
    split
    · rfl
    · exact h0
  · show (if T = d then _ else _) = _
    rw [if_neg (fun e => hd (Or.inl e.symm))]; exact hroot
  · intro f hf
    show (if f = d then _ else _) = _
    split
    · rfl
    · rcases List.mem_cons.mp hf with e | e
      · contradiction
      · exact hF f e
  · intro i hi hv
    show (if l1page m T i = d then _ else _) = _
    rw [if_neg (fun e => hd (Or.inr (Or.inl ⟨i, hi, hv, e.symm⟩)))]; exact g1 i hi hv
  · intro i j hi hj hv hv2
    show (if l0page m T i j = d then _ else _) = _
    rw [if_neg (fun e => hd (Or.inr (Or.inr ⟨i, j, hi, hj, hv, hv2, e.symm⟩)))]
    exact g2 i j hi hj hv hv2

/-- A change of memory inside a frame that is no page-table page leaves the table alone. -/
theorem data_change {m m' : Mem} {T d : Nat} {F : List Nat} (hw : WFT m T F)
    (hdal : d % 4096 = 0) (hd : ¬ IsTablePage m T d)
    (hout : ∀ x, ¬ (d ≤ x ∧ x < d + 4096) → m' x = m x) :
    WFT m' T F ∧ (∀ p, IsTablePage m' T p ↔ IsTablePage m T p) ∧
      (∀ i j k, i < 512 → j < 512 → k < 512 → ent m' T i j k = ent m T i j k) ∧
      SameTable m m' T := by
  have hag : ∀ p, IsTablePage m T p → ∀ x, p ≤ x → x < p + 4096 → m' x = m x := by
    intro p hp x hx1 hx2
    have hpf := WFT_page hw hp
    have hne : p ≠ d := fun e => hd (e ▸ hp)
    exact hout x (by omega)
  obtain ⟨h1, h2⟩ := agree_tables_WFT hw hag
  exact ⟨h1, h2, (agree_tables hag).2.2, (agree_tables hag).1, (agree_tables hag).2.1⟩

/-- `kfree` of a data frame. -/
theorem kfree_data_step {L : MemLayout} (hL : L.Sane) {s : KState} {T d : Nat} {F : List Nat}
    (hfo : FreeOK L s F) (hw : WFT s.mem T F) (hg : goodFrame L d) (hn : d ∉ F)
    (hd : ¬ IsTablePage s.mem T d) :
    ∃ s1, kfree L s d = .ok s1 ∧ FreeOK L s1 (d :: F) ∧ WFT s1.mem T (d :: F) ∧
      (∀ p, IsTablePage s1.mem T p ↔ IsTablePage s.mem T p) ∧
      (∀ i j k, i < 512 → j < 512 → k < 512 → ent s1.mem T i j k = ent s.mem T i j k) ∧
      SameTable s.mem s1.mem T ∧
      (∀ x, ¬ (d ≤ x ∧ x < d + 4096) → s1.mem x = s.mem x) := by
  obtain ⟨hk, hfo1⟩ := kfree_ok hL hfo hg hn
  have hout : ∀ x, ¬ (d ≤ x ∧ x < d + 4096) →
      write64 (memset s.mem d 1 PGSIZE) d s.freelist x = s.mem x := by
    intro x hx
    unfold PGSIZE
    rw [write64_outside _ _ _ _ (by omega), memset_outside _ _ _ _ _ (by omega)]
  obtain ⟨h1, h2, h3, h4⟩ := data_change hw (goodFrame_al hg) hd hout
  exact ⟨_, hk, hfo1, WFT_cons_free h1 (fun h => hd ((h2 d).mp h)), h2, h3, h4, hout⟩

/-- `kalloc` followed by `memset(mem, 0, PGSIZE)`. -/
theorem kalloc_data_step {L : MemLayout} {s : KState} {T d : Nat} {F1 : List Nat}
    (hfo : FreeOK L s (d :: F1)) (hw : WFT s.mem T (d :: F1)) :
    kalloc s = (d, ⟨memset s.mem d 5 PGSIZE, read64 s.mem d⟩) ∧ d ≠ 0 ∧
      FreeOK L ⟨memset (memset s.mem d 5 PGSIZE) d 0 PGSIZE, read64 s.mem d⟩ F1 ∧
      WFT (memset (memset s.mem d 5 PGSIZE) d 0 PGSIZE) T F1 ∧
      (∀ p, IsTablePage (memset (memset s.mem d 5 PGSIZE) d 0 PGSIZE) T p ↔
        IsTablePage s.mem T p) ∧
      (∀ i j k, i < 512 → j < 512 → k < 512 →
        ent (memset (memset s.mem d 5 PGSIZE) d 0 PGSIZE) T i j k = ent s.mem T i j k) ∧
      (∀ x, ¬ (d ≤ x ∧ x < d + 4096) →
        memset (memset s.mem d 5 PGSIZE) d 0 PGSIZE x = s.mem x) ∧
      (∀ x, d ≤ x → x < d + 4096 → memset (memset s.mem d 5 PGSIZE) d 0 PGSIZE x = 0) := by
  obtain ⟨hk, hd0, hfo1⟩ := kalloc_cons hfo
  have hdal := goodFrame_al (hfo.2.2 d (List.mem_cons_self _ _))
  have hnd := List.nodup_cons.mp hfo.2.1
  have hd : ¬ IsTablePage s.mem T d := fun h => (WFT_page hw h).2.2.2 (List.mem_cons_self _ _)
  have hout : ∀ x, ¬ (d ≤ x ∧ x < d + 4096) →
      memset (memset s.mem d 5 PGSIZE) d 0 PGSIZE x = s.mem x := by
    intro x hx
    unfold PGSIZE
    rw [memset_outside _ _ _ _ _ (by omega), memset_outside _ _ _ _ _ (by omega)]
  obtain ⟨h1, h2, h3, _⟩ := data_change hw hdal hd hout
  refine ⟨hk, hd0, ?_, WFT_mono h1 (fun g hg => List.mem_cons_of_mem _ hg), h2, h3, hout, ?_⟩
  · refine FreeOK_congr hfo1 rfl fun g hg x hx1 hx2 => ?_
    have hgd : g ≠ d := fun e => hnd.1 (e ▸ hg)
    have hga := goodFrame_al (hfo.2.2 g (List.mem_cons_of_mem _ hg))
    show memset (memset s.mem d 5 PGSIZE) d 0 PGSIZE x = memset s.mem d 5 PGSIZE x
    unfold PGSIZE at hga hdal ⊢
    rw [memset_outside _ _ _ _ _ (by omega)]
  · intro x h1 h2
    unfold PGSIZE
    rw [memset_inside _ _ _ _ _ h1 h2]

/-! ## `uvmunmap` -/

theorem uvmunmap_iter {L : MemLayout} {s : KState} {T a bound do_free fuel : Nat}
    {F : List Nat} (hw : WFT s.mem T F) (ha : a < L.MAXVA) (hb : a < bound)
    (hv : pteValid (ent s.mem T (PX 2 a) (PX 1 a) (PX 0 a)))
    (hfl : PTE_FLAGS (ent s.mem T (PX 2 a) (PX 1 a) (PX 0 a)) ≠ PTE_V) :
    uvmunmap_loop L (fuel + 1) s T a bound do_free =
      (if do_free ≠ 0 then kfree L s (PTE2PA (ent s.mem T (PX 2 a) (PX 1 a) (PX 0 a)))
        else .ok s).bind fun s2 =>
          uvmunmap_loop L fuel ⟨write64 s2.mem (l0page s.mem T (PX 2 a) (PX 1 a) + 8 * PX 0 a) 0,
            s2.freelist⟩ T ((a + PGSIZE) % 2 ^ 64) bound do_free := by
  obtain ⟨h2, h1⟩ := ent_valid_tables hv
  have hp := WFT_page hw (Or.inr (Or.inr ⟨_, _, PX_lt 2 a, PX_lt 1 a, h2, h1, rfl⟩))
  have he := ent_of_valid (k := PX 0 a) h2 h1
  rw [he] at hv hfl
  rw [uvmunmap_loop, if_pos hb, walk_ok ha, bind_ok, walk_loop_lookup]
  simp only [if_pos (And.intro h2 h1)]
  rw [if_neg (by omega), if_neg (by unfold pteValid at hv; simpa using hv), if_neg hfl, he]

/-- The loop of `uvmunmap` over `n` mapped pages from `a` on. -/
theorem uvmunmap_loop_spec {L : MemLayout} (hL : L.Sane) {T do_free : Nat} :
    ∀ (n fuel : Nat) (s : KState) (F : List Nat) (a : Nat), n < fuel → FreeOK L s F →
      WFT s.mem T F → a % 4096 = 0 → a + n * 4096 ≤ L.MAXVA →
      (∀ u, u < n →
        pteValid (ent s.mem T (PX 2 (a + u * 4096)) (PX 1 (a + u * 4096)) (PX 0 (a + u * 4096))) ∧
        PTE_FLAGS (ent s.mem T (PX 2 (a + u * 4096)) (PX 1 (a + u * 4096))
          (PX 0 (a + u * 4096))) ≠ PTE_V) →
      (do_free ≠ 0 → (framesOf s.mem T a n).Nodup ∧ ∀ d ∈ framesOf s.mem T a n,
        goodFrame L d ∧ d ∉ F ∧ ¬ IsTablePage s.mem T d) →
      ∃ s', uvmunmap_loop L fuel s T a (a + n * 4096) do_free = .ok s' ∧
        FreeOK L s' ((if do_free ≠ 0 then (framesOf s.mem T a n).reverse else []) ++ F) ∧
        WFT s'.mem T ((if do_free ≠ 0 then (framesOf s.mem T a n).reverse else []) ++ F) ∧
        (∀ q, IsTablePage s'.mem T q ↔ IsTablePage s.mem T q) ∧
        EntUpd s.mem s'.mem T a n (fun _ => 0) ∧
        (∀ x, s'.mem x ≠ s.mem x →
          (do_free ≠ 0 ∧ ∃ d, d ∈ framesOf s.mem T a n ∧ d ≤ x ∧ x < d + 4096) ∨
          (∃ q, IsTablePage s.mem T q ∧ q ≤ x ∧ x < q + 4096)) := by
  have hM := hL.maxva_le
  intro n
  induction n with
  | zero =>
    intro fuel s F a hfuel hfo hw ha hlt hmap hfr
    obtain ⟨fuel, rfl⟩ : ∃ f, fuel = f + 1 := ⟨fuel - 1, by omega⟩
    refine ⟨s, ?_, ?_, ?_, fun q => Iff.rfl, entUpd_zero (fun _ _ _ _ _ _ => rfl),
      fun x hx => absurd rfl hx⟩
    · rw [uvmunmap_loop, if_neg (by omega)]
    · simpa [framesOf] using hfo
    · simpa [framesOf] using hw
  | succ n ih =>
    intro fuel s F a hfuel hfo hw ha hlt hmap hfr
    obtain ⟨fuel, rfl⟩ : ∃ f, fuel = f + 1 := ⟨fuel - 1, by omega⟩
    have hi := PX_lt 2 a
    have hj := PX_lt 1 a
    have hk := PX_lt 0 a
    have hm0 := hmap 0 (by omega)
    simp only [Nat.zero_mul, Nat.add_zero] at hm0
    obtain ⟨hv2, hv1⟩ := ent_valid_tables hm0.1
    rw [uvmunmap_iter hw (by omega) (by omega) hm0.1 hm0.2]
    have ea : (a + PGSIZE) % 2 ^ 64 = a + 4096 := by unfold PGSIZE; omega
    have el : a + (n + 1) * 4096 = a + 4096 + n * 4096 := by omega
    rw [ea, el]
    -- the state after the optional `kfree`
    have hstep : ∃ s1 F1, (if do_free ≠ 0 then
          kfree L s (PTE2PA (ent s.mem T (PX 2 a) (PX 1 a) (PX 0 a))) else .ok s) = .ok s1 ∧
        F1 = (if do_free ≠ 0 then [frameOf s.mem T a] else []) ++ F ∧
        FreeOK L s1 F1 ∧ WFT s1.mem T F1 ∧
        (∀ p, IsTablePage s1.mem T p ↔ IsTablePage s.mem T p) ∧
        (∀ i j k, i < 512 → j < 512 → k < 512 → ent s1.mem T i j k = ent s.mem T i j k) ∧
        SameTable s.mem s1.mem T ∧
        (∀ x, s1.mem x ≠ s.mem x → do_free ≠ 0 ∧ frameOf s.mem T a ≤ x ∧
          x < frameOf s.mem T a + 4096) := by
      by_cases hdf : do_free ≠ 0
      · obtain ⟨hnd, hgood⟩ := hfr hdf
        have hd0 := hgood (frameOf s.mem T a) (by unfold framesOf; exact List.mem_cons_self _ _)
        obtain ⟨s1, hk1, hfo1, hw1, hpg1, hent1, hst1, hout1⟩ :=
          kfree_data_step hL hfo hw hd0.1 hd0.2.1 hd0.2.2
        refine ⟨s1, _, by rw [if_pos hdf]; exact hk1, rfl, by simpa [hdf] using hfo1,
          by simpa [hdf] using hw1, hpg1, hent1, hst1, fun x hx => ⟨hdf, ?_⟩⟩
        by_contra hc
        exact hx (hout1 x hc)
      · refine ⟨s, _, by rw [if_neg hdf], rfl, by simpa [hdf] using hfo,
          by simpa [hdf] using hw, fun _ => Iff.rfl, fun _ _ _ _ _ _ => rfl,
          ⟨fun _ _ => rfl, fun _ _ _ _ _ => rfl⟩, fun x hx => absurd rfl hx⟩
    obtain ⟨s1, F1, hk1, hF1, hfo1, hw1, hpg1, hent1, hst1, hfoot1⟩ := hstep
    rw [hk1, bind_ok]
    obtain ⟨hv2', _, hp0⟩ := sameTable_l0page (j := PX 1 a) hst1 hi hj hv2
    have hv1' : pteValid (l1E s1.mem T (PX 2 a) (PX 1 a)) := by
      rw [hst1.2 _ _ hi hj hv2]; exact hv1
    obtain ⟨hts2, he1, he2⟩ := leaf_step (v := 0) hfo1 hw1 hi hj hk hv2' hv1' (by decide)
    rw [hp0] at hts2 he1 he2
    generalize hs2 : (⟨write64 s1.mem (l0page s.mem T (PX 2 a) (PX 1 a) + 8 * PX 0 a) 0,
      s1.freelist⟩ : KState) = s2 at hts2
    have hm2 : s2.mem = write64 s1.mem (l0page s.mem T (PX 2 a) (PX 1 a) + 8 * PX 0 a) 0 := by
      rw [← hs2]
    rw [← hm2] at he1 he2
    have hent2 : ∀ u, u < n →
        ent s2.mem T (PX 2 (a + 4096 + u * 4096)) (PX 1 (a + 4096 + u * 4096))
          (PX 0 (a + 4096 + u * 4096)) =
        ent s.mem T (PX 2 (a + 4096 + u * 4096)) (PX 1 (a + 4096 + u * 4096))
          (PX 0 (a + 4096 + u * 4096)) := by
      intro u hu
      have hne := idx_ne_succ (a := a) (u := u) ha (by omega)
      rw [he2 _ _ _ (PX_lt _ _) (PX_lt _ _) (PX_lt _ _) (by omega)]
      exact hent1 _ _ _ (PX_lt _ _) (PX_lt _ _) (PX_lt _ _)
    have hfr2 := framesOf_congr (T := T) n (a + 4096) hent2
    have hpg2 : ∀ q, IsTablePage s2.mem T q ↔ IsTablePage s.mem T q := fun q => by
      rw [hts2.pages, hpg1]; simp
    obtain ⟨s', hres, hfo', hw', hpg', hupd', hfoot'⟩ := ih fuel s2 F1 (a + 4096) (by omega)
      hts2.free hts2.wft (by omega) (by omega)
      (fun u hu => by
        rw [hent2 u hu]
        have := hmap (u + 1) (by omega)
        rw [show a + (u + 1) * 4096 = a + 4096 + u * 4096 by omega] at this
        exact this)
      (fun hdf => by
        obtain ⟨hnd, hgood⟩ := hfr hdf
        unfold framesOf at hnd hgood
        rw [hfr2]
        have hnd' := List.nodup_cons.mp hnd
        refine ⟨hnd'.2, fun d hd => ?_⟩
        have hg := hgood d (List.mem_cons_of_mem _ hd)
        refine ⟨hg.1, ?_, fun h => hg.2.2 ((hpg2 d).mp h)⟩
        rw [hF1, if_pos hdf]
        intro hmem
        rcases List.mem_append.mp hmem with h | h
        · rw [List.mem_singleton] at h
          exact hnd'.1 (h ▸ hd)
        · exact hg.2.1 h)
    have hlist : (if do_free ≠ 0 then (framesOf s2.mem T (a + 4096) n).reverse else []) ++ F1 =
        (if do_free ≠ 0 then (framesOf s.mem T a (n + 1)).reverse else []) ++ F := by
      rw [hF1, hfr2]
      by_cases hdf : do_free ≠ 0
      · simp only [if_pos hdf]
        show _ = (frameOf s.mem T a :: framesOf s.mem T (a + 4096) n).reverse ++ F
        rw [List.reverse_cons, List.append_assoc]
      · simp only [if_neg hdf, List.nil_append]
    rw [hlist] at hfo' hw'
    refine ⟨s', hres, hfo', hw', fun q => by rw [hpg', hpg2], ?_, fun x hx => ?_⟩
    · refine @entUpd_cons s.mem s2.mem s'.mem T a n (fun _ => 0) (entUpd_one rfl he1 ?_) hupd' ha
        (by omega)
      intro i j k hi' hj' hk' hne
      rw [he2 i j k hi' hj' hk' hne]
      exact hent1 i j k hi' hj' hk'
    · by_cases e2 : s2.mem x = s.mem x
      · rcases hfoot' x (by rw [e2]; exact hx) with ⟨hdf, d, hd, hx1⟩ | ⟨q, hq, hx1⟩
        · rw [hfr2] at hd
          exact Or.inl ⟨hdf, d, by unfold framesOf; exact List.mem_cons_of_mem _ hd, hx1⟩
        · exact Or.inr ⟨q, (hpg2 q).mp hq, hx1⟩
      · by_cases e1 : s1.mem x = s.mem x
        · rcases hts2.foot x (by rw [e1]; exact e2) with ⟨f, hf, _⟩ | ⟨q, hq, hx1⟩
          · exact absurd hf (List.not_mem_nil _)
          · exact Or.inr ⟨q, (hpg1 q).mp hq, hx1⟩
        · obtain ⟨hdf, hx1⟩ := hfoot1 x e1
          exact Or.inl ⟨hdf, _, by unfold framesOf; exact List.mem_cons_self _ _, hx1⟩

theorem PGROUNDUP_facts (x : Nat) (hx : x + 4095 < 2 ^ 64) :
    PGROUNDUP x % 4096 = 0 ∧ x ≤ PGROUNDUP x ∧ PGROUNDUP x < x + 4096 := by
  rw [PGROUNDUP_eq, Nat.mod_eq_of_lt hx]; omega

theorem PGROUNDUP_aligned (x : Nat) : PGROUNDUP x % 4096 = 0 ∧ PGROUNDUP x < 2 ^ 64 := by
  rw [PGROUNDUP_eq]; omega

theorem PGROUNDUP_mono {x y : Nat} (h : x ≤ y) (hy : y + 4095 < 2 ^ 64) :
    PGROUNDUP x ≤ PGROUNDUP y := by
  rw [PGROUNDUP_eq, PGROUNDUP_eq, Nat.mod_eq_of_lt hy, Nat.mod_eq_of_lt (by omega)]; omega

theorem isLeaf_flags {e : Nat} (h : isLeaf e) : pteValid e ∧ PTE_FLAGS e ≠ PTE_V := by
  refine ⟨h.1, fun hc => h.2 ?_⟩
  unfold PTE_FLAGS at hc
  have : e &&& (PTE_R ||| PTE_W ||| PTE_X) = (e &&& 0x3FF) &&& 14 := by
    rw [Nat.and_assoc]; rfl
  rw [this, hc]; rfl

theorem leafAt_some {L : MemLayout} {s : KState} {T va e : Nat} {F : List Nat}
    (hw : WFT s.mem T F) (h : leafAt L s T va = some e) :
    va < L.MAXVA ∧ ent s.mem T (PX 2 va) (PX 1 va) (PX 0 va) = e ∧ pteAt L s T va = e ∧
      pteValid e := by
  rw [leafAt_eq] at h
  by_cases hv : pteValid (pteAt L s T va)
  · rw [if_pos hv] at h
    have he : pteAt L s T va = e := Option.some.inj h
    have hlt : va < L.MAXVA := by
      by_contra hc
      rw [pteAt_high (by omega)] at hv
      exact not_pteValid_zero hv
    exact ⟨hlt, by rw [← pteAt_eq hw hlt]; exact he, he, he ▸ hv⟩
  · rw [if_neg hv] at h; cases h

theorem leafFrames_eq {L : MemLayout} {s : KState} {T : Nat} {F : List Nat}
    (hw : WFT s.mem T F) : ∀ (n a : Nat), a + n * 4096 ≤ L.MAXVA →
      leafFrames L s T a n = framesOf s.mem T a n
  | 0, _, _ => rfl
  | n + 1, a, h => by
    show PTE2PA (pteAt L s T a) :: leafFrames L s T (a + PGSIZE) n =
      frameOf s.mem T a :: framesOf s.mem T (a + 4096) n
    rw [pteAt_eq hw (by omega), show a + PGSIZE = a + 4096 from rfl,
      leafFrames_eq hw n (a + 4096) (by omega)]
    rfl

/-- `uvmunmap` of `npages` mapped pages. -/
theorem uvmunmap_spec {L : MemLayout} (hL : L.Sane) {s : KState} {T va npages do_free : Nat}
    {F : List Nat} (hfo : FreeOK L s F) (hw : WFT s.mem T F) (hva : va % 4096 = 0)
    (hlt : va + npages * 4096 ≤ L.MAXVA)
    (hmap : ∀ u, u < npages →
      pteValid (ent s.mem T (PX 2 (va + u * 4096)) (PX 1 (va + u * 4096))
        (PX 0 (va + u * 4096))) ∧
      PTE_FLAGS (ent s.mem T (PX 2 (va + u * 4096)) (PX 1 (va + u * 4096))
        (PX 0 (va + u * 4096))) ≠ PTE_V)
    (hfr : do_free ≠ 0 → (framesOf s.mem T va npages).Nodup ∧ ∀ d ∈ framesOf s.mem T va npages,
      goodFrame L d ∧ d ∉ F ∧ ¬ IsTablePage s.mem T d) :
    ∃ s', uvmunmap L s T va npages do_free = .ok s' ∧
      FreeOK L s' ((if do_free ≠ 0 then (framesOf s.mem T va npages).reverse else []) ++ F) ∧
      WFT s'.mem T ((if do_free ≠ 0 then (framesOf s.mem T va npages).reverse else []) ++ F) ∧
      (∀ q, IsTablePage s'.mem T q ↔ IsTablePage s.mem T q) ∧
      EntUpd s.mem s'.mem T va npages (fun _ => 0) ∧
      (∀ x, s'.mem x ≠ s.mem x →
        (do_free ≠ 0 ∧ ∃ d, d ∈ framesOf s.mem T va npages ∧ d ≤ x ∧ x < d + 4096) ∨
        (∃ q, IsTablePage s.mem T q ∧ q ≤ x ∧ x < q + 4096)) := by
  have hM := hL.maxva_le
  have hu : uvmunmap L s T va npages do_free =
      uvmunmap_loop L (L.MAXVA / PGSIZE + 2) s T va (va + npages * 4096) do_free := by
    unfold uvmunmap PGSIZE
    rw [if_neg (by omega), Nat.mod_eq_of_lt (by omega)]
  rw [hu]
  exact uvmunmap_loop_spec hL npages _ s F va (by unfold PGSIZE; omega) hfo hw hva hlt hmap hfr

theorem viaInt_small {q : Nat} (h : q < 2 ^ 31) : viaInt q = q := by
  unfold viaInt
  rw [Nat.mod_eq_of_lt (by omega), if_pos h]

theorem uvmdealloc_noop (L : MemLayout) (s : KState) (T oldsz newsz : Nat)
    (h : oldsz ≤ newsz) : uvmdealloc L s T oldsz newsz = .ok (oldsz, s) := by
  unfold uvmdealloc; rw [if_pos h]

theorem uvmdealloc_same_page (L : MemLayout) (s : KState) (T oldsz newsz : Nat)
    (h : newsz < oldsz) (h2 : ¬ PGROUNDUP newsz < PGROUNDUP oldsz) :
    uvmdealloc L s T oldsz newsz = .ok (newsz, s) := by
  unfold uvmdealloc; rw [if_neg (by omega), if_neg h2]

/-- `uvmdealloc` when the pages between the rounded sizes are mapped. -/
theorem uvmdealloc_spec {L : MemLayout} (hL : L.Sane) {s : KState} {T oldsz newsz : Nat}
    {F : List Nat} (hfo : FreeOK L s F) (hw : WFT s.mem T F) (hlt : newsz < oldsz)
    (hbound : PGROUNDUP newsz +
      (PGROUNDUP oldsz - PGROUNDUP newsz) / 4096 * 4096 ≤ L.MAXVA)
    (hmap : ∀ u, u < (PGROUNDUP oldsz - PGROUNDUP newsz) / 4096 →
      pteValid (ent s.mem T (PX 2 (PGROUNDUP newsz + u * 4096))
        (PX 1 (PGROUNDUP newsz + u * 4096)) (PX 0 (PGROUNDUP newsz + u * 4096))) ∧
      PTE_FLAGS (ent s.mem T (PX 2 (PGROUNDUP newsz + u * 4096))
        (PX 1 (PGROUNDUP newsz + u * 4096)) (PX 0 (PGROUNDUP newsz + u * 4096))) ≠ PTE_V)
    (hfr : (framesOf s.mem T (PGROUNDUP newsz)
        ((PGROUNDUP oldsz - PGROUNDUP newsz) / 4096)).Nodup ∧
      ∀ d ∈ framesOf s.mem T (PGROUNDUP newsz) ((PGROUNDUP oldsz - PGROUNDUP newsz) / 4096),
        goodFrame L d ∧ d ∉ F ∧ ¬ IsTablePage s.mem T d) :
    ∃ s', uvmdealloc L s T oldsz newsz = .ok (newsz, s') ∧
      FreeOK L s' ((framesOf s.mem T (PGROUNDUP newsz)
        ((PGROUNDUP oldsz - PGROUNDUP newsz) / 4096)).reverse ++ F) ∧
      WFT s'.mem T ((framesOf s.mem T (PGROUNDUP newsz)
        ((PGROUNDUP oldsz - PGROUNDUP newsz) / 4096)).reverse ++ F) ∧
      (∀ q, IsTablePage s'.mem T q ↔ IsTablePage s.mem T q) ∧
      EntUpd s.mem s'.mem T (PGROUNDUP newsz) ((PGROUNDUP oldsz - PGROUNDUP newsz) / 4096)
        (fun _ => 0) ∧
      (∀ x, s'.mem x ≠ s.mem x →
        (∃ d, d ∈ framesOf s.mem T (PGROUNDUP newsz)
          ((PGROUNDUP oldsz - PGROUNDUP newsz) / 4096) ∧ d ≤ x ∧ x < d + 4096) ∨
        (∃ q, IsTablePage s.mem T q ∧ q ≤ x ∧ x < q + 4096)) := by
  have hM := hL.maxva_le
  by_cases h2 : PGROUNDUP newsz < PGROUNDUP oldsz
  · obtain ⟨s', hres, hfo', hw', hpg, hupd, hfoot⟩ := @uvmunmap_spec L hL s T (PGROUNDUP newsz)
      ((PGROUNDUP oldsz - PGROUNDUP newsz) / 4096) 1 F hfo hw
      (PGROUNDUP_aligned newsz).1 hbound hmap (fun _ => hfr)
    simp only [ne_eq, one_ne_zero, not_false_eq_true, if_true, true_and] at hfo' hw' hfoot
    refine ⟨s', ?_, hfo', hw', hpg, hupd, hfoot⟩
    unfold uvmdealloc
    rw [if_neg (by omega), if_pos h2]
    simp only
    rw [show PGSIZE = 4096 from rfl, viaInt_small (by omega), hres, bind_ok]
  · have hn : (PGROUNDUP oldsz - PGROUNDUP newsz) / 4096 = 0 := by omega
    rw [hn]
    refine ⟨s, uvmdealloc_same_page L s T oldsz newsz hlt h2, by simpa [framesOf] using hfo,
      by simpa [framesOf] using hw, fun _ => Iff.rfl, entUpd_zero (fun _ _ _ _ _ _ => rfl),
      fun x hx => absurd rfl hx⟩

theorem entUpd_val_congr {m m' : Mem} {T a t : Nat} {val val' : Nat → Nat}
    (h : EntUpd m m' T a t val) (hv : ∀ u, u < t → val u = val' u) : EntUpd m m' T a t val' :=
  ⟨fun u hu => by rw [← hv u hu]; exact h.1 u hu, h.2⟩

theorem PGROUNDDOWN_aligned_eq {a : Nat} (ha : a % 4096 = 0) (hlt : a < 2 ^ 64) :
    PGROUNDDOWN a = a := by
  rw [PGROUNDDOWN_eq, Nat.mod_eq_of_lt hlt]; omega

theorem PGROUNDUP_aligned_eq {a : Nat} (ha : a % 4096 = 0) (hlt : a + 4095 < 2 ^ 64) :
    PGROUNDUP a = a := by
  rw [PGROUNDUP_eq, Nat.mod_eq_of_lt hlt]; omega

/-- `mappages` of one page at the page-aligned address `a`. -/
theorem mappages_single {L : MemLayout} (hL : L.Sane) {s : KState} {T a pa perm : Nat}
    {F : List Nat} (hfo : FreeOK L s F) (hw : WFT s.mem T F) (ha : a % 4096 = 0)
    (hlt : a < L.MAXVA) (hperm : perm < 2 ^ 64) (hpa : pa < 2 ^ 64) :
    (∃ s' P F', mappages L s T a PGSIZE pa perm = .ok (0, s') ∧ TableStep L T s F s' F' P ∧
      P.length ≤ 2 ∧ EntUpd s.mem s'.mem T a 1 (fun _ => PA2PTE pa ||| perm ||| PTE_V) ∧
      ¬ pteValid (ent s.mem T (PX 2 a) (PX 1 a) (PX 0 a))) ∨
    (∃ s' P, mappages L s T a PGSIZE pa perm = .ok (-1, s') ∧ TableStep L T s F s' [] P ∧
      P.length ≤ 1 ∧
      ∀ i j k, i < 512 → j < 512 → k < 512 → ent s'.mem T i j k = ent s.mem T i j k) ∨
    (mappages L s T a PGSIZE pa perm = .panic .mappagesRemap ∧
      pteValid (ent s.mem T (PX 2 a) (PX 1 a) (PX 0 a))) := by
  have hM := hL.maxva_le
  have hMa := hL.maxva_al
  have e1 : PGROUNDDOWN a = a := PGROUNDDOWN_aligned_eq ha (by omega)
  have e2 : PGROUNDDOWN (a + PGSIZE - 1) = a := by
    unfold PGSIZE; rw [PGROUNDDOWN_eq, Nat.mod_eq_of_lt (by omega)]; omega
  obtain ⟨n, hn, hcase⟩ := @mappages_spec L hL s T a PGSIZE pa perm F hfo hw
    (by decide) (by unfold PGSIZE; omega) hperm hpa
  rw [e1, e2] at hn
  have hn0 : n = 0 := by omega
  subst hn0
  rw [e1] at hcase
  rcases hcase with ⟨s', P, F', he, hts, hl, hinst, hinv⟩ | ⟨s', P, F', t, ht, he, hts, hF', hl, hinst⟩ |
    ⟨he, t, ht, hv⟩
  · left
    refine ⟨s', P, F', he, hts, by omega,
      entUpd_val_congr (installed_entUpd hinst) (fun u hu => ?_), by simpa using hinv 0 (by omega)⟩
    have : u = 0 := by omega
    subst this
    show PA2PTE ((pa + 0 * 4096) % 2 ^ 64) ||| perm ||| PTE_V = _
    rw [Nat.zero_mul, Nat.add_zero, Nat.mod_eq_of_lt hpa]
  · right; left
    have ht0 : t = 0 := by omega
    subst ht0 hF'
    exact ⟨s', P, he, hts, by omega, fun i j k hi hj hk =>
      hinst.2 i j k hi hj hk (fun u hu => absurd hu (Nat.not_lt_zero _))⟩
  · right; right
    have ht0 : t = 0 := by omega
    subst ht0
    exact ⟨he, by simpa using hv⟩

theorem framesOf_snoc {m : Mem} {T : Nat} : ∀ (n a : Nat),
    framesOf m T a (n + 1) = framesOf m T a n ++ [frameOf m T (a + n * 4096)]
  | 0, a => by simp [framesOf]
  | n + 1, a => by
    show frameOf m T a :: framesOf m T (a + 4096) (n + 1) =
      (frameOf m T a :: framesOf m T (a + 4096) n) ++ [frameOf m T (a + (n + 1) * 4096)]
    rw [framesOf_snoc n (a + 4096), show a + 4096 + n * 4096 = a + (n + 1) * 4096 by omega]
    rfl

/-- The rollback of `uvmalloc`: `uvmdealloc` from the current page down to the old size. -/
theorem rollback {L : MemLayout} (hL : L.Sane) {s : KState} {T lo t0 : Nat} {F : List Nat}
    (hfo : FreeOK L s F) (hw : WFT s.mem T F) (hlo : lo % 4096 = 0)
    (hlt : lo + t0 * 4096 ≤ L.MAXVA)
    (hmap : ∀ u, u < t0 →
      pteValid (ent s.mem T (PX 2 (lo + u * 4096)) (PX 1 (lo + u * 4096))
        (PX 0 (lo + u * 4096))) ∧
      PTE_FLAGS (ent s.mem T (PX 2 (lo + u * 4096)) (PX 1 (lo + u * 4096))
        (PX 0 (lo + u * 4096))) ≠ PTE_V)
    (hfr : (framesOf s.mem T lo t0).Nodup ∧ ∀ d ∈ framesOf s.mem T lo t0,
      goodFrame L d ∧ d ∉ F ∧ ¬ IsTablePage s.mem T d) :
    ∃ r s', uvmdealloc L s T (lo + t0 * 4096) lo = .ok (r, s') ∧
      FreeOK L s' ((framesOf s.mem T lo t0).reverse ++ F) ∧
      WFT s'.mem T ((framesOf s.mem T lo t0).reverse ++ F) ∧
      (∀ q, IsTablePage s'.mem T q ↔ IsTablePage s.mem T q) ∧
      EntUpd s.mem s'.mem T lo t0 (fun _ => 0) ∧
      (∀ x, s'.mem x ≠ s.mem x →
        (∃ d, d ∈ framesOf s.mem T lo t0 ∧ d ≤ x ∧ x < d + 4096) ∨
        (∃ q, IsTablePage s.mem T q ∧ q ≤ x ∧ x < q + 4096)) := by
  have hM := hL.maxva_le
  cases t0 with
  | zero =>
    refine ⟨_, s, uvmdealloc_noop L s T _ lo (by omega), by simpa [framesOf] using hfo,
      by simpa [framesOf] using hw, fun _ => Iff.rfl, entUpd_zero (fun _ _ _ _ _ _ => rfl),
      fun x hx => absurd rfl hx⟩
  | succ t =>
    have e1 : PGROUNDUP lo = lo := PGROUNDUP_aligned_eq hlo (by omega)
    have e2 : PGROUNDUP (lo + (t + 1) * 4096) = lo + (t + 1) * 4096 :=
      PGROUNDUP_aligned_eq (by omega) (by omega)
    have e3 : (lo + (t + 1) * 4096 - lo) / 4096 = t + 1 := by omega
    obtain ⟨s', hres, hfo', hw', hpg, hupd, hfoot⟩ :=
      @uvmdealloc_spec L hL s T (lo + (t + 1) * 4096) lo F
      hfo hw (by omega) (by rw [e1, e2, e3]; exact hlt)
      (by rw [e1, e2, e3]; exact hmap) (by rw [e1, e2, e3]; exact hfr)
    rw [e1, e2, e3] at hfo' hw' hupd hfoot
    exact ⟨_, s', hres, hfo', hw', hpg, hupd, hfoot⟩

/-! ## `uvmalloc` -/

theorem perm_flags_lt {perm : Nat} (h : perm < 1024) : perm ||| PTE_V < 1024 :=
  Nat.or_lt_two_pow (n := 10) h (by decide)

theorem entry_pa {d perm : Nat} (hd : d % 4096 = 0) (hlt : d < 2 ^ 64) (hp : perm < 1024) :
    PTE2PA (PA2PTE d ||| perm ||| PTE_V) = d := by
  rw [Nat.or_assoc, or_flags_eq _ _ (perm_flags_lt hp), PTE2PA_eq, PA2PTE_eq]
  have := perm_flags_lt hp
  omega

theorem entry_flags {d perm : Nat} (hp : perm < 1024) :
    PTE_FLAGS (PA2PTE d ||| perm ||| PTE_V) = perm ||| PTE_V := by
  rw [Nat.or_assoc, or_flags_eq _ _ (perm_flags_lt hp), PTE_FLAGS_eq, PA2PTE_eq]
  have := perm_flags_lt hp
  omega

theorem uflags_ne : (PTE_W ||| PTE_X ||| PTE_R ||| PTE_U) ||| PTE_V ≠ PTE_V := by decide

theorem entUpd_pre {m0 m1 m2 : Mem} {T a t : Nat} {val : Nat → Nat}
    (h : EntUpd m1 m2 T a t val)
    (h0 : ∀ i j k, i < 512 → j < 512 → k < 512 → ent m1 T i j k = ent m0 T i j k) :
    EntUpd m0 m2 T a t val :=
  ⟨h.1, fun i j k hi hj hk hu => by rw [h.2 i j k hi hj hk hu]; exact h0 i j k hi hj hk⟩

theorem uvmalloc_loop_done (L : MemLayout) (fuel : Nat) (s : KState) (T a lo newsz : Nat)
    (h : ¬ a < newsz) : uvmalloc_loop L (fuel + 1) s T a lo newsz = .ok (newsz, s) := by
  rw [uvmalloc_loop, if_neg h]

theorem uvmalloc_loop_nil (L : MemLayout) (fuel : Nat) (s : KState) (T a lo newsz : Nat)
    (h : a < newsz) (hk : kalloc s = (0, s)) :
    uvmalloc_loop L (fuel + 1) s T a lo newsz =
      (uvmdealloc L s T a lo).bind fun d => .ok (0, d.2) := by
  rw [uvmalloc_loop, if_pos h]
  simp only [hk, if_true]

theorem uvmalloc_loop_cons (L : MemLayout) (fuel : Nat) (s : KState) (m1 : Mem)
    (fl1 T a lo newsz d : Nat)
    (h : a < newsz) (hk : kalloc s = (d, ⟨m1, fl1⟩)) (hd : d ≠ 0) :
    uvmalloc_loop L (fuel + 1) s T a lo newsz =
      (mappages L ⟨memset m1 d 0 PGSIZE, fl1⟩ T a PGSIZE d
        (PTE_W ||| PTE_X ||| PTE_R ||| PTE_U)).bind fun mp =>
          if mp.1 ≠ 0 then
            (kfree L mp.2 d).bind fun s4 =>
              (uvmdealloc L s4 T a lo).bind fun dd => .ok (0, dd.2)
          else uvmalloc_loop L fuel mp.2 T ((a + PGSIZE) % 2 ^ 64) lo newsz := by
  rw [uvmalloc_loop, if_pos h]
  simp only [hk, if_neg hd]

/-! ## Shared steps of the growing loops (`uvmalloc`, `uvmcopy`) -/

theorem ent_eq_frames {m m' : Mem} {T : Nat}
    (h : ∀ i j k, i < 512 → j < 512 → k < 512 → ent m' T i j k = ent m T i j k) (n a : Nat) :
    framesOf m' T a n = framesOf m T a n :=
  framesOf_congr n a fun _ _ => h _ _ _ (PX_lt _ _) (PX_lt _ _) (PX_lt _ _)

/-- What a rollback needs, in a state whose level-0 entries are those of `s`. -/
theorem rollback_pre {L : MemLayout} {s s4 : KState} {T lo t0 : Nat} {F F4 Pt : List Nat}
    (hent : ∀ i j k, i < 512 → j < 512 → k < 512 → ent s4.mem T i j k = ent s.mem T i j k)
    (hpg : ∀ q, IsTablePage s4.mem T q ↔ IsTablePage s.mem T q ∨ q ∈ Pt)
    (hsub : ∀ f, f ∈ Pt ∨ f ∈ F4 → f ∈ F)
    (hmap : ∀ u, u < t0 →
      pteValid (ent s.mem T (PX 2 (lo + u * 4096)) (PX 1 (lo + u * 4096))
        (PX 0 (lo + u * 4096))) ∧
      PTE_FLAGS (ent s.mem T (PX 2 (lo + u * 4096)) (PX 1 (lo + u * 4096))
        (PX 0 (lo + u * 4096))) ≠ PTE_V)
    (hfr : (framesOf s.mem T lo t0).Nodup ∧ ∀ d ∈ framesOf s.mem T lo t0,
      goodFrame L d ∧ d ∉ F ∧ ¬ IsTablePage s.mem T d) :
    (∀ u, u < t0 →
      pteValid (ent s4.mem T (PX 2 (lo + u * 4096)) (PX 1 (lo + u * 4096))
        (PX 0 (lo + u * 4096))) ∧
      PTE_FLAGS (ent s4.mem T (PX 2 (lo + u * 4096)) (PX 1 (lo + u * 4096))
        (PX 0 (lo + u * 4096))) ≠ PTE_V) ∧
    ((framesOf s4.mem T lo t0).Nodup ∧ ∀ d ∈ framesOf s4.mem T lo t0,
      goodFrame L d ∧ d ∉ F4 ∧ ¬ IsTablePage s4.mem T d) := by
  constructor
  · intro u hu
    rw [hent _ _ _ (PX_lt _ _) (PX_lt _ _) (PX_lt _ _)]
    exact hmap u hu
  · rw [ent_eq_frames hent]
    refine ⟨hfr.1, fun d hd => ?_⟩
    have hg := hfr.2 d hd
    refine ⟨hg.1, fun h => hg.2.1 (hsub d (Or.inr h)), fun h => ?_⟩
    rcases (hpg d).mp h with h | h
    · exact hg.2.2 h
    · exact hg.2.1 (hsub d (Or.inl h))

/-- The state after a rollback satisfies `GrowFail`. -/
theorem growFail_of_rollback {L : MemLayout} {s s4 s' : KState} {T lo t0 : Nat}
    {F F4 Pt : List Nat}
    (hent : ∀ i j k, i < 512 → j < 512 → k < 512 → ent s4.mem T i j k = ent s.mem T i j k)
    (hpg : ∀ q, IsTablePage s4.mem T q ↔ IsTablePage s.mem T q ∨ q ∈ Pt)
    (hperm : F.Perm (Pt ++ F4))
    (hfo : FreeOK L s' ((framesOf s4.mem T lo t0).reverse ++ F4))
    (hw : WFT s'.mem T ((framesOf s4.mem T lo t0).reverse ++ F4))
    (hpg' : ∀ q, IsTablePage s'.mem T q ↔ IsTablePage s4.mem T q)
    (hupd : EntUpd s4.mem s'.mem T lo t0 (fun _ => 0))
    (hfoot4 : ∀ x, s4.mem x ≠ s.mem x → (∃ f, f ∈ F ∧ f ≤ x ∧ x < f + 4096) ∨
      (∃ q, IsTablePage s.mem T q ∧ q ≤ x ∧ x < q + 4096))
    (hfoot : ∀ x, s'.mem x ≠ s4.mem x →
      (∃ d, d ∈ framesOf s4.mem T lo t0 ∧ d ≤ x ∧ x < d + 4096) ∨
      (∃ q, IsTablePage s4.mem T q ∧ q ≤ x ∧ x < q + 4096)) :
    GrowFail L T s F lo t0 s' Pt ((framesOf s4.mem T lo t0).reverse ++ F4) := by
  refine ⟨hfo, hw, ?_, fun q => by rw [hpg', hpg], hupd.1, fun i j k hi hj hk hu => ?_,
    fun x hx => ?_⟩
  · rw [ent_eq_frames hent]
    rw [List.perm_iff_count] at hperm ⊢
    intro x
    have := hperm x
    simp only [List.count_append, List.count_reverse] at this ⊢
    omega
  · left
    rw [hupd.2 i j k hi hj hk hu]
    exact hent i j k hi hj hk
  · by_cases e4 : s4.mem x = s.mem x
    · rcases hfoot x (by rw [e4]; exact hx) with ⟨f, hf, hx1⟩ | ⟨q, hq, hx1⟩
      · rw [ent_eq_frames hent] at hf
        exact Or.inl ⟨f, List.mem_append_left _ hf, hx1⟩
      · rcases (hpg q).mp hq with h | h
        · exact Or.inr ⟨q, h, hx1⟩
        · exact Or.inl ⟨q, List.mem_append_right _
            (hperm.mem_iff.mpr (List.mem_append_left _ h)), hx1⟩
    · rcases hfoot4 x e4 with ⟨f, hf, hx1⟩ | h
      · exact Or.inl ⟨f, List.mem_append_right _ hf, hx1⟩
      · exact Or.inr h

/-- A completed iteration of a growing loop establishes the loop invariant for the next
page. -/
theorem grow_iter_ok {L : MemLayout} (hL : L.Sane) {s s2 s3 : KState}
    {T lo t0 d perm : Nat} {F1 F' P : List Nat}
    (hfo : FreeOK L s (d :: F1)) (hw : WFT s.mem T (d :: F1))
    (hpg2 : ∀ q, IsTablePage s2.mem T q ↔ IsTablePage s.mem T q)
    (hent2 : ∀ i j k, i < 512 → j < 512 → k < 512 → ent s2.mem T i j k = ent s.mem T i j k)
    (hts : TableStep L T s2 F1 s3 F' P)
    (hupd : EntUpd s2.mem s3.mem T (lo + t0 * 4096) 1 (fun _ => PA2PTE d ||| perm ||| PTE_V))
    (hperm : perm < 1024) (hpv : perm ||| PTE_V ≠ PTE_V)
    (hlo : lo % 4096 = 0) (hlt : lo + t0 * 4096 < L.MAXVA)
    (hmap : ∀ u, u < t0 →
      pteValid (ent s.mem T (PX 2 (lo + u * 4096)) (PX 1 (lo + u * 4096))
        (PX 0 (lo + u * 4096))) ∧
      PTE_FLAGS (ent s.mem T (PX 2 (lo + u * 4096)) (PX 1 (lo + u * 4096))
        (PX 0 (lo + u * 4096))) ≠ PTE_V)
    (hfr : (framesOf s.mem T lo t0).Nodup ∧ ∀ f ∈ framesOf s.mem T lo t0,
      goodFrame L f ∧ f ∉ d :: F1 ∧ ¬ IsTablePage s.mem T f) :
    (∀ u, u < t0 + 1 →
      pteValid (ent s3.mem T (PX 2 (lo + u * 4096)) (PX 1 (lo + u * 4096))
        (PX 0 (lo + u * 4096))) ∧
      PTE_FLAGS (ent s3.mem T (PX 2 (lo + u * 4096)) (PX 1 (lo + u * 4096))
        (PX 0 (lo + u * 4096))) ≠ PTE_V) ∧
    framesOf s3.mem T lo (t0 + 1) = framesOf s.mem T lo t0 ++ [d] ∧
    ((framesOf s3.mem T lo (t0 + 1)).Nodup ∧ ∀ f ∈ framesOf s3.mem T lo (t0 + 1),
      goodFrame L f ∧ f ∉ F' ∧ ¬ IsTablePage s3.mem T f) ∧
    EntUpd s.mem s3.mem T (lo + t0 * 4096) 1 (fun _ => PA2PTE d ||| perm ||| PTE_V) ∧
    d ∉ P ∧ d ∉ F' ∧ ¬ IsTablePage s3.mem T d := by
  have hM := hL.maxva_le
  have hgd := hfo.2.2 d (List.mem_cons_self _ _)
  have hnd := List.nodup_cons.mp hfo.2.1
  have hF1 : F1 = P ++ F' := hts.split
  have hdP : d ∉ P := fun h => hnd.1 (by rw [hF1]; exact List.mem_append_left _ h)
  have hdF' : d ∉ F' := fun h => hnd.1 (by rw [hF1]; exact List.mem_append_right _ h)
  have hdT : ¬ IsTablePage s.mem T d := fun h => (WFT_page hw h).2.2.2 (List.mem_cons_self _ _)
  have hdT3 : ¬ IsTablePage s3.mem T d := fun h => by
    rcases (hts.pages d).mp h with h | h
    · exact hdT ((hpg2 d).mp h)
    · exact hdP h
  have hupd' := entUpd_pre hupd hent2
  have hold : ∀ u, u < t0 →
      ent s3.mem T (PX 2 (lo + u * 4096)) (PX 1 (lo + u * 4096)) (PX 0 (lo + u * 4096)) =
      ent s.mem T (PX 2 (lo + u * 4096)) (PX 1 (lo + u * 4096)) (PX 0 (lo + u * 4096)) :=
    fun u hu => entUpd_other hupd' (by omega) (by omega) (by omega) (by omega) (by omega)
  have hnew : ent s3.mem T (PX 2 (lo + t0 * 4096)) (PX 1 (lo + t0 * 4096))
      (PX 0 (lo + t0 * 4096)) = PA2PTE d ||| perm ||| PTE_V := by
    simpa using hupd.1 0 (by omega)
  have hfrs : framesOf s3.mem T lo (t0 + 1) = framesOf s.mem T lo t0 ++ [d] := by
    rw [framesOf_snoc, framesOf_congr t0 lo hold]
    unfold frameOf
    rw [hnew, entry_pa (goodFrame_al hgd) (goodFrame_lt hL hgd) hperm]
  refine ⟨fun u hu => ?_, hfrs, ?_, hupd', hdP, hdF', hdT3⟩
  · by_cases h : u < t0
    · rw [hold u h]; exact hmap u h
    · have : u = t0 := by omega
      subst this
      rw [hnew, entry_flags hperm]
      exact ⟨pteValid_or_V _, hpv⟩
  · rw [hfrs]
    constructor
    · rw [List.nodup_append]
      refine ⟨hfr.1, List.nodup_singleton d, ?_⟩
      intro x hx hx'
      rw [List.mem_singleton] at hx'
      subst hx'
      exact (hfr.2 x hx).2.1 (List.mem_cons_self _ _)
    · intro f hf
      rcases List.mem_append.mp hf with h | h
      · have hg := hfr.2 f h
        refine ⟨hg.1, fun h' => hg.2.1 (List.mem_cons_of_mem _
          (by rw [hF1]; exact List.mem_append_right _ h')), fun h' => ?_⟩
        rcases (hts.pages f).mp h' with h' | h'
        · exact hg.2.2 ((hpg2 f).mp h')
        · exact hg.2.1 (List.mem_cons_of_mem _ (by rw [hF1]; exact List.mem_append_left _ h'))
      · rw [List.mem_singleton] at h
        subst h
        exact ⟨hgd, hdF', hdT3⟩

/-- After a failed `mappages` the data frame goes back to the free list. -/
theorem fail_kfree {L : MemLayout} (hL : L.Sane) {s s2 s3 : KState} {T d : Nat}
    {F1 P : List Nat}
    (hfo : FreeOK L s (d :: F1)) (hw : WFT s.mem T (d :: F1))
    (hpg2 : ∀ q, IsTablePage s2.mem T q ↔ IsTablePage s.mem T q)
    (hent2 : ∀ i j k, i < 512 → j < 512 → k < 512 → ent s2.mem T i j k = ent s.mem T i j k)
    (hout2 : ∀ x, ¬ (d ≤ x ∧ x < d + 4096) → s2.mem x = s.mem x)
    (hts : TableStep L T s2 F1 s3 [] P)
    (hent3 : ∀ i j k, i < 512 → j < 512 → k < 512 → ent s3.mem T i j k = ent s2.mem T i j k) :
    ∃ s4, kfree L s3 d = .ok s4 ∧ FreeOK L s4 [d] ∧ WFT s4.mem T [d] ∧
      (∀ q, IsTablePage s4.mem T q ↔ IsTablePage s.mem T q ∨ q ∈ P) ∧
      (∀ i j k, i < 512 → j < 512 → k < 512 → ent s4.mem T i j k = ent s.mem T i j k) ∧
      F1 = P ∧
      (∀ x, s4.mem x ≠ s.mem x → (∃ f, f ∈ d :: F1 ∧ f ≤ x ∧ x < f + 4096) ∨
        (∃ q, IsTablePage s.mem T q ∧ q ≤ x ∧ x < q + 4096)) := by
  have hgd := hfo.2.2 d (List.mem_cons_self _ _)
  have hnd := List.nodup_cons.mp hfo.2.1
  have hF1 : F1 = P := by rw [hts.split, List.append_nil]
  have hdT : ¬ IsTablePage s.mem T d := fun h => (WFT_page hw h).2.2.2 (List.mem_cons_self _ _)
  have hdT3 : ¬ IsTablePage s3.mem T d := fun h => by
    rcases (hts.pages d).mp h with h | h
    · exact hdT ((hpg2 d).mp h)
    · exact hnd.1 (hF1 ▸ h)
  obtain ⟨s4, hk, hfo4, hw4, hpg4, hent4, _, hout4⟩ :=
    kfree_data_step hL hts.free hts.wft hgd (List.not_mem_nil _) hdT3
  refine ⟨s4, hk, hfo4, hw4, fun q => by rw [hpg4, hts.pages, hpg2], fun i j k hi hj hk' => ?_,
    hF1, fun x hx => ?_⟩
  · rw [hent4 i j k hi hj hk', hent3 i j k hi hj hk', hent2 i j k hi hj hk']
  · by_cases hd : d ≤ x ∧ x < d + 4096
    · exact Or.inl ⟨d, List.mem_cons_self _ _, hd⟩
    · rw [hout4 x hd] at hx
      rw [← hout2 x hd] at hx
      rcases hts.foot x hx with ⟨f, hf, hx1⟩ | ⟨q, hq, hx1⟩
      · exact Or.inl ⟨f, List.mem_cons_of_mem _ (hF1 ▸ hf), hx1⟩
      · exact Or.inr ⟨q, (hpg2 q).mp hq, hx1⟩

/-- Memory outside the frames of `A` and the pages `Q` is not touched. -/
theorem frame_not_in {m m' : Mem} {d x : Nat} {A : List Nat} {Q : Nat → Prop}
    (hfoot : ∀ x, m' x ≠ m x → (∃ f, f ∈ A ∧ f ≤ x ∧ x < f + 4096) ∨
      (∃ q, Q q ∧ q ≤ x ∧ x < q + 4096))
    (hd : d % 4096 = 0) (hx : d ≤ x ∧ x < d + 4096)
    (hA : ∀ f ∈ A, f % 4096 = 0 ∧ f ≠ d) (hQ : ∀ q, Q q → q % 4096 = 0 ∧ q ≠ d) :
    m' x = m x := by
  by_contra hne
  rcases hfoot x hne with ⟨f, hf, hx1⟩ | ⟨q, hq, hx1⟩
  · have := hA f hf; omega
  · have := hQ q hq; omega

/-- A successful first iteration followed by a successful rest of a growing loop. -/
theorem growOK_cons {L : MemLayout} {s s2 s3 s' : KState} {T a d perm n : Nat}
    {F1 F' P D' Pt' F'' : List Nat} {fl fl' : Nat → Nat}
    (hfo : FreeOK L s (d :: F1)) (hw : WFT s.mem T (d :: F1))
    (hpg2 : ∀ q, IsTablePage s2.mem T q ↔ IsTablePage s.mem T q)
    (hout2 : ∀ x, ¬ (d ≤ x ∧ x < d + 4096) → s2.mem x = s.mem x)
    (hts : TableStep L T s2 F1 s3 F' P)
    (hok : GrowOK L T s3 F' (a + 4096) n fl' s' D' Pt' F'')
    (hupd1 : EntUpd s.mem s3.mem T a 1 (fun _ => PA2PTE d ||| perm ||| PTE_V))
    (hdP : d ∉ P) (hdF' : d ∉ F') (hdT3 : ¬ IsTablePage s3.mem T d)
    (hfl0 : fl 0 = perm) (hfl : ∀ u, u < n → fl' u = fl (u + 1))
    (ha : a % 4096 = 0) (hlt : a + n * 4096 < 2 ^ 39) :
    GrowOK L T s (d :: F1) a (n + 1) fl s' (d :: D') (P ++ Pt') F'' ∧
    (∀ x, d ≤ x → x < d + 4096 → s'.mem x = s2.mem x) := by
  have hgd := hfo.2.2 d (List.mem_cons_self _ _)
  have hdal := goodFrame_al hgd
  have hF1 : F1 = P ++ F' := hts.split
  have hw2 : ∀ q, IsTablePage s2.mem T q → q % 4096 = 0 ∧ q ≠ d := fun q hq =>
    ⟨(WFT_page hw ((hpg2 q).mp hq)).1, fun e => (WFT_page hw ((hpg2 q).mp hq)).2.2.2
      (e ▸ List.mem_cons_self _ _)⟩
  have hsubF' : ∀ f, f ∈ D' ++ Pt' → f ∈ F' := fun f hf =>
    hok.perm.mem_iff.mpr (List.mem_append_left _ hf)
  have hs3d : ∀ x, d ≤ x → x < d + 4096 → s3.mem x = s2.mem x := fun x hx1 hx2 =>
    frame_not_in hts.foot hdal ⟨hx1, hx2⟩
      (fun f hf => ⟨goodFrame_al (hfo.2.2 f (List.mem_cons_of_mem _
        (by rw [hF1]; exact List.mem_append_left _ hf))), fun e => hdP (e ▸ hf)⟩) hw2
  refine ⟨⟨?_, hok.free, hok.wft, ?_, ?_, ?_, ?_⟩, ?_⟩
  · rw [List.length_cons, hok.len]
  · have h1 := hok.perm
    rw [List.perm_iff_count] at h1 ⊢
    intro x
    have := h1 x
    rw [hF1, show d :: (P ++ F') = [d] ++ (P ++ F') from rfl,
      show d :: D' = [d] ++ D' from rfl]
    simp only [List.count_append] at this ⊢
    omega
  · intro q
    rw [hok.pages, hts.pages, hpg2, List.mem_append, or_assoc]
  · refine @entUpd_cons s.mem s3.mem s'.mem T a n _
      (entUpd_val_congr hupd1 (fun u hu => ?_)) (entUpd_val_congr hok.upd (fun u hu => ?_))
      ha hlt
    · have : u = 0 := by omega
      subst this
      show _ = PA2PTE d ||| fl 0 ||| PTE_V
      rw [hfl0]
    · show _ = PA2PTE ((d :: D').getD (u + 1) 0) ||| fl (u + 1) ||| PTE_V
      rw [hfl u hu]
      rfl
  · intro x hx
    by_cases e3 : s3.mem x = s.mem x
    · rcases hok.foot x (by rw [e3]; exact hx) with ⟨f, hf, hx1⟩ | ⟨q, hq, hx1⟩
      · refine Or.inl ⟨f, ?_, hx1⟩
        rcases List.mem_append.mp hf with h | h
        · exact List.mem_append_left _ (List.mem_cons_of_mem _ h)
        · exact List.mem_append_right _ (List.mem_append_right _ h)
      · rcases (hts.pages q).mp hq with h | h
        · exact Or.inr ⟨q, (hpg2 q).mp h, hx1⟩
        · exact Or.inl ⟨q, List.mem_append_right _ (List.mem_append_left _ h), hx1⟩
    · by_cases e2 : s2.mem x = s.mem x
      · rcases hts.foot x (by rw [e2]; exact e3) with ⟨f, hf, hx1⟩ | ⟨q, hq, hx1⟩
        · exact Or.inl ⟨f, List.mem_append_right _ (List.mem_append_left _ hf), hx1⟩
        · exact Or.inr ⟨q, (hpg2 q).mp hq, hx1⟩
      · refine Or.inl ⟨d, List.mem_append_left _ (List.mem_cons_self _ _), ?_⟩
        by_contra hc
        exact e2 (hout2 x hc)
  · intro x hx1 hx2
    rw [frame_not_in hok.foot hdal ⟨hx1, hx2⟩
      (fun f hf => ⟨goodFrame_al (hts.free.2.2 f (hsubF' f hf)),
        fun e => hdF' (e ▸ hsubF' f hf)⟩)
      (fun q hq => ⟨(WFT_page hts.wft hq).1, fun e => hdT3 (e ▸ hq)⟩)]
    exact hs3d x hx1 hx2

/-- A successful first iteration followed by a rest of a growing loop that rolled back. -/
theorem growFail_cons {L : MemLayout} {s s2 s3 s' : KState} {T lo t0 d perm : Nat}
    {F1 F' P Pt' F'' : List Nat}
    (hpg2 : ∀ q, IsTablePage s2.mem T q ↔ IsTablePage s.mem T q)
    (hout2 : ∀ x, ¬ (d ≤ x ∧ x < d + 4096) → s2.mem x = s.mem x)
    (hts : TableStep L T s2 F1 s3 F' P)
    (hupd1 : EntUpd s.mem s3.mem T (lo + t0 * 4096) 1 (fun _ => PA2PTE d ||| perm ||| PTE_V))
    (hfrs3 : framesOf s3.mem T lo (t0 + 1) = framesOf s.mem T lo t0 ++ [d])
    (hun0 : ¬ pteValid (ent s.mem T (PX 2 (lo + t0 * 4096)) (PX 1 (lo + t0 * 4096))
      (PX 0 (lo + t0 * 4096))))
    (hfail : GrowFail L T s3 F' lo (t0 + 1) s' Pt' F'') :
    GrowFail L T s (d :: F1) lo t0 s' (P ++ Pt') F'' := by
  have hF1 : F1 = P ++ F' := hts.split
  refine ⟨hfail.free, hfail.wft, ?_, ?_, ?_, ?_, ?_⟩
  · have h1 := hfail.perm
    rw [hfrs3] at h1
    rw [List.perm_iff_count] at h1 ⊢
    intro x
    have := h1 x
    rw [hF1, show d :: (P ++ F') = [d] ++ (P ++ F') from rfl]
    simp only [List.count_append] at this ⊢
    omega
  · intro q
    rw [hfail.pages, hts.pages, hpg2, List.mem_append, or_assoc]
  · exact fun u hu => hfail.cleared u (by omega)
  · intro i j k hi hj hk hu
    by_cases hidx : i = PX 2 (lo + t0 * 4096) ∧ j = PX 1 (lo + t0 * 4096) ∧
        k = PX 0 (lo + t0 * 4096)
    · right
      rw [hidx.1, hidx.2.1, hidx.2.2]
      exact ⟨hun0, hfail.cleared t0 (by omega)⟩
    · have e13 : ent s3.mem T i j k = ent s.mem T i j k :=
        hupd1.2 i j k hi hj hk (fun u hu' => by
          have : u = 0 := by omega
          subst this; simpa using hidx)
      rw [← e13]
      refine hfail.others i j k hi hj hk (fun u hu' => ?_)
      by_cases h : u < t0
      · exact hu u h
      · have : u = t0 := by omega
        subst this; exact hidx
  · intro x hx
    by_cases e3 : s3.mem x = s.mem x
    · rcases hfail.foot x (by rw [e3]; exact hx) with ⟨f, hf, hx1⟩ | ⟨q, hq, hx1⟩
      · refine Or.inl ⟨f, ?_, hx1⟩
        rw [hfrs3] at hf
        rcases List.mem_append.mp hf with h | h
        · rcases List.mem_append.mp h with h | h
          · exact List.mem_append_left _ h
          · rw [List.mem_singleton] at h
            exact List.mem_append_right _ (h ▸ List.mem_cons_self _ _)
        · exact List.mem_append_right _ (List.mem_cons_of_mem _
            (by rw [hF1]; exact List.mem_append_right _ h))
      · rcases (hts.pages q).mp hq with h | h
        · exact Or.inr ⟨q, (hpg2 q).mp h, hx1⟩
        · exact Or.inl ⟨q, List.mem_append_right _ (List.mem_cons_of_mem _
            (by rw [hF1]; exact List.mem_append_left _ h)), hx1⟩
    · by_cases e2 : s2.mem x = s.mem x
      · rcases hts.foot x (by rw [e2]; exact e3) with ⟨f, hf, hx1⟩ | ⟨q, hq, hx1⟩
        · exact Or.inl ⟨f, List.mem_append_right _ (List.mem_cons_of_mem _
            (by rw [hF1]; exact List.mem_append_left _ hf)), hx1⟩
        · exact Or.inr ⟨q, (hpg2 q).mp hq, hx1⟩
      · refine Or.inl ⟨d, List.mem_append_right _ (List.mem_cons_self _ _), ?_⟩
        by_contra hc
        exact e2 (hout2 x hc)

/-- The loop of `uvmalloc`: it maps every page up to `newsz`, or rolls back to `lo`. -/
theorem uvmalloc_loop_spec {L : MemLayout} (hL : L.Sane) {T lo newsz : Nat}
    (hnew : newsz ≤ L.MAXVA) (hlo : lo % 4096 = 0) :
    ∀ (n fuel : Nat) (s : KState) (F : List Nat) (t0 : Nat), n < fuel → FreeOK L s F →
      WFT s.mem T F → newsz ≤ lo + t0 * 4096 + n * 4096 →
      (n = 0 ∨ lo + t0 * 4096 + (n - 1) * 4096 < newsz) →
      lo + t0 * 4096 ≤ L.MAXVA →
      (∀ u, u < t0 →
        pteValid (ent s.mem T (PX 2 (lo + u * 4096)) (PX 1 (lo + u * 4096))
          (PX 0 (lo + u * 4096))) ∧
        PTE_FLAGS (ent s.mem T (PX 2 (lo + u * 4096)) (PX 1 (lo + u * 4096))
          (PX 0 (lo + u * 4096))) ≠ PTE_V) →
      ((framesOf s.mem T lo t0).Nodup ∧ ∀ d ∈ framesOf s.mem T lo t0,
        goodFrame L d ∧ d ∉ F ∧ ¬ IsTablePage s.mem T d) →
      (∀ u, u < n → ¬ pteValid (ent s.mem T (PX 2 (lo + t0 * 4096 + u * 4096))
        (PX 1 (lo + t0 * 4096 + u * 4096)) (PX 0 (lo + t0 * 4096 + u * 4096)))) →
      (∃ s' D Pt F', uvmalloc_loop L fuel s T (lo + t0 * 4096) lo newsz = .ok (newsz, s') ∧
        GrowOK L T s F (lo + t0 * 4096) n (fun _ => PTE_W ||| PTE_X ||| PTE_R ||| PTE_U)
          s' D Pt F' ∧
        (∀ d ∈ D, ∀ x, d ≤ x → x < d + 4096 → s'.mem x = 0)) ∨
      (∃ s' Pt F', uvmalloc_loop L fuel s T (lo + t0 * 4096) lo newsz = .ok (0, s') ∧
        F.length < 3 * n ∧ GrowFail L T s F lo t0 s' Pt F') := by
  have hM := hL.maxva_le
  have hMa := hL.maxva_al
  intro n
  induction n with
  | zero =>
    intro fuel s F t0 hfuel hfo hw hn1 hn2 hlt hmap hfr hun
    obtain ⟨fuel, rfl⟩ : ∃ f, fuel = f + 1 := ⟨fuel - 1, by omega⟩
    left
    refine ⟨s, [], [], F, uvmalloc_loop_done L fuel s T _ lo newsz (by omega),
      ⟨rfl, hfo, hw, by simp, fun q => by simp, entUpd_zero (fun _ _ _ _ _ _ => rfl),
        fun x hx => absurd rfl hx⟩, fun d hd => absurd hd (List.not_mem_nil _)⟩
  | succ n ih =>
    intro fuel s F t0 hfuel hfo hw hn1 hn2 hlt hmap hfr hun
    obtain ⟨fuel, rfl⟩ : ∃ f, fuel = f + 1 := ⟨fuel - 1, by omega⟩
    have ha : lo + t0 * 4096 < newsz := by
      rcases hn2 with h | h
      · omega
      · simp only [Nat.add_sub_cancel] at h; omega
    have hun0 := hun 0 (by omega)
    simp only [Nat.zero_mul, Nat.add_zero] at hun0
    cases F with
    | nil =>
      right
      rw [uvmalloc_loop_nil L fuel s T _ lo newsz ha (kalloc_nil hfo)]
      obtain ⟨r, s', hres, hfo', hw', hpg', hupd', hfoot'⟩ :=
        rollback hL hfo hw hlo (by omega) hmap hfr
      rw [hres, bind_ok]
      exact ⟨s', [], _, rfl, by simp, @growFail_of_rollback L s s s' T lo t0 [] [] []
        (fun _ _ _ _ _ _ => rfl) (fun q => by simp) (by simp) hfo' hw' hpg' hupd'
        (fun x hx => absurd rfl hx) hfoot'⟩
    | cons d F1 =>
      obtain ⟨hk, hd0, hfo2, hw2, hpg2, hent2, hout2, hzero2⟩ := kalloc_data_step hfo hw
      rw [uvmalloc_loop_cons L fuel s _ _ T _ lo newsz d ha hk hd0]
      have hgd := hfo.2.2 d (List.mem_cons_self _ _)
      generalize hs2 : (⟨memset (memset s.mem d 5 PGSIZE) d 0 PGSIZE, read64 s.mem d⟩ : KState)
        = s2 at hfo2 ⊢
      have hm2 : s2.mem = memset (memset s.mem d 5 PGSIZE) d 0 PGSIZE := by rw [← hs2]
      rw [← hm2] at hw2 hpg2 hent2 hout2 hzero2
      rcases @mappages_single L hL s2 T (lo + t0 * 4096) d
          (PTE_W ||| PTE_X ||| PTE_R ||| PTE_U) F1 hfo2 hw2
        (by omega) (by omega) (by decide) (goodFrame_lt hL hgd) with
        ⟨s3, P, F', he, hts, hl, hupd, _⟩ | ⟨s3, P, he, hts, hl, hent3⟩ | ⟨_, hv⟩
      · -- the page is mapped; the loop goes on
        rw [he, bind_ok]
        simp only [ne_eq, not_true_eq_false, if_false]
        have ea : (lo + t0 * 4096 + PGSIZE) % 2 ^ 64 = lo + (t0 + 1) * 4096 := by
          unfold PGSIZE; omega
        rw [ea]
        obtain ⟨hmap3, hfrs3, hfr3, hupd1, hdP, hdF', hdT3⟩ := grow_iter_ok hL hfo hw hpg2 hent2
          hts hupd (by decide) uflags_ne hlo (by omega) hmap hfr
        have hF1 : F1 = P ++ F' := hts.split
        rcases ih fuel s3 F' (t0 + 1) (by omega) hts.free hts.wft (by omega) (by omega) (by omega)
          hmap3 hfr3 (fun u hu => by
            rw [show lo + (t0 + 1) * 4096 + u * 4096 = lo + t0 * 4096 + (u + 1) * 4096 by omega,
              entUpd_other hupd1 (by omega) (by omega) (by omega) (by omega) (by omega)]
            exact hun (u + 1) (by omega)) with
          ⟨s', D', Pt', F'', hres, hok, hz⟩ | ⟨s', Pt', F'', hres, hlen, hfail⟩
        · left
          have hok' := hok
          rw [show lo + (t0 + 1) * 4096 = lo + t0 * 4096 + 4096 by omega] at hok'
          obtain ⟨hG, hkeep⟩ := @growOK_cons L s _ s3 s' T _ d _ n F1 F' P D' Pt' F''
            (fun _ => PTE_W ||| PTE_X ||| PTE_R ||| PTE_U) _ hfo hw hpg2 hout2 hts hok' hupd1
            hdP hdF' hdT3 rfl (fun _ _ => rfl) (by omega) (by omega)
          refine ⟨s', d :: D', P ++ Pt', F'', hres, hG, ?_⟩
          intro d' hd' x hx1 hx2
          rcases List.mem_cons.mp hd' with h | h
          · subst h
            rw [hkeep x hx1 hx2]
            exact hzero2 x hx1 hx2
          · exact hz d' h x hx1 hx2
        · right
          refine ⟨s', P ++ Pt', F'', hres, ?_,
            growFail_cons hpg2 hout2 hts hupd1 hfrs3 hun0 hfail⟩
          rw [hF1, List.length_cons, List.length_append]; omega
      · -- `mappages` could not allocate a table page
        right
        rw [he, bind_ok]
        simp only [ne_eq, Int.reduceNeg, neg_eq_zero, one_ne_zero, not_false_eq_true, if_true]
        obtain ⟨s4, hk4, hfo4, hw4, hpg4, hent4, hF1, hfoot4⟩ :=
          fail_kfree hL hfo hw hpg2 hent2 hout2 hts hent3
        rw [hk4, bind_ok]
        obtain ⟨hmap4, hfr4⟩ := @rollback_pre L s s4 T lo t0 (d :: F1) [d] P hent4 hpg4
          (fun f hf => by
            rcases hf with h | h
            · exact List.mem_cons_of_mem _ (hF1 ▸ h)
            · rw [List.mem_singleton] at h; exact h ▸ List.mem_cons_self _ _) hmap hfr
        obtain ⟨r, s', hres, hfo', hw', hpg', hupd', hfoot'⟩ :=
          rollback hL hfo4 hw4 hlo (by omega) hmap4 hfr4
        rw [hres, bind_ok]
        refine ⟨s', P, _, rfl, ?_,
          growFail_of_rollback hent4 hpg4 ?_ hfo' hw' hpg' hupd' hfoot4 hfoot'⟩
        · rw [hF1, List.length_cons]; omega
        · rw [hF1]
          exact @List.perm_append_comm _ [d] P
      · exact absurd (by rw [← hent2 _ _ _ (PX_lt _ _) (PX_lt _ _) (PX_lt _ _)]; exact hv) hun0

/-! ## `uvmalloc`, top level -/

theorem leafAt_none_iff {L : MemLayout} {s : KState} {T va : Nat} {F : List Nat}
    (hw : WFT s.mem T F) (hva : va < L.MAXVA) :
    leafAt L s T va = none ↔ ¬ pteValid (ent s.mem T (PX 2 va) (PX 1 va) (PX 0 va)) := by
  rw [leafAt_eq, pteAt_eq hw hva]
  by_cases h : pteValid (ent s.mem T (PX 2 va) (PX 1 va) (PX 0 va))
  · simp [h]
  · simp [h]

theorem leafAt_of_ent {L : MemLayout} {s : KState} {T va : Nat} {F : List Nat}
    (hw : WFT s.mem T F) (hva : va < L.MAXVA)
    (h : pteValid (ent s.mem T (PX 2 va) (PX 1 va) (PX 0 va))) :
    leafAt L s T va = some (ent s.mem T (PX 2 va) (PX 1 va) (PX 0 va)) := by
  rw [leafAt_eq, pteAt_eq hw hva, if_pos h]

theorem leafAt_high {L : MemLayout} {s : KState} {T va : Nat} (hva : L.MAXVA ≤ va) :
    leafAt L s T va = none := by
  rw [leafAt_eq, pteAt_high hva, if_neg not_pteValid_zero]

/-- Two states whose tables have the same valid level-0 entries give the same leaves. -/
theorem leafAt_congr {L : MemLayout} {s s' : KState} {T va : Nat} {F F' : List Nat}
    (hw : WFT s.mem T F) (hw' : WFT s'.mem T F')
    (h : va < L.MAXVA → (ent s'.mem T (PX 2 va) (PX 1 va) (PX 0 va) =
        ent s.mem T (PX 2 va) (PX 1 va) (PX 0 va) ∨
      (¬ pteValid (ent s.mem T (PX 2 va) (PX 1 va) (PX 0 va)) ∧
        ¬ pteValid (ent s'.mem T (PX 2 va) (PX 1 va) (PX 0 va))))) :
    leafAt L s' T va = leafAt L s T va := by
  by_cases hva : va < L.MAXVA
  · rw [leafAt_eq, leafAt_eq, pteAt_eq hw hva, pteAt_eq hw' hva]
    rcases h hva with e | ⟨h1, h2⟩
    · rw [e]
    · rw [if_neg h1, if_neg h2]
  · rw [leafAt_high (by omega), leafAt_high (by omega)]

/-- `uvmalloc` on a well-formed table whose pages from the rounded old size up to the new
size are unmapped: it maps them all, or rolls back. -/
theorem uvmalloc_spec {L : MemLayout} (hL : L.Sane) {s : KState} {T oldsz newsz : Nat}
    {F : List Nat} (hfo : FreeOK L s F) (hw : WFT s.mem T F) (hle : oldsz ≤ newsz)
    (hnew : newsz ≤ L.MAXVA)
    (hun : ∀ a, a % PGSIZE = 0 → PGROUNDUP oldsz ≤ a → a < newsz → leafAt L s T a = none) :
    (∃ s' D Pt F', uvmalloc L s T oldsz newsz = .ok (newsz, s') ∧
      GrowOK L T s F (PGROUNDUP oldsz) ((newsz + 4095 - PGROUNDUP oldsz) / 4096)
        (fun _ => PTE_W ||| PTE_X ||| PTE_R ||| PTE_U) s' D Pt F' ∧
      (∀ d ∈ D, ∀ x, d ≤ x → x < d + 4096 → s'.mem x = 0)) ∨
    (∃ s' Pt F', uvmalloc L s T oldsz newsz = .ok (0, s') ∧
      F.length < 3 * ((newsz + 4095 - PGROUNDUP oldsz) / 4096) ∧
      GrowFail L T s F (PGROUNDUP oldsz) 0 s' Pt F') := by
  have hM := hL.maxva_le
  have hMa := hL.maxva_al
  have hlo := PGROUNDUP_facts oldsz (by omega)
  have hu : uvmalloc L s T oldsz newsz = uvmalloc_loop L (L.MAXVA / PGSIZE + 2) s T
      (PGROUNDUP oldsz) (PGROUNDUP oldsz) newsz := by
    unfold uvmalloc
    rw [if_neg (by omega)]
  rw [hu]
  have key := uvmalloc_loop_spec hL hnew hlo.1 ((newsz + 4095 - PGROUNDUP oldsz) / 4096)
    (L.MAXVA / PGSIZE + 2) s F 0 (by unfold PGSIZE; omega) hfo hw (by omega) (by omega)
    (by omega) (fun u hu => absurd hu (Nat.not_lt_zero _))
    ⟨List.nodup_nil, fun d hd => absurd hd (List.not_mem_nil _)⟩
    (fun u hu => by
      have h1 := hun (PGROUNDUP oldsz + 0 * 4096 + u * 4096) (by unfold PGSIZE; omega)
        (by omega) (by omega)
      exact (leafAt_none_iff hw (by omega)).mp h1)
  simp only [Nat.zero_mul, Nat.add_zero] at key
  exact key

/-! ## From entries to what `walk` sees -/

theorem ent_PGROUNDDOWN (m : Mem) (T x : Nat) (hx : x < 2 ^ 64) :
    ent m T (PX 2 (PGROUNDDOWN x)) (PX 1 (PGROUNDDOWN x)) (PX 0 (PGROUNDDOWN x)) =
      ent m T (PX 2 x) (PX 1 x) (PX 0 x) := by
  rw [PX_PGROUNDDOWN 2 x (by omega) hx, PX_PGROUNDDOWN 1 x (by omega) hx,
    PX_PGROUNDDOWN 0 x (by omega) hx]

theorem idx_page {x b : Nat} (hx : x < 2 ^ 39) (hb : b % 4096 = 0) (hb2 : b < 2 ^ 39)
    (h : PX 2 x = PX 2 b ∧ PX 1 x = PX 1 b ∧ PX 0 x = PX 0 b) : PGROUNDDOWN x = b := by
  have hg := PGROUNDDOWN_facts x (by omega)
  refine PX_inj hg.1 hb (by omega) hb2 ?_ ?_ ?_
  · rw [PX_PGROUNDDOWN 2 x (by omega) (by omega)]; exact h.1
  · rw [PX_PGROUNDDOWN 1 x (by omega) (by omega)]; exact h.2.1
  · rw [PX_PGROUNDDOWN 0 x (by omega) (by omega)]; exact h.2.2

/-- An update of the entries of a page range, as `walk` sees it. -/
theorem entUpd_pteAt {L : MemLayout} (hL : L.Sane) {s s' : KState} {T a t : Nat}
    {val : Nat → Nat} {F F' : List Nat} (hw : WFT s.mem T F) (hw' : WFT s'.mem T F')
    (h : EntUpd s.mem s'.mem T a t val) (ha : a % 4096 = 0) (hlt : a + t * 4096 ≤ L.MAXVA) :
    (∀ k, k < t → pteAt L s' T (a + k * 4096) = val k) ∧
    (∀ x, (∀ k, k < t → PGROUNDDOWN x ≠ a + k * 4096) → pteAt L s' T x = pteAt L s T x) := by
  have hM := hL.maxva_le
  constructor
  · intro k hk
    rw [pteAt_eq hw' (by omega)]
    exact h.1 k hk
  · intro x hx
    by_cases hxM : x < L.MAXVA
    · rw [pteAt_eq hw' hxM, pteAt_eq hw hxM]
      refine h.2 _ _ _ (PX_lt _ _) (PX_lt _ _) (PX_lt _ _) (fun k hk hc => hx k hk ?_)
      exact idx_page (by omega) (by omega) (by omega) hc
    · rw [pteAt_high (by omega), pteAt_high (by omega)]

theorem framesOf_eq_list {m : Mem} {T : Nat} : ∀ (D : List Nat) (a : Nat),
    (∀ u, u < D.length → frameOf m T (a + u * 4096) = D.getD u 0) →
    framesOf m T a D.length = D
  | [], _, _ => rfl
  | d :: D, a, h => by
    have h0 := h 0 (by simp)
    simp only [Nat.zero_mul, Nat.add_zero, List.getD_cons_zero] at h0
    show frameOf m T a :: framesOf m T (a + 4096) D.length = d :: D
    rw [h0, framesOf_eq_list D (a + 4096) (fun u hu => by
      have := h (u + 1) (by simp; omega)
      rw [show a + (u + 1) * 4096 = a + 4096 + u * 4096 by omega] at this
      simpa using this)]

/-- The data frames of a successful grow are the frames of the new leaves; they are
distinct, accepted by `kfree`, not free any more and no page-table pages. -/
theorem growOK_frames {L : MemLayout} (hL : L.Sane) {s s' : KState} {T a n : Nat}
    {fl : Nat → Nat} {F D Pt F' : List Nat} (hfo : FreeOK L s F) (hw : WFT s.mem T F)
    (h : GrowOK L T s F a n fl s' D Pt F') (hfl : ∀ u, fl u < 1024) :
    framesOf s'.mem T a n = D ∧ D.Nodup ∧
      (∀ d ∈ D, goodFrame L d ∧ d ∈ F ∧ d ∉ F' ∧ d ∉ Pt ∧ ¬ IsTablePage s'.mem T d) ∧
      (∀ p ∈ Pt, p ∈ F ∧ IsTablePage s'.mem T p ∧ ¬ IsTablePage s.mem T p) := by
  have hnd : (D ++ Pt ++ F').Nodup := h.perm.nodup_iff.mp hfo.2.1
  have hnd1 := List.nodup_append.mp hnd
  have hnd2 := List.nodup_append.mp hnd1.1
  have hD : ∀ d ∈ D, d ∈ F := fun d hd =>
    h.perm.mem_iff.mpr (List.mem_append_left _ (List.mem_append_left _ hd))
  have hP : ∀ p ∈ Pt, p ∈ F := fun p hp =>
    h.perm.mem_iff.mpr (List.mem_append_left _ (List.mem_append_right _ hp))
  refine ⟨?_, hnd2.1, fun d hd => ⟨hfo.2.2 d (hD d hd), hD d hd, ?_, ?_, ?_⟩,
    fun p hp => ⟨hP p hp, (h.pages p).mpr (Or.inr hp), fun hc => (WFT_page hw hc).2.2.2 (hP p hp)⟩⟩
  · rw [← h.len]
    refine framesOf_eq_list D a (fun u hu => ?_)
    unfold frameOf
    rw [h.upd.1 u (by rw [← h.len]; exact hu)]
    have hmem : D.getD u 0 ∈ D := by
      rw [List.getD_eq_getElem _ _ hu]; exact List.getElem_mem _
    have hg := hfo.2.2 _ (hD _ hmem)
    exact entry_pa (goodFrame_al hg) (goodFrame_lt hL hg) (hfl u)
  · exact fun hc => hnd1.2.2 (List.mem_append_left _ hd) hc
  · exact fun hc => hnd2.2.2 hd hc
  · intro hc
    rcases (h.pages d).mp hc with h1 | h1
    · exact (WFT_page hw h1).2.2.2 (hD d hd)
    · exact hnd2.2.2 hd h1

/-! ## The example machine -/

theorem exL_sane : exL.Sane := ⟨by decide, by decide, by decide, by decide⟩

/-- A table whose root page is all zero is well formed and has no entries. -/
theorem zero_root {m : Mem} {T : Nat} {F : List Nat} (hal : T % 4096 = 0) (hlt : T < 2 ^ 64)
    (h0 : T ≠ 0) (hF : T ∉ F) (hz : ∀ x, T ≤ x → x < T + 4096 → m x = 0) :
    WFT m T F ∧ (∀ i j k, i < 512 → ent m T i j k = 0) ∧
      (∀ p, IsTablePage m T p ↔ p = T) := by
  have hr : ∀ i, i < 512 → ¬ pteValid (rootE m T i) := fun i hi => by
    have : rootE m T i = 0 := read_zero_page hi hz
    rw [this]; exact not_pteValid_zero
  refine ⟨⟨hal, hlt, fun x => if x = T then some Role.root else none, ?_, ?_, ?_, ?_, ?_,
      fun i hi hv => absurd hv (hr i hi), fun i j hi _ hv => absurd hv (hr i hi)⟩,
    fun i j k hi => ent_of_root_invalid (hr i hi), fun p => ⟨?_, fun e => Or.inl e⟩⟩
  · show (if 0 = T then _ else _) = _
    rw [if_neg (Ne.symm h0)]
  · show (if T = T then _ else _) = _
    rw [if_pos rfl]
  · intro f hf
    show (if f = T then _ else _) = _
    rw [if_neg (fun (e : f = T) => hF (e ▸ hf))]
  · exact fun i hi hv => absurd hv (hr i hi)
  · exact fun i j hi _ hv => absurd hv (hr i hi)
  · rintro (e | ⟨i, hi, hv, _⟩ | ⟨i, j, hi, _, hv, _⟩)
    · exact e
    · exact absurd hv (hr i hi)
    · exact absurd hv (hr i hi)

theorem zero_root_leafAt {L : MemLayout} {s : KState} {T : Nat} {F : List Nat}
    (hal : T % 4096 = 0) (hlt : T < 2 ^ 64) (h0 : T ≠ 0) (hF : T ∉ F)
    (hz : ∀ x, T ≤ x → x < T + 4096 → s.mem x = 0) (va : Nat) : leafAt L s T va = none := by
  obtain ⟨hw, he, _⟩ := zero_root hal hlt h0 hF hz
  by_cases hva : va < L.MAXVA
  · rw [leafAt_none_iff hw hva, he _ _ _ (PX_lt _ _)]
    exact not_pteValid_zero
  · exact leafAt_high (by omega)

theorem exS2_root (x : Nat) (h1 : exT ≤ x) (h2 : x < exT + 4096) : exS2.mem x = 0 := by
  unfold exT at h1 h2
  have e : exS2.mem = write64 (fun _ => 0) 0x87fff000 0x87ffe000 := rfl
  rw [e, write64_outside _ _ _ _ (by omega)]

theorem exS3_root (x : Nat) (h1 : exT ≤ x) (h2 : x < exT + 4096) : exS3.mem x = 0 := by
  unfold exT at h1 h2
  have e : exS3.mem =
      write64 (write64 (fun _ => 0) 0x87fff000 0x87ffe000) 0x87ffe000 0x87ffd000 := rfl
  rw [e, write64_outside _ _ _ _ (by omega), write64_outside _ _ _ _ (by omega)]

theorem exS6_root (x : Nat) (h1 : exT ≤ x) (h2 : x < exT + 4096) : exS6.mem x = 0 := by
  unfold exT at h1 h2
  have e : exS6.mem = write64 (write64 (write64 (write64 (write64 (fun _ => 0) 0x87fff000
      0x87ffe000) 0x87ffe000 0x87ffd000) 0x87ffd000 0x87ffc000) 0x87ffc000 0x87ffb000)
      0x87ffb000 0x87ffa000 := rfl
  rw [e, write64_outside _ _ _ _ (by omega), write64_outside _ _ _ _ (by omega),
    write64_outside _ _ _ _ (by omega), write64_outside _ _ _ _ (by omega),
    write64_outside _ _ _ _ (by omega)]

theorem outcome_of_val {α : Type} {o : Outcome (α × KState)} {v : α} (s0 : KState)
    (h : o.val Prod.fst = some v) : o = .ok (v, o.state s0) := by
  cases o with
  | ok r =>
    simp only [Outcome.val, Option.some.injEq] at h
    simp only [Outcome.state]
    rw [← h]
  | panic w => simp [Outcome.val] at h
  | diverge => simp [Outcome.val] at h

theorem FreeList_unique {m : Mem} : ∀ {F F' : List Nat} {h : Nat},
    FreeList m h F → FreeList m h F' → F = F'
  | [], [], _, _, _ => rfl
  | [], f :: F', h, h1, h2 => by
    have e1 : h = 0 := h1
    obtain ⟨e2, e3, _⟩ := h2
    omega
  | f :: F, [], h, h1, h2 => by
    have e1 : h = 0 := h2
    obtain ⟨e2, e3, _⟩ := h1
    omega
  | f :: F, f' :: F', h, h1, h2 => by
    obtain ⟨a1, _, a3⟩ := h1
    obtain ⟨b1, _, b3⟩ := h2
    have e : f = f' := by omega
    subst e
    rw [FreeList_unique a3 b3]

/-- The example state `exG` is well formed, and its two data frames are no page-table
pages. -/
theorem exG_facts : WFT exG.mem exT [0x87ffb000, 0x87ffa000] ∧
    ∀ d ∈ [0x87fff000, 0x87ffc000], ¬ IsTablePage exG.mem exT d := by
  have hfo : FreeOK exL exS6 exF6 := by decide
  have hw := (zero_root (m := exS6.mem) (T := exT) (F := exF6) (by decide) (by decide)
    (by decide) (by decide) exS6_root).1
  have hval : (uvmalloc exL exS6 exT 0 8192).val Prod.fst = some 8192 := by decide
  rcases uvmalloc_spec exL_sane hfo hw (Nat.zero_le 8192) (by decide)
    (fun a _ _ _ => @zero_root_leafAt exL exS6 exT exF6 (by decide) (by decide) (by decide)
      (by decide) exS6_root a) with ⟨s', D, Pt, F', hres, hok, _⟩ | ⟨s', Pt, F', hres, _, _⟩
  · have hs : exG = s' := by unfold exG; rw [hres]; rfl
    have hfo' : FreeOK exL exG [0x87ffb000, 0x87ffa000] := by decide
    have hF' : F' = [0x87ffb000, 0x87ffa000] := by
      rw [← hs] at hok
      exact FreeList_unique hok.free.1 hfo'.1
    obtain ⟨hfr, _, hD, _⟩ := growOK_frames exL_sane hfo hw hok (fun _ => by decide)
    rw [← hs] at hok hfr hD
    have hfrs : framesOf exG.mem exT (PGROUNDUP 0) ((8192 + 4095 - PGROUNDUP 0) / 4096) =
        [0x87fff000, 0x87ffc000] := by
      rw [← @leafFrames_eq exL exG exT _ hok.wft _ _ (by decide)]
      decide
    rw [hfrs] at hfr
    refine ⟨hF' ▸ hok.wft, fun d hd => ?_⟩
    exact (hD d (hfr ▸ hd)).2.2.2.2
  · rw [hres] at hval
    simp [Outcome.val] at hval

/-! ## `uvmcopy` -/

theorem flags_lt (e : Nat) : PTE_FLAGS e < 1024 := by
  rw [PTE_FLAGS_eq]; omega

theorem flags_or_V {e : Nat} (h : pteValid e) : PTE_FLAGS e ||| PTE_V = PTE_FLAGS e := by
  have h1 : PTE_FLAGS e % 2 = 1 := by
    rw [PTE_FLAGS_eq]; rw [pteValid_iff] at h; omega
  generalize PTE_FLAGS e = x at h1
  unfold PTE_V
  apply Nat.eq_of_testBit_eq
  intro i
  rw [Nat.testBit_or]
  cases i with
  | zero => simp [Nat.testBit_zero, h1]
  | succ i => simp [Nat.testBit_succ]

/-- `kalloc` followed by `memmove(mem, pa, PGSIZE)`. -/
theorem kalloc_copy_step {L : MemLayout} {s : KState} {T d : Nat} (pa : Nat) {F1 : List Nat}
    (hfo : FreeOK L s (d :: F1)) (hw : WFT s.mem T (d :: F1)) :
    kalloc s = (d, ⟨memset s.mem d 5 PGSIZE, read64 s.mem d⟩) ∧ d ≠ 0 ∧
      FreeOK L ⟨memmove (memset s.mem d 5 PGSIZE) d pa PGSIZE, read64 s.mem d⟩ F1 ∧
      WFT (memmove (memset s.mem d 5 PGSIZE) d pa PGSIZE) T F1 ∧
      (∀ p, IsTablePage (memmove (memset s.mem d 5 PGSIZE) d pa PGSIZE) T p ↔
        IsTablePage s.mem T p) ∧
      (∀ i j k, i < 512 → j < 512 → k < 512 →
        ent (memmove (memset s.mem d 5 PGSIZE) d pa PGSIZE) T i j k = ent s.mem T i j k) ∧
      (∀ x, ¬ (d ≤ x ∧ x < d + 4096) →
        memmove (memset s.mem d 5 PGSIZE) d pa PGSIZE x = s.mem x) ∧
      (∀ x, d ≤ x → x < d + 4096 → memmove (memset s.mem d 5 PGSIZE) d pa PGSIZE x =
        memset s.mem d 5 PGSIZE (pa + (x - d))) := by
  obtain ⟨hk, hd0, hfo1⟩ := kalloc_cons hfo
  have hdal := goodFrame_al (hfo.2.2 d (List.mem_cons_self _ _))
  have hnd := List.nodup_cons.mp hfo.2.1
  have hd : ¬ IsTablePage s.mem T d := fun h => (WFT_page hw h).2.2.2 (List.mem_cons_self _ _)
  have hout : ∀ x, ¬ (d ≤ x ∧ x < d + 4096) →
      memmove (memset s.mem d 5 PGSIZE) d pa PGSIZE x = s.mem x := by
    intro x hx
    unfold PGSIZE
    rw [memmove_outside _ _ _ _ _ (by omega), memset_outside _ _ _ _ _ (by omega)]
  obtain ⟨h1, h2, h3, _⟩ := data_change hw hdal hd hout
  refine ⟨hk, hd0, ?_, WFT_mono h1 (fun g hg => List.mem_cons_of_mem _ hg), h2, h3, hout, ?_⟩
  · refine FreeOK_congr hfo1 rfl fun g hg x hx1 hx2 => ?_
    have hgd : g ≠ d := fun e => hnd.1 (e ▸ hg)
    have hga := goodFrame_al (hfo.2.2 g (List.mem_cons_of_mem _ hg))
    show memmove (memset s.mem d 5 PGSIZE) d pa PGSIZE x = memset s.mem d 5 PGSIZE x
    unfold PGSIZE at hga hdal ⊢
    rw [memmove_outside _ _ _ _ _ (by omega)]
  · intro x h1 h2
    unfold PGSIZE
    rw [memmove_inside _ _ _ _ _ h1 h2]

/-- A step on the destination table that touches only frames that were free and
page-table pages of the destination leaves the source table and its frames as they are. -/
theorem old_keep {L : MemLayout} {s s' : KState} {O N a n : Nat} {F A : List Nat}
    (hfo : FreeOK L s F) (hwN : WFT s.mem N F) (hO : OldOK s O N F a n)
    (hA : ∀ f ∈ A, f ∈ F)
    (hfoot : ∀ x, s'.mem x ≠ s.mem x → (∃ f, f ∈ A ∧ f ≤ x ∧ x < f + 4096) ∨
      (∃ q, IsTablePage s.mem N q ∧ q ≤ x ∧ x < q + 4096)) :
    (∀ i j k, i < 512 → j < 512 → k < 512 → ent s'.mem O i j k = ent s.mem O i j k) ∧
    (∀ q, IsTablePage s'.mem O q ↔ IsTablePage s.mem O q) ∧ WFT s'.mem O F ∧
    (∀ q, IsTablePage s.mem O q → ∀ x, q ≤ x → x < q + 4096 → s'.mem x = s.mem x) ∧
    (∀ u, u < n → ∀ x, frameOf s.mem O (a + u * 4096) ≤ x →
      x < frameOf s.mem O (a + u * 4096) + 4096 → s'.mem x = s.mem x) := by
  have hAf : ∀ d, d ∉ F → ∀ f ∈ A, f % 4096 = 0 ∧ f ≠ d := fun d hd f hf =>
    ⟨goodFrame_al (hfo.2.2 f (hA f hf)), fun e => hd (e ▸ hA f hf)⟩
  have hag : ∀ p, IsTablePage s.mem O p → ∀ x, p ≤ x → x < p + 4096 → s'.mem x = s.mem x :=
    fun p hp x hx1 hx2 => frame_not_in hfoot (WFT_page hO.wft hp).1 ⟨hx1, hx2⟩
      (hAf p (WFT_page hO.wft hp).2.2.2)
      (fun q hq => ⟨(WFT_page hwN hq).1, fun e => hO.sepT p hp (e ▸ hq)⟩)
  obtain ⟨h1, h2⟩ := agree_tables_WFT hO.wft hag
  refine ⟨(agree_tables hag).2.2, h2, h1, hag, fun u hu x hx1 hx2 => ?_⟩
  have hal : frameOf s.mem O (a + u * 4096) % 4096 = 0 := PTE2PA_aligned _
  exact frame_not_in hfoot hal ⟨hx1, hx2⟩ (hAf _ (hO.sepF u hu).1)
    (fun q hq => ⟨(WFT_page hwN hq).1, fun e => (hO.sepF u hu).2 (e ▸ hq)⟩)

theorem oldOK_step {L : MemLayout} {s s' : KState} {O N a n : Nat} {F F' A : List Nat}
    (hfo : FreeOK L s F) (hwN : WFT s.mem N F) (hO : OldOK s O N F a n)
    (hA : ∀ f ∈ A, f ∈ F)
    (hfoot : ∀ x, s'.mem x ≠ s.mem x → (∃ f, f ∈ A ∧ f ≤ x ∧ x < f + 4096) ∨
      (∃ q, IsTablePage s.mem N q ∧ q ≤ x ∧ x < q + 4096))
    (hsub : ∀ f ∈ F', f ∈ F)
    (hpg : ∀ q, IsTablePage s'.mem N q → IsTablePage s.mem N q ∨ q ∈ F) :
    OldOK s' O N F' a n := by
  obtain ⟨hent, hpgO, hwO, _, _⟩ := old_keep hfo hwN hO hA hfoot
  have hfr : ∀ va, frameOf s'.mem O va = frameOf s.mem O va := fun va => by
    unfold frameOf; rw [hent _ _ _ (PX_lt _ _) (PX_lt _ _) (PX_lt _ _)]
  refine ⟨WFT_mono hwO hsub, fun u hu => ?_, fun q hq hc => ?_, fun u hu => ?_⟩
  · rw [hent _ _ _ (PX_lt _ _) (PX_lt _ _) (PX_lt _ _)]
    exact hO.mapped u hu
  · have hq' := (hpgO q).mp hq
    rcases hpg q hc with h | h
    · exact hO.sepT q hq' h
    · exact (WFT_page hO.wft hq').2.2.2 h
  · rw [hfr]
    refine ⟨fun h => (hO.sepF u hu).1 (hsub _ h), fun hc => ?_⟩
    rcases hpg _ hc with h | h
    · exact (hO.sepF u hu).2 h
    · exact (hO.sepF u hu).1 h

theorem oldOK_tail {s : KState} {O N a n : Nat} {F : List Nat} (hO : OldOK s O N F a (n + 1)) :
    OldOK s O N F (a + 4096) n := by
  have e : ∀ u, a + 4096 + u * 4096 = a + (u + 1) * 4096 := fun u => by omega
  refine ⟨hO.wft, fun u hu => ?_, hO.sepT, fun u hu => ?_⟩
  · rw [e]; exact hO.mapped (u + 1) (by omega)
  · rw [e]; exact hO.sepF (u + 1) (by omega)

/-- A lookup of a mapped page in the source table. -/
theorem walk_old {L : MemLayout} {s : KState} {O va : Nat} {F : List Nat}
    (hw : WFT s.mem O F) (hva : va < L.MAXVA)
    (hv : pteValid (ent s.mem O (PX 2 va) (PX 1 va) (PX 0 va))) :
    ∃ p, walk L s O va 0 = .ok (p, s) ∧ p ≠ 0 ∧
      read64 s.mem p = ent s.mem O (PX 2 va) (PX 1 va) (PX 0 va) := by
  obtain ⟨h2, h1⟩ := ent_valid_tables hv
  have hP := WFT_page hw (Or.inr (Or.inr ⟨_, _, PX_lt 2 va, PX_lt 1 va, h2, h1, rfl⟩))
  refine ⟨l0page s.mem O (PX 2 va) (PX 1 va) + 8 * PX 0 va, ?_, by omega, ?_⟩
  · rw [walk_ok hva, walk_loop_lookup, if_pos ⟨h2, h1⟩]
  · rw [ent_of_valid h2 h1]

theorem uvmcopy_loop_done (L : MemLayout) (fuel : Nat) (s : KState) (O N i sz : Nat)
    (h : ¬ i < sz) : uvmcopy_loop L (fuel + 1) s O N i sz = .ok (0, s) := by
  rw [uvmcopy_loop, if_neg h]

theorem uvmcopy_loop_nil (L : MemLayout) (fuel : Nat) (s : KState) (O N i sz p : Nat)
    (h : i < sz) (hwalk : walk L s O i 0 = .ok (p, s)) (hp : p ≠ 0)
    (hv : pteValid (read64 s.mem p)) (hk : kalloc s = (0, s)) :
    uvmcopy_loop L (fuel + 1) s O N i sz = uvmcopy_err L s N i := by
  have hv' : ¬ read64 s.mem p &&& PTE_V = 0 := hv
  rw [uvmcopy_loop, if_pos h, hwalk, bind_ok]
  simp only [if_neg hp, if_neg hv', hk, if_true]

theorem uvmcopy_loop_cons (L : MemLayout) (fuel : Nat) (s : KState) (m1 : Mem)
    (fl1 O N i sz p d : Nat)
    (h : i < sz) (hwalk : walk L s O i 0 = .ok (p, s)) (hp : p ≠ 0)
    (hv : pteValid (read64 s.mem p)) (hk : kalloc s = (d, ⟨m1, fl1⟩)) (hd : d ≠ 0) :
    uvmcopy_loop L (fuel + 1) s O N i sz =
      (mappages L ⟨memmove m1 d (PTE2PA (read64 s.mem p)) PGSIZE, fl1⟩ N i PGSIZE d
        (PTE_FLAGS (read64 s.mem p))).bind fun mp =>
          if mp.1 ≠ 0 then (kfree L mp.2 d).bind fun s4 => uvmcopy_err L s4 N i
          else uvmcopy_loop L fuel mp.2 O N ((i + PGSIZE) % 2 ^ 64) sz := by
  have hv' : ¬ read64 s.mem p &&& PTE_V = 0 := hv
  rw [uvmcopy_loop, if_pos h, hwalk, bind_ok]
  simp only [if_neg hp, if_neg hv', hk, if_neg hd]

/-- The code at label `err` of `uvmcopy`: the pages copied so far are unmapped and their
frames freed. -/
theorem rollback_unmap {L : MemLayout} (hL : L.Sane) {s : KState} {T t0 : Nat} {F : List Nat}
    (hfo : FreeOK L s F) (hw : WFT s.mem T F) (hlt : 0 + t0 * 4096 ≤ L.MAXVA)
    (hmap : ∀ u, u < t0 →
      pteValid (ent s.mem T (PX 2 (0 + u * 4096)) (PX 1 (0 + u * 4096))
        (PX 0 (0 + u * 4096))) ∧
      PTE_FLAGS (ent s.mem T (PX 2 (0 + u * 4096)) (PX 1 (0 + u * 4096))
        (PX 0 (0 + u * 4096))) ≠ PTE_V)
    (hfr : (framesOf s.mem T 0 t0).Nodup ∧ ∀ d ∈ framesOf s.mem T 0 t0,
      goodFrame L d ∧ d ∉ F ∧ ¬ IsTablePage s.mem T d) :
    ∃ s', uvmcopy_err L s T (0 + t0 * 4096) = .ok (-1, s') ∧
      FreeOK L s' ((framesOf s.mem T 0 t0).reverse ++ F) ∧
      WFT s'.mem T ((framesOf s.mem T 0 t0).reverse ++ F) ∧
      (∀ q, IsTablePage s'.mem T q ↔ IsTablePage s.mem T q) ∧
      EntUpd s.mem s'.mem T 0 t0 (fun _ => 0) ∧
      (∀ x, s'.mem x ≠ s.mem x →
        (∃ d, d ∈ framesOf s.mem T 0 t0 ∧ d ≤ x ∧ x < d + 4096) ∨
        (∃ q, IsTablePage s.mem T q ∧ q ≤ x ∧ x < q + 4096)) := by
  obtain ⟨s', hres, hfo', hw', hpg, hupd, hfoot⟩ := @uvmunmap_spec L hL s T 0 t0 1 F hfo hw
    (by decide) hlt hmap (fun _ => hfr)
  simp only [ne_eq, one_ne_zero, not_false_eq_true, if_true, true_and] at hfo' hw' hfoot
  refine ⟨s', ?_, hfo', hw', hpg, hupd, hfoot⟩
  unfold uvmcopy_err
  rw [show (0 + t0 * 4096) / PGSIZE = t0 by unfold PGSIZE; omega, hres, bind_ok]

/-- The loop of `uvmcopy`: it copies every page below `sz` into a fresh frame mapped with
the flags of the source entry, or unmaps and frees what it copied and returns -1. -/
theorem uvmcopy_loop_spec {L : MemLayout} (hL : L.Sane) {O N sz : Nat} (hsz : sz ≤ L.MAXVA) :
    ∀ (n fuel : Nat) (s : KState) (F : List Nat) (t0 : Nat), n < fuel → FreeOK L s F →
      WFT s.mem N F → OldOK s O N F (0 + t0 * 4096) n →
      sz ≤ 0 + t0 * 4096 + n * 4096 →
      (n = 0 ∨ 0 + t0 * 4096 + (n - 1) * 4096 < sz) →
      0 + t0 * 4096 ≤ L.MAXVA →
      (∀ u, u < t0 →
        pteValid (ent s.mem N (PX 2 (0 + u * 4096)) (PX 1 (0 + u * 4096))
          (PX 0 (0 + u * 4096))) ∧
        PTE_FLAGS (ent s.mem N (PX 2 (0 + u * 4096)) (PX 1 (0 + u * 4096))
          (PX 0 (0 + u * 4096))) ≠ PTE_V) →
      ((framesOf s.mem N 0 t0).Nodup ∧ ∀ d ∈ framesOf s.mem N 0 t0,
        goodFrame L d ∧ d ∉ F ∧ ¬ IsTablePage s.mem N d) →
      (∀ u, u < n → ¬ pteValid (ent s.mem N (PX 2 (0 + t0 * 4096 + u * 4096))
        (PX 1 (0 + t0 * 4096 + u * 4096)) (PX 0 (0 + t0 * 4096 + u * 4096)))) →
      (∃ s' D Pt F', uvmcopy_loop L fuel s O N (0 + t0 * 4096) sz = .ok (0, s') ∧
        GrowOK L N s F (0 + t0 * 4096) n
          (fun u => PTE_FLAGS (ent s.mem O (PX 2 (0 + t0 * 4096 + u * 4096))
            (PX 1 (0 + t0 * 4096 + u * 4096)) (PX 0 (0 + t0 * 4096 + u * 4096))))
          s' D Pt F' ∧
        (∀ u, u < n → ∀ x, D.getD u 0 ≤ x → x < D.getD u 0 + 4096 →
          s'.mem x = s.mem (frameOf s.mem O (0 + t0 * 4096 + u * 4096) + (x - D.getD u 0)))) ∨
      (∃ s' Pt F', uvmcopy_loop L fuel s O N (0 + t0 * 4096) sz = .ok (-1, s') ∧
        F.length < 3 * n ∧ GrowFail L N s F 0 t0 s' Pt F') := by
  have hM := hL.maxva_le
  have hMa := hL.maxva_al
  have hlo : 0 % 4096 = 0 := rfl
  intro n
  induction n with
  | zero =>
    intro fuel s F t0 hfuel hfo hw hO hn1 hn2 hlt hmap hfr hun
    obtain ⟨fuel, rfl⟩ : ∃ f, fuel = f + 1 := ⟨fuel - 1, by omega⟩
    left
    refine ⟨s, [], [], F, uvmcopy_loop_done L fuel s O N _ sz (by omega),
      ⟨rfl, hfo, hw, by simp, fun q => by simp, entUpd_zero (fun _ _ _ _ _ _ => rfl),
        fun x hx => absurd rfl hx⟩, fun u hu => absurd hu (Nat.not_lt_zero _)⟩
  | succ n ih =>
    intro fuel s F t0 hfuel hfo hw hO hn1 hn2 hlt hmap hfr hun
    obtain ⟨fuel, rfl⟩ : ∃ f, fuel = f + 1 := ⟨fuel - 1, by omega⟩
    have ha : 0 + t0 * 4096 < sz := by
      rcases hn2 with h | h
      · omega
      · simp only [Nat.add_sub_cancel] at h; omega
    have hun0 := hun 0 (by omega)
    simp only [Nat.zero_mul, Nat.add_zero] at hun0
    have hv0 := hO.mapped 0 (by omega)
    simp only [Nat.zero_mul, Nat.add_zero] at hv0
    obtain ⟨p, hwalk, hp, hread⟩ := @walk_old L s O (0 + t0 * 4096) F hO.wft (by omega) hv0.1
    have hvp : pteValid (read64 s.mem p) := by rw [hread]; exact hv0.1
    cases F with
    | nil =>
      right
      rw [uvmcopy_loop_nil L fuel s O N _ sz p ha hwalk hp hvp (kalloc_nil hfo)]
      obtain ⟨s', hres, hfo', hw', hpg', hupd', hfoot'⟩ := rollback_unmap hL hfo hw hlt hmap hfr
      exact ⟨s', [], _, hres, by simp, @growFail_of_rollback L s s s' N 0 t0 [] [] []
        (fun _ _ _ _ _ _ => rfl) (fun q => by simp) (by simp) hfo' hw' hpg' hupd'
        (fun x hx => absurd rfl hx) hfoot'⟩
    | cons d F1 =>
      obtain ⟨hk, hd0, hfo2, hw2, hpg2, hent2, hout2, hcopy2⟩ :=
        kalloc_copy_step (PTE2PA (read64 s.mem p)) hfo hw
      rw [uvmcopy_loop_cons L fuel s _ _ O N _ sz p d ha hwalk hp hvp hk hd0]
      have hgd := hfo.2.2 d (List.mem_cons_self _ _)
      have hdal := goodFrame_al hgd
      generalize hs2 : (⟨memmove (memset s.mem d 5 PGSIZE) d (PTE2PA (read64 s.mem p)) PGSIZE,
        read64 s.mem d⟩ : KState) = s2 at hfo2 ⊢
      have hm2 : s2.mem = memmove (memset s.mem d 5 PGSIZE) d (PTE2PA (read64 s.mem p))
          PGSIZE := by rw [← hs2]
      rw [← hm2] at hw2 hpg2 hent2 hout2 hcopy2
      rw [hread] at hcopy2 ⊢
      rcases @mappages_single L hL s2 N (0 + t0 * 4096) d
          (PTE_FLAGS (ent s.mem O (PX 2 (0 + t0 * 4096)) (PX 1 (0 + t0 * 4096))
            (PX 0 (0 + t0 * 4096)))) F1 hfo2 hw2
        (by omega) (by omega) (Nat.lt_trans (flags_lt _) (by decide)) (goodFrame_lt hL hgd) with
        ⟨s3, P, F', he, hts, hl, hupd, _⟩ | ⟨s3, P, he, hts, hl, hent3⟩ | ⟨_, hv⟩
      · -- the page is copied and mapped; the loop goes on
        rw [he, bind_ok]
        simp only [ne_eq, not_true_eq_false, if_false]
        have ea : (0 + t0 * 4096 + PGSIZE) % 2 ^ 64 = 0 + (t0 + 1) * 4096 := by
          unfold PGSIZE; omega
        rw [ea]
        obtain ⟨hmap3, hfrs3, hfr3, hupd1, hdP, hdF', hdT3⟩ := grow_iter_ok hL hfo hw hpg2 hent2
          hts hupd (flags_lt _) (by rw [flags_or_V hv0.1]; exact hv0.2) hlo (by omega) hmap hfr
        have hF1 : F1 = P ++ F' := hts.split
        -- the source table is not touched
        have hfoot2 : ∀ x, s2.mem x ≠ s.mem x → (∃ f, f ∈ [d] ∧ f ≤ x ∧ x < f + 4096) ∨
            (∃ q, IsTablePage s.mem N q ∧ q ≤ x ∧ x < q + 4096) := fun x hx =>
          Or.inl ⟨d, List.mem_singleton.mpr rfl, by
            by_contra hc
            exact hx (hout2 x hc)⟩
        have hA2 : ∀ f ∈ [d], f ∈ d :: F1 := fun f hf => by
          rw [List.mem_singleton] at hf; exact hf ▸ List.mem_cons_self _ _
        have k12 := old_keep hfo hw hO hA2 hfoot2
        have hO2 : OldOK s2 O N F1 (0 + t0 * 4096) (n + 1) := oldOK_step hfo hw hO hA2 hfoot2
          (fun f hf => List.mem_cons_of_mem _ hf) (fun q hq => Or.inl ((hpg2 q).mp hq))
        have hA3 : ∀ f ∈ P, f ∈ F1 := fun f hf => by rw [hF1]; exact List.mem_append_left _ hf
        have k23 := old_keep hfo2 hw2 hO2 hA3 hts.foot
        have hO3 : OldOK s3 O N F' (0 + t0 * 4096) (n + 1) := oldOK_step hfo2 hw2 hO2 hA3
          hts.foot (fun f hf => by rw [hF1]; exact List.mem_append_right _ hf)
          (fun q hq => by
            rcases (hts.pages q).mp hq with h | h
            · exact Or.inl h
            · exact Or.inr (hA3 q h))
        have hO3' : OldOK s3 O N F' (0 + (t0 + 1) * 4096) n := by
          have := oldOK_tail hO3
          rw [show 0 + t0 * 4096 + 4096 = 0 + (t0 + 1) * 4096 by omega] at this
          exact this
        have hentO : ∀ i j k, i < 512 → j < 512 → k < 512 →
            ent s3.mem O i j k = ent s.mem O i j k := fun i j k hi hj hk => by
          rw [k23.1 i j k hi hj hk, k12.1 i j k hi hj hk]
        have hfrO : ∀ va, frameOf s3.mem O va = frameOf s.mem O va := fun va => by
          unfold frameOf; rw [hentO _ _ _ (PX_lt _ _) (PX_lt _ _) (PX_lt _ _)]
        have hfrO2 : ∀ va, frameOf s2.mem O va = frameOf s.mem O va := fun va => by
          unfold frameOf; rw [k12.1 _ _ _ (PX_lt _ _) (PX_lt _ _) (PX_lt _ _)]
        rcases ih fuel s3 F' (t0 + 1) (by omega) hts.free hts.wft hO3' (by omega) (by omega)
          (by omega) hmap3 hfr3 (fun u hu => by
            rw [show 0 + (t0 + 1) * 4096 + u * 4096 = 0 + t0 * 4096 + (u + 1) * 4096 by omega,
              entUpd_other hupd1 (by omega) (by omega) (by omega) (by omega) (by omega)]
            exact hun (u + 1) (by omega)) with
          ⟨s', D', Pt', F'', hres, hok, hz⟩ | ⟨s', Pt', F'', hres, hlen, hfail⟩
        · left
          have e1 : ∀ u, 0 + (t0 + 1) * 4096 + u * 4096 = 0 + t0 * 4096 + (u + 1) * 4096 :=
            fun u => by omega
          have hok' : GrowOK L N s3 F' (0 + t0 * 4096 + 4096) n
              (fun u => PTE_FLAGS (ent s3.mem O (PX 2 (0 + (t0 + 1) * 4096 + u * 4096))
                (PX 1 (0 + (t0 + 1) * 4096 + u * 4096)) (PX 0 (0 + (t0 + 1) * 4096 + u * 4096))))
              s' D' Pt' F'' := by
            rw [show 0 + t0 * 4096 + 4096 = 0 + (t0 + 1) * 4096 by omega]
            exact hok
          obtain ⟨hG, hkeep⟩ := @growOK_cons L s s2 s3 s' N (0 + t0 * 4096) d _ n F1 F' P D' Pt'
            F'' (fun u => PTE_FLAGS (ent s.mem O (PX 2 (0 + t0 * 4096 + u * 4096))
              (PX 1 (0 + t0 * 4096 + u * 4096)) (PX 0 (0 + t0 * 4096 + u * 4096)))) _
            hfo hw hpg2 hout2 hts hok' hupd1 hdP hdF' hdT3
            (by simp only [Nat.zero_mul, Nat.add_zero])
            (fun u _ => by
              show PTE_FLAGS (ent s3.mem O _ _ _) = PTE_FLAGS (ent s.mem O _ _ _)
              rw [hentO _ _ _ (PX_lt _ _) (PX_lt _ _) (PX_lt _ _), e1 u])
            (by omega) (by omega)
          refine ⟨s', d :: D', P ++ Pt', F'', hres, hG, ?_⟩
          intro u hu x hx1 hx2
          cases u with
          | zero =>
            simp only [List.getD_cons_zero, Nat.zero_mul, Nat.add_zero] at hx1 hx2 ⊢
            rw [hkeep x hx1 hx2, hcopy2 x hx1 hx2]
            have hsep := (hO.sepF 0 (by omega)).1
            simp only [Nat.zero_mul, Nat.add_zero] at hsep
            have hne : frameOf s.mem O (0 + t0 * 4096) ≠ d := fun e =>
              hsep (e ▸ List.mem_cons_self _ _)
            have hal : frameOf s.mem O (0 + t0 * 4096) % 4096 = 0 := PTE2PA_aligned _
            show memset s.mem d 5 PGSIZE (frameOf s.mem O (0 + t0 * 4096) + (x - d)) = _
            unfold PGSIZE
            rw [memset_outside _ _ _ _ _ (by omega)]
          | succ u =>
            simp only [List.getD_cons_succ] at hx1 hx2 ⊢
            rw [hz u (by omega) x hx1 hx2, hfrO, e1 u]
            have hy1 : frameOf s.mem O (0 + t0 * 4096 + (u + 1) * 4096) ≤
                frameOf s.mem O (0 + t0 * 4096 + (u + 1) * 4096) + (x - D'.getD u 0) := by
              omega
            have hy2 : frameOf s.mem O (0 + t0 * 4096 + (u + 1) * 4096) + (x - D'.getD u 0) <
                frameOf s.mem O (0 + t0 * 4096 + (u + 1) * 4096) + 4096 := by omega
            rw [k23.2.2.2.2 (u + 1) (by omega) _ (by rw [hfrO2]; exact hy1)
              (by rw [hfrO2]; exact hy2)]
            exact k12.2.2.2.2 (u + 1) (by omega) _ hy1 hy2
        · right
          refine ⟨s', P ++ Pt', F'', hres, ?_,
            growFail_cons hpg2 hout2 hts hupd1 hfrs3 hun0 hfail⟩
          rw [hF1, List.length_cons, List.length_append]; omega
      · -- `mappages` could not allocate a table page
        right
        rw [he, bind_ok]
        simp only [ne_eq, Int.reduceNeg, neg_eq_zero, one_ne_zero, not_false_eq_true, if_true]
        obtain ⟨s4, hk4, hfo4, hw4, hpg4, hent4, hF1, hfoot4⟩ :=
          fail_kfree hL hfo hw hpg2 hent2 hout2 hts hent3
        rw [hk4, bind_ok]
        obtain ⟨hmap4, hfr4⟩ := @rollback_pre L s s4 N 0 t0 (d :: F1) [d] P hent4 hpg4
          (fun f hf => by
            rcases hf with h | h
            · exact List.mem_cons_of_mem _ (hF1 ▸ h)
            · rw [List.mem_singleton] at h; exact h ▸ List.mem_cons_self _ _) hmap hfr
        obtain ⟨s', hres, hfo', hw', hpg', hupd', hfoot'⟩ :=
          rollback_unmap hL hfo4 hw4 hlt hmap4 hfr4
        refine ⟨s', P, _, hres, ?_,
          growFail_of_rollback hent4 hpg4 ?_ hfo' hw' hpg' hupd' hfoot4 hfoot'⟩
        · rw [hF1, List.length_cons]; omega
        · rw [hF1]
          exact @List.perm_append_comm _ [d] P
      · exact absurd (by rw [← hent2 _ _ _ (PX_lt _ _) (PX_lt _ _) (PX_lt _ _)]; exact hv) hun0

/-- The preconditions of `uvmcopy` in terms of the lookups give the invariant of its
loop. -/
theorem oldOK_of_dense {L : MemLayout} {s : KState} {old new sz : Nat} {F : List Nat}
    (hwO : WFT s.mem old F)
    (hdense : ∀ a, a % PGSIZE = 0 → a < sz → ∃ e, leafAt L s old a = some e ∧ isLeaf e)
    (hsepT : ∀ q, IsTablePage s.mem old q → ¬ IsTablePage s.mem new q)
    (hsepF : ∀ a e, a % PGSIZE = 0 → a < sz → leafAt L s old a = some e →
      PTE2PA e ∉ F ∧ ¬ IsTablePage s.mem new (PTE2PA e)) :
    OldOK s old new F (0 + 0 * 4096) ((sz + 4095) / 4096) := by
  refine ⟨hwO, fun u hu => ?_, hsepT, fun u hu => ?_⟩
  · obtain ⟨e, he, hl⟩ := hdense (0 + 0 * 4096 + u * 4096) (by unfold PGSIZE; omega) (by omega)
    obtain ⟨_, hev, _, _⟩ := leafAt_some hwO he
    rw [hev]
    exact isLeaf_flags hl
  · obtain ⟨e, he, hl⟩ := hdense (0 + 0 * 4096 + u * 4096) (by unfold PGSIZE; omega) (by omega)
    obtain ⟨_, hev, _, _⟩ := leafAt_some hwO he
    unfold frameOf
    rw [hev]
    exact hsepF _ e (by unfold PGSIZE; omega) (by omega) he

/-- `uvmcopy` on well-formed, separate tables: it copies every page, or rolls back. -/
theorem uvmcopy_spec {L : MemLayout} (hL : L.Sane) {s : KState} {old new sz : Nat}
    {F : List Nat} (hfo : FreeOK L s F) (hwO : WFT s.mem old F) (hwN : WFT s.mem new F)
    (hsz : sz ≤ L.MAXVA)
    (hdense : ∀ a, a % PGSIZE = 0 → a < sz → ∃ e, leafAt L s old a = some e ∧ isLeaf e)
    (hnone : ∀ a, a % PGSIZE = 0 → a < sz → leafAt L s new a = none)
    (hsepT : ∀ q, IsTablePage s.mem old q → ¬ IsTablePage s.mem new q)
    (hsepF : ∀ a e, a % PGSIZE = 0 → a < sz → leafAt L s old a = some e →
      PTE2PA e ∉ F ∧ ¬ IsTablePage s.mem new (PTE2PA e)) :
    (∃ s' D Pt F', uvmcopy L s old new sz = .ok (0, s') ∧
      GrowOK L new s F 0 ((sz + 4095) / 4096)
        (fun u => PTE_FLAGS (ent s.mem old (PX 2 (u * 4096)) (PX 1 (u * 4096))
          (PX 0 (u * 4096)))) s' D Pt F' ∧
      (∀ u, u < (sz + 4095) / 4096 → ∀ x, D.getD u 0 ≤ x → x < D.getD u 0 + 4096 →
        s'.mem x = s.mem (frameOf s.mem old (u * 4096) + (x - D.getD u 0)))) ∨
    (∃ s' Pt F', uvmcopy L s old new sz = .ok (-1, s') ∧
      F.length < 3 * ((sz + 4095) / 4096) ∧ GrowFail L new s F 0 0 s' Pt F') := by
  have hM := hL.maxva_le
  have hO := oldOK_of_dense hwO hdense hsepT hsepF
  have h := @uvmcopy_loop_spec L hL old new sz hsz ((sz + 4095) / 4096)
    (L.MAXVA / PGSIZE + 2) s F 0 (by unfold PGSIZE; omega) hfo hwN hO (by omega) (by omega)
    (by omega) (fun u hu => absurd hu (Nat.not_lt_zero _))
    ⟨List.nodup_nil, fun d hd => absurd hd (List.not_mem_nil _)⟩
    (fun u hu => by
      have := hnone (0 + 0 * 4096 + u * 4096) (by unfold PGSIZE; omega) (by omega)
      exact (leafAt_none_iff hwN (by omega)).mp this)
  simp only [Nat.zero_mul, Nat.zero_add] at h
  exact h

/-- A change confined to frames that were free and to page-table pages of the destination
leaves every lookup in the source table, its page-table pages and its frames unchanged. -/
theorem old_unchanged {L : MemLayout} {s s' : KState} {old new sz : Nat} {F A : List Nat}
    (hfo : FreeOK L s F) (hwO : WFT s.mem old F) (hwN : WFT s.mem new F)
    (hdense : ∀ a, a % PGSIZE = 0 → a < sz → ∃ e, leafAt L s old a = some e ∧ isLeaf e)
    (hsepT : ∀ q, IsTablePage s.mem old q → ¬ IsTablePage s.mem new q)
    (hsepF : ∀ a e, a % PGSIZE = 0 → a < sz → leafAt L s old a = some e →
      PTE2PA e ∉ F ∧ ¬ IsTablePage s.mem new (PTE2PA e))
    (hA : ∀ f ∈ A, f ∈ F)
    (hfoot : ∀ x, s'.mem x ≠ s.mem x → (∃ f, f ∈ A ∧ f ≤ x ∧ x < f + 4096) ∨
      (∃ q, IsTablePage s.mem new q ∧ q ≤ x ∧ x < q + 4096)) :
    (∀ va, leafAt L s' old va = leafAt L s old va) ∧
    (∀ q, IsTablePage s.mem old q → ∀ x, q ≤ x → x < q + PGSIZE → s'.mem x = s.mem x) ∧
    (∀ a e, a % PGSIZE = 0 → a < sz → leafAt L s old a = some e →
      ∀ y, y < PGSIZE → s'.mem (PTE2PA e + y) = s.mem (PTE2PA e + y)) := by
  have hO := oldOK_of_dense hwO hdense hsepT hsepF
  obtain ⟨hent, _, hwO', hpages, hframes⟩ := old_keep hfo hwN hO hA hfoot
  refine ⟨fun va => leafAt_congr hwO hwO' (fun _ => Or.inl
    (hent _ _ _ (PX_lt _ _) (PX_lt _ _) (PX_lt _ _))), hpages, fun a e ha hlt he y hy => ?_⟩
  unfold PGSIZE at ha hy
  obtain ⟨_, hev, _, _⟩ := leafAt_some hwO he
  have := hframes (a / 4096) (by omega) (PTE2PA e + y)
  rw [show 0 + 0 * 4096 + a / 4096 * 4096 = a by omega] at this
  unfold frameOf at this
  rw [hev] at this
  exact this (by omega) (by omega)

/-! ## The example tables -/

theorem exS6_second (x : Nat) (h1 : exN ≤ x) (h2 : x < exN + 4096) : exS6.mem x = 0 := by
  unfold exN at h1 h2
  have e : exS6.mem = write64 (write64 (write64 (write64 (write64 (fun _ => 0) 0x87fff000
      0x87ffe000) 0x87ffe000 0x87ffd000) 0x87ffd000 0x87ffc000) 0x87ffc000 0x87ffb000)
      0x87ffb000 0x87ffa000 := rfl
  rw [e, write64_outside _ _ _ _ (by omega), write64_outside _ _ _ _ (by omega),
    write64_outside _ _ _ _ (by omega), write64_outside _ _ _ _ (by omega),
    write64_outside _ _ _ _ (by omega)]

/-- The example state after a successful `uvmalloc(exT, 0, sz)` in `exS6`, with free
frames `F'`: the table `exT` is well formed, the page at `exN` is still zero, so that
`exN` is the root of an empty table separate from `exT`, and every leaf of `exT` references
a frame that is neither free nor `exN`. -/
theorem exGrow_facts (sz : Nat) (F' : List Nat) (hsz : sz ≤ exL.MAXVA) (hpos : 0 < sz)
    (hval : (uvmalloc exL exS6 exT 0 sz).val Prod.fst = some sz)
    (hfo' : FreeOK exL ((uvmalloc exL exS6 exT 0 sz).state exS6) F') :
    WFT ((uvmalloc exL exS6 exT 0 sz).state exS6).mem exT F' ∧
    WFT ((uvmalloc exL exS6 exT 0 sz).state exS6).mem exN F' ∧
    (∀ va, leafAt exL ((uvmalloc exL exS6 exT 0 sz).state exS6) exN va = none) ∧
    (∀ q, IsTablePage ((uvmalloc exL exS6 exT 0 sz).state exS6).mem exT q →
      ¬ IsTablePage ((uvmalloc exL exS6 exT 0 sz).state exS6).mem exN q) ∧
    (∀ a e, leafAt exL ((uvmalloc exL exS6 exT 0 sz).state exS6) exT a = some e →
      PTE2PA e ∉ F' ∧ ¬ IsTablePage ((uvmalloc exL exS6 exT 0 sz).state exS6).mem exN
        (PTE2PA e)) := by
  have hfo : FreeOK exL exS6 exF6 := by decide
  have hz := zero_root (m := exS6.mem) (T := exT) (F := exF6) (by decide) (by decide)
    (by decide) (by decide) exS6_root
  have hw := hz.1
  have hun : ∀ a, leafAt exL exS6 exT a = none := fun a =>
    @zero_root_leafAt exL exS6 exT exF6 (by decide) (by decide) (by decide) (by decide)
      exS6_root a
  rcases uvmalloc_spec exL_sane hfo hw (Nat.zero_le sz) hsz (fun a _ _ _ => hun a) with
    ⟨s', D, Pt, F'', hres, hok, _⟩ | ⟨s', Pt, F'', hres, _, _⟩
  · have hs : (uvmalloc exL exS6 exT 0 sz).state exS6 = s' := by rw [hres]; rfl
    rw [hs] at hfo' ⊢
    have hF' : F'' = F' := FreeList_unique hok.free.1 hfo'.1
    subst hF'
    obtain ⟨hfr, _, hD, hP⟩ := growOK_frames exL_sane hfo hw hok (fun _ => by decide)
    have hsub : ∀ f, f ∈ D ++ Pt → f ∈ exF6 := fun f hf =>
      hok.perm.mem_iff.mpr (List.mem_append_left _ hf)
    have hF6 : ∀ f ∈ exF6, f % 4096 = 0 ∧ 0x87ffa000 ≤ f := by decide
    have hzero : ∀ x, exN ≤ x → x < exN + 4096 → s'.mem x = 0 := by
      intro x h1 h2
      rw [← exS6_second x h1 h2]
      by_contra hne
      unfold exN at h1 h2
      rcases hok.foot x hne with ⟨f, hf, hx⟩ | ⟨q, hq, hx⟩
      · have := hF6 f (hsub f hf); omega
      · have : q = exT := (hz.2.2 q).mp hq
        unfold exT at this
        omega
    have hNF : exN ∉ F'' := fun h => by
      have h1 : exN ∈ exF6 := hok.perm.mem_iff.mpr (List.mem_append_right _ h)
      revert h1; decide
    obtain ⟨hwN, _, hpN⟩ := zero_root (m := s'.mem) (T := exN) (F := F'') (by decide)
      (by decide) (by decide) hNF hzero
    have hNT : ¬ IsTablePage s'.mem exT exN := fun h => by
      rcases (hok.pages exN).mp h with h | h
      · have := (hz.2.2 exN).mp h
        revert this; decide
      · have h1 : exN ∈ exF6 := (hP exN h).1
        revert h1; decide
    refine ⟨hok.wft, hwN, fun va => zero_root_leafAt (by decide) (by decide) (by decide) hNF
      hzero va, fun q hq hc => hNT ((hpN q).mp hc ▸ hq), fun a e he => ?_⟩
    obtain ⟨hva, hev, _, hvalid⟩ := leafAt_some hok.wft he
    -- a valid entry is one of the new leaves
    have hin : ∃ u, u < (sz + 4095 - PGROUNDUP 0) / 4096 ∧
        PX 2 a = PX 2 (PGROUNDUP 0 + u * 4096) ∧ PX 1 a = PX 1 (PGROUNDUP 0 + u * 4096) ∧
        PX 0 a = PX 0 (PGROUNDUP 0 + u * 4096) := by
      by_contra hc
      have := hok.upd.2 _ _ _ (PX_lt 2 a) (PX_lt 1 a) (PX_lt 0 a)
        (fun u hu h => hc ⟨u, hu, h⟩)
      rw [hev, hz.2.1 _ _ _ (PX_lt _ _)] at this
      rw [this] at hvalid
      exact not_pteValid_zero hvalid
    obtain ⟨u, hu, h2, h1, h0⟩ := hin
    have hval := hok.upd.1 u hu
    rw [← h2, ← h1, ← h0, hev] at hval
    have hmem : D.getD u 0 ∈ D := by
      rw [List.getD_eq_getElem _ _ (by rw [hok.len]; exact hu)]; exact List.getElem_mem _
    have hg := hD _ hmem
    have hpa : PTE2PA e = D.getD u 0 := by
      rw [hval]
      exact entry_pa (goodFrame_al hg.1) (goodFrame_lt exL_sane hg.1) (by decide)
    rw [hpa]
    refine ⟨hg.2.2.1, fun hc => ?_⟩
    have : D.getD u 0 = exN := (hpN _).mp hc
    have h1 : exN ∈ exF6 := this ▸ hg.2.1
    revert h1; decide
  · rw [hres] at hval
    simp only [Outcome.val, Option.some.injEq] at hval
    omega

/-! ## `freewalk` -/

theorem freewalk_loop_end (child : KState → Nat → Outcome KState) (fuel : Nat) (s : KState)
    (pg i : Nat) (h : ¬ i < 512) : freewalk_loop child (fuel + 1) s pg i = .ok s := by
  rw [freewalk_loop, if_neg h]

theorem freewalk_loop_skip (child : KState → Nat → Outcome KState) (fuel : Nat) (s : KState)
    (pg i : Nat) (h : i < 512) (hv : ¬ pteValid (read64 s.mem (pg + 8 * i))) :
    freewalk_loop child (fuel + 1) s pg i = freewalk_loop child fuel s pg (i + 1) := by
  have hv' : ¬ read64 s.mem (pg + 8 * i) &&& PTE_V ≠ 0 := hv
  have h1 : ¬ (read64 s.mem (pg + 8 * i) &&& PTE_V ≠ 0 ∧
      read64 s.mem (pg + 8 * i) &&& (PTE_R ||| PTE_W ||| PTE_X) = 0) := fun hc => hv hc.1
  rw [freewalk_loop, if_pos h]
  simp only [if_neg h1, if_neg hv']

theorem freewalk_loop_child (child : KState → Nat → Outcome KState) (fuel : Nat) (s : KState)
    (pg i : Nat) (h : i < 512) (hv : pteValid (read64 s.mem (pg + 8 * i)))
    (hp : read64 s.mem (pg + 8 * i) &&& (PTE_R ||| PTE_W ||| PTE_X) = 0) :
    freewalk_loop child (fuel + 1) s pg i =
      (child s (PTE2PA (read64 s.mem (pg + 8 * i)))).bind fun s1 =>
        freewalk_loop child fuel ⟨write64 s1.mem (pg + 8 * i) 0, s1.freelist⟩ pg (i + 1) := by
  have h1 : read64 s.mem (pg + 8 * i) &&& PTE_V ≠ 0 ∧
      read64 s.mem (pg + 8 * i) &&& (PTE_R ||| PTE_W ||| PTE_X) = 0 := ⟨hv, hp⟩
  rw [freewalk_loop, if_pos h]
  simp only [if_pos h1]

theorem mem_stackOf (sub : Nat → List Nat) (f : Nat) : ∀ (n i : Nat),
    f ∈ stackOf sub i n ↔ ∃ j, i ≤ j ∧ j < i + n ∧ f ∈ sub j
  | 0, i => by
    simp only [stackOf, List.not_mem_nil, false_iff]
    rintro ⟨j, h1, h2, _⟩
    omega
  | n + 1, i => by
    rw [stackOf, List.mem_append, mem_stackOf sub f n (i + 1)]
    constructor
    · rintro (⟨j, h1, h2, h3⟩ | h)
      · exact ⟨j, by omega, by omega, h3⟩
      · exact ⟨i, by omega, by omega, h⟩
    · rintro ⟨j, h1, h2, h3⟩
      by_cases e : j = i
      · exact Or.inr (e ▸ h3)
      · exact Or.inl ⟨j, by omega, by omega, h3⟩

/-- The loop of `freewalk` over a page whose valid entries are internal: `child` frees the
frames `sub i` of the lower-level table under entry `i`, and the loop ends with all of
them on the free list, those of the last entry on top. -/
theorem freewalk_loop_spec {L : MemLayout} (child : KState → Nat → Outcome KState)
    (pg : Nat) (s0 : KState) (sub : Nat → List Nat) (hpg : pg % 4096 = 0)
    (hplain : ∀ i, i < 512 → pteValid (read64 s0.mem (pg + 8 * i)) →
      read64 s0.mem (pg + 8 * i) &&& (PTE_R ||| PTE_W ||| PTE_X) = 0)
    (hsub0 : ∀ i, i < 512 → ¬ pteValid (read64 s0.mem (pg + 8 * i)) → sub i = [])
    (hsubal : ∀ i, i < 512 → ∀ f ∈ sub i, f % 4096 = 0 ∧ f ≠ pg)
    (hdisj : ∀ i j, i < j → j < 512 → ∀ f ∈ sub i, f ∉ sub j)
    (hchild : ∀ i, i < 512 → pteValid (read64 s0.mem (pg + 8 * i)) →
      ∀ (s : KState) (G : List Nat), FreeOK L s G → (∀ f ∈ sub i, f ∉ G) →
        (∀ f ∈ sub i, ∀ x, f ≤ x → x < f + 4096 → s.mem x = s0.mem x) →
        ∃ s', child s (PTE2PA (read64 s0.mem (pg + 8 * i))) = .ok s' ∧
          FreeOK L s' (sub i ++ G) ∧
          ∀ x, (∀ f ∈ sub i, ¬ (f ≤ x ∧ x < f + 4096)) → s'.mem x = s.mem x) :
    ∀ (n i : Nat), i + n = 512 → ∀ (fuel : Nat) (s : KState) (G : List Nat), n < fuel →
      FreeOK L s G → (∀ g ∈ G, g ≠ pg) →
      (∀ j, i ≤ j → j < 512 → ∀ f ∈ sub j, f ∉ G) →
      (∀ j, i ≤ j → j < 512 → read64 s.mem (pg + 8 * j) = read64 s0.mem (pg + 8 * j)) →
      (∀ j, i ≤ j → j < 512 → ∀ f ∈ sub j, ∀ x, f ≤ x → x < f + 4096 → s.mem x = s0.mem x) →
      ∃ s', freewalk_loop child fuel s pg i = .ok s' ∧ FreeOK L s' (stackOf sub i n ++ G) ∧
        ∀ x, ¬ (pg ≤ x ∧ x < pg + 4096) →
          (∀ j, i ≤ j → j < 512 → ∀ f ∈ sub j, ¬ (f ≤ x ∧ x < f + 4096)) →
          s'.mem x = s.mem x := by
  intro n
  induction n with
  | zero =>
    intro i hi fuel s G hfuel hfo _ _ _ _
    obtain ⟨fuel, rfl⟩ : ∃ f, fuel = f + 1 := ⟨fuel - 1, by omega⟩
    exact ⟨s, freewalk_loop_end child fuel s pg i (by omega), hfo, fun _ _ _ => rfl⟩
  | succ n ih =>
    intro i hi fuel s G hfuel hfo hGpg hGsub hent hfr
    obtain ⟨fuel, rfl⟩ : ∃ f, fuel = f + 1 := ⟨fuel - 1, by omega⟩
    have hi' : i < 512 := by omega
    have hei := hent i (Nat.le_refl i) hi'
    by_cases hv : pteValid (read64 s0.mem (pg + 8 * i))
    · -- a lower-level table: free it and clear the entry
      rw [freewalk_loop_child child fuel s pg i hi' (by rw [hei]; exact hv)
        (by rw [hei]; exact hplain i hi' hv), hei]
      obtain ⟨s1, hc, hfo1, hout1⟩ := hchild i hi' hv s G hfo (hGsub i (Nat.le_refl i) hi')
        (hfr i (Nat.le_refl i) hi')
      rw [hc, bind_ok]
      have hGal : ∀ g ∈ sub i ++ G, g % 4096 = 0 ∧ g ≠ pg := fun g hg => by
        rcases List.mem_append.mp hg with h | h
        · exact hsubal i hi' g h
        · exact ⟨goodFrame_al (hfo.2.2 g h), hGpg g h⟩
      have hfo2 : FreeOK L ⟨write64 s1.mem (pg + 8 * i) 0, s1.freelist⟩ (sub i ++ G) := by
        refine FreeOK_congr hfo1 rfl fun g hg x hx1 hx2 => ?_
        have := hGal g hg
        exact write64_outside _ _ _ _ (by omega)
      have hsep : ∀ j, i + 1 ≤ j → j < 512 → ∀ f' ∈ sub j, ∀ x, f' ≤ x → x < f' + 4096 →
          ∀ f ∈ sub i, ¬ (f ≤ x ∧ x < f + 4096) := fun j hj1 hj2 f' hf' x hx1 hx2 f hf => by
        have hne : f ≠ f' := fun e => hdisj i j (by omega) hj2 f hf (e ▸ hf')
        have := (hsubal i hi' f hf).1
        have := (hsubal j hj2 f' hf').1
        omega
      obtain ⟨s', hres, hfo', hout'⟩ := ih (i + 1) (by omega) fuel
        ⟨write64 s1.mem (pg + 8 * i) 0, s1.freelist⟩ (sub i ++ G) (by omega) hfo2
        (fun g hg => (hGal g hg).2)
        (fun j hj1 hj2 f hf hc => by
          rcases List.mem_append.mp hc with h | h
          · exact hdisj i j (by omega) hj2 f h hf
          · exact hGsub j (by omega) hj2 f hf h)
        (fun j hj1 hj2 => by
          rw [← hent j (by omega) hj2]
          refine read64_congr fun x hx1 hx2 => ?_
          show write64 s1.mem (pg + 8 * i) 0 x = s.mem x
          rw [write64_outside _ _ _ _ (by omega)]
          refine hout1 x (fun f hf => ?_)
          have := hsubal i hi' f hf
          omega)
        (fun j hj1 hj2 f' hf' x hx1 hx2 => by
          rw [← hfr j (by omega) hj2 f' hf' x hx1 hx2]
          have := hsubal j hj2 f' hf'
          show write64 s1.mem (pg + 8 * i) 0 x = s.mem x
          rw [write64_outside _ _ _ _ (by omega)]
          exact hout1 x (hsep j hj1 hj2 f' hf' x hx1 hx2))
      refine ⟨s', hres, ?_, fun x hx1 hx2 => ?_⟩
      · rw [stackOf, List.append_assoc]; exact hfo'
      · rw [hout' x hx1 (fun j hj1 hj2 => hx2 j (by omega) hj2)]
        show write64 s1.mem (pg + 8 * i) 0 x = s.mem x
        rw [write64_outside _ _ _ _ (by omega)]
        exact hout1 x (hx2 i (Nat.le_refl i) hi')
    · -- an invalid entry is skipped
      rw [freewalk_loop_skip child fuel s pg i hi' (by rw [hei]; exact hv)]
      obtain ⟨s', hres, hfo', hout'⟩ := ih (i + 1) (by omega) fuel s G (by omega) hfo hGpg
        (fun j hj1 hj2 => hGsub j (by omega) hj2) (fun j hj1 hj2 => hent j (by omega) hj2)
        (fun j hj1 hj2 => hfr j (by omega) hj2)
      refine ⟨s', hres, ?_, fun x hx1 hx2 => hout' x hx1 (fun j hj1 hj2 => hx2 j (by omega) hj2)⟩
      rw [stackOf, hsub0 i hi' hv, List.append_nil]; exact hfo'

theorem WFT_plain {m : Mem} {T : Nat} {F : List Nat} (hw : WFT m T F) :
    (∀ i, i < 512 → pteValid (rootE m T i) →
      rootE m T i &&& (PTE_R ||| PTE_W ||| PTE_X) = 0) ∧
    (∀ i j, i < 512 → j < 512 → pteValid (rootE m T i) → pteValid (l1E m T i j) →
      l1E m T i j &&& (PTE_R ||| PTE_W ||| PTE_X) = 0) := by
  obtain ⟨_, _, lab, _, _, _, _, _, p1, p2⟩ := hw
  exact ⟨p1, p2⟩

/-- The page-table pages of a well-formed table are pairwise different. -/
theorem WFT_sep {m : Mem} {T : Nat} {F : List Nat} (hw : WFT m T F) :
    (∀ i, i < 512 → pteValid (rootE m T i) → l1page m T i ≠ T) ∧
    (∀ i j, i < 512 → j < 512 → pteValid (rootE m T i) → pteValid (l1E m T i j) →
      l0page m T i j ≠ T) ∧
    (∀ i i', i < 512 → i' < 512 → pteValid (rootE m T i) → pteValid (rootE m T i') →
      l1page m T i = l1page m T i' → i = i') ∧
    (∀ i j i', i < 512 → j < 512 → i' < 512 → pteValid (rootE m T i) →
      pteValid (l1E m T i j) → pteValid (rootE m T i') → l0page m T i j ≠ l1page m T i') ∧
    (∀ i j i' j', i < 512 → j < 512 → i' < 512 → j' < 512 → pteValid (rootE m T i) →
      pteValid (l1E m T i j) → pteValid (rootE m T i') → pteValid (l1E m T i' j') →
      l0page m T i j = l0page m T i' j' → i = i' ∧ j = j') := by
  obtain ⟨_, _, lab, _, hroot, _, g1, g2, _, _⟩ := hw
  refine ⟨fun i hi hv e => ?_, fun i j hi hj hv hv2 e => ?_, fun i i' hi hi' hv hv' e => ?_,
    fun i j i' hi hj hi' hv hv2 hv' e => ?_, fun i j i' j' hi hj hi' hj' hv hv2 hv' hv2' e => ?_⟩
  · have := g1 i hi hv
    rw [e, hroot] at this; cases this
  · have := g2 i j hi hj hv hv2
    rw [e, hroot] at this; cases this
  · have h1 := g1 i hi hv
    rw [e, g1 i' hi' hv'] at h1
    simp only [Option.some.injEq, Role.l1.injEq] at h1
    exact h1.symm
  · have h1 := g2 i j hi hj hv hv2
    rw [e, g1 i' hi' hv'] at h1; cases h1
  · have h1 := g2 i j hi hj hv hv2
    rw [e, g2 i' j' hi' hj' hv' hv2'] at h1
    simp only [Option.some.injEq, Role.l0.injEq] at h1
    exact ⟨h1.1.symm, h1.2.symm⟩

theorem mem_l0pagesOf {m : Mem} {T i f : Nat} :
    f ∈ l0pagesOf m T i ↔ ∃ j, j < 512 ∧ pteValid (l1E m T i j) ∧ f = l0page m T i j := by
  unfold l0pagesOf
  rw [mem_stackOf]
  constructor
  · rintro ⟨j, _, hj, h⟩
    by_cases hv : pteValid (l1E m T i j)
    · rw [if_pos hv, List.mem_singleton] at h
      exact ⟨j, by omega, hv, h⟩
    · rw [if_neg hv] at h; cases h
  · rintro ⟨j, hj, hv, h⟩
    exact ⟨j, Nat.zero_le j, by omega, by rw [if_pos hv, List.mem_singleton]; exact h⟩

theorem mem_subtreeOf {m : Mem} {T i f : Nat} :
    f ∈ subtreeOf m T i ↔ pteValid (rootE m T i) ∧
      (f = l1page m T i ∨ ∃ j, j < 512 ∧ pteValid (l1E m T i j) ∧ f = l0page m T i j) := by
  unfold subtreeOf
  by_cases hv : pteValid (rootE m T i)
  · rw [if_pos hv, List.mem_cons, mem_l0pagesOf]
    exact ⟨fun h => ⟨hv, h⟩, fun h => h.2⟩
  · rw [if_neg hv]
    exact ⟨fun h => absurd h (List.not_mem_nil _), fun h => absurd h.1 hv⟩

theorem mem_lowerPages {m : Mem} {T f : Nat} :
    f ∈ lowerPages m T ↔ ∃ i, i < 512 ∧ f ∈ subtreeOf m T i := by
  unfold lowerPages
  rw [mem_stackOf]
  constructor
  · rintro ⟨j, _, hj, h⟩
    exact ⟨j, by omega, h⟩
  · rintro ⟨j, hj, h⟩
    exact ⟨j, Nat.zero_le j, by omega, h⟩

/-- The root and the pages below it are exactly the page-table pages. -/
theorem mem_tablePages {m : Mem} {T q : Nat} :
    q ∈ T :: lowerPages m T ↔ IsTablePage m T q := by
  rw [List.mem_cons, mem_lowerPages]
  constructor
  · rintro (e | ⟨i, hi, h⟩)
    · exact Or.inl e
    · rcases mem_subtreeOf.mp h with ⟨hv, e | ⟨j, hj, hv2, e⟩⟩
      · exact Or.inr (Or.inl ⟨i, hi, hv, e⟩)
      · exact Or.inr (Or.inr ⟨i, j, hi, hj, hv, hv2, e⟩)
  · rintro (e | ⟨i, hi, hv, e⟩ | ⟨i, j, hi, hj, hv, hv2, e⟩)
    · exact Or.inl e
    · exact Or.inr ⟨i, hi, mem_subtreeOf.mpr ⟨hv, Or.inl e⟩⟩
    · exact Or.inr ⟨i, hi, mem_subtreeOf.mpr ⟨hv, Or.inr ⟨j, hj, hv2, e⟩⟩⟩

theorem freewalk_skip_all (child : KState → Nat → Outcome KState) (s : KState) (pg : Nat) :
    ∀ (n i fuel : Nat), i + n = 512 → n < fuel →
      (∀ k, i ≤ k → k < 512 → ¬ pteValid (read64 s.mem (pg + 8 * k))) →
      freewalk_loop child fuel s pg i = .ok s
  | 0, i, fuel, hi, hfuel, _ => by
    obtain ⟨fuel, rfl⟩ : ∃ f, fuel = f + 1 := ⟨fuel - 1, by omega⟩
    exact freewalk_loop_end child fuel s pg i (by omega)
  | n + 1, i, fuel, hi, hfuel, h => by
    obtain ⟨fuel, rfl⟩ : ∃ f, fuel = f + 1 := ⟨fuel - 1, by omega⟩
    rw [freewalk_loop_skip child fuel s pg i (by omega) (h i (Nat.le_refl i) (by omega))]
    exact freewalk_skip_all child s pg n (i + 1) fuel (by omega) (by omega)
      (fun k hk1 hk2 => h k (by omega) hk2)

theorem kfree_out {L : MemLayout} (hL : L.Sane) {s : KState} {F : List Nat} {pa : Nat}
    (h : FreeOK L s F) (hg : goodFrame L pa) (hn : pa ∉ F) :
    ∃ s', kfree L s pa = .ok s' ∧ FreeOK L s' (pa :: F) ∧
      ∀ x, ¬ (pa ≤ x ∧ x < pa + 4096) → s'.mem x = s.mem x := by
  obtain ⟨hk, hfo⟩ := kfree_ok hL h hg hn
  refine ⟨_, hk, hfo, fun x hx => ?_⟩
  show write64 (memset s.mem pa 1 PGSIZE) pa s.freelist x = s.mem x
  unfold PGSIZE
  rw [write64_outside _ _ _ _ (by omega), memset_outside _ _ _ _ _ (by omega)]

/-- `freewalk` of a page without a valid entry frees the page. -/
theorem freewalk_leafpage {L : MemLayout} (hL : L.Sane) (d : Nat) {s : KState} {p : Nat}
    {G : List Nat} (hfo : FreeOK L s G) (hg : goodFrame L p) (hn : p ∉ G)
    (hinv : ∀ k, k < 512 → ¬ pteValid (read64 s.mem (p + 8 * k))) :
    ∃ s', freewalk L (d + 1) s p = .ok s' ∧ FreeOK L s' (p :: G) ∧
      ∀ x, ¬ (p ≤ x ∧ x < p + 4096) → s'.mem x = s.mem x := by
  rw [freewalk, freewalk_skip_all _ s p 512 0 513 rfl (by decide) (fun k _ hk => hinv k hk),
    bind_ok]
  exact kfree_out hL hfo hg hn

/-- `freewalk` of the level-1 page under root entry `i` of a table without valid level-0
entries frees the level-0 pages under it and then the page itself. -/
theorem freewalk_l1page {L : MemLayout} (hL : L.Sane) (d : Nat) {s0 : KState} {T i : Nat}
    {F0 : List Nat} (hw : WFT s0.mem T F0)
    (hgood : ∀ q, IsTablePage s0.mem T q → goodFrame L q)
    (hempty : ∀ i j k, i < 512 → j < 512 → k < 512 → ¬ pteValid (ent s0.mem T i j k))
    (hi : i < 512) (hv : pteValid (rootE s0.mem T i)) (s : KState) (G : List Nat)
    (hfo : FreeOK L s G) (hG : ∀ f ∈ subtreeOf s0.mem T i, f ∉ G)
    (hag : ∀ f ∈ subtreeOf s0.mem T i, ∀ x, f ≤ x → x < f + 4096 → s.mem x = s0.mem x) :
    ∃ s', freewalk L (d + 2) s (l1page s0.mem T i) = .ok s' ∧
      FreeOK L s' (subtreeOf s0.mem T i ++ G) ∧
      ∀ x, (∀ f ∈ subtreeOf s0.mem T i, ¬ (f ≤ x ∧ x < f + 4096)) → s'.mem x = s.mem x := by
  obtain ⟨_, _, _, hs4, hs5⟩ := WFT_sep hw
  have hp1 : l1page s0.mem T i ∈ subtreeOf s0.mem T i := mem_subtreeOf.mpr ⟨hv, Or.inl rfl⟩
  have hp0 : ∀ j, j < 512 → pteValid (l1E s0.mem T i j) →
      l0page s0.mem T i j ∈ subtreeOf s0.mem T i := fun j hj hv2 =>
    mem_subtreeOf.mpr ⟨hv, Or.inr ⟨j, hj, hv2, rfl⟩⟩
  have hsubm : ∀ j f, f ∈ (if pteValid (l1E s0.mem T i j) then [l0page s0.mem T i j] else []) →
      pteValid (l1E s0.mem T i j) ∧ f = l0page s0.mem T i j := fun j f hf => by
    by_cases hv2 : pteValid (l1E s0.mem T i j)
    · rw [if_pos hv2, List.mem_singleton] at hf; exact ⟨hv2, hf⟩
    · rw [if_neg hv2] at hf; cases hf
  obtain ⟨s1, hres1, hfo1, hout1⟩ := @freewalk_loop_spec L (freewalk L (d + 1))
    (l1page s0.mem T i) s0
    (fun j => if pteValid (l1E s0.mem T i j) then [l0page s0.mem T i j] else [])
    (PTE2PA_aligned _)
    (fun j hj hv2 => (WFT_plain hw).2 i j hi hj hv hv2)
    (fun j hj hv2 => if_neg hv2)
    (fun j hj f hf => by
      obtain ⟨hv2, e⟩ := hsubm j f hf
      exact ⟨e ▸ PTE2PA_aligned _, e ▸ hs4 i j i hi hj hi hv hv2 hv⟩)
    (fun j j' hjj hj' f hf hf' => by
      obtain ⟨hv2, e⟩ := hsubm j f hf
      obtain ⟨hv2', e'⟩ := hsubm j' f hf'
      have := (hs5 i j i j' hi (by omega) hi hj' hv hv2 hv hv2' (e ▸ e')).2
      omega)
    (fun j hj hv2r s' G' hfo' hG' hag' => by
      have hv2 : pteValid (l1E s0.mem T i j) := hv2r
      have hm : l0page s0.mem T i j ∈
          (if pteValid (l1E s0.mem T i j) then [l0page s0.mem T i j] else []) := by
        rw [if_pos hv2]; exact List.mem_singleton.mpr rfl
      obtain ⟨s'', hr, hf'', ho''⟩ := @freewalk_leafpage L hL d s' (l0page s0.mem T i j) G'
        hfo' (hgood _ (Or.inr (Or.inr ⟨i, j, hi, hj, hv, hv2, rfl⟩))) (hG' _ hm)
        (fun k hk => by
          have e : read64 s'.mem (l0page s0.mem T i j + 8 * k) =
              read64 s0.mem (l0page s0.mem T i j + 8 * k) :=
            read64_congr fun x hx1 hx2 => hag' _ hm x (by omega) (by omega)
          rw [e, ← ent_of_valid hv hv2]
          exact hempty i j k hi hj hk)
      refine ⟨s'', hr, ?_, fun x hx => ho'' x (hx _ hm)⟩
      simp only [if_pos hv2]; exact hf'')
    512 0 rfl 513 s G (by decide) hfo
    (fun g hg e => hG _ hp1 (e ▸ hg))
    (fun j _ hj f hf => by
      obtain ⟨hv2, e⟩ := hsubm j f hf
      exact e ▸ hG _ (hp0 j hj hv2))
    (fun j _ hj => read64_congr fun x hx1 hx2 => hag _ hp1 x (by omega) (by omega))
    (fun j _ hj f hf x hx1 hx2 => by
      obtain ⟨hv2, e⟩ := hsubm j f hf
      exact hag f (e ▸ hp0 j hj hv2) x hx1 hx2)
  have hfo1' : FreeOK L s1 (l0pagesOf s0.mem T i ++ G) := hfo1
  obtain ⟨s', hk, hfo', hout'⟩ := kfree_out hL hfo1' (hgood _ (Or.inr (Or.inl ⟨i, hi, hv, rfl⟩)))
    (fun hc => by
      rcases List.mem_append.mp hc with h | h
      · obtain ⟨j, hj, hv2, e⟩ := mem_l0pagesOf.mp h
        exact hs4 i j i hi hj hi hv hv2 hv e.symm
      · exact hG _ hp1 h)
  refine ⟨s', ?_, ?_, fun x hx => ?_⟩
  · rw [freewalk, hres1, bind_ok]; exact hk
  · unfold subtreeOf
    rw [if_pos hv]
    exact hfo'
  · rw [hout' x (hx _ hp1)]
    refine hout1 x (hx _ hp1) (fun j _ hj f hf => ?_)
    obtain ⟨hv2, e⟩ := hsubm j f hf
    exact hx f (e ▸ hp0 j hj hv2)

/-- `freewalk` of a well-formed table without valid level-0 entries, whose page-table
pages are frames that `kfree` accepts: every page-table page is freed, the root last. -/
theorem freewalk_root {L : MemLayout} (hL : L.Sane) (d : Nat) {s : KState} {T : Nat}
    {G : List Nat} (hfo : FreeOK L s G) (hw : WFT s.mem T G)
    (hgood : ∀ q, IsTablePage s.mem T q → goodFrame L q)
    (hempty : ∀ i j k, i < 512 → j < 512 → k < 512 → ¬ pteValid (ent s.mem T i j k)) :
    ∃ s', freewalk L (d + 3) s T = .ok s' ∧ FreeOK L s' (T :: lowerPages s.mem T ++ G) := by
  obtain ⟨hs1, hs2, hs3, hs4, hs5⟩ := WFT_sep hw
  have hpage : ∀ i, i < 512 → ∀ f ∈ subtreeOf s.mem T i, IsTablePage s.mem T f := fun i hi f hf =>
    mem_tablePages.mp (List.mem_cons_of_mem _ (mem_lowerPages.mpr ⟨i, hi, hf⟩))
  have hTal := (WFT_page hw (Or.inl rfl)).1
  obtain ⟨s1, hres1, hfo1, _⟩ := @freewalk_loop_spec L (freewalk L (d + 2)) T s
    (subtreeOf s.mem T) hTal
    (fun i hi hv => (WFT_plain hw).1 i hi hv)
    (fun i hi hv => by unfold subtreeOf; exact if_neg hv)
    (fun i hi f hf => by
      refine ⟨(WFT_page hw (hpage i hi f hf)).1, ?_⟩
      rcases mem_subtreeOf.mp hf with ⟨hv, e | ⟨j, hj, hv2, e⟩⟩
      · rw [e]; exact hs1 i hi hv
      · rw [e]; exact hs2 i j hi hj hv hv2)
    (fun i i' hii hi' f hf hf' => by
      have hi : i < 512 := by omega
      rcases mem_subtreeOf.mp hf with ⟨hv, e | ⟨j, hj, hv2, e⟩⟩ <;>
        rcases mem_subtreeOf.mp hf' with ⟨hv', e' | ⟨j', hj', hv2', e'⟩⟩
      · have := hs3 i i' hi hi' hv hv' (e.symm.trans e'); omega
      · exact hs4 i' j' i hi' hj' hi hv' hv2' hv (e'.symm.trans e)
      · exact hs4 i j i' hi hj hi' hv hv2 hv' (e.symm.trans e')
      · have := (hs5 i j i' j' hi hj hi' hj' hv hv2 hv' hv2' (e.symm.trans e')).1; omega)
    (fun i hi hv s' G' hfo' hG' hag' =>
      freewalk_l1page hL d hw hgood hempty hi hv s' G' hfo' hG' hag')
    512 0 rfl 513 s G (by decide) hfo
    (fun g hg e => (WFT_page hw (Or.inl rfl)).2.2.2 (e ▸ hg))
    (fun i _ hi f hf => (WFT_page hw (hpage i hi f hf)).2.2.2)
    (fun _ _ _ => rfl) (fun _ _ _ _ _ _ _ _ => rfl)
  have hfo1' : FreeOK L s1 (lowerPages s.mem T ++ G) := hfo1
  obtain ⟨s', hk, hfo', _⟩ := kfree_out hL hfo1' (hgood T (Or.inl rfl)) (fun hc => by
    rcases List.mem_append.mp hc with h | h
    · obtain ⟨i, hi, hf⟩ := mem_lowerPages.mp h
      rcases mem_subtreeOf.mp hf with ⟨hv, e | ⟨j, hj, hv2, e⟩⟩
      · exact hs1 i hi hv e.symm
      · exact hs2 i j hi hj hv hv2 e.symm
    · exact (WFT_page hw (Or.inl rfl)).2.2.2 h)
  exact ⟨s', by rw [freewalk, hres1, bind_ok]; exact hk, hfo'⟩

/-- `uvmfree(T, 0)` on a table without leaves. -/
theorem uvmfree_empty {L : MemLayout} (hL : L.Sane) (d : Nat) {s : KState} {T : Nat}
    {G : List Nat} (hfo : FreeOK L s G) (hw : WFT s.mem T G)
    (hgood : ∀ q, IsTablePage s.mem T q → goodFrame L q)
    (hempty : ∀ i j k, i < 512 → j < 512 → k < 512 → ¬ pteValid (ent s.mem T i j k)) :
    ∃ s', uvmfree L (d + 3) s T 0 = .ok s' ∧ FreeOK L s' (T :: lowerPages s.mem T ++ G) := by
  unfold uvmfree
  rw [if_neg (by decide), bind_ok]
  exact freewalk_root hL d hfo hw hgood hempty

/-! ## The scenario create, grow, shrink, destroy -/

/-- `walk` on an address whose tables exist allocates nothing. -/
theorem walk_present {s : KState} {T va : Nat} (alloc : Nat)
    (h2 : pteValid (rootE s.mem T (PX 2 va)))
    (h1 : pteValid (l1E s.mem T (PX 2 va) (PX 1 va))) :
    walk_loop 2 s T va alloc = (l0page s.mem T (PX 2 va) (PX 1 va) + 8 * PX 0 va, s) :=
  (@walk_loop_valid 1 s T va alloc h2).trans
    ((@walk_loop_valid 0 s _ va alloc h1).trans (walk_loop_zero _ _ _ _))

/-- `mappages` of one page whose tables exist writes the entry and takes no frame. -/
theorem mappages_econ {L : MemLayout} (hL : L.Sane) {s : KState} {T a pa perm : Nat}
    {F : List Nat} (hfo : FreeOK L s F) (hw : WFT s.mem T F) (ha : a % 4096 = 0)
    (hlt : a < L.MAXVA) (hperm : perm < 2 ^ 64)
    (h2 : pteValid (rootE s.mem T (PX 2 a)))
    (h1 : pteValid (l1E s.mem T (PX 2 a) (PX 1 a)))
    (hinv : ¬ pteValid (ent s.mem T (PX 2 a) (PX 1 a) (PX 0 a))) :
    ∃ s', mappages L s T a PGSIZE pa perm = .ok (0, s') ∧ TableStep L T s F s' F [] ∧
      EntUpd s.mem s'.mem T a 1 (fun _ => PA2PTE pa ||| perm ||| PTE_V) := by
  have hM := hL.maxva_le
  have hMa := hL.maxva_al
  have e1 : PGROUNDDOWN a = a := PGROUNDDOWN_aligned_eq ha (by omega)
  have e2 : PGROUNDDOWN ((a + PGSIZE - 1) % 2 ^ 64) = a := by
    unfold PGSIZE
    rw [Nat.mod_eq_of_lt (by omega), PGROUNDDOWN_eq, Nat.mod_eq_of_lt (by omega)]; omega
  have hP0 := WFT_page hw (Or.inr (Or.inr ⟨_, _, PX_lt 2 a, PX_lt 1 a, h2, h1, rfl⟩))
  have hm : mappages L s T a PGSIZE pa perm =
      .ok (0, ⟨write64 s.mem (l0page s.mem T (PX 2 a) (PX 1 a) + 8 * PX 0 a)
        (PA2PTE pa ||| perm ||| PTE_V), s.freelist⟩) := by
    unfold mappages
    rw [if_neg (by decide), e1, e2]
    refine (mappages_loop_succ L (L.MAXVA / PGSIZE + 1) s T a a pa perm hlt).trans ?_
    rw [walk_present 1 h2 h1]
    simp only
    rw [if_neg (by omega), ← ent_of_valid h2 h1, if_neg hinv, if_pos trivial]
  obtain ⟨hts, he1, he2⟩ := leaf_step (v := PA2PTE pa ||| perm ||| PTE_V) hfo hw (PX_lt 2 a)
    (PX_lt 1 a) (PX_lt 0 a) h2 h1 (pte_val_lt hperm)
  exact ⟨_, hm, hts, entUpd_one rfl he1 he2⟩

/-- `uvmcreate()` with a free frame: the frame becomes a zeroed root page. -/
theorem uvmcreate_spec {L : MemLayout} {s : KState} {f : Nat} {F1 : List Nat}
    (hfo : FreeOK L s (f :: F1)) :
    ∃ s1, uvmcreate s = (f, s1) ∧ FreeOK L s1 F1 ∧
      (∀ x, f ≤ x → x < f + 4096 → s1.mem x = 0) ∧
      (∀ x, ¬ (f ≤ x ∧ x < f + 4096) → s1.mem x = s.mem x) := by
  obtain ⟨hk, hf0, hfo1⟩ := kalloc_cons hfo
  have hfal := goodFrame_al (hfo.2.2 f (List.mem_cons_self _ _))
  have hnd := List.nodup_cons.mp hfo.2.1
  refine ⟨⟨memset (memset s.mem f 5 PGSIZE) f 0 PGSIZE, read64 s.mem f⟩, ?_, ?_, ?_, ?_⟩
  · unfold uvmcreate
    simp only [hk, if_neg hf0]
  · refine FreeOK_congr hfo1 rfl fun g hg x hx1 hx2 => ?_
    have hgf : g ≠ f := fun e => hnd.1 (e ▸ hg)
    have hga := goodFrame_al (hfo.2.2 g (List.mem_cons_of_mem _ hg))
    show memset (memset s.mem f 5 PGSIZE) f 0 PGSIZE x = memset s.mem f 5 PGSIZE x
    unfold PGSIZE
    rw [memset_outside _ _ _ _ _ (by omega)]
  · intro x h1 h2
    show memset (memset s.mem f 5 PGSIZE) f 0 PGSIZE x = 0
    unfold PGSIZE
    rw [memset_inside _ _ _ _ _ h1 h2]
  · intro x hx
    show memset (memset s.mem f 5 PGSIZE) f 0 PGSIZE x = s.mem x
    unfold PGSIZE
    rw [memset_outside _ _ _ _ _ (by omega), memset_outside _ _ _ _ _ (by omega)]

theorem two_le_length {a b : Nat} : ∀ {P : List Nat}, a ∈ P → b ∈ P → a ≠ b → 2 ≤ P.length
  | [], h, _, _ => absurd h (List.not_mem_nil _)
  | [x], h1, h2, hne => by
    rw [List.mem_singleton] at h1 h2
    exact absurd (h1.trans h2.symm) hne
  | _ :: _ :: _, _, _, _ => by simp

/-- `uvmalloc(T, 0, 8192)` on an empty table with four free frames `f1`, ..., `f4`: the two
pages get the frames `f1` and `f4`, and `f2`, `f3` become the page-table pages. -/
theorem grow_two {L : MemLayout} (hL : L.Sane) (hmax : 8192 ≤ L.MAXVA) {s1 : KState}
    {T f1 f2 f3 f4 : Nat} {R : List Nat} (hfo1 : FreeOK L s1 (f1 :: f2 :: f3 :: f4 :: R))
    (hw1 : WFT s1.mem T (f1 :: f2 :: f3 :: f4 :: R))
    (hent1 : ∀ i j k, i < 512 → ent s1.mem T i j k = 0)
    (hpg1 : ∀ p, IsTablePage s1.mem T p ↔ p = T) :
    ∃ s2, uvmalloc L s1 T 0 8192 = .ok (8192, s2) ∧ FreeOK L s2 R ∧ WFT s2.mem T R ∧
      (∀ q, IsTablePage s2.mem T q ↔ q = T ∨ q = f2 ∨ q = f3) ∧
      (∀ u, u < 2 →
        pteValid (ent s2.mem T (PX 2 (0 + u * 4096)) (PX 1 (0 + u * 4096))
          (PX 0 (0 + u * 4096))) ∧
        PTE_FLAGS (ent s2.mem T (PX 2 (0 + u * 4096)) (PX 1 (0 + u * 4096))
          (PX 0 (0 + u * 4096))) ≠ PTE_V) ∧
      framesOf s2.mem T 0 2 = [f1, f4] ∧
      (∀ d ∈ [f1, f4], ¬ IsTablePage s2.mem T d) ∧
      (∀ i j k, i < 512 → j < 512 → k < 512 →
        (∀ u, u < 2 → ¬ (i = PX 2 (0 + u * 4096) ∧ j = PX 1 (0 + u * 4096) ∧
          k = PX 0 (0 + u * 4096))) → ent s2.mem T i j k = 0) := by
  have hM := hL.maxva_le
  have hMa := hL.maxva_al
  obtain ⟨g, hg⟩ : ∃ g, L.MAXVA / PGSIZE + 2 = g + 1 + 1 + 1 :=
    ⟨L.MAXVA / PGSIZE - 1, by unfold PGSIZE; omega⟩
  have hu1 : uvmalloc L s1 T 0 8192 = uvmalloc_loop L (g + 1 + 1 + 1) s1 T 0 0 8192 := by
    unfold uvmalloc
    rw [if_neg (by omega), hg, show PGROUNDUP 0 = 0 by decide]
  rw [hu1]
  have hg1 := hfo1.2.2 f1 (List.mem_cons_self _ _)
  -- the first page
  obtain ⟨hk, hd0, hfo2, hw2, hpg2, hent2, hout2, _⟩ := kalloc_data_step hfo1 hw1
  rw [uvmalloc_loop_cons L (g + 1 + 1) s1 _ _ T 0 0 8192 f1 (by omega) hk hd0]
  generalize hs2 : (⟨memset (memset s1.mem f1 5 PGSIZE) f1 0 PGSIZE, read64 s1.mem f1⟩ : KState)
    = sa at hfo2 ⊢
  have hm2 : sa.mem = memset (memset s1.mem f1 5 PGSIZE) f1 0 PGSIZE := by rw [← hs2]
  rw [← hm2] at hw2 hpg2 hent2 hout2
  rcases @mappages_single L hL sa T 0 f1 (PTE_W ||| PTE_X ||| PTE_R ||| PTE_U)
      (f2 :: f3 :: f4 :: R) hfo2 hw2 (by decide) (by omega) (by decide) (goodFrame_lt hL hg1) with
    ⟨sb, P, F', he, hts, hl, hupd, _⟩ | ⟨sb, P, he, hts, hl, _⟩ | ⟨_, hv⟩
  · rw [he, bind_ok]
    simp only [ne_eq, not_true_eq_false, if_false]
    rw [show (0 + PGSIZE) % 2 ^ 64 = 4096 by decide]
    obtain ⟨hmap3, hfrs3, hfr3, hupd1, hdP, hdF', hdT3⟩ := @grow_iter_ok L hL s1 sa sb T 0 0 f1
      (PTE_W ||| PTE_X ||| PTE_R ||| PTE_U) (f2 :: f3 :: f4 :: R) F' P hfo1 hw1 hpg2 hent2
      hts hupd (by decide) uflags_ne rfl (by omega) (fun u hu => absurd hu (Nat.not_lt_zero _))
      ⟨List.nodup_nil, fun f hf => absurd hf (List.not_mem_nil _)⟩
    -- both page-table pages of the first page are new
    obtain ⟨hvr, hv1⟩ := ent_valid_tables (hmap3 0 (by omega)).1
    obtain ⟨hs1, hs2', _, hs4, _⟩ := WFT_sep hts.wft
    have hnew : ∀ q, IsTablePage sb.mem T q → q ≠ T → q ∈ P := fun q hq hne => by
      rcases (hts.pages q).mp hq with h | h
      · exact absurd ((hpg1 q).mp ((hpg2 q).mp h)) hne
      · exact h
    have hl1P := hnew _ (Or.inr (Or.inl ⟨_, PX_lt _ _, hvr, rfl⟩)) (hs1 _ (PX_lt _ _) hvr)
    have hl0P := hnew _ (Or.inr (Or.inr ⟨_, _, PX_lt _ _, PX_lt _ _, hvr, hv1, rfl⟩))
      (hs2' _ _ (PX_lt _ _) (PX_lt _ _) hvr hv1)
    have hlen := two_le_length hl0P hl1P
      (hs4 _ _ _ (PX_lt _ _) (PX_lt _ _) (PX_lt _ _) hvr hv1 hvr)
    have hsplit := hts.split
    obtain ⟨hP, hF'⟩ : P = [f2, f3] ∧ F' = f4 :: R := by
      rcases P with _ | ⟨a, _ | ⟨b, _ | ⟨c, P'⟩⟩⟩
      · simp at hlen
      · simp at hlen
      · simp only [List.cons_append, List.nil_append, List.cons.injEq] at hsplit
        obtain ⟨e1, e2, e3⟩ := hsplit
        subst e1 e2 e3
        exact ⟨rfl, rfl⟩
      · simp at hl
    subst hP hF'
    -- the second page
    obtain ⟨hkB, hd0B, hfo4, hw4, hpg4, hent4, hout4, _⟩ := kalloc_data_step hts.free hts.wft
    rw [uvmalloc_loop_cons L (g + 1) sb _ _ T 4096 0 8192 f4 (by omega) hkB hd0B]
    generalize hs4' : (⟨memset (memset sb.mem f4 5 PGSIZE) f4 0 PGSIZE, read64 sb.mem f4⟩ :
      KState) = sc at hfo4 ⊢
    have hm4 : sc.mem = memset (memset sb.mem f4 5 PGSIZE) f4 0 PGSIZE := by rw [← hs4']
    rw [← hm4] at hw4 hpg4 hent4 hout4
    have hg4 := hts.free.2.2 f4 (List.mem_cons_self _ _)
    have hp2 : PX 2 4096 = PX 2 (0 + 0 * 4096) := by decide
    have hp1 : PX 1 4096 = PX 1 (0 + 0 * 4096) := by decide
    have hvc : pteValid (ent sc.mem T (PX 2 (0 + 0 * 4096)) (PX 1 (0 + 0 * 4096))
        (PX 0 (0 + 0 * 4096))) := by
      rw [hent4 _ _ _ (PX_lt _ _) (PX_lt _ _) (PX_lt _ _)]
      exact (hmap3 0 (by omega)).1
    obtain ⟨hvrc, hv1c⟩ := ent_valid_tables hvc
    rw [← hp2] at hvrc hv1c
    rw [← hp1] at hv1c
    have hz4096 : ent sb.mem T (PX 2 4096) (PX 1 4096) (PX 0 4096) = 0 := by
      rw [entUpd_other hupd1 (by decide) (by decide) (by decide) (by decide) (by decide)]
      exact hent1 _ _ _ (PX_lt _ _)
    obtain ⟨sd, he5, hts5, hupd5⟩ := @mappages_econ L hL sc T 4096 f4
      (PTE_W ||| PTE_X ||| PTE_R ||| PTE_U) R hfo4 hw4 (by decide) (by omega) (by decide)
      hvrc hv1c (by
        rw [hent4 _ _ _ (PX_lt _ _) (PX_lt _ _) (PX_lt _ _), hz4096]
        exact not_pteValid_zero)
    rw [he5, bind_ok]
    simp only [ne_eq, not_true_eq_false, if_false]
    rw [show (4096 + PGSIZE) % 2 ^ 64 = 8192 by decide,
      uvmalloc_loop_done L g sd T 8192 0 8192 (by omega)]
    obtain ⟨hmap5, hfrs5, hfr5, hupd15, _, _, _⟩ := @grow_iter_ok L hL sb sc sd T 0 1 f4
      (PTE_W ||| PTE_X ||| PTE_R ||| PTE_U) R R [] hts.free hts.wft hpg4 hent4
      hts5 hupd5 (by decide) uflags_ne rfl (by omega) hmap3 hfr3
    have hpages : ∀ q, IsTablePage sd.mem T q ↔ q = T ∨ q = f2 ∨ q = f3 := fun q => by
      rw [hts5.pages, hpg4, hts.pages, hpg2, hpg1]
      simp
    have hfrs : framesOf sd.mem T 0 2 = [f1, f4] := by
      have e : framesOf sd.mem T 0 (1 + 1) = framesOf sb.mem T 0 1 ++ [f4] := hfrs5
      have e' : framesOf sb.mem T 0 (0 + 1) = framesOf s1.mem T 0 0 ++ [f1] := hfrs3
      rw [show (2 : Nat) = 1 + 1 from rfl, e, show (1 : Nat) = 0 + 1 from rfl, e']
      rfl
    refine ⟨sd, rfl, hts5.free, hts5.wft, hpages, hmap5, hfrs, fun d hd => ?_,
      fun i j k hi hj hk hu => ?_⟩
    · have e : framesOf sd.mem T 0 (1 + 1) = [f1, f4] := hfrs
      exact (hfr5.2 d (by rw [e]; exact hd)).2.2
    · rw [hupd15.2 i j k hi hj hk (fun u hu' => by
          have h := hu 1 (by omega)
          have : u = 0 := by omega
          subst this
          simpa using h),
        hupd1.2 i j k hi hj hk (fun u hu' => by
          have h := hu 0 (by omega)
          have : u = 0 := by omega
          subst this
          simpa using h)]
      exact hent1 i j k hi
  · have h1 := hts.split
    rw [List.append_nil] at h1
    rw [← h1] at hl
    simp at hl
  · rw [hent2 _ _ _ (PX_lt _ _) (PX_lt _ _) (PX_lt _ _), hent1 _ _ _ (PX_lt _ _)] at hv
    exact absurd hv not_pteValid_zero

/-- The scenario of a table that is created, grown by two pages, shrunk to size 0 and
destroyed, with the free frames `f0`, ..., `f4` at the head of the free list: the root is
`f0`, the data frames are `f1` and `f4`, the page-table pages are `f2` and `f3`;
`uvmdealloc` returns the data frames and `uvmfree` the three page-table pages. -/
theorem destroy_scenario {L : MemLayout} (hL : L.Sane) (hmax : 8192 ≤ L.MAXVA) {s : KState}
    {f0 f1 f2 f3 f4 : Nat} {R : List Nat}
    (hfo : FreeOK L s (f0 :: f1 :: f2 :: f3 :: f4 :: R)) (d : Nat) :
    ∃ (s1 s2 s3 s4 : KState) (Pg : List Nat), uvmcreate s = (f0, s1) ∧
      uvmalloc L s1 f0 0 8192 = .ok (8192, s2) ∧
      uvmdealloc L s2 f0 8192 0 = .ok (0, s3) ∧ FreeOK L s3 (f4 :: f1 :: R) ∧
      uvmfree L (d + 3) s3 f0 0 = .ok s4 ∧ Pg.Perm [f2, f3] ∧
      FreeOK L s4 (f0 :: Pg ++ f4 :: f1 :: R) := by
  have hM := hL.maxva_le
  have hg0 := hfo.2.2 f0 (List.mem_cons_self _ _)
  have hnd0 := List.nodup_cons.mp hfo.2.1
  have hgood : ∀ q, q = f0 ∨ q = f2 ∨ q = f3 → goodFrame L q := fun q hq =>
    hfo.2.2 q (by rcases hq with h | h | h <;> simp [h])
  -- create
  obtain ⟨s1, hc, hfo1, hz1, _⟩ := uvmcreate_spec hfo
  obtain ⟨hw1, hent1, hpg1⟩ := zero_root (m := s1.mem) (T := f0)
    (F := f1 :: f2 :: f3 :: f4 :: R) (goodFrame_al hg0) (goodFrame_lt hL hg0)
    (goodFrame_ne_zero hL hg0) hnd0.1 hz1
  -- grow
  obtain ⟨s2, hgrow, hfo2, hw2, hpg2, hmap2, hfrs2, hfrT2, hoth2⟩ :=
    grow_two hL hmax hfo1 hw1 hent1 hpg1
  have hnd := hfo.2.1
  simp only [List.nodup_cons, List.mem_cons, not_or] at hnd
  obtain ⟨⟨_, h02, h03, _, _⟩, ⟨_, _, h14, h1R⟩, ⟨h23, _, _⟩, _, h4R, _⟩ := hnd
  have hF : ∀ d ∈ [f1, f4], goodFrame L d ∧ d ∉ R := fun d hd => by
    rcases List.mem_cons.mp hd with h | h
    · subst h
      exact ⟨hfo.2.2 _ (by simp), h1R⟩
    · rw [List.mem_singleton] at h
      subst h
      exact ⟨hfo.2.2 _ (by simp), h4R⟩
  have hnd14 : [f1, f4].Nodup := by
    simp only [List.nodup_cons, List.mem_singleton, List.not_mem_nil, not_false_eq_true,
      List.nodup_nil, and_true]
    exact h14
  -- shrink
  have e0 : PGROUNDUP 0 = 0 := by decide
  have e8 : PGROUNDUP 8192 = 8192 := by decide
  have e3 : (8192 - 0) / 4096 = 2 := by decide
  obtain ⟨s3, hshr, hfo3, hw3, hpg3, hupd3, _⟩ := @uvmdealloc_spec L hL s2 f0 8192 0 R
    hfo2 hw2 (by decide) (by rw [e0, e8, e3]; omega)
    (by rw [e0, e8, e3]; exact hmap2)
    (by
      rw [e0, e8, e3, hfrs2]
      exact ⟨hnd14, fun d hd => ⟨(hF d hd).1, (hF d hd).2, hfrT2 d hd⟩⟩)
  rw [e0, e8, e3] at hfo3 hw3 hupd3
  rw [hfrs2] at hfo3 hw3
  have hfo3' : FreeOK L s3 (f4 :: f1 :: R) := hfo3
  have hw3' : WFT s3.mem f0 (f4 :: f1 :: R) := hw3
  -- destroy
  have hempty : ∀ i j k, i < 512 → j < 512 → k < 512 → ¬ pteValid (ent s3.mem f0 i j k) := by
    intro i j k hi hj hk
    by_cases hin : ∃ u, u < 2 ∧ i = PX 2 (0 + u * 4096) ∧ j = PX 1 (0 + u * 4096) ∧
        k = PX 0 (0 + u * 4096)
    · obtain ⟨u, hu, h2, h1, h0⟩ := hin
      rw [h2, h1, h0, hupd3.1 u hu]
      exact not_pteValid_zero
    · rw [hupd3.2 i j k hi hj hk (fun u hu hc => hin ⟨u, hu, hc⟩),
        hoth2 i j k hi hj hk (fun u hu hc => hin ⟨u, hu, hc⟩)]
      exact not_pteValid_zero
  obtain ⟨s4, hfree, hfo4⟩ := uvmfree_empty hL d hfo3' hw3' (fun q hq =>
    hgood q ((hpg2 q).mp ((hpg3 q).mp hq))) hempty
  refine ⟨s1, s2, s3, s4, lowerPages s3.mem f0, hc, hgrow, hshr, hfo3', hfree, ?_, hfo4⟩
  have hnd4 := List.nodup_cons.mp hfo4.2.1
  have hndP : (lowerPages s3.mem f0).Nodup := (List.nodup_append.mp hnd4.2).1
  have hnd23 : [f2, f3].Nodup := by
    simp only [List.nodup_cons, List.mem_singleton, List.not_mem_nil, not_false_eq_true,
      List.nodup_nil, and_true]
    exact h23
  have hne : f2 ≠ f0 ∧ f3 ≠ f0 := ⟨fun e => h02 e.symm, fun e => h03 e.symm⟩
  refine (List.perm_ext_iff_of_nodup hndP hnd23).mpr (fun q => ⟨fun hq => ?_, fun hq => ?_⟩)
  · have h1 : q ∈ f0 :: lowerPages s3.mem f0 := List.mem_cons_of_mem _ hq
    have h2 := (hpg2 q).mp ((hpg3 q).mp (mem_tablePages.mp h1))
    have h3 : q ≠ f0 := fun e => hnd4.1 (List.mem_append_left _
      (Eq.mp (congrArg (fun z => z ∈ lowerPages s3.mem f0) e) hq))
    rcases h2 with h | h | h
    · exact absurd h h3
    · rw [h]; simp
    · rw [h]; simp
  · have h1 : IsTablePage s3.mem f0 q := (hpg3 q).mpr ((hpg2 q).mpr (by
      rcases List.mem_cons.mp hq with h | h
      · exact Or.inr (Or.inl h)
      · exact Or.inr (Or.inr (List.mem_singleton.mp h))))
    rcases List.mem_cons.mp (mem_tablePages.mpr h1) with h | h
    · rcases List.mem_cons.mp hq with h' | h'
      · exact absurd (h'.symm.trans h) hne.1
      · exact absurd ((List.mem_singleton.mp h').symm.trans h) hne.2
    · exact h

/-! ## Claims -/

/-- C1: `uvmalloc` success postcondition.  On a well-formed table, for `oldsz < newsz ≤
MAXVA` with no page of `[PGROUNDUP(oldsz), newsz)` mapped and three free frames for every
page of the range (one for its data, two for page-table pages it may need), `uvmalloc`
returns `newsz`; every page-aligned `a` of the range then has a valid level-0 entry with
flags exactly `V|R|W|X|U` whose frame is entirely zero; the frames of the new leaves are
the members of the duplicate-free list `D` (page order), all taken from the free list; and
every leaf that existed before the call is unchanged. -/
theorem uvmalloc_success (L : MemLayout) (s : KState) (T oldsz newsz : Nat) (F : List Nat)
    (hL : L.Sane) (hfo : FreeOK L s F) (hw : WFT s.mem T F) (hlt : oldsz < newsz)
    (hnew : newsz ≤ L.MAXVA)
    (hun : ∀ a, a % PGSIZE = 0 → PGROUNDUP oldsz ≤ a → a < newsz → leafAt L s T a = none)
    (henough : 3 * ((newsz + 4095 - PGROUNDUP oldsz) / 4096) ≤ F.length) :
    ∃ (s' : KState) (D F' : List Nat), uvmalloc L s T oldsz newsz = .ok (newsz, s') ∧
      FreeOK L s' F' ∧
      D.length = (newsz + 4095 - PGROUNDUP oldsz) / 4096 ∧ D.Nodup ∧
      (∀ d ∈ D, d ∈ F ∧ d ∉ F') ∧
      (∀ a, a % PGSIZE = 0 → PGROUNDUP oldsz ≤ a → a < newsz →
        ∃ e, leafAt L s' T a = some e ∧
          PTE_FLAGS e = PTE_V ||| PTE_R ||| PTE_W ||| PTE_X ||| PTE_U ∧
          PTE2PA e = D.getD ((a - PGROUNDUP oldsz) / PGSIZE) 0 ∧ PTE2PA e ∈ D ∧
          ∀ x, PTE2PA e ≤ x → x < PTE2PA e + PGSIZE → s'.mem x = 0) ∧
      (∀ va e, leafAt L s T va = some e → leafAt L s' T va = some e) := by
  have hM := hL.maxva_le
  have hlo := PGROUNDUP_facts oldsz (by omega)
  rcases uvmalloc_spec hL hfo hw (by omega) hnew hun with
    ⟨s', D, Pt, F', hres, hok, hz⟩ | ⟨s', Pt, F', hres, hlen, _⟩
  · obtain ⟨hfr, hnd, hD, _⟩ := growOK_frames hL hfo hw hok (fun _ => by decide)
    refine ⟨s', D, F', hres, hok.free, hok.len, hnd, fun d hd => ⟨(hD d hd).2.1, (hD d hd).2.2.1⟩,
      fun a ha h1 h2 => ?_, fun va e he => ?_⟩
    · unfold PGSIZE at ha ⊢
      have hu : (a - PGROUNDUP oldsz) / 4096 < (newsz + 4095 - PGROUNDUP oldsz) / 4096 := by
        omega
      have hau : a = PGROUNDUP oldsz + (a - PGROUNDUP oldsz) / 4096 * 4096 := by omega
      have hent : ent s'.mem T (PX 2 a) (PX 1 a) (PX 0 a) =
          PA2PTE (D.getD ((a - PGROUNDUP oldsz) / 4096) 0) |||
            (PTE_W ||| PTE_X ||| PTE_R ||| PTE_U) ||| PTE_V := by
        have := hok.upd.1 _ hu
        rw [← hau] at this
        exact this
      have hmem : D.getD ((a - PGROUNDUP oldsz) / 4096) 0 ∈ D := by
        rw [List.getD_eq_getElem _ _ (by rw [hok.len]; exact hu)]; exact List.getElem_mem _
      have hg := (hD _ hmem).1
      have hpa := @entry_pa _ (PTE_W ||| PTE_X ||| PTE_R ||| PTE_U) (goodFrame_al hg)
        (goodFrame_lt hL hg) (by decide)
      refine ⟨_, ?_, ?_, hpa, by rw [hpa]; exact hmem, ?_⟩
      · rw [← hent]
        exact leafAt_of_ent hok.wft (by omega) (by rw [hent]; exact pteValid_or_V _)
      · rw [entry_flags (by decide)]; decide
      · rw [hpa]
        exact hz _ hmem
    · obtain ⟨hva, hev, _, hvalid⟩ := leafAt_some hw he
      have hsame : ent s'.mem T (PX 2 va) (PX 1 va) (PX 0 va) =
          ent s.mem T (PX 2 va) (PX 1 va) (PX 0 va) := by
        refine hok.upd.2 _ _ _ (PX_lt _ _) (PX_lt _ _) (PX_lt _ _) (fun u hu hc => ?_)
        have h1 := hun (PGROUNDUP oldsz + u * 4096) (by unfold PGSIZE; omega) (by omega)
          (by omega)
        rw [leafAt_none_iff hw (by omega), ← hc.1, ← hc.2.1, ← hc.2.2, hev] at h1
        exact h1 hvalid
      rw [← hev, ← hsame]
      exact leafAt_of_ent hok.wft hva (by rw [hsame, hev]; exact hvalid)
  · omega

/-- C2: `uvmalloc` rollback on exhaustion.  On a well-formed table with the pages of
`[PGROUNDUP(oldsz), newsz)` unmapped, `uvmalloc` always returns; when it does not return
`newsz` (a `kalloc` or a `mappages` failed) it returns 0, the valid level-0 entries of `T`
are exactly those present before the call, and the free list is again the old free list
except for the frames `Pt` that `walk` made page-table pages of `T`: every data frame taken
during the call is back on the free list. -/
theorem uvmalloc_rollback (L : MemLayout) (s : KState) (T oldsz newsz : Nat) (F : List Nat)
    (hL : L.Sane) (hfo : FreeOK L s F) (hw : WFT s.mem T F) (hle : oldsz ≤ newsz)
    (hnew : newsz ≤ L.MAXVA)
    (hun : ∀ a, a % PGSIZE = 0 → PGROUNDUP oldsz ≤ a → a < newsz → leafAt L s T a = none) :
    ∃ r s', uvmalloc L s T oldsz newsz = .ok (r, s') ∧
      (r ≠ newsz → r = 0 ∧ (∀ va, leafAt L s' T va = leafAt L s T va) ∧
        ∃ Pt F', FreeOK L s' F' ∧ F.Perm (Pt ++ F') ∧
          ∀ p ∈ Pt, IsTablePage s'.mem T p ∧ ¬ IsTablePage s.mem T p) := by
  rcases uvmalloc_spec hL hfo hw hle hnew hun with
    ⟨s', D, Pt, F', hres, _, _⟩ | ⟨s', Pt, F', hres, _, hfail⟩
  · exact ⟨newsz, s', hres, fun h => absurd rfl h⟩
  · refine ⟨0, s', hres, fun _ => ⟨rfl, fun va => ?_, Pt, F', hfail.free, hfail.perm, fun p hp =>
      ⟨(hfail.pages p).mpr (Or.inr hp), fun hc => ?_⟩⟩⟩
    · refine leafAt_congr hw hfail.wft (fun _ => ?_)
      rcases hfail.others _ _ _ (PX_lt 2 va) (PX_lt 1 va) (PX_lt 0 va)
        (fun u hu => absurd hu (Nat.not_lt_zero _)) with h | ⟨h1, h2⟩
      · exact Or.inl h
      · exact Or.inr ⟨h1, by rw [h2]; exact not_pteValid_zero⟩
    · exact (WFT_page hw hc).2.2.2 (hfail.perm.mem_iff.mpr (List.mem_append_left _ hp))

/-- C3 (as amended): `uvmdealloc(T, oldsz, newsz)` returns `oldsz`, with the state
unchanged, in the no-op case `newsz >= oldsz`; for `newsz < oldsz` every value it returns
is `newsz`, and it returns `newsz` with the state unchanged when both sizes round up to
the same page. -/
theorem uvmdealloc_returns (L : MemLayout) (s : KState) (T oldsz newsz : Nat) :
    (oldsz ≤ newsz → uvmdealloc L s T oldsz newsz = .ok (oldsz, s)) ∧
    (newsz < oldsz → ∀ r s', uvmdealloc L s T oldsz newsz = .ok (r, s') → r = newsz) ∧
    (newsz < oldsz → ¬ PGROUNDUP newsz < PGROUNDUP oldsz →
      uvmdealloc L s T oldsz newsz = .ok (newsz, s)) := by
  refine ⟨uvmdealloc_noop L s T oldsz newsz, fun hlt r s' h => ?_,
    uvmdealloc_same_page L s T oldsz newsz⟩
  unfold uvmdealloc at h
  rw [if_neg (by omega)] at h
  by_cases h2 : PGROUNDUP newsz < PGROUNDUP oldsz
  · rw [if_pos h2] at h
    simp only at h
    cases hu : uvmunmap L s T (PGROUNDUP newsz)
        (viaInt ((PGROUNDUP oldsz - PGROUNDUP newsz) / PGSIZE)) 1 with
    | ok s1 =>
      rw [hu, bind_ok] at h
      injection h with h
      exact (congrArg Prod.fst h).symm
    | panic w => rw [hu] at h; simp [Outcome.bind] at h
    | diverge => rw [hu] at h; simp [Outcome.bind] at h
  · rw [if_neg h2] at h
    injection h with h
    exact (congrArg Prod.fst h).symm

/-- C3, counterexample: in the no-op case `oldsz = 0`, `newsz = 4096` the call returns
`oldsz = 0`, not `newsz`. -/
theorem uvmdealloc_noop_counterexample :
    (uvmdealloc exL exS3 exT 0 4096).val Prod.fst = some 0 ∧
      (uvmdealloc exL exS3 exT 0 4096).val Prod.fst ≠ some 4096 := by
  decide

/-- C1, witness: growing the empty example table from 0 to 8192 with six free frames. -/
theorem uvmalloc_success_witness :
    FreeOK exL exS6 exF6 ∧ (0 : Nat) < 8192 ∧ 8192 ≤ exL.MAXVA ∧
    ∃ (s' : KState) (D F' : List Nat), uvmalloc exL exS6 exT 0 8192 = .ok (8192, s') ∧
      FreeOK exL s' F' ∧
      D.length = (8192 + 4095 - PGROUNDUP 0) / 4096 ∧ D.Nodup ∧
      (∀ d ∈ D, d ∈ exF6 ∧ d ∉ F') ∧
      (∀ a, a % PGSIZE = 0 → PGROUNDUP 0 ≤ a → a < 8192 →
        ∃ e, leafAt exL s' exT a = some e ∧
          PTE_FLAGS e = PTE_V ||| PTE_R ||| PTE_W ||| PTE_X ||| PTE_U ∧
          PTE2PA e = D.getD ((a - PGROUNDUP 0) / PGSIZE) 0 ∧ PTE2PA e ∈ D ∧
          ∀ x, PTE2PA e ≤ x → x < PTE2PA e + PGSIZE → s'.mem x = 0) ∧
      (∀ va e, leafAt exL exS6 exT va = some e → leafAt exL s' exT va = some e) :=
  ⟨by decide, by decide, by decide,
    uvmalloc_success exL exS6 exT 0 8192 exF6 exL_sane (by decide)
      (zero_root (by decide) (by decide) (by decide) (by decide) exS6_root).1 (by decide)
      (by decide)
      (fun a _ _ _ => @zero_root_leafAt exL exS6 exT exF6 (by decide) (by decide) (by decide)
        (by decide) exS6_root a)
      (by decide)⟩

/-- C2, witness: with three free frames the grow from 0 to 8192 fails at the second data
page (two frames went into page-table pages) and is rolled back. -/
theorem uvmalloc_rollback_witness :
    (uvmalloc exL exS3 exT 0 8192).val Prod.fst = some 0 ∧
    ∃ r s', uvmalloc exL exS3 exT 0 8192 = .ok (r, s') ∧
      (r ≠ 8192 → r = 0 ∧ (∀ va, leafAt exL s' exT va = leafAt exL exS3 exT va) ∧
        ∃ Pt F', FreeOK exL s' F' ∧
          [0x87fff000, 0x87ffe000, 0x87ffd000].Perm (Pt ++ F') ∧
          ∀ p ∈ Pt, IsTablePage s'.mem exT p ∧ ¬ IsTablePage exS3.mem exT p) :=
  ⟨by decide,
    uvmalloc_rollback exL exS3 exT 0 8192 [0x87fff000, 0x87ffe000, 0x87ffd000] exL_sane
      (by decide)
      (zero_root (by decide) (by decide) (by decide) (by decide) exS3_root).1 (by decide)
      (by decide)
      (fun a _ _ _ => @zero_root_leafAt exL exS3 exT [0x87fff000, 0x87ffe000, 0x87ffd000]
        (by decide) (by decide) (by decide) (by decide) exS3_root a)⟩

/-- C4: `uvmdealloc` range exactness.  On a well-formed table, for `newsz < oldsz` with
every page of `[PGROUNDUP(newsz), PGROUNDUP(oldsz))` mapped as a leaf whose frame is an
exclusively owned allocator frame (the frames are distinct, accepted by `kfree`, not free
and no page-table pages), `uvmdealloc` returns `newsz`, sets exactly the level-0 entries of
those pages to 0, leaves every other level-0 entry and the set of page-table pages
unchanged, and pushes exactly their frames onto the free list (lowest page first, so the
highest page's frame is the new head).  When both sizes round up to the same page, or
`newsz >= oldsz`, the state (table and free list) is unchanged. -/
theorem uvmdealloc_exact (L : MemLayout) (s : KState) (T oldsz newsz : Nat) (F : List Nat)
    (hL : L.Sane) (hfo : FreeOK L s F) (hw : WFT s.mem T F) :
    (newsz < oldsz →
      (∀ a, a % PGSIZE = 0 → PGROUNDUP newsz ≤ a → a < PGROUNDUP oldsz →
        ∃ e, leafAt L s T a = some e ∧ isLeaf e) →
      (leafFrames L s T (PGROUNDUP newsz) ((PGROUNDUP oldsz - PGROUNDUP newsz) / PGSIZE)).Nodup →
      (∀ d ∈ leafFrames L s T (PGROUNDUP newsz) ((PGROUNDUP oldsz - PGROUNDUP newsz) / PGSIZE),
        goodFrame L d ∧ d ∉ F ∧ ¬ IsTablePage s.mem T d) →
      ∃ s', uvmdealloc L s T oldsz newsz = .ok (newsz, s') ∧
        (∀ a, a % PGSIZE = 0 → PGROUNDUP newsz ≤ a → a < PGROUNDUP oldsz →
          pteAt L s' T a = 0) ∧
        (∀ x, (PGROUNDDOWN x < PGROUNDUP newsz ∨ PGROUNDUP oldsz ≤ PGROUNDDOWN x) →
          pteAt L s' T x = pteAt L s T x) ∧
        (∀ q, IsTablePage s'.mem T q ↔ IsTablePage s.mem T q) ∧
        FreeOK L s' ((leafFrames L s T (PGROUNDUP newsz)
          ((PGROUNDUP oldsz - PGROUNDUP newsz) / PGSIZE)).reverse ++ F)) ∧
    ((PGROUNDUP newsz = PGROUNDUP oldsz ∨ oldsz ≤ newsz) →
      ∃ r, uvmdealloc L s T oldsz newsz = .ok (r, s)) := by
  have hM := hL.maxva_le
  have hMa := hL.maxva_al
  constructor
  · intro hlt hmap hnd hgood
    have hlo := PGROUNDUP_aligned newsz
    have hhi := PGROUNDUP_aligned oldsz
    unfold PGSIZE at hmap hnd hgood ⊢
    by_cases h2 : PGROUNDUP newsz < PGROUNDUP oldsz
    · have hlast : PGROUNDUP oldsz - 4096 < L.MAXVA := by
        obtain ⟨e, he, _⟩ := hmap (PGROUNDUP oldsz - 4096) (by omega) (by omega) (by omega)
        exact (leafAt_some hw he).1
      have hb : PGROUNDUP newsz + (PGROUNDUP oldsz - PGROUNDUP newsz) / 4096 * 4096 ≤
          L.MAXVA := by omega
      have hfr := leafFrames_eq hw ((PGROUNDUP oldsz - PGROUNDUP newsz) / 4096)
        (PGROUNDUP newsz) hb
      rw [hfr] at hnd hgood ⊢
      obtain ⟨s', hres, hfo', hw', hpg, hupd, _⟩ := uvmdealloc_spec hL hfo hw hlt hb
        (fun u hu => by
          obtain ⟨e, he, hleaf⟩ := hmap (PGROUNDUP newsz + u * 4096) (by omega) (by omega)
            (by omega)
          rw [(leafAt_some hw he).2.1]
          exact isLeaf_flags hleaf) ⟨hnd, hgood⟩
      obtain ⟨hp1, hp2⟩ := entUpd_pteAt hL hw hw' hupd hlo.1 hb
      refine ⟨s', hres, fun a ha h1 h3 => ?_, fun x hx => hp2 x (fun k hk => by omega), hpg,
        hfo'⟩
      have := hp1 ((a - PGROUNDUP newsz) / 4096) (by omega)
      rw [show PGROUNDUP newsz + (a - PGROUNDUP newsz) / 4096 * 4096 = a by omega] at this
      exact this
    · have hn : (PGROUNDUP oldsz - PGROUNDUP newsz) / 4096 = 0 := by omega
      rw [hn]
      exact ⟨s, uvmdealloc_same_page L s T oldsz newsz hlt h2, fun a _ h1 h3 => by omega,
        fun _ _ => rfl, fun _ => Iff.rfl, by simpa [leafFrames] using hfo⟩
  · intro h
    by_cases hle : oldsz ≤ newsz
    · exact ⟨_, uvmdealloc_noop L s T oldsz newsz hle⟩
    · rcases h with h | h
      · exact ⟨_, uvmdealloc_same_page L s T oldsz newsz (by omega) (by omega)⟩
      · exact absurd h hle

/-- C4, witness: shrinking the two-page example table `exG` from 8192 to 0. -/
theorem uvmdealloc_exact_witness :
    FreeOK exL exG [0x87ffb000, 0x87ffa000] ∧
    leafFrames exL exG exT 0 2 = [0x87fff000, 0x87ffc000] ∧
    ∃ s', uvmdealloc exL exG exT 8192 0 = .ok (0, s') ∧
      (∀ a, a % PGSIZE = 0 → PGROUNDUP 0 ≤ a → a < PGROUNDUP 8192 → pteAt exL s' exT a = 0) ∧
      (∀ x, (PGROUNDDOWN x < PGROUNDUP 0 ∨ PGROUNDUP 8192 ≤ PGROUNDDOWN x) →
        pteAt exL s' exT x = pteAt exL exG exT x) ∧
      (∀ q, IsTablePage s'.mem exT q ↔ IsTablePage exG.mem exT q) ∧
      FreeOK exL s' ((leafFrames exL exG exT (PGROUNDUP 0)
        ((PGROUNDUP 8192 - PGROUNDUP 0) / PGSIZE)).reverse ++ [0x87ffb000, 0x87ffa000]) :=
  ⟨by decide, by decide,
    (uvmdealloc_exact exL exG exT 8192 0 [0x87ffb000, 0x87ffa000] exL_sane (by decide)
      exG_facts.1).1 (by decide)
      (fun a ha h1 h2 => by
        have h3 : PGROUNDUP 8192 = 8192 := by decide
        have h4 : PGROUNDUP 0 = 0 := by decide
        unfold PGSIZE at ha
        have : a = 0 ∨ a = 4096 := by omega
        rcases this with rfl | rfl
        · exact ⟨570424351, by decide, by decide⟩
        · exact ⟨570421279, by decide, by decide⟩)
      (by decide)
      (fun d hd => by
        have e : leafFrames exL exG exT (PGROUNDUP 0) ((PGROUNDUP 8192 - PGROUNDUP 0) / PGSIZE) =
            [0x87fff000, 0x87ffc000] := by decide
        rw [e] at hd
        refine ⟨?_, ?_, exG_facts.2 d hd⟩
        · rcases List.mem_cons.mp hd with rfl | hd
          · decide
          · rw [List.mem_singleton] at hd; subst hd; decide
        · rcases List.mem_cons.mp hd with rfl | hd
          · decide
          · rw [List.mem_singleton] at hd; subst hd; decide)⟩

/-- C5, counterexample: the empty example table (dense at size 0) is grown from 0 to 8192
and shrunk back to 0.  Both calls succeed, but the free list has four frames afterwards
and had six before: the two page-table pages that `walk` allocated are not returned. -/
theorem roundtrip_counterexample :
    FreeOK exL exS6 exF6 ∧ exF6.length = 6 ∧
    (uvmalloc exL exS6 exT 0 (0 + 8192)).val Prod.fst = some (0 + 8192) ∧
    (uvmdealloc exL ((uvmalloc exL exS6 exT 0 (0 + 8192)).state exS6) exT (0 + 8192) 0).val
      Prod.fst = some 0 ∧
    FreeOK exL ((uvmdealloc exL ((uvmalloc exL exS6 exT 0 (0 + 8192)).state exS6) exT
      (0 + 8192) 0).state exS6) [0x87ffc000, 0x87fff000, 0x87ffb000, 0x87ffa000] := by
  decide

/-- C5 (as amended): grow/shrink round trip.  For a well-formed table `T` dense at size
`sz` and `k > 0` such that `uvmalloc(T, sz, sz+k)` succeeds, the subsequent
`uvmdealloc(T, sz+k, sz)` returns `sz`, the valid level-0 entries are again exactly
those before the grow, and the free list is the old free list without the frames `Pt` that
the grow turned into page-table pages of `T` (which stay in the table): its length is the
old length minus the number of page-table pages the grow allocated, and every data
frame of the grow is free again. -/
theorem grow_shrink_roundtrip (L : MemLayout) (s s1 : KState) (T sz k : Nat) (F : List Nat)
    (hL : L.Sane) (hfo : FreeOK L s F) (hw : WFT s.mem T F) (hk : 0 < k)
    (hnew : sz + k ≤ L.MAXVA) (hd : Dense L s T sz)
    (hgrow : uvmalloc L s T sz (sz + k) = .ok (sz + k, s1)) :
    ∃ (s2 : KState) (Pt F2 : List Nat), uvmdealloc L s1 T (sz + k) sz = .ok (sz, s2) ∧
      (∀ va, leafAt L s2 T va = leafAt L s T va) ∧ FreeOK L s2 F2 ∧ F.Perm (Pt ++ F2) ∧
      F2.length + Pt.length = F.length ∧
      (∀ p ∈ Pt, IsTablePage s2.mem T p ∧ ¬ IsTablePage s.mem T p) := by
  have hM := hL.maxva_le
  have hMa := hL.maxva_al
  have hlo := PGROUNDUP_facts sz (by omega)
  have hhi := PGROUNDUP_facts (sz + k) (by omega)
  have hun : ∀ a, a % PGSIZE = 0 → PGROUNDUP sz ≤ a → a < sz + k → leafAt L s T a = none :=
    fun a ha h1 _ => (hd a ha).2 (by omega)
  rcases uvmalloc_spec hL hfo hw (by omega) hnew hun with
    ⟨s', D, Pt, F', hres, hok, _⟩ | ⟨s', Pt, F', hres, _, _⟩
  · rw [hgrow] at hres
    have hs : s1 = s' := by
      injection hres with h
      exact congrArg Prod.snd h
    subst hs
    obtain ⟨hfr, hnd, hD, hP⟩ := growOK_frames hL hfo hw hok (fun _ => by decide)
    have hn : (PGROUNDUP (sz + k) - PGROUNDUP sz) / 4096 =
        (sz + k + 4095 - PGROUNDUP sz) / 4096 := by omega
    have hb : PGROUNDUP sz + (PGROUNDUP (sz + k) - PGROUNDUP sz) / 4096 * 4096 ≤ L.MAXVA := by
      omega
    obtain ⟨s2, hres2, hfo2, hw2, hpg2, hupd2, _⟩ := @uvmdealloc_spec L hL _ T (sz + k) sz F'
      hok.free hok.wft (by omega) hb
      (fun u hu => by
        rw [hn] at hu
        rw [hok.upd.1 u hu, entry_flags (by decide)]
        exact ⟨pteValid_or_V _, uflags_ne⟩)
      (by
        rw [hn, hfr]
        exact ⟨hnd, fun d hd' => ⟨(hD d hd').1, (hD d hd').2.2.1, (hD d hd').2.2.2.2⟩⟩)
    rw [hn, hfr] at hfo2 hw2
    rw [hn] at hupd2
    have hperm : F.Perm (Pt ++ (D.reverse ++ F')) := by
      have h1 := hok.perm
      rw [List.perm_iff_count] at h1 ⊢
      intro x
      have := h1 x
      simp only [List.count_append, List.count_reverse] at this ⊢
      omega
    refine ⟨s2, Pt, D.reverse ++ F', hres2, fun va => ?_, hfo2, hperm, ?_, fun p hp =>
      ⟨(hpg2 p).mpr (hP p hp).2.1, (hP p hp).2.2⟩⟩
    · refine leafAt_congr hw hw2 (fun hva => ?_)
      by_cases hin : ∃ u, u < (sz + k + 4095 - PGROUNDUP sz) / 4096 ∧
          PX 2 va = PX 2 (PGROUNDUP sz + u * 4096) ∧ PX 1 va = PX 1 (PGROUNDUP sz + u * 4096) ∧
          PX 0 va = PX 0 (PGROUNDUP sz + u * 4096)
      · obtain ⟨u, hu, hc⟩ := hin
        right
        rw [hc.1, hc.2.1, hc.2.2, hupd2.1 u hu]
        refine ⟨?_, not_pteValid_zero⟩
        have := hun (PGROUNDUP sz + u * 4096) (by unfold PGSIZE; omega) (by omega) (by omega)
        exact (leafAt_none_iff hw (by omega)).mp this
      · left
        have hne : ∀ u, u < (sz + k + 4095 - PGROUNDUP sz) / 4096 →
            ¬ (PX 2 va = PX 2 (PGROUNDUP sz + u * 4096) ∧
              PX 1 va = PX 1 (PGROUNDUP sz + u * 4096) ∧
              PX 0 va = PX 0 (PGROUNDUP sz + u * 4096)) := fun u hu hc => hin ⟨u, hu, hc⟩
        rw [hupd2.2 _ _ _ (PX_lt _ _) (PX_lt _ _) (PX_lt _ _) hne]
        exact hok.upd.2 _ _ _ (PX_lt _ _) (PX_lt _ _) (PX_lt _ _) hne
    · have := hperm.length_eq
      rw [List.length_append] at this
      omega
  · rw [hgrow] at hres
    injection hres with h
    have := congrArg Prod.fst h
    simp only at this
    omega

/-- C5, witness: the round trip of the counterexample; two of the six frames stay in the
table as page-table pages. -/
theorem grow_shrink_roundtrip_witness :
    FreeOK exL exS6 exF6 ∧ uvmalloc exL exS6 exT 0 (0 + 8192) = .ok (0 + 8192, exG) ∧
    ∃ (s2 : KState) (Pt F2 : List Nat), uvmdealloc exL exG exT (0 + 8192) 0 = .ok (0, s2) ∧
      (∀ va, leafAt exL s2 exT va = leafAt exL exS6 exT va) ∧ FreeOK exL s2 F2 ∧
      exF6.Perm (Pt ++ F2) ∧ F2.length + Pt.length = exF6.length ∧
      (∀ p ∈ Pt, IsTablePage s2.mem exT p ∧ ¬ IsTablePage exS6.mem exT p) :=
  have hg : uvmalloc exL exS6 exT 0 (0 + 8192) = .ok (0 + 8192, exG) :=
    outcome_of_val exS6 (by decide)
  ⟨by decide, hg,
    grow_shrink_roundtrip exL exS6 exG exT 0 8192 exF6 exL_sane (by decide)
      (zero_root (by decide) (by decide) (by decide) (by decide) exS6_root).1 (by decide)
      (by decide)
      (fun a _ => ⟨fun h => absurd h (Nat.not_lt_zero a), fun _ =>
        @zero_root_leafAt exL exS6 exT exF6 (by decide) (by decide) (by decide) (by decide)
          exS6_root a⟩)
      hg⟩

/-- C9: `mappages` success postcondition.  On a well-formed table, for `size > 0` and
`va + size - 1 < MAXVA`, if `mappages(T, va, size, pa, perm)` returns 0 then with
`a0 = PGROUNDDOWN(va)` and `n = (PGROUNDDOWN(va+size-1) - a0)/PGSIZE`, for every `k ≤ n`
the level-0 entry of `a0 + k*PGSIZE` is `PA2PTE(pa + k*PGSIZE) | perm | PTE_V` and was
invalid before the call (so exactly these `n+1` entries were written), and the level-0
entry of every address outside these pages is unchanged. -/
theorem mappages_success (L : MemLayout) (s s' : KState) (T va size pa perm : Nat)
    (F : List Nat) (hL : L.Sane) (hfo : FreeOK L s F) (hw : WFT s.mem T F) (hsize : 0 < size)
    (hlt : va + size - 1 < L.MAXVA) (hperm : perm < 2 ^ 64) (hpa : pa < 2 ^ 64)
    (hres : mappages L s T va size pa perm = .ok (0, s')) :
    (∀ k, k ≤ (PGROUNDDOWN (va + size - 1) - PGROUNDDOWN va) / PGSIZE →
      pteAt L s' T (PGROUNDDOWN va + k * PGSIZE) =
        PA2PTE ((pa + k * PGSIZE) % 2 ^ 64) ||| perm ||| PTE_V ∧
      ¬ pteValid (pteAt L s T (PGROUNDDOWN va + k * PGSIZE))) ∧
    (∀ x, (∀ k, k ≤ (PGROUNDDOWN (va + size - 1) - PGROUNDDOWN va) / PGSIZE →
        PGROUNDDOWN x ≠ PGROUNDDOWN va + k * PGSIZE) →
      pteAt L s' T x = pteAt L s T x) := by
  have hM := hL.maxva_le
  have hMa := hL.maxva_al
  have hg := PGROUNDDOWN_facts va (by omega)
  have hg2 := PGROUNDDOWN_facts (va + size - 1) (by omega)
  obtain ⟨n, hn, hcase⟩ := mappages_spec hL hfo hw hsize hlt hperm hpa
  have hn' : (PGROUNDDOWN (va + size - 1) - PGROUNDDOWN va) / PGSIZE = n := by
    unfold PGSIZE; omega
  rw [hn']
  unfold PGSIZE
  rcases hcase with ⟨s1, P, F', he, hts, _, hinst, hinv⟩ | ⟨s1, P, F', t, _, he, _⟩ | ⟨he, _⟩
  · rw [hres] at he
    have hs : s' = s1 := by
      injection he with h
      exact congrArg Prod.snd h
    subst hs
    obtain ⟨hp1, hp2⟩ := entUpd_pteAt hL hw hts.wft (installed_entUpd hinst) hg.1 (by omega)
    refine ⟨fun k hk => ⟨hp1 k (by omega), ?_⟩, fun x hx => hp2 x (fun k hk => hx k (by omega))⟩
    rw [pteAt_eq hw (by omega)]
    exact hinv k hk
  · rw [hres] at he
    injection he with h
    have := congrArg Prod.fst h
    simp at this
  · rw [hres] at he
    cases he

/-- C9, witness: mapping the two pages `0x1ff000` and `0x200000`, which lie in different
level-0 tables, with three free frames. -/
theorem mappages_success_witness :
    FreeOK exL exS3 [0x87fff000, 0x87ffe000, 0x87ffd000] ∧
    mappages exL exS3 exT 0x1ff000 0x2000 0x80000000 PTE_R =
      .ok (0, (mappages exL exS3 exT 0x1ff000 0x2000 0x80000000 PTE_R).state exS3) ∧
    (∀ k, k ≤ (PGROUNDDOWN (0x1ff000 + 0x2000 - 1) - PGROUNDDOWN 0x1ff000) / PGSIZE →
      pteAt exL ((mappages exL exS3 exT 0x1ff000 0x2000 0x80000000 PTE_R).state exS3) exT
          (PGROUNDDOWN 0x1ff000 + k * PGSIZE) =
        PA2PTE ((0x80000000 + k * PGSIZE) % 2 ^ 64) ||| PTE_R ||| PTE_V ∧
      ¬ pteValid (pteAt exL exS3 exT (PGROUNDDOWN 0x1ff000 + k * PGSIZE))) ∧
    (∀ x, (∀ k, k ≤ (PGROUNDDOWN (0x1ff000 + 0x2000 - 1) - PGROUNDDOWN 0x1ff000) / PGSIZE →
        PGROUNDDOWN x ≠ PGROUNDDOWN 0x1ff000 + k * PGSIZE) →
      pteAt exL ((mappages exL exS3 exT 0x1ff000 0x2000 0x80000000 PTE_R).state exS3) exT x =
        pteAt exL exS3 exT x) :=
  have hm : mappages exL exS3 exT 0x1ff000 0x2000 0x80000000 PTE_R =
      .ok (0, (mappages exL exS3 exT 0x1ff000 0x2000 0x80000000 PTE_R).state exS3) :=
    outcome_of_val exS3 (by decide)
  ⟨by decide, hm,
    mappages_success exL exS3 _ exT 0x1ff000 0x2000 0x80000000 PTE_R
      [0x87fff000, 0x87ffe000, 0x87ffd000] exL_sane (by decide)
      (zero_root (by decide) (by decide) (by decide) (by decide) exS3_root).1 (by decide)
      (by decide) (by decide) (by decide) hm⟩

/-- C10, counterexample: with two free frames, `mappages` over the pages `0x1ff000` and
`0x200000` returns -1 (no frame for the second level-0 table), but the entry of
`0x1ff000`, invalid before the call, is valid after it. -/
theorem mappages_partial_counterexample :
    leafAt exL exS2 exT 0x1ff000 = none ∧
    (mappages exL exS2 exT 0x1ff000 0x2000 0x80000000 PTE_R).val Prod.fst = some (-1) ∧
    leafAt exL ((mappages exL exS2 exT 0x1ff000 0x2000 0x80000000 PTE_R).state exS2) exT
      0x1ff000 = some (PA2PTE 0x80000000 ||| PTE_R ||| PTE_V) := by
  decide

/-- C10 (as amended): `mappages` does not roll back.  On a well-formed table, if
`mappages(T, va, size, pa, perm)` returns -1, then `walk` found the free list empty at
some page `a0 + t*PGSIZE` of the range (`t ≤ n`): the entries of the `t` pages before it
stay installed, the level-0 entry of every other address is unchanged, and the free list
is empty.  Only for `t = 0`, which is always the case for a one-page range, no entry has
been installed. -/
theorem mappages_failure (L : MemLayout) (s s' : KState) (T va size pa perm : Nat)
    (F : List Nat) (hL : L.Sane) (hfo : FreeOK L s F) (hw : WFT s.mem T F) (hsize : 0 < size)
    (hlt : va + size - 1 < L.MAXVA) (hperm : perm < 2 ^ 64) (hpa : pa < 2 ^ 64)
    (hres : mappages L s T va size pa perm = .ok (-1, s')) :
    ∃ t, t ≤ (PGROUNDDOWN (va + size - 1) - PGROUNDDOWN va) / PGSIZE ∧
      (∀ k, k < t → pteAt L s' T (PGROUNDDOWN va + k * PGSIZE) =
        PA2PTE ((pa + k * PGSIZE) % 2 ^ 64) ||| perm ||| PTE_V) ∧
      (∀ x, (∀ k, k < t → PGROUNDDOWN x ≠ PGROUNDDOWN va + k * PGSIZE) →
        pteAt L s' T x = pteAt L s T x) ∧
      FreeOK L s' [] := by
  have hM := hL.maxva_le
  have hMa := hL.maxva_al
  have hg := PGROUNDDOWN_facts va (by omega)
  have hg2 := PGROUNDDOWN_facts (va + size - 1) (by omega)
  obtain ⟨n, hn, hcase⟩ := mappages_spec hL hfo hw hsize hlt hperm hpa
  have hn' : (PGROUNDDOWN (va + size - 1) - PGROUNDDOWN va) / PGSIZE = n := by
    unfold PGSIZE; omega
  rw [hn']
  unfold PGSIZE
  rcases hcase with ⟨s1, P, F', he, _⟩ | ⟨s1, P, F', t, ht, he, hts, hF', _, hinst⟩ | ⟨he, _⟩
  · rw [hres] at he
    injection he with h
    have := congrArg Prod.fst h
    simp at this
  · rw [hres] at he
    have hs : s' = s1 := by
      injection he with h
      exact congrArg Prod.snd h
    subst hs hF'
    obtain ⟨hp1, hp2⟩ := entUpd_pteAt hL hw hts.wft (installed_entUpd hinst) hg.1 (by omega)
    exact ⟨t, ht, hp1, hp2, hts.free⟩
  · rw [hres] at he
    cases he

/-- C10, witness: the failing call of the counterexample. -/
theorem mappages_failure_witness :
    FreeOK exL exS2 [0x87fff000, 0x87ffe000] ∧
    mappages exL exS2 exT 0x1ff000 0x2000 0x80000000 PTE_R =
      .ok (-1, (mappages exL exS2 exT 0x1ff000 0x2000 0x80000000 PTE_R).state exS2) ∧
    ∃ t, t ≤ (PGROUNDDOWN (0x1ff000 + 0x2000 - 1) - PGROUNDDOWN 0x1ff000) / PGSIZE ∧
      (∀ k, k < t →
        pteAt exL ((mappages exL exS2 exT 0x1ff000 0x2000 0x80000000 PTE_R).state exS2) exT
          (PGROUNDDOWN 0x1ff000 + k * PGSIZE) =
        PA2PTE ((0x80000000 + k * PGSIZE) % 2 ^ 64) ||| PTE_R ||| PTE_V) ∧
      (∀ x, (∀ k, k < t → PGROUNDDOWN x ≠ PGROUNDDOWN 0x1ff000 + k * PGSIZE) →
        pteAt exL ((mappages exL exS2 exT 0x1ff000 0x2000 0x80000000 PTE_R).state exS2) exT x =
          pteAt exL exS2 exT x) ∧
      FreeOK exL ((mappages exL exS2 exT 0x1ff000 0x2000 0x80000000 PTE_R).state exS2) [] :=
  have hm : mappages exL exS2 exT 0x1ff000 0x2000 0x80000000 PTE_R =
      .ok (-1, (mappages exL exS2 exT 0x1ff000 0x2000 0x80000000 PTE_R).state exS2) :=
    outcome_of_val exS2 (by decide)
  ⟨by decide, hm,
    mappages_failure exL exS2 _ exT 0x1ff000 0x2000 0x80000000 PTE_R
      [0x87fff000, 0x87ffe000] exL_sane (by decide)
      (zero_root (by decide) (by decide) (by decide) (by decide) exS2_root).1 (by decide)
      (by decide) (by decide) (by decide) hm⟩

/-- C7: duplicate fidelity.  Let `old` and `new` be well-formed tables that share no
page-table page, with `old` dense on `[0, sz)` (every page has a leaf), `new` without a
leaf there, and the frames of `old` neither free nor page-table pages of `new`.  Then
`uvmcopy(old, new, sz)` returns, and it returns 0 when three frames per page are free.
When it returns 0, for every page-aligned `a < sz` the leaf of `a` in `new` has the flag
bits of the leaf of `a` in `old`, references a frame that was free before the call and so
differs from the frame referenced in `old`, and the 4096 bytes of that frame equal the
bytes of the frame of `old` at the time of the call; every lookup in `old`, the
page-table pages of `old` and the frames of `old` are unchanged. -/
theorem uvmcopy_fidelity (L : MemLayout) (s : KState) (old new sz : Nat) (F : List Nat)
    (hL : L.Sane) (hfo : FreeOK L s F) (hwO : WFT s.mem old F) (hwN : WFT s.mem new F)
    (hsz : sz ≤ L.MAXVA)
    (hdense : ∀ a, a % PGSIZE = 0 → a < sz → ∃ e, leafAt L s old a = some e ∧ isLeaf e)
    (hnone : ∀ a, a % PGSIZE = 0 → a < sz → leafAt L s new a = none)
    (hsepT : ∀ q, IsTablePage s.mem old q → ¬ IsTablePage s.mem new q)
    (hsepF : ∀ a e, a % PGSIZE = 0 → a < sz → leafAt L s old a = some e →
      PTE2PA e ∉ F ∧ ¬ IsTablePage s.mem new (PTE2PA e)) :
    ∃ (r : Int) (s' : KState), uvmcopy L s old new sz = .ok (r, s') ∧
      (3 * ((sz + 4095) / 4096) ≤ F.length → r = 0) ∧
      (r = 0 →
        (∀ a, a % PGSIZE = 0 → a < sz → ∃ e e', leafAt L s old a = some e ∧
          leafAt L s' new a = some e' ∧ PTE_FLAGS e' = PTE_FLAGS e ∧
          PTE2PA e' ∈ F ∧ PTE2PA e' ≠ PTE2PA e ∧
          (∀ y, y < PGSIZE → s'.mem (PTE2PA e' + y) = s.mem (PTE2PA e + y))) ∧
        (∀ va, leafAt L s' old va = leafAt L s old va) ∧
        (∀ q, IsTablePage s.mem old q → ∀ x, q ≤ x → x < q + PGSIZE → s'.mem x = s.mem x) ∧
        (∀ a e, a % PGSIZE = 0 → a < sz → leafAt L s old a = some e →
          ∀ y, y < PGSIZE → s'.mem (PTE2PA e + y) = s.mem (PTE2PA e + y))) := by
  have hM := hL.maxva_le
  rcases uvmcopy_spec hL hfo hwO hwN hsz hdense hnone hsepT hsepF with
    ⟨s', D, Pt, F', hres, hok, hz⟩ | ⟨s', Pt, F', hres, hlen, _⟩
  · refine ⟨0, s', hres, fun _ => rfl, fun _ => ?_⟩
    obtain ⟨_, _, hD, hP⟩ := growOK_frames hL hfo hwN hok (fun _ => flags_lt _)
    have hA : ∀ f ∈ D ++ Pt, f ∈ F := fun f hf => by
      rcases List.mem_append.mp hf with h | h
      · exact (hD f h).2.1
      · exact (hP f h).1
    refine ⟨fun a ha hlt => ?_, old_unchanged hfo hwO hwN hdense hsepT hsepF hA hok.foot⟩
    obtain ⟨e, he, hl⟩ := hdense a ha hlt
    obtain ⟨_, hev, _, hvalid⟩ := leafAt_some hwO he
    unfold PGSIZE at ha ⊢
    have hu : a / 4096 < (sz + 4095) / 4096 := by omega
    have hau : a / 4096 * 4096 = a := by omega
    have hent := hok.upd.1 _ hu
    have hzu := hz _ hu
    rw [hau] at hzu
    simp only [Nat.zero_add, hau, hev] at hent
    have hmem : D.getD (a / 4096) 0 ∈ D := by
      rw [List.getD_eq_getElem _ _ (by rw [hok.len]; exact hu)]; exact List.getElem_mem _
    have hg := hD _ hmem
    have hpa := @entry_pa _ (PTE_FLAGS e) (goodFrame_al hg.1) (goodFrame_lt hL hg.1)
      (flags_lt e)
    refine ⟨e, PA2PTE (D.getD (a / 4096) 0) ||| PTE_FLAGS e ||| PTE_V, he, ?_, ?_, ?_, ?_,
      fun y hy => ?_⟩
    · rw [← hent]
      exact leafAt_of_ent hok.wft (by omega) (by rw [hent]; exact pteValid_or_V _)
    · rw [entry_flags (flags_lt e), flags_or_V hvalid]
    · rw [hpa]; exact hg.2.1
    · rw [hpa]
      exact fun h => (hsepF a e ha hlt he).1 (h ▸ hg.2.1)
    · rw [hpa, hzu _ (by omega) (by omega), Nat.add_sub_cancel_left]
      unfold frameOf
      rw [hev]
  · exact ⟨-1, s', hres, fun h => absurd h (by omega), fun h => absurd h (by decide)⟩

/-- C8: `uvmcopy` failure leaves the destination unpopulated.  Under the preconditions of
C7, `uvmcopy(old, new, sz)` returns, and when it does not return 0 (a `kalloc` or a
`mappages` failed) it returns -1; the lookups in `new` are those before the call, so no
page of `[0, sz)` has a valid leaf in `new`; the free list is again the old free list
except for the frames `Pt` that `walk` made page-table pages of `new`, so every data frame
taken for `new` is free again; and every lookup in `old`, the page-table pages of `old`
and the frames of `old` are unchanged. -/
theorem uvmcopy_failure (L : MemLayout) (s : KState) (old new sz : Nat) (F : List Nat)
    (hL : L.Sane) (hfo : FreeOK L s F) (hwO : WFT s.mem old F) (hwN : WFT s.mem new F)
    (hsz : sz ≤ L.MAXVA)
    (hdense : ∀ a, a % PGSIZE = 0 → a < sz → ∃ e, leafAt L s old a = some e ∧ isLeaf e)
    (hnone : ∀ a, a % PGSIZE = 0 → a < sz → leafAt L s new a = none)
    (hsepT : ∀ q, IsTablePage s.mem old q → ¬ IsTablePage s.mem new q)
    (hsepF : ∀ a e, a % PGSIZE = 0 → a < sz → leafAt L s old a = some e →
      PTE2PA e ∉ F ∧ ¬ IsTablePage s.mem new (PTE2PA e)) :
    ∃ (r : Int) (s' : KState), uvmcopy L s old new sz = .ok (r, s') ∧
      (r ≠ 0 → r = -1 ∧
        (∀ va, leafAt L s' new va = leafAt L s new va) ∧
        (∀ a, a % PGSIZE = 0 → a < sz → leafAt L s' new a = none) ∧
        (∃ Pt F', FreeOK L s' F' ∧ F.Perm (Pt ++ F') ∧
          ∀ p ∈ Pt, IsTablePage s'.mem new p ∧ ¬ IsTablePage s.mem new p) ∧
        (∀ va, leafAt L s' old va = leafAt L s old va) ∧
        (∀ q, IsTablePage s.mem old q → ∀ x, q ≤ x → x < q + PGSIZE → s'.mem x = s.mem x) ∧
        (∀ a e, a % PGSIZE = 0 → a < sz → leafAt L s old a = some e →
          ∀ y, y < PGSIZE → s'.mem (PTE2PA e + y) = s.mem (PTE2PA e + y))) := by
  rcases uvmcopy_spec hL hfo hwO hwN hsz hdense hnone hsepT hsepF with
    ⟨s', D, Pt, F', hres, _, _⟩ | ⟨s', Pt, F', hres, _, hfail⟩
  · exact ⟨0, s', hres, fun h => absurd rfl h⟩
  · have hleaf : ∀ va, leafAt L s' new va = leafAt L s new va := fun va => by
      refine leafAt_congr hwN hfail.wft (fun _ => ?_)
      rcases hfail.others _ _ _ (PX_lt 2 va) (PX_lt 1 va) (PX_lt 0 va)
        (fun u hu => absurd hu (Nat.not_lt_zero _)) with h | ⟨h1, h2⟩
      · exact Or.inl h
      · exact Or.inr ⟨h1, by rw [h2]; exact not_pteValid_zero⟩
    have hperm : F.Perm (Pt ++ F') := hfail.perm
    refine ⟨-1, s', hres, fun _ => ⟨rfl, hleaf, fun a ha hlt => by rw [hleaf]; exact hnone a ha hlt,
      ⟨Pt, F', hfail.free, hperm, fun p hp => ⟨(hfail.pages p).mpr (Or.inr hp), fun hc =>
        (WFT_page hwN hc).2.2.2 (hperm.mem_iff.mpr (List.mem_append_left _ hp))⟩⟩,
      @old_unchanged L s s' old new sz F F hfo hwO hwN hdense hsepT hsepF (fun _ h => h)
        hfail.foot⟩⟩

/-- C7, witness: in the example state `exG1` the table `exT` has one mapped page and three
frames are free; `uvmcopy(exT, exN, 4096)` into the empty table `exN` returns 0 and the
copy is faithful. -/
theorem uvmcopy_fidelity_witness :
    FreeOK exL exG1 [0x87ffc000, 0x87ffb000, 0x87ffa000] ∧
    (∀ a, a % PGSIZE = 0 → a < 4096 → ∃ e, leafAt exL exG1 exT a = some e ∧ isLeaf e) ∧
    ∃ (r : Int) (s' : KState), uvmcopy exL exG1 exT exN 4096 = .ok (r, s') ∧
      (3 * ((4096 + 4095) / 4096) ≤ [0x87ffc000, 0x87ffb000, 0x87ffa000].length → r = 0) ∧
      (r = 0 →
        (∀ a, a % PGSIZE = 0 → a < 4096 → ∃ e e', leafAt exL exG1 exT a = some e ∧
          leafAt exL s' exN a = some e' ∧ PTE_FLAGS e' = PTE_FLAGS e ∧
          PTE2PA e' ∈ [0x87ffc000, 0x87ffb000, 0x87ffa000] ∧ PTE2PA e' ≠ PTE2PA e ∧
          (∀ y, y < PGSIZE → s'.mem (PTE2PA e' + y) = exG1.mem (PTE2PA e + y))) ∧
        (∀ va, leafAt exL s' exT va = leafAt exL exG1 exT va) ∧
        (∀ q, IsTablePage exG1.mem exT q → ∀ x, q ≤ x → x < q + PGSIZE →
          s'.mem x = exG1.mem x) ∧
        (∀ a e, a % PGSIZE = 0 → a < 4096 → leafAt exL exG1 exT a = some e →
          ∀ y, y < PGSIZE → s'.mem (PTE2PA e + y) = exG1.mem (PTE2PA e + y))) :=
  have hfo : FreeOK exL exG1 [0x87ffc000, 0x87ffb000, 0x87ffa000] := by decide
  have hf := exGrow_facts 4096 [0x87ffc000, 0x87ffb000, 0x87ffa000] (by decide) (by decide)
    (by decide) hfo
  have hdense : ∀ a, a % PGSIZE = 0 → a < 4096 →
      ∃ e, leafAt exL exG1 exT a = some e ∧ isLeaf e := fun a ha hlt => by
    have : a = 0 := by unfold PGSIZE at ha; omega
    subst this
    exact ⟨570424351, by decide, by decide⟩
  ⟨hfo, hdense,
    uvmcopy_fidelity exL exG1 exT exN 4096 [0x87ffc000, 0x87ffb000, 0x87ffa000] exL_sane hfo
      hf.1 hf.2.1 (by decide) hdense (fun a _ _ => hf.2.2.1 a) hf.2.2.2.1
      (fun a e _ _ he => hf.2.2.2.2 a e he)⟩

/-- C8, witness: in the example state `exG` the table `exT` has two mapped pages and only
two frames are free; `uvmcopy(exT, exN, 8192)` fails at the first page (the second
page-table page cannot be allocated) and returns -1. -/
theorem uvmcopy_failure_witness :
    FreeOK exL exG [0x87ffb000, 0x87ffa000] ∧
    (∀ a, a % PGSIZE = 0 → a < 8192 → ∃ e, leafAt exL exG exT a = some e ∧ isLeaf e) ∧
    (uvmcopy exL exG exT exN 8192).val Prod.fst = some (-1) ∧
    ∃ (r : Int) (s' : KState), uvmcopy exL exG exT exN 8192 = .ok (r, s') ∧
      (r ≠ 0 → r = -1 ∧
        (∀ va, leafAt exL s' exN va = leafAt exL exG exN va) ∧
        (∀ a, a % PGSIZE = 0 → a < 8192 → leafAt exL s' exN a = none) ∧
        (∃ Pt F', FreeOK exL s' F' ∧ [0x87ffb000, 0x87ffa000].Perm (Pt ++ F') ∧
          ∀ p ∈ Pt, IsTablePage s'.mem exN p ∧ ¬ IsTablePage exG.mem exN p) ∧
        (∀ va, leafAt exL s' exT va = leafAt exL exG exT va) ∧
        (∀ q, IsTablePage exG.mem exT q → ∀ x, q ≤ x → x < q + PGSIZE →
          s'.mem x = exG.mem x) ∧
        (∀ a e, a % PGSIZE = 0 → a < 8192 → leafAt exL exG exT a = some e →
          ∀ y, y < PGSIZE → s'.mem (PTE2PA e + y) = exG.mem (PTE2PA e + y))) :=
  have hfo : FreeOK exL exG [0x87ffb000, 0x87ffa000] := by decide
  have hf := exGrow_facts 8192 [0x87ffb000, 0x87ffa000] (by decide) (by decide)
    (by decide) hfo
  have hdense : ∀ a, a % PGSIZE = 0 → a < 8192 →
      ∃ e, leafAt exL exG exT a = some e ∧ isLeaf e := fun a ha hlt => by
    have : a = 0 ∨ a = 4096 := by unfold PGSIZE at ha; omega
    rcases this with h | h
    · subst h
      exact ⟨570424351, by decide, by decide⟩
    · subst h
      exact ⟨570421279, by decide, by decide⟩
  ⟨hfo, hdense, by decide,
    uvmcopy_failure exL exG exT exN 8192 [0x87ffb000, 0x87ffa000] exL_sane hfo
      hf.1 hf.2.1 (by decide) hdense (fun a _ _ => hf.2.2.1 a) hf.2.2.2.1
      (fun a e _ _ he => hf.2.2.2.2 a e he)⟩

/-- C6 (as amended): destroy after shrink.  Start with at least five free frames `f0`,
..., `f4` (what the scenario needs) and `MAXVA ≥ 8192`.  Then `uvmcreate()` returns the
root `T = f0`, `uvmalloc(T, 0, 8192)` returns 8192, `uvmdealloc(T, 8192, 0)` returns 0 and
leaves the free list `f4 :: f1 :: R` (the two data frames are back), and `uvmfree(T, 0)`
does not panic and adds exactly three frames to the free list: the two page-table pages
`f2`, `f3` that the grow allocated (the list `Pg`) and, last, the root `f0`, which is the
new head. -/
theorem destroy_after_shrink (L : MemLayout) (s : KState) (f0 f1 f2 f3 f4 : Nat)
    (R : List Nat) (d : Nat) (hL : L.Sane) (hmax : 8192 ≤ L.MAXVA)
    (hfo : FreeOK L s (f0 :: f1 :: f2 :: f3 :: f4 :: R)) :
    ∃ (s1 s2 s3 s4 : KState) (Pg : List Nat), uvmcreate s = (f0, s1) ∧
      uvmalloc L s1 f0 0 8192 = .ok (8192, s2) ∧
      uvmdealloc L s2 f0 8192 0 = .ok (0, s3) ∧ FreeOK L s3 (f4 :: f1 :: R) ∧
      uvmfree L (d + 3) s3 f0 0 = .ok s4 ∧ Pg.Perm [f2, f3] ∧
      FreeOK L s4 (f0 :: Pg ++ f4 :: f1 :: R) :=
  destroy_scenario hL hmax hfo d

/-- C6, witness: the scenario on the example machine with its six free frames. -/
theorem destroy_after_shrink_witness :
    FreeOK exL exS6 [0x87fff000, 0x87ffe000, 0x87ffd000, 0x87ffc000, 0x87ffb000, 0x87ffa000] ∧
    ∃ (s1 s2 s3 s4 : KState) (Pg : List Nat), uvmcreate exS6 = (0x87fff000, s1) ∧
      uvmalloc exL s1 0x87fff000 0 8192 = .ok (8192, s2) ∧
      uvmdealloc exL s2 0x87fff000 8192 0 = .ok (0, s3) ∧
      FreeOK exL s3 [0x87ffb000, 0x87ffe000, 0x87ffa000] ∧
      uvmfree exL (0 + 3) s3 0x87fff000 0 = .ok s4 ∧ Pg.Perm [0x87ffd000, 0x87ffc000] ∧
      FreeOK exL s4 (0x87fff000 :: Pg ++ [0x87ffb000, 0x87ffe000, 0x87ffa000]) :=
  ⟨by decide, destroy_after_shrink exL exS6 0x87fff000 0x87ffe000 0x87ffd000 0x87ffc000
    0x87ffb000 [0x87ffa000] 0 exL_sane (by decide) (by decide)⟩

/-- C6, counterexample: on the example machine the table created by `uvmcreate()` has the
root `0x87fff000`; after `uvmalloc(T, 0, 8192)` and `uvmdealloc(T, 8192, 0)` three frames
are free; `uvmfree(T, 0)` then returns with six free frames: it added the root and the two
page-table pages `0x87ffd000` and `0x87ffc000`, three frames and not one. -/
theorem destroy_counterexample :
    (uvmcreate exS6).1 = 0x87fff000 ∧
    (uvmalloc exL exC1 0x87fff000 0 8192).val Prod.fst = some 8192 ∧
    (uvmdealloc exL exC2 0x87fff000 8192 0).val Prod.fst = some 0 ∧
    FreeOK exL exC3 [0x87ffb000, 0x87ffe000, 0x87ffa000] ∧
    ∃ (s4 : KState) (Pg : List Nat), uvmfree exL 3 exC3 0x87fff000 0 = .ok s4 ∧
      Pg.Perm [0x87ffd000, 0x87ffc000] ∧
      FreeOK exL s4 (0x87fff000 :: Pg ++ [0x87ffb000, 0x87ffe000, 0x87ffa000]) ∧
      (0x87fff000 :: Pg ++ [0x87ffb000, 0x87ffe000, 0x87ffa000]).length =
        [0x87ffb000, 0x87ffe000, 0x87ffa000].length + 3 := by
  obtain ⟨s1, s2, s3, s4, Pg, hc, hg, hd, _, hf, hperm, hfo4⟩ :=
    @destroy_scenario exL exL_sane (by decide) exS6 0x87fff000 0x87ffe000 0x87ffd000
      0x87ffc000 0x87ffb000 [0x87ffa000] (by decide) 0
  have e1 : exC1 = s1 := by unfold exC1; rw [hc]
  have e2 : exC2 = s2 := by unfold exC2; rw [e1, hg]; rfl
  have e3 : exC3 = s3 := by unfold exC3; rw [e2, hd]; rfl
  refine ⟨by decide, by decide, by decide, by decide, s4, Pg, by rw [e3]; exact hf, hperm,
    hfo4, ?_⟩
  have := hperm.length_eq
  simp only [List.length_cons, List.length_append, List.length_nil] at this ⊢
  omega

/-- C15: `walk` lookup equals the reference three-level index.  `walk(T, va, alloc)` panics
exactly when `va >= MAXVA`.  For `va < MAXVA` and `alloc = 0` it leaves the state as it is
and returns 0 if the level-2 entry `T[PX(2,va)]` is invalid or the entry `PX(1,va)` of the
table that entry references is invalid, and otherwise the address of entry `PX(0,va)` of
the level-0 table reached through those two entries, where
`PX(l,va) = (va >> (12+9l)) & 0x1FF`. -/
theorem walk_lookup (L : MemLayout) (s : KState) (T va alloc : Nat) :
    ((∃ w, walk L s T va alloc = .panic w) ↔ L.MAXVA ≤ va) ∧
    (va < L.MAXVA →
      walk L s T va 0 = .ok
        (if read64 s.mem (T + 8 * PX 2 va) &&& PTE_V = 0 ∨
            read64 s.mem (PTE2PA (read64 s.mem (T + 8 * PX 2 va)) + 8 * PX 1 va) &&& PTE_V = 0
          then 0
          else PTE2PA (read64 s.mem (PTE2PA (read64 s.mem (T + 8 * PX 2 va)) + 8 * PX 1 va)) +
            8 * PX 0 va, s)) ∧
    (∀ l, PX l va = (va >>> (12 + 9 * l)) &&& 0x1FF) := by
  refine ⟨⟨fun h => ?_, fun h => ⟨.walk, by unfold walk; rw [if_pos h]⟩⟩, fun h => ?_,
    fun l => rfl⟩
  · by_contra hc
    obtain ⟨w, hw⟩ := h
    rw [walk_ok (by omega)] at hw
    cases hw
  · rw [walk_ok h, walk_loop_lookup]
    unfold l0page l1E l1page rootE pteValid
    by_cases h2 : read64 s.mem (T + 8 * PX 2 va) &&& PTE_V = 0
    · rw [if_neg (fun hc => hc.1 h2), if_pos (Or.inl h2)]
    · by_cases h1 : read64 s.mem (PTE2PA (read64 s.mem (T + 8 * PX 2 va)) + 8 * PX 1 va) &&&
          PTE_V = 0
      · rw [if_neg (fun hc => hc.2 h1), if_pos (Or.inr h1)]
      · rw [if_pos ⟨h2, h1⟩, if_neg (fun hc => hc.elim h2 h1)]

/-- C17: `walkaddr` is a total, non-fatal, user-only query.  For every table `T` and every
`va`, `walkaddr(T, va)` returns without a panic and leaves the state as it is.  It returns
`PTE2PA(e)` when `walk` finds a valid level-0 entry `e` for `va` (this requires
`va < MAXVA`) and `e` has the User flag, and 0 in every other case: `va >= MAXVA`, a
missing intermediate table, Valid clear, or User clear.  The entry that `walk` finds is the
one at index `PX(0,va)` of the level-0 table of `va`, the address of that entry not being
the null pointer. -/
theorem walkaddr_query (L : MemLayout) (s : KState) (T va : Nat) :
    (∃ r, walkaddr L s T va = .ok (r, s)) ∧
    (∀ e, leafAt L s T va = some e → e &&& PTE_U ≠ 0 →
      va < L.MAXVA ∧ walkaddr L s T va = .ok (PTE2PA e, s)) ∧
    (∀ e, leafAt L s T va = some e → e &&& PTE_U = 0 → walkaddr L s T va = .ok (0, s)) ∧
    (leafAt L s T va = none → walkaddr L s T va = .ok (0, s)) ∧
    ((L.MAXVA ≤ va ∨ ¬ pteValid (rootE s.mem T (PX 2 va)) ∨
        ¬ pteValid (l1E s.mem T (PX 2 va) (PX 1 va)) ∨
        ¬ pteValid (read64 s.mem (l0page s.mem T (PX 2 va) (PX 1 va) + 8 * PX 0 va))) →
      leafAt L s T va = none) ∧
    (va < L.MAXVA → pteValid (rootE s.mem T (PX 2 va)) →
      pteValid (l1E s.mem T (PX 2 va) (PX 1 va)) →
      l0page s.mem T (PX 2 va) (PX 1 va) + 8 * PX 0 va ≠ 0 →
      pteValid (read64 s.mem (l0page s.mem T (PX 2 va) (PX 1 va) + 8 * PX 0 va)) →
      leafAt L s T va =
        some (read64 s.mem (l0page s.mem T (PX 2 va) (PX 1 va) + 8 * PX 0 va))) := by
  by_cases hva : va < L.MAXVA
  · have hwk := @walk_ok L s T va 0 hva
    have hla : leafAt L s T va =
        if (walk_loop 2 s T va 0).1 ≠ 0 ∧
            pteValid (read64 s.mem (walk_loop 2 s T va 0).1)
          then some (read64 s.mem (walk_loop 2 s T va 0).1) else none := by
      unfold leafAt
      rw [hwk, walk_loop_lookup]
    have hwa : walkaddr L s T va =
        if (walk_loop 2 s T va 0).1 = 0 then .ok (0, s)
        else if read64 s.mem (walk_loop 2 s T va 0).1 &&& PTE_V = 0 then .ok (0, s)
        else if read64 s.mem (walk_loop 2 s T va 0).1 &&& PTE_U = 0 then .ok (0, s)
        else .ok (PTE2PA (read64 s.mem (walk_loop 2 s T va 0).1), s) := by
      unfold walkaddr
      rw [if_neg (by omega), hwk, bind_ok, walk_loop_lookup]
    have hslot : (walk_loop 2 s T va 0).1 =
        if pteValid (rootE s.mem T (PX 2 va)) ∧ pteValid (l1E s.mem T (PX 2 va) (PX 1 va))
          then l0page s.mem T (PX 2 va) (PX 1 va) + 8 * PX 0 va else 0 := by
      rw [walk_loop_lookup]
    have hsome : ∀ e, leafAt L s T va = some e → (walk_loop 2 s T va 0).1 ≠ 0 ∧
        read64 s.mem (walk_loop 2 s T va 0).1 &&& PTE_V ≠ 0 ∧
        e = read64 s.mem (walk_loop 2 s T va 0).1 := by
      intro e he
      rw [hla] at he
      by_cases hc : (walk_loop 2 s T va 0).1 ≠ 0 ∧
          pteValid (read64 s.mem (walk_loop 2 s T va 0).1)
      · rw [if_pos hc] at he
        exact ⟨hc.1, hc.2, (Option.some.inj he).symm⟩
      · rw [if_neg hc] at he; cases he
    refine ⟨?_, fun e he hu => ?_, fun e he hu => ?_, fun hn => ?_, fun hc => ?_,
      fun _ h2 h1 h0 hv => ?_⟩
    · rw [hwa]
      split
      · exact ⟨_, rfl⟩
      · split
        · exact ⟨_, rfl⟩
        · split
          · exact ⟨_, rfl⟩
          · exact ⟨_, rfl⟩
    · obtain ⟨h0, hv, e1⟩ := hsome e he
      rw [hwa, if_neg h0, if_neg hv, ← e1, if_neg hu]
      exact ⟨hva, rfl⟩
    · obtain ⟨h0, hv, e1⟩ := hsome e he
      rw [hwa, if_neg h0, if_neg hv, ← e1, if_pos hu]
    · rw [hla] at hn
      rw [hwa]
      by_cases h0 : (walk_loop 2 s T va 0).1 = 0
      · rw [if_pos h0]
      · rw [if_neg h0]
        by_cases hv : read64 s.mem (walk_loop 2 s T va 0).1 &&& PTE_V = 0
        · rw [if_pos hv]
        · rw [if_pos ⟨h0, hv⟩] at hn; cases hn
    · rw [hla]
      rcases hc with h | h | h | h
      · omega
      · have e0 : (walk_loop 2 s T va 0).1 = 0 := by
          rw [hslot, if_neg (fun hc => h hc.1)]
        rw [if_neg (fun hc => hc.1 e0)]
      · have e0 : (walk_loop 2 s T va 0).1 = 0 := by
          rw [hslot, if_neg (fun hc => h hc.2)]
        rw [if_neg (fun hc => hc.1 e0)]
      · by_cases ht : pteValid (rootE s.mem T (PX 2 va)) ∧
            pteValid (l1E s.mem T (PX 2 va) (PX 1 va))
        · have e0 : (walk_loop 2 s T va 0).1 =
              l0page s.mem T (PX 2 va) (PX 1 va) + 8 * PX 0 va := by
            rw [hslot, if_pos ht]
          rw [e0, if_neg (fun hc => h hc.2)]
        · have e0 : (walk_loop 2 s T va 0).1 = 0 := by
            rw [hslot, if_neg ht]
          rw [if_neg (fun hc => hc.1 e0)]
    · have e0 : (walk_loop 2 s T va 0).1 =
          l0page s.mem T (PX 2 va) (PX 1 va) + 8 * PX 0 va := by
        rw [hslot, if_pos ⟨h2, h1⟩]
      rw [hla, e0, if_pos ⟨h0, hv⟩]
  · have hwa : walkaddr L s T va = .ok (0, s) := by
      unfold walkaddr; rw [if_pos (by omega)]
    have hla : leafAt L s T va = none := by
      unfold leafAt walk; rw [if_pos (by omega)]
    refine ⟨⟨0, hwa⟩, fun e he => ?_, fun e he => ?_, fun _ => hwa, fun _ => hla,
      fun h => absurd h hva⟩
    · rw [hla] at he; cases he
    · rw [hla] at he; cases he

/-! ## `walk` with allocation, step by step -/

/-- Both tables on the path of `va` exist: `walk` returns the slot and changes nothing. -/
theorem walk_have {s : KState} {T va alloc : Nat}
    (h2 : pteValid (rootE s.mem T (PX 2 va)))
    (h1 : pteValid (l1E s.mem T (PX 2 va) (PX 1 va))) :
    walk_loop 2 s T va alloc = (l0page s.mem T (PX 2 va) (PX 1 va) + 8 * PX 0 va, s) :=
  (@walk_loop_valid 1 s T va alloc h2).trans
    ((@walk_loop_valid 0 s _ va alloc h1).trans (walk_loop_zero _ _ _ _))

/-- No frame for a missing table: `walk` returns 0. -/
theorem walk_none {L : MemLayout} {s : KState} {T va : Nat} (hfo : FreeOK L s [])
    (h : ¬ (pteValid (rootE s.mem T (PX 2 va)) ∧ pteValid (l1E s.mem T (PX 2 va) (PX 1 va)))) :
    walk_loop 2 s T va 1 = (0, s) := by
  have hk := kalloc_nil hfo
  by_cases h2 : pteValid (rootE s.mem T (PX 2 va))
  · have h1 : ¬ pteValid (l1E s.mem T (PX 2 va) (PX 1 va)) := fun hc => h ⟨h2, hc⟩
    exact (@walk_loop_valid 1 s T va 1 h2).trans
      ((@walk_loop_fail 0 s _ va 1 h1 (by decide) (by rw [hk])).trans (by rw [hk]))
  · exact (@walk_loop_fail 1 s _ va 1 h2 (by decide) (by rw [hk])).trans (by rw [hk])

/-- The level-0 table of `va` is missing and a frame is free: `walk` links the frame. -/
theorem walk_one {L : MemLayout} (hL : L.Sane) {s : KState} {T va f : Nat} {F1 : List Nat}
    (hfo : FreeOK L s (f :: F1)) (hw : WFT s.mem T (f :: F1))
    (h2 : pteValid (rootE s.mem T (PX 2 va)))
    (h1 : ¬ pteValid (l1E s.mem T (PX 2 va) (PX 1 va))) :
    ∃ s', walk_loop 2 s T va 1 = (f + 8 * PX 0 va, s') ∧ f ≠ 0 ∧ f % 4096 = 0 ∧
      FreeOK L s' F1 ∧ WFT s'.mem T F1 ∧
      (∀ q, IsTablePage s'.mem T q ↔ IsTablePage s.mem T q ∨ q = f) ∧
      (∀ i, i < 512 → rootE s'.mem T i = rootE s.mem T i) ∧
      pteValid (l1E s'.mem T (PX 2 va) (PX 1 va)) ∧
      l1E s'.mem T (PX 2 va) (PX 1 va) = PA2PTE f ||| PTE_V ∧
      (∀ j, j < 512 → j ≠ PX 1 va →
        l1E s'.mem T (PX 2 va) j = l1E s.mem T (PX 2 va) j) ∧
      l0page s'.mem T (PX 2 va) (PX 1 va) = f ∧
      (∀ x, f ≤ x → x < f + 4096 → s'.mem x = 0) ∧
      (∀ x, ¬ (f ≤ x ∧ x < f + 4096) →
        ¬ (l1page s.mem T (PX 2 va) + 8 * PX 1 va ≤ x ∧
          x < l1page s.mem T (PX 2 va) + 8 * PX 1 va + 8) → s'.mem x = s.mem x) ∧
      (∀ a b c, a < 512 → b < 512 → c < 512 → ent s'.mem T a b c = ent s.mem T a b c) := by
  have hi := PX_lt 2 va
  have hj := PX_lt 1 va
  obtain ⟨hk, hf0, _⟩ := kalloc_cons hfo
  obtain ⟨hts, hent, hvr, hv1, hp0⟩ := step_l0 hL hfo hw hi hj h2 h1
  have hgf := hfo.2.2 f (List.mem_cons_self _ _)
  have hfal := goodFrame_al hgf
  have hP1 := WFT_page hw (Or.inr (Or.inl ⟨_, hi, h2, rfl⟩))
  have hT := WFT_page hw (Or.inl rfl)
  have hne1 : l1page s.mem T (PX 2 va) ≠ f := fun e => hP1.2.2.2 (e ▸ List.mem_cons_self _ _)
  have hneT : T ≠ f := fun e => hT.2.2.2 (e ▸ List.mem_cons_self _ _)
  have hneT1 : T ≠ l1page s.mem T (PX 2 va) := fun e => (WFT_sep hw).1 _ hi h2 e.symm
  obtain ⟨hout, hzero, hslot⟩ := alloc_mem s.mem f (l1page s.mem T (PX 2 va) + 8 * PX 1 va)
    (PA2PTE f ||| PTE_V) (fun x hx1 hx2 => by have := hP1.1; omega) (PA2PTE_or_lt f)
  generalize hs2 : (⟨write64 (memset (memset s.mem f 5 PGSIZE) f 0 PGSIZE)
    (l1page s.mem T (PX 2 va) + 8 * PX 1 va) (PA2PTE f ||| PTE_V), read64 s.mem f⟩ : KState) = s2
    at hts hent hvr hv1 hp0
  have hm2 : s2.mem = write64 (memset (memset s.mem f 5 PGSIZE) f 0 PGSIZE)
      (l1page s.mem T (PX 2 va) + 8 * PX 1 va) (PA2PTE f ||| PTE_V) := by rw [← hs2]
  rw [← hm2] at hout hzero hslot
  have e : walk_loop 2 s T va 1 = (f + 8 * PX 0 va, s2) := by
    refine (@walk_loop_valid 1 s T va 1 h2).trans
      ((@walk_loop_alloc 0 s _ va 1 h1 (by decide) (by rw [hk]; exact hf0)).trans ?_)
    rw [hk, walk_loop_zero, ← hs2]
  have hroot : ∀ i, i < 512 → rootE s2.mem T i = rootE s.mem T i := fun i hi' =>
    read_other_page hi' hT.1 hfal hP1.1 hj hout hneT (Or.inl hneT1)
  have hl1p : l1page s2.mem T (PX 2 va) = l1page s.mem T (PX 2 va) := by
    unfold l1page; rw [hroot _ hi]
  refine ⟨s2, e, hf0, hfal, hts.free, hts.wft, fun q => ?_, hroot, hv1, ?_, fun j hj' hne => ?_,
    hp0, hzero, hout, hent⟩
  · rw [hts.pages q]; simp
  · unfold l1E; rw [hl1p]; exact hslot
  · unfold l1E; rw [hl1p]
    exact read_other_page hj' hP1.1 hfal hP1.1 hj hout hne1 (Or.inr hne)

/-- The level-1 table of `va` is missing and a frame is free: `walk` links the frame into
the root and goes on as on the table so extended. -/
theorem walk_root_step {L : MemLayout} (hL : L.Sane) {s : KState} {T va f : Nat}
    {F1 : List Nat} (hfo : FreeOK L s (f :: F1)) (hw : WFT s.mem T (f :: F1))
    (h2 : ¬ pteValid (rootE s.mem T (PX 2 va))) :
    ∃ s2, walk_loop 2 s T va 1 = walk_loop 2 s2 T va 1 ∧ f ≠ 0 ∧ f % 4096 = 0 ∧
      FreeOK L s2 F1 ∧ WFT s2.mem T F1 ∧
      (∀ q, IsTablePage s2.mem T q ↔ IsTablePage s.mem T q ∨ q = f) ∧
      pteValid (rootE s2.mem T (PX 2 va)) ∧
      rootE s2.mem T (PX 2 va) = PA2PTE f ||| PTE_V ∧
      (∀ i, i < 512 → i ≠ PX 2 va → rootE s2.mem T i = rootE s.mem T i) ∧
      l1page s2.mem T (PX 2 va) = f ∧
      (∀ j, j < 512 → l1E s2.mem T (PX 2 va) j = 0) ∧
      (∀ x, f ≤ x → x < f + 4096 → s2.mem x = 0) ∧
      (∀ x, ¬ (f ≤ x ∧ x < f + 4096) →
        ¬ (T + 8 * PX 2 va ≤ x ∧ x < T + 8 * PX 2 va + 8) → s2.mem x = s.mem x) ∧
      (∀ a b c, a < 512 → b < 512 → c < 512 → ent s2.mem T a b c = ent s.mem T a b c) := by
  have hi := PX_lt 2 va
  obtain ⟨hk, hf0, _⟩ := kalloc_cons hfo
  obtain ⟨hts, hent, hvr, hp1, hl1⟩ := step_l1 hL hfo hw hi h2
  have hgf := hfo.2.2 f (List.mem_cons_self _ _)
  have hfal := goodFrame_al hgf
  have hT := WFT_page hw (Or.inl rfl)
  have hneT : T ≠ f := fun e => hT.2.2.2 (e ▸ List.mem_cons_self _ _)
  obtain ⟨hout, hzero, hslot⟩ := alloc_mem s.mem f (T + 8 * PX 2 va)
    (PA2PTE f ||| PTE_V) (fun x hx1 hx2 => by have := hT.1; omega) (PA2PTE_or_lt f)
  generalize hs2 : (⟨write64 (memset (memset s.mem f 5 PGSIZE) f 0 PGSIZE)
    (T + 8 * PX 2 va) (PA2PTE f ||| PTE_V), read64 s.mem f⟩ : KState) = s2
    at hts hent hvr hp1 hl1
  have hm2 : s2.mem = write64 (memset (memset s.mem f 5 PGSIZE) f 0 PGSIZE)
      (T + 8 * PX 2 va) (PA2PTE f ||| PTE_V) := by rw [← hs2]
  rw [← hm2] at hout hzero hslot
  have e : walk_loop 2 s T va 1 = walk_loop 2 s2 T va 1 := by
    refine (@walk_loop_alloc 1 s _ va 1 h2 (by decide) (by rw [hk]; exact hf0)).trans ?_
    rw [hk, @walk_loop_valid 1 s2 T va 1 hvr]
    have : PTE2PA (read64 s2.mem (T + 8 * PX (1 + 1) va)) = f := hp1
    rw [this, ← hs2]
  refine ⟨s2, e, hf0, hfal, hts.free, hts.wft, fun q => ?_, hvr, hslot, fun i hi' hne => ?_,
    hp1, fun j hj => ?_, hzero, hout, hent⟩
  · rw [hts.pages q]; simp
  · exact read_other_page hi' hT.1 hfal hT.1 hi hout hneT (Or.inr hne)
  · unfold l1E; rw [hp1]
    exact read_zero_page hj hzero

/-- C16: `walk` with allocation.  On a well-formed table with free frames `F`, for
`va < MAXVA`, let `m` be the number of missing tables on the path of `va` (0, 1 or 2).
`walk(T, va, 1)` returns a slot (not 0) if and only if `m ≤ |F|`, and 0 otherwise.  On
success exactly the first `m` frames of `F` leave the free list and become page-table
pages; each is linked by an entry equal to `PA2PTE(frame) | PTE_V`: the first into the
root when `m = 2`, the last into the level-1 table; the new level-0 table is all zero and
a new level-1 table is zero but for that link; memory changes only inside the new frames
and in the one entry of the old table that receives a link, so no other existing entry
changes (nothing at all changes when `m = 0`); the slot returned is entry `PX(0,va)` of
the level-0 table, and a following `walk(T, va, 0)` returns the same slot. -/
theorem walk_alloc_exact (L : MemLayout) (s : KState) (T va : Nat) (F : List Nat)
    (hL : L.Sane) (hfo : FreeOK L s F) (hw : WFT s.mem T F) (hva : va < L.MAXVA) :
    ((∃ p s', walk L s T va 1 = .ok (p, s') ∧ p ≠ 0) ↔ missingTables s.mem T va ≤ F.length) ∧
    (F.length < missingTables s.mem T va → ∃ s', walk L s T va 1 = .ok (0, s')) ∧
    (missingTables s.mem T va ≤ F.length →
      ∃ p s', walk L s T va 1 = .ok (p, s') ∧ p ≠ 0 ∧
        FreeOK L s' (F.drop (missingTables s.mem T va)) ∧
        WFT s'.mem T (F.drop (missingTables s.mem T va)) ∧
        (∀ q, IsTablePage s'.mem T q ↔
          IsTablePage s.mem T q ∨ q ∈ F.take (missingTables s.mem T va)) ∧
        pteValid (rootE s'.mem T (PX 2 va)) ∧
        pteValid (l1E s'.mem T (PX 2 va) (PX 1 va)) ∧
        p = l0page s'.mem T (PX 2 va) (PX 1 va) + 8 * PX 0 va ∧
        (missingTables s.mem T va = 0 → s' = s) ∧
        (missingTables s.mem T va = 1 →
          l1E s'.mem T (PX 2 va) (PX 1 va) = PA2PTE (F.getD 0 0) ||| PTE_V ∧
          l0page s'.mem T (PX 2 va) (PX 1 va) = F.getD 0 0) ∧
        (missingTables s.mem T va = 2 →
          rootE s'.mem T (PX 2 va) = PA2PTE (F.getD 0 0) ||| PTE_V ∧
          l1page s'.mem T (PX 2 va) = F.getD 0 0 ∧
          l1E s'.mem T (PX 2 va) (PX 1 va) = PA2PTE (F.getD 1 0) ||| PTE_V ∧
          l0page s'.mem T (PX 2 va) (PX 1 va) = F.getD 1 0 ∧
          ∀ j, j < 512 → j ≠ PX 1 va → l1E s'.mem T (PX 2 va) j = 0) ∧
        (0 < missingTables s.mem T va → ∀ k, k < 512 →
          read64 s'.mem (l0page s'.mem T (PX 2 va) (PX 1 va) + 8 * k) = 0) ∧
        (∀ x, s'.mem x ≠ s.mem x →
          (∃ f, f ∈ F.take (missingTables s.mem T va) ∧ f ≤ x ∧ x < f + 4096) ∨
          ((if pteValid (rootE s.mem T (PX 2 va)) then
              l1page s.mem T (PX 2 va) + 8 * PX 1 va else T + 8 * PX 2 va) ≤ x ∧
            x < (if pteValid (rootE s.mem T (PX 2 va)) then
              l1page s.mem T (PX 2 va) + 8 * PX 1 va else T + 8 * PX 2 va) + 8)) ∧
        (∀ a b c, a < 512 → b < 512 → c < 512 → ent s'.mem T a b c = ent s.mem T a b c) ∧
        walk L s' T va 0 = .ok (p, s')) := by
  have hi := PX_lt 2 va
  have hj := PX_lt 1 va
  have hwk : ∀ (s' : KState) (al : Nat), walk L s' T va al = .ok (walk_loop 2 s' T va al) :=
    fun s' al => walk_ok hva
  -- the two outcomes
  have key : (F.length < missingTables s.mem T va ∧ ∃ s', walk L s T va 1 = .ok (0, s')) ∨
      (missingTables s.mem T va ≤ F.length ∧
        ∃ p s', walk L s T va 1 = .ok (p, s') ∧ p ≠ 0 ∧
        FreeOK L s' (F.drop (missingTables s.mem T va)) ∧
        WFT s'.mem T (F.drop (missingTables s.mem T va)) ∧
        (∀ q, IsTablePage s'.mem T q ↔
          IsTablePage s.mem T q ∨ q ∈ F.take (missingTables s.mem T va)) ∧
        pteValid (rootE s'.mem T (PX 2 va)) ∧
        pteValid (l1E s'.mem T (PX 2 va) (PX 1 va)) ∧
        p = l0page s'.mem T (PX 2 va) (PX 1 va) + 8 * PX 0 va ∧
        (missingTables s.mem T va = 0 → s' = s) ∧
        (missingTables s.mem T va = 1 →
          l1E s'.mem T (PX 2 va) (PX 1 va) = PA2PTE (F.getD 0 0) ||| PTE_V ∧
          l0page s'.mem T (PX 2 va) (PX 1 va) = F.getD 0 0) ∧
        (missingTables s.mem T va = 2 →
          rootE s'.mem T (PX 2 va) = PA2PTE (F.getD 0 0) ||| PTE_V ∧
          l1page s'.mem T (PX 2 va) = F.getD 0 0 ∧
          l1E s'.mem T (PX 2 va) (PX 1 va) = PA2PTE (F.getD 1 0) ||| PTE_V ∧
          l0page s'.mem T (PX 2 va) (PX 1 va) = F.getD 1 0 ∧
          ∀ j, j < 512 → j ≠ PX 1 va → l1E s'.mem T (PX 2 va) j = 0) ∧
        (0 < missingTables s.mem T va → ∀ k, k < 512 →
          read64 s'.mem (l0page s'.mem T (PX 2 va) (PX 1 va) + 8 * k) = 0) ∧
        (∀ x, s'.mem x ≠ s.mem x →
          (∃ f, f ∈ F.take (missingTables s.mem T va) ∧ f ≤ x ∧ x < f + 4096) ∨
          ((if pteValid (rootE s.mem T (PX 2 va)) then
              l1page s.mem T (PX 2 va) + 8 * PX 1 va else T + 8 * PX 2 va) ≤ x ∧
            x < (if pteValid (rootE s.mem T (PX 2 va)) then
              l1page s.mem T (PX 2 va) + 8 * PX 1 va else T + 8 * PX 2 va) + 8)) ∧
        (∀ a b c, a < 512 → b < 512 → c < 512 → ent s'.mem T a b c = ent s.mem T a b c) ∧
        walk L s' T va 0 = .ok (p, s')) := by
    by_cases h2 : pteValid (rootE s.mem T (PX 2 va))
    · by_cases h1 : pteValid (l1E s.mem T (PX 2 va) (PX 1 va))
      · -- nothing is missing
        have hm : missingTables s.mem T va = 0 := by
          unfold missingTables; rw [if_pos h2, if_pos h1]
        have hP0 := WFT_page hw (Or.inr (Or.inr ⟨_, _, hi, hj, h2, h1, rfl⟩))
        rw [hm]
        refine Or.inr ⟨Nat.zero_le _, _, s, by rw [hwk, walk_have h2 h1], by omega, hfo, hw,
          fun q => by simp, h2, h1, rfl, fun _ => rfl, fun h => absurd h (by decide),
          fun h => absurd h (by decide), fun h => absurd h (by decide),
          fun x hx => absurd rfl hx, fun _ _ _ _ _ _ => rfl, by rw [hwk, walk_have h2 h1]⟩
      · -- the level-0 table is missing
        have hm : missingTables s.mem T va = 1 := by
          unfold missingTables; rw [if_pos h2, if_neg h1]
        rw [hm]
        cases F with
        | nil =>
          exact Or.inl ⟨by simp, s, by rw [hwk, walk_none hfo (fun hc => h1 hc.2)]⟩
        | cons f F1 =>
          obtain ⟨s', e, hf0, hfal, hfo', hw', hpg, hroot, hv1, hl1, hl1o, hp0, hzero, hout,
            hent⟩ := walk_one hL hfo hw h2 h1
          have hv2' : pteValid (rootE s'.mem T (PX 2 va)) := by rw [hroot _ hi]; exact h2
          refine Or.inr ⟨by simp, f + 8 * PX 0 va, s', by rw [hwk, e], by omega, hfo', hw',
            fun q => by rw [hpg q]; simp, hv2', hv1, by rw [hp0], fun h => absurd h (by decide),
            fun _ => ⟨hl1, hp0⟩, fun h => absurd h (by decide),
            fun _ k hk => by rw [hp0]; exact read_zero_page hk hzero, fun x hx => ?_, hent,
            by rw [hwk, walk_have hv2' hv1, hp0]⟩
          rw [if_pos h2]
          by_contra hc
          rw [not_or] at hc
          refine hx (hout x (fun hin => hc.1 ⟨f, by simp, hin.1, hin.2⟩) hc.2)
    · -- both tables are missing
      have hm : missingTables s.mem T va = 2 := by
        unfold missingTables; rw [if_neg h2]
      rw [hm]
      cases F with
      | nil =>
        exact Or.inl ⟨by simp, s, by rw [hwk, walk_none hfo (fun hc => h2 hc.1)]⟩
      | cons f F1 =>
        obtain ⟨s2, e2, hf0, hfal, hfo2, hw2, hpg2, hvr2, hr2, hro2, hp12, hl12, hz2, hout2,
          hent2⟩ := walk_root_step hL hfo hw h2
        have h1' : ¬ pteValid (l1E s2.mem T (PX 2 va) (PX 1 va)) := by
          rw [hl12 _ hj]; exact not_pteValid_zero
        cases F1 with
        | nil =>
          exact Or.inl ⟨by simp, s2, by
            rw [hwk, e2, walk_none hfo2 (fun hc => h1' hc.2)]⟩
        | cons g F2 =>
          obtain ⟨s', e, hg0, hgal, hfo', hw', hpg, hroot, hv1, hl1, hl1o, hp0, hzero, hout,
            hent⟩ := walk_one hL hfo2 hw2 hvr2 h1'
          have hv2' : pteValid (rootE s'.mem T (PX 2 va)) := by rw [hroot _ hi]; exact hvr2
          have hp1' : l1page s'.mem T (PX 2 va) = f := by
            unfold l1page; rw [hroot _ hi]; exact hp12
          refine Or.inr ⟨by simp, g + 8 * PX 0 va, s', by rw [hwk, e2, e], by omega, hfo', hw',
            fun q => ?_, hv2', hv1, by rw [hp0], fun h => absurd h (by decide),
            fun h => absurd h (by decide),
            fun _ => ⟨by rw [hroot _ hi]; exact hr2, hp1', hl1, hp0, fun j hj' hne => ?_⟩,
            fun _ k hk => by rw [hp0]; exact read_zero_page hk hzero, fun x hx => ?_,
            fun a b c ha hb hc => by rw [hent a b c ha hb hc, hent2 a b c ha hb hc],
            by rw [hwk, walk_have hv2' hv1, hp0]⟩
          · rw [hpg q, hpg2 q]
            simp only [List.take_succ_cons, List.take_zero, List.mem_cons, List.mem_nil_iff,
              or_false]
            exact or_assoc
          · rw [hl1o j hj' hne, hl12 j hj']
          · rw [if_neg h2]
            by_contra hc
            rw [not_or] at hc
            have hnf : ¬ (f ≤ x ∧ x < f + 4096) := fun hin => hc.1 ⟨f, by simp, hin.1, hin.2⟩
            have hng : ¬ (g ≤ x ∧ x < g + 4096) := fun hin => hc.1 ⟨g, by simp, hin.1, hin.2⟩
            refine hx ((hout x hng ?_).trans (hout2 x hnf hc.2))
            rw [hp12]
            intro hin
            exact hnf ⟨by omega, by have := PX_lt 1 va; omega⟩
  refine ⟨⟨fun h => ?_, fun h => ?_⟩, fun h => ?_, fun h => ?_⟩
  · rcases key with ⟨_, s0, h0⟩ | ⟨hle, _⟩
    · obtain ⟨p, s', hp, hne⟩ := h
      rw [h0] at hp
      simp only [Outcome.ok.injEq, Prod.mk.injEq] at hp
      exact absurd hp.1.symm hne
    · exact hle
  · rcases key with ⟨hlt, _⟩ | ⟨_, p, s', hp, hne, _⟩
    · omega
    · exact ⟨p, s', hp, hne⟩
  · rcases key with ⟨_, h0⟩ | ⟨hle, _⟩
    · exact h0
    · omega
  · rcases key with ⟨hlt, _⟩ | ⟨_, h1⟩
    · omega
    · exact h1

/-! ## `mappages` never stores over a valid entry -/

theorem outcome_of_fatal {α : Type} {o : Outcome α} {w : Fatal} (h : o.fatal = some w) :
    o = .panic w := by
  cases o with
  | ok r => simp [Outcome.fatal] at h
  | panic w' =>
    simp only [Outcome.fatal, Option.some.injEq] at h
    rw [h]
  | diverge => simp [Outcome.fatal] at h

theorem mappages_loop_high (L : MemLayout) (fuel : Nat) (s : KState) (T a last pa perm : Nat)
    (h : L.MAXVA ≤ a) : mappages_loop L (fuel + 1) s T a last pa perm = .panic .walk := by
  rw [mappages_loop]
  unfold walk
  rw [if_pos h]
  rfl

/-- Whenever the loop of `mappages` returns, every level-0 entry that was valid before is
unchanged. -/
theorem mappages_loop_keeps {L : MemLayout} (hL : L.Sane) {T perm last : Nat}
    (hperm : perm < 2 ^ 64) :
    ∀ (fuel : Nat) (s : KState) (F : List Nat) (a pa : Nat) (r : Int) (s' : KState),
      FreeOK L s F → WFT s.mem T F → pa < 2 ^ 64 →
      mappages_loop L fuel s T a last pa perm = .ok (r, s') →
      ∀ i j k, i < 512 → j < 512 → k < 512 → pteValid (ent s.mem T i j k) →
        ent s'.mem T i j k = ent s.mem T i j k := by
  intro fuel
  induction fuel with
  | zero =>
    intro s F a pa r s' _ _ _ h
    rw [mappages_loop] at h
    cases h
  | succ fuel ih =>
    intro s F a pa r s' hfo hw hpa h i j k hi hj hk hv
    by_cases ha : a < L.MAXVA
    · rw [mappages_loop_succ L fuel s T a last pa perm ha] at h
      obtain ⟨P, F', hts, hlen, hent, hcase⟩ :=
        @mappages_iter L hL s T a pa perm F hfo hw hperm hpa
      rcases hcase with ⟨h0, _, _⟩ | ⟨hne, hread, hts2, hinst⟩
      · rw [if_pos h0] at h
        simp only [Outcome.ok.injEq, Prod.mk.injEq] at h
        rw [← h.2]
        exact hent i j k hi hj hk
      · rw [if_neg hne, hread] at h
        by_cases hva : pteValid (ent s.mem T (PX 2 a) (PX 1 a) (PX 0 a))
        · rw [if_pos hva] at h
          cases h
        · rw [if_neg hva] at h
          have hkeep : ent (write64 (walk_loop 2 s T a 1).2.mem (walk_loop 2 s T a 1).1
              (PA2PTE pa ||| perm ||| PTE_V)) T i j k = ent s.mem T i j k := by
            refine hinst.2 i j k hi hj hk (fun u hu hc => hva ?_)
            have : u = 0 := by omega
            subst this
            simp only [Nat.zero_mul, Nat.add_zero] at hc
            rw [← hc.1, ← hc.2.1, ← hc.2.2]
            exact hv
          by_cases hl : a = last
          · rw [if_pos hl] at h
            simp only [Outcome.ok.injEq, Prod.mk.injEq] at h
            rw [← h.2]
            exact hkeep
          · rw [if_neg hl] at h
            have := ih _ F' _ _ r s' hts2.free hts2.wft (Nat.mod_lt _ (by decide)) h i j k
              hi hj hk (by rw [hkeep]; exact hv)
            rw [this]
            exact hkeep
    · rw [mappages_loop_high L fuel s T a last pa perm (by omega)] at h
      cases h

/-- C11 (as amended): `mappages` fatal conditions.  `mappages` panics when `size == 0`.
On a well-formed table, for a range that ends below `MAXVA` and assuming that `walk` never
fails for allocation (the call does not return -1, as is the case when two free frames per
page are at hand), it panics if and only if `size == 0` or some page in
`[PGROUNDDOWN(va), PGROUNDDOWN(va+size-1)]` already has a valid level-0 entry.  Whenever it
returns, 0 or -1, every level-0 entry whose Valid bit was set is unchanged. -/
theorem mappages_fatal (L : MemLayout) (s : KState) (T va size pa perm : Nat) (F : List Nat)
    (hL : L.Sane) (hfo : FreeOK L s F) (hw : WFT s.mem T F) (hperm : perm < 2 ^ 64)
    (hpa : pa < 2 ^ 64) :
    (size = 0 → mappages L s T va size pa perm = .panic .mappagesSize) ∧
    (va + size - 1 < L.MAXVA → (∀ s', mappages L s T va size pa perm ≠ .ok (-1, s')) →
      ((∃ w, mappages L s T va size pa perm = .panic w) ↔
        size = 0 ∨ ∃ a, a % PGSIZE = 0 ∧ PGROUNDDOWN va ≤ a ∧
          a ≤ PGROUNDDOWN (va + size - 1) ∧ pteValid (pteAt L s T a))) ∧
    (va + size - 1 < L.MAXVA →
      2 * ((PGROUNDDOWN (va + size - 1) - PGROUNDDOWN va) / PGSIZE + 1) ≤ F.length →
      ∀ s', mappages L s T va size pa perm ≠ .ok (-1, s')) ∧
    (∀ r s', mappages L s T va size pa perm = .ok (r, s') →
      ∀ i j k, i < 512 → j < 512 → k < 512 → pteValid (ent s.mem T i j k) →
        ent s'.mem T i j k = ent s.mem T i j k) := by
  have hM := hL.maxva_le
  have h0 : size = 0 → mappages L s T va size pa perm = .panic .mappagesSize := fun h => by
    unfold mappages; rw [if_pos h]
  refine ⟨h0, fun hlt hnf => ?_, fun hlt hen s' hc => ?_, fun r s' h => ?_⟩
  · by_cases hs : size = 0
    · exact ⟨fun _ => Or.inl hs, fun _ => ⟨_, h0 hs⟩⟩
    · obtain ⟨n, hn, hcase⟩ := mappages_spec hL hfo hw (by omega) hlt hperm hpa
      have h1 := PGROUNDDOWN_facts va (by omega)
      have h2 := PGROUNDDOWN_facts (va + size - 1) (by omega)
      rcases hcase with ⟨s', P, F', he, _, _, _, hinv⟩ | ⟨s', P, F', t, _, he, _⟩ |
        ⟨he, t, ht, hvt⟩
      · constructor
        · rintro ⟨w, hw'⟩
          rw [he] at hw'; cases hw'
        · rintro (h | ⟨a, ha1, ha2, ha3, hav⟩)
          · exact absurd h hs
          · exfalso
            unfold PGSIZE at ha1
            have e : a = PGROUNDDOWN va + (a - PGROUNDDOWN va) / 4096 * 4096 := by omega
            rw [pteAt_eq hw (by omega), e] at hav
            exact hinv _ (by omega) hav
      · exact absurd he (hnf s')
      · refine ⟨fun _ => Or.inr ⟨PGROUNDDOWN va + t * 4096, by unfold PGSIZE; omega,
          by omega, by omega, ?_⟩, fun _ => ⟨_, he⟩⟩
        rw [pteAt_eq hw (by omega)]
        exact hvt
  · by_cases hs : size = 0
    · rw [h0 hs] at hc; cases hc
    · obtain ⟨n, hn, hcase⟩ := mappages_spec hL hfo hw (by omega) hlt hperm hpa
      have e : (PGROUNDDOWN (va + size - 1) - PGROUNDDOWN va) / PGSIZE = n := by
        unfold PGSIZE; omega
      rw [e] at hen
      rcases hcase with ⟨s1, P, F', he, _⟩ | ⟨s1, P, F', t, ht, he, hts, hF', hlen, _⟩ |
        ⟨he, _⟩
      · rw [he] at hc
        simp only [Outcome.ok.injEq, Prod.mk.injEq] at hc
        exact absurd hc.1 (by decide)
      · have hsp := hts.split
        rw [hF', List.append_nil] at hsp
        rw [hsp] at hen
        omega
      · rw [he] at hc; cases hc
  · unfold mappages at h
    by_cases hs : size = 0
    · rw [if_pos hs] at h; cases h
    · rw [if_neg hs] at h
      exact mappages_loop_keeps hL hperm _ s F _ pa r s' hfo hw hpa h

/-- C16, witness: on the empty example table both tables of page 0 are missing; with three
free frames `walk` takes two of them and returns a slot that a following lookup finds
again. -/
theorem walk_alloc_exact_witness :
    FreeOK exL exS3 [0x87fff000, 0x87ffe000, 0x87ffd000] ∧
    missingTables exS3.mem exT 0 = 2 ∧
    ∃ p s', walk exL exS3 exT 0 1 = .ok (p, s') ∧ p ≠ 0 ∧ FreeOK exL s' [0x87ffd000] ∧
      rootE s'.mem exT 0 = PA2PTE 0x87fff000 ||| PTE_V ∧
      l1E s'.mem exT 0 0 = PA2PTE 0x87ffe000 ||| PTE_V ∧
      walk exL s' exT 0 0 = .ok (p, s') :=
  have hm : missingTables exS3.mem exT 0 = 2 := by decide
  have h := (walk_alloc_exact exL exS3 exT 0 [0x87fff000, 0x87ffe000, 0x87ffd000] exL_sane
    (by decide) (zero_root (by decide) (by decide) (by decide) (by decide) exS3_root).1
    (by decide)).2.2 (by rw [hm]; decide)
  ⟨by decide, hm, by
    obtain ⟨p, s', h1, h2, h3, _, _, _, _, _, _, _, h4, _, _, _, h5⟩ := h
    rw [hm] at h3
    have h6 := h4 hm
    exact ⟨p, s', h1, h2, h3, h6.1, h6.2.2.1, h5⟩⟩

/-- C11, witness: mapping page 0 of the empty example table with three free frames; no
walk fails, no page of the range is mapped, and the call does not panic. -/
theorem mappages_fatal_witness :
    FreeOK exL exS3 [0x87fff000, 0x87ffe000, 0x87ffd000] ∧
    (∀ s', mappages exL exS3 exT 0 4096 0x80000000 PTE_R ≠ .ok (-1, s')) ∧
    ¬ (∃ w, mappages exL exS3 exT 0 4096 0x80000000 PTE_R = .panic w) :=
  have h := mappages_fatal exL exS3 exT 0 4096 0x80000000 PTE_R
    [0x87fff000, 0x87ffe000, 0x87ffd000] exL_sane (by decide)
    (zero_root (by decide) (by decide) (by decide) (by decide) exS3_root).1 (by decide)
    (by decide)
  have hnf := h.2.2.1 (by decide) (by decide)
  ⟨by decide, hnf, fun hp => by
    rcases (h.2.1 (by decide) hnf).mp hp with h0 | ⟨a, ha1, ha2, ha3, hv⟩
    · exact absurd h0 (by decide)
    · have e : PGROUNDDOWN (0 + 4096 - 1) = 0 := by decide
      rw [e] at ha3
      have : a = 0 := by omega
      subst this
      exact absurd hv (by decide)⟩

/-- C11, counterexample: on the empty example table with three free frames,
`mappages(exT, MAXVA, 4096, ...)` panics (in `walk`), although `size` is not 0, no walk
failed for allocation (the call does not return -1) and no page of the range, which is the
one page at `MAXVA`, has a valid level-0 entry. -/
theorem mappages_maxva_counterexample :
    FreeOK exL exS3 [0x87fff000, 0x87ffe000, 0x87ffd000] ∧
    WFT exS3.mem exT [0x87fff000, 0x87ffe000, 0x87ffd000] ∧
    (∀ s', mappages exL exS3 exT exL.MAXVA 4096 0x80000000 PTE_R ≠ .ok (-1, s')) ∧
    ¬ ((∃ w, mappages exL exS3 exT exL.MAXVA 4096 0x80000000 PTE_R = .panic w) ↔
      ((4096 : Nat) = 0 ∨ ∃ a, a % PGSIZE = 0 ∧ PGROUNDDOWN exL.MAXVA ≤ a ∧
        a ≤ PGROUNDDOWN (exL.MAXVA + 4096 - 1) ∧
        (pteValid (pteAt exL exS3 exT a) ∨
          pteValid (ent exS3.mem exT (PX 2 a) (PX 1 a) (PX 0 a))))) :=
  have hz := zero_root (m := exS3.mem) (T := exT) (F := [0x87fff000, 0x87ffe000, 0x87ffd000])
    (by decide) (by decide) (by decide) (by decide) exS3_root
  have hp : mappages exL exS3 exT exL.MAXVA 4096 0x80000000 PTE_R = .panic .walk :=
    outcome_of_fatal (by decide)
  ⟨by decide, hz.1, fun s' hc => (by rw [hp] at hc; cases hc), fun hiff => by
    rcases hiff.mp ⟨_, hp⟩ with h0 | ⟨a, _, ha2, _, hv | hv⟩
    · exact absurd h0 (by decide)
    · have e : PGROUNDDOWN exL.MAXVA = exL.MAXVA := by decide
      rw [e] at ha2
      rw [pteAt_high ha2] at hv
      exact not_pteValid_zero hv
    · rw [hz.2.1 _ _ _ (PX_lt 2 a)] at hv
      exact not_pteValid_zero hv⟩

/-! ## `uvmunmap`: one page at a time, and the panics -/

theorem sameTable_refl (m : Mem) (T : Nat) : SameTable m m T :=
  ⟨fun _ _ => rfl, fun _ _ _ _ _ => rfl⟩

theorem sameTable_trans {m m1 m2 : Mem} {T : Nat} (h1 : SameTable m m1 T)
    (h2 : SameTable m1 m2 T) : SameTable m m2 T :=
  ⟨fun i hi => (h2.1 i hi).trans (h1.1 i hi), fun i j hi hj hv =>
    (h2.2 i j hi hj (by rw [h1.1 i hi]; exact hv)).trans (h1.2 i j hi hj hv)⟩

/-- Memory that changed only inside frames that are no page-table pages and inside
level-0 pages holds the same root and level-1 pages. -/
theorem sameTable_of_foot {m m' : Mem} {T : Nat} {F : List Nat} (hw : WFT m T F)
    (h : ∀ x, m' x ≠ m x →
      (∃ d, d % 4096 = 0 ∧ ¬ IsTablePage m T d ∧ d ≤ x ∧ x < d + 4096) ∨
      (∃ i j, i < 512 ∧ j < 512 ∧ pteValid (rootE m T i) ∧ pteValid (l1E m T i j) ∧
        l0page m T i j ≤ x ∧ x < l0page m T i j + 4096)) : SameTable m m' T := by
  obtain ⟨_, hs2, _, hs4, _⟩ := WFT_sep hw
  have key : ∀ p, IsTablePage m T p → p ≠ T ∨ True →
      (∀ i j, i < 512 → j < 512 → pteValid (rootE m T i) → pteValid (l1E m T i j) →
        l0page m T i j ≠ p) → ∀ x, p ≤ x → x < p + 4096 → m' x = m x := by
    intro p hp _ hne x hx1 hx2
    by_contra hc
    have hpa := (WFT_page hw hp).1
    rcases h x hc with ⟨d, hd, hnt, h1, h2⟩ | ⟨i, j, hi, hj, hv, hv2, h1, h2⟩
    · have : d ≠ p := fun e => hnt (e ▸ hp)
      omega
    · have := hne i j hi hj hv hv2
      have := PTE2PA_aligned (l1E m T i j)
      unfold l0page at *
      omega
  have r1 : ∀ i, i < 512 → rootE m' T i = rootE m T i := fun i hi =>
    read64_congr fun x hx1 hx2 => key T (Or.inl rfl) (Or.inr trivial)
      (fun i j hi hj hv hv2 => hs2 i j hi hj hv hv2) x (by omega) (by omega)
  refine ⟨r1, fun i j hi hj hv => l1E_congr (r1 i hi) (read64_congr fun x hx1 hx2 => ?_)⟩
  exact key _ (Or.inr (Or.inl ⟨i, hi, hv, rfl⟩)) (Or.inr trivial)
    (fun i' j' hi' hj' hv' hv2' => hs4 i' j' i hi' hj' hi hv' hv2' hv) x (by omega) (by omega)

theorem uvmunmap_loop_stop (L : MemLayout) (fuel : Nat) (s : KState) (T a B do_free : Nat)
    (h : ¬ a < B) : uvmunmap_loop L (fuel + 1) s T a B do_free = .ok s := by
  rw [uvmunmap_loop, if_neg h]

/-- One iteration of the loop of `uvmunmap` at a mapped page. -/
theorem uvmunmap_step {L : MemLayout} (hL : L.Sane) {s : KState} {T a do_free : Nat}
    {F : List Nat} (hfo : FreeOK L s F) (hw : WFT s.mem T F) (hal : a % 4096 = 0)
    (ha : a < L.MAXVA)
    (hv : pteValid (ent s.mem T (PX 2 a) (PX 1 a) (PX 0 a)))
    (hfl : PTE_FLAGS (ent s.mem T (PX 2 a) (PX 1 a) (PX 0 a)) ≠ PTE_V)
    (hfr : do_free ≠ 0 → goodFrame L (frameOf s.mem T a) ∧ frameOf s.mem T a ∉ F ∧
      ¬ IsTablePage s.mem T (frameOf s.mem T a)) :
    ∃ s1, (∀ fuel B, a < B → uvmunmap_loop L (fuel + 1) s T a B do_free =
        uvmunmap_loop L fuel s1 T (a + 4096) B do_free) ∧
      FreeOK L s1 ((if do_free ≠ 0 then [frameOf s.mem T a] else []) ++ F) ∧
      WFT s1.mem T ((if do_free ≠ 0 then [frameOf s.mem T a] else []) ++ F) ∧
      (∀ q, IsTablePage s1.mem T q ↔ IsTablePage s.mem T q) ∧
      EntUpd s.mem s1.mem T a 1 (fun _ => 0) ∧ SameTable s.mem s1.mem T := by
  have hM := hL.maxva_le
  have hMa := hL.maxva_al
  obtain ⟨hv2, hv1⟩ := ent_valid_tables hv
  have hX : ∃ sk, (if do_free ≠ 0 then kfree L s (PTE2PA (ent s.mem T (PX 2 a) (PX 1 a)
        (PX 0 a))) else .ok s) = .ok sk ∧
      ∀ x, sk.mem x ≠ s.mem x → do_free ≠ 0 ∧ frameOf s.mem T a ≤ x ∧
        x < frameOf s.mem T a + 4096 := by
    by_cases hdf : do_free ≠ 0
    · obtain ⟨hg, hn, hd⟩ := hfr hdf
      obtain ⟨sk, hk, _, _, _, _, _, hout⟩ := kfree_data_step hL hfo hw hg hn hd
      refine ⟨sk, by rw [if_pos hdf]; exact hk, fun x hx => ⟨hdf, ?_⟩⟩
      by_contra hc
      exact hx (hout x hc)
    · exact ⟨s, by rw [if_neg hdf], fun x hx => absurd rfl hx⟩
  obtain ⟨sk, hk, hfoot⟩ := hX
  have hcont : ∀ fuel B, a < B → uvmunmap_loop L (fuel + 1) s T a B do_free =
      uvmunmap_loop L fuel ⟨write64 sk.mem (l0page s.mem T (PX 2 a) (PX 1 a) + 8 * PX 0 a) 0,
        sk.freelist⟩ T (a + 4096) B do_free := by
    intro fuel B hB
    rw [uvmunmap_iter hw ha hB hv hfl, hk, bind_ok]
    have ea : (a + PGSIZE) % 2 ^ 64 = a + 4096 := by unfold PGSIZE; omega
    rw [ea]
  refine ⟨_, hcont, ?_⟩
  obtain ⟨s1, hres, hfo1, hw1, hpg1, hupd1, _⟩ := @uvmunmap_loop_spec L hL T do_free 1 2 s F a
    (by omega) hfo hw hal (by omega)
    (fun u hu => by
      have : u = 0 := by omega
      subst this
      simp only [Nat.zero_mul, Nat.add_zero]
      exact ⟨hv, hfl⟩)
    (fun hdf => by
      have e : framesOf s.mem T a 1 = [frameOf s.mem T a] := rfl
      rw [e]
      refine ⟨List.nodup_singleton _, fun d hd => ?_⟩
      rw [List.mem_singleton] at hd
      rw [hd]
      exact hfr hdf)
  rw [show a + 1 * 4096 = a + 4096 by omega, hcont 1 (a + 4096) (by omega),
    uvmunmap_loop_stop L 0 _ T _ _ do_free (by omega)] at hres
  simp only [Outcome.ok.injEq] at hres
  rw [← hres] at hfo1 hw1 hpg1 hupd1
  have e : framesOf s.mem T a 1 = [frameOf s.mem T a] := rfl
  rw [e, List.reverse_singleton] at hfo1 hw1
  refine ⟨hfo1, hw1, hpg1, hupd1, sameTable_of_foot hw (fun x hx => ?_)⟩
  by_cases hin : l0page s.mem T (PX 2 a) (PX 1 a) + 8 * PX 0 a ≤ x ∧
      x < l0page s.mem T (PX 2 a) (PX 1 a) + 8 * PX 0 a + 8
  · have := PX_lt 0 a
    exact Or.inr ⟨_, _, PX_lt 2 a, PX_lt 1 a, hv2, hv1, by omega, by omega⟩
  · have hx' : sk.mem x ≠ s.mem x := by
      intro hc
      refine hx ?_
      show write64 sk.mem _ 0 x = s.mem x
      rw [write64_outside _ _ _ _ (by omega)]
      exact hc
    obtain ⟨hdf, h1, h2⟩ := hfoot x hx'
    exact Or.inl ⟨_, PTE2PA_aligned _, (hfr hdf).2.2, h1, h2⟩

/-- The loop of `uvmunmap` over `n` mapped pages, as the first part of a longer run. -/
theorem uvmunmap_loop_upto {L : MemLayout} (hL : L.Sane) {T do_free : Nat} :
    ∀ (n : Nat) (s : KState) (F : List Nat) (a : Nat), FreeOK L s F →
      WFT s.mem T F → a % 4096 = 0 → a + n * 4096 ≤ L.MAXVA →
      (∀ u, u < n →
        pteValid (ent s.mem T (PX 2 (a + u * 4096)) (PX 1 (a + u * 4096)) (PX 0 (a + u * 4096))) ∧
        PTE_FLAGS (ent s.mem T (PX 2 (a + u * 4096)) (PX 1 (a + u * 4096))
          (PX 0 (a + u * 4096))) ≠ PTE_V) →
      (do_free ≠ 0 → (framesOf s.mem T a n).Nodup ∧ ∀ d ∈ framesOf s.mem T a n,
        goodFrame L d ∧ d ∉ F ∧ ¬ IsTablePage s.mem T d) →
      ∃ s', (∀ fuel B, a + n * 4096 ≤ B → uvmunmap_loop L (fuel + n) s T a B do_free =
          uvmunmap_loop L fuel s' T (a + n * 4096) B do_free) ∧
        SameTable s.mem s'.mem T := by
  have hM := hL.maxva_le
  intro n
  induction n with
  | zero =>
    intro s F a _ _ _ _ _ _
    refine ⟨s, fun fuel B _ => ?_, sameTable_refl _ _⟩
    rw [Nat.zero_mul, Nat.add_zero, Nat.add_zero]
  | succ n ih =>
    intro s F a hfo hw ha hlt hmap hfr
    have hm0 := hmap 0 (by omega)
    simp only [Nat.zero_mul, Nat.add_zero] at hm0
    obtain ⟨s1, hcont, hfo1, hw1, hpg1, hupd1, hst1⟩ := uvmunmap_step hL hfo hw ha (by omega)
      hm0.1 hm0.2 (fun hdf => (hfr hdf).2 _ (by unfold framesOf; exact List.mem_cons_self _ _))
    have hent2 : ∀ u, u < n →
        ent s1.mem T (PX 2 (a + 4096 + u * 4096)) (PX 1 (a + 4096 + u * 4096))
          (PX 0 (a + 4096 + u * 4096)) =
        ent s.mem T (PX 2 (a + 4096 + u * 4096)) (PX 1 (a + 4096 + u * 4096))
          (PX 0 (a + 4096 + u * 4096)) := by
      intro u hu
      refine hupd1.2 _ _ _ (PX_lt _ _) (PX_lt _ _) (PX_lt _ _) (fun u' hu' hc => ?_)
      have : u' = 0 := by omega
      subst this
      simp only [Nat.zero_mul, Nat.add_zero] at hc
      exact idx_ne_succ (a := a) (u := u) ha (by omega) ⟨hc.1.symm, hc.2.1.symm, hc.2.2.symm⟩
    have hfr2 := framesOf_congr (T := T) n (a + 4096) hent2
    obtain ⟨s', hcont', hst'⟩ := ih s1 _ (a + 4096) hfo1 hw1 (by omega) (by omega)
      (fun u hu => by
        rw [hent2 u hu]
        have := hmap (u + 1) (by omega)
        rw [show a + (u + 1) * 4096 = a + 4096 + u * 4096 by omega] at this
        exact this)
      (fun hdf => by
        obtain ⟨hnd, hgood⟩ := hfr hdf
        unfold framesOf at hnd hgood
        rw [hfr2]
        have hnd' := List.nodup_cons.mp hnd
        refine ⟨hnd'.2, fun d hd => ?_⟩
        have hg := hgood d (List.mem_cons_of_mem _ hd)
        refine ⟨hg.1, ?_, fun h => hg.2.2 ((hpg1 d).mp h)⟩
        rw [if_pos hdf]
        intro hmem
        rcases List.mem_append.mp hmem with h | h
        · rw [List.mem_singleton] at h
          exact hnd'.1 (h ▸ hd)
        · exact hg.2.1 h)
    refine ⟨s', fun fuel B hB => ?_, sameTable_trans hst1 hst'⟩
    rw [show fuel + (n + 1) = fuel + n + 1 by omega, hcont (fuel + n) B (by omega),
      hcont' fuel B (by omega), show a + (n + 1) * 4096 = a + 4096 + n * 4096 by omega]

/-- The loop of `uvmunmap` over `n` mapped pages: the state it reaches, from which a longer
run goes on. -/
theorem uvmunmap_upto_spec {L : MemLayout} (hL : L.Sane) {T do_free : Nat} (n : Nat)
    (s : KState) (F : List Nat) (a : Nat) (hfo : FreeOK L s F) (hw : WFT s.mem T F)
    (ha : a % 4096 = 0) (hlt : a + n * 4096 ≤ L.MAXVA)
    (hmap : ∀ u, u < n →
      pteValid (ent s.mem T (PX 2 (a + u * 4096)) (PX 1 (a + u * 4096)) (PX 0 (a + u * 4096))) ∧
      PTE_FLAGS (ent s.mem T (PX 2 (a + u * 4096)) (PX 1 (a + u * 4096))
        (PX 0 (a + u * 4096))) ≠ PTE_V)
    (hfr : do_free ≠ 0 → (framesOf s.mem T a n).Nodup ∧ ∀ d ∈ framesOf s.mem T a n,
      goodFrame L d ∧ d ∉ F ∧ ¬ IsTablePage s.mem T d) :
    ∃ s', (∀ fuel B, a + n * 4096 ≤ B → uvmunmap_loop L (fuel + n) s T a B do_free =
        uvmunmap_loop L fuel s' T (a + n * 4096) B do_free) ∧
      SameTable s.mem s'.mem T ∧
      FreeOK L s' ((if do_free ≠ 0 then (framesOf s.mem T a n).reverse else []) ++ F) ∧
      WFT s'.mem T ((if do_free ≠ 0 then (framesOf s.mem T a n).reverse else []) ++ F) ∧
      (∀ q, IsTablePage s'.mem T q ↔ IsTablePage s.mem T q) ∧
      EntUpd s.mem s'.mem T a n (fun _ => 0) ∧
      (∀ x, s'.mem x ≠ s.mem x →
        (do_free ≠ 0 ∧ ∃ d, d ∈ framesOf s.mem T a n ∧ d ≤ x ∧ x < d + 4096) ∨
        (∃ q, IsTablePage s.mem T q ∧ q ≤ x ∧ x < q + 4096)) := by
  obtain ⟨s', hcont, hst⟩ := uvmunmap_loop_upto hL n s F a hfo hw ha hlt hmap hfr
  obtain ⟨s1, hres, hfo1, hw1, hpg1, hupd1, hfoot1⟩ := @uvmunmap_loop_spec L hL T do_free n
    (1 + n) s F a (by omega) hfo hw ha hlt hmap hfr
  rw [hcont 1 _ (Nat.le_refl _), uvmunmap_loop_stop L 0 _ T _ _ do_free (by omega)] at hres
  simp only [Outcome.ok.injEq] at hres
  rw [← hres] at hfo1 hw1 hpg1 hupd1 hfoot1
  exact ⟨s', hcont, hst, hfo1, hw1, hpg1, hupd1, hfoot1⟩

/-- The iterations of the loop of `uvmunmap` that end in a panic. -/
theorem uvmunmap_loop_bad {L : MemLayout} {s : KState} {T a B do_free fuel : Nat}
    {F : List Nat} (hw : WFT s.mem T F) (hb : a < B) :
    (L.MAXVA ≤ a → uvmunmap_loop L (fuel + 1) s T a B do_free = .panic .walk) ∧
    (a < L.MAXVA → ¬ (pteValid (rootE s.mem T (PX 2 a)) ∧
        pteValid (l1E s.mem T (PX 2 a) (PX 1 a))) →
      uvmunmap_loop L (fuel + 1) s T a B do_free = .panic .uvmunmapWalk) ∧
    (a < L.MAXVA → pteValid (rootE s.mem T (PX 2 a)) →
      pteValid (l1E s.mem T (PX 2 a) (PX 1 a)) →
      ¬ pteValid (ent s.mem T (PX 2 a) (PX 1 a) (PX 0 a)) →
      uvmunmap_loop L (fuel + 1) s T a B do_free = .panic .uvmunmapNotMapped) ∧
    (a < L.MAXVA → pteValid (ent s.mem T (PX 2 a) (PX 1 a) (PX 0 a)) →
      PTE_FLAGS (ent s.mem T (PX 2 a) (PX 1 a) (PX 0 a)) = PTE_V →
      uvmunmap_loop L (fuel + 1) s T a B do_free = .panic .uvmunmapNotALeaf) := by
  refine ⟨fun h => ?_, fun h ht => ?_, fun h h2 h1 hv => ?_, fun h hv hfl => ?_⟩
  · rw [uvmunmap_loop, if_pos hb]
    unfold walk
    rw [if_pos h]
    rfl
  · rw [uvmunmap_loop, if_pos hb, walk_ok h, bind_ok, walk_loop_lookup]
    simp only [if_neg ht, if_true]
  · have hp := WFT_page hw (Or.inr (Or.inr ⟨_, _, PX_lt 2 a, PX_lt 1 a, h2, h1, rfl⟩))
    have he := ent_of_valid (k := PX 0 a) h2 h1
    rw [he] at hv
    rw [uvmunmap_loop, if_pos hb, walk_ok h, bind_ok, walk_loop_lookup]
    simp only [if_pos (And.intro h2 h1)]
    rw [if_neg (by omega), if_pos (by unfold pteValid at hv; simpa using hv)]
  · obtain ⟨h2, h1⟩ := ent_valid_tables hv
    have hp := WFT_page hw (Or.inr (Or.inr ⟨_, _, PX_lt 2 a, PX_lt 1 a, h2, h1, rfl⟩))
    have he := ent_of_valid (k := PX 0 a) h2 h1
    rw [he] at hv hfl
    rw [uvmunmap_loop, if_pos hb, walk_ok h, bind_ok, walk_loop_lookup]
    simp only [if_pos (And.intro h2 h1)]
    rw [if_neg (by omega), if_neg (by unfold pteValid at hv; simpa using hv), if_pos hfl]

/-- The loop of `uvmunmap` panics at the first page that is not a mapped leaf. -/
theorem uvmunmap_first_bad {L : MemLayout} (hL : L.Sane) {s : KState}
    {T va B do_free t : Nat} {F : List Nat} (hfo : FreeOK L s F) (hw : WFT s.mem T F)
    (hva : va % 4096 = 0) (hB : va + t * 4096 < B) (hpre : va + t * 4096 ≤ L.MAXVA)
    (hmap : ∀ u, u < t →
      pteValid (ent s.mem T (PX 2 (va + u * 4096)) (PX 1 (va + u * 4096))
        (PX 0 (va + u * 4096))) ∧
      PTE_FLAGS (ent s.mem T (PX 2 (va + u * 4096)) (PX 1 (va + u * 4096))
        (PX 0 (va + u * 4096))) ≠ PTE_V)
    (hfr : do_free ≠ 0 → (framesOf s.mem T va t).Nodup ∧ ∀ d ∈ framesOf s.mem T va t,
      goodFrame L d ∧ d ∉ F ∧ ¬ IsTablePage s.mem T d) :
    (L.MAXVA ≤ va + t * 4096 →
      uvmunmap_loop L (L.MAXVA / PGSIZE + 2) s T va B do_free = .panic .walk) ∧
    (va + t * 4096 < L.MAXVA → ¬ (pteValid (rootE s.mem T (PX 2 (va + t * 4096))) ∧
        pteValid (l1E s.mem T (PX 2 (va + t * 4096)) (PX 1 (va + t * 4096)))) →
      uvmunmap_loop L (L.MAXVA / PGSIZE + 2) s T va B do_free = .panic .uvmunmapWalk) ∧
    (va + t * 4096 < L.MAXVA → pteValid (rootE s.mem T (PX 2 (va + t * 4096))) →
      pteValid (l1E s.mem T (PX 2 (va + t * 4096)) (PX 1 (va + t * 4096))) →
      ¬ pteValid (ent s.mem T (PX 2 (va + t * 4096)) (PX 1 (va + t * 4096))
        (PX 0 (va + t * 4096))) →
      uvmunmap_loop L (L.MAXVA / PGSIZE + 2) s T va B do_free = .panic .uvmunmapNotMapped) ∧
    (va + t * 4096 < L.MAXVA →
      pteValid (ent s.mem T (PX 2 (va + t * 4096)) (PX 1 (va + t * 4096))
        (PX 0 (va + t * 4096))) →
      PTE_FLAGS (ent s.mem T (PX 2 (va + t * 4096)) (PX 1 (va + t * 4096))
        (PX 0 (va + t * 4096))) = PTE_V →
      uvmunmap_loop L (L.MAXVA / PGSIZE + 2) s T va B do_free = .panic .uvmunmapNotALeaf) := by
  have hM := hL.maxva_le
  obtain ⟨s', hcont, hst, hfo', hw', hpg', hupd', _⟩ :=
    uvmunmap_upto_spec hL t s F va hfo hw hva hpre hmap hfr
  have hfuel : L.MAXVA / PGSIZE + 2 = (L.MAXVA / PGSIZE - t + 1) + 1 + t := by
    unfold PGSIZE; omega
  have hrun := hcont (L.MAXVA / PGSIZE - t + 1 + 1) B (by omega)
  rw [← hfuel] at hrun
  obtain ⟨b1, b2, b3, b4⟩ := @uvmunmap_loop_bad L s' T (va + t * 4096) B do_free
    (L.MAXVA / PGSIZE - t + 1) _ hw' hB
  have hr : rootE s'.mem T (PX 2 (va + t * 4096)) = rootE s.mem T (PX 2 (va + t * 4096)) :=
    hst.1 _ (PX_lt _ _)
  have hl : pteValid (rootE s.mem T (PX 2 (va + t * 4096))) →
      l1E s'.mem T (PX 2 (va + t * 4096)) (PX 1 (va + t * 4096)) =
        l1E s.mem T (PX 2 (va + t * 4096)) (PX 1 (va + t * 4096)) :=
    hst.2 _ _ (PX_lt _ _) (PX_lt _ _)
  have he : va + t * 4096 < L.MAXVA →
      ent s'.mem T (PX 2 (va + t * 4096)) (PX 1 (va + t * 4096)) (PX 0 (va + t * 4096)) =
      ent s.mem T (PX 2 (va + t * 4096)) (PX 1 (va + t * 4096)) (PX 0 (va + t * 4096)) :=
    fun h => entUpd_other hupd' hva (by omega) (by omega) (by omega) (Or.inr (Nat.le_refl _))
  refine ⟨fun h => hrun.trans (b1 h), fun h ht => hrun.trans (b2 h ?_),
    fun h h2 h1 hv => hrun.trans (b3 h (by rw [hr]; exact h2) (by rw [hl h2]; exact h1)
      (by rw [he h]; exact hv)),
    fun h hv hfl => hrun.trans (b4 h (by rw [he h]; exact hv) (by rw [he h]; exact hfl))⟩
  intro hc
  have h2 : pteValid (rootE s.mem T (PX 2 (va + t * 4096))) := by rw [← hr]; exact hc.1
  exact ht ⟨h2, by rw [← hl h2]; exact hc.2⟩

theorem framesOf_nodup {m : Mem} {T : Nat} : ∀ (n a : Nat),
    (∀ u v, u < v → v < n → frameOf m T (a + u * 4096) ≠ frameOf m T (a + v * 4096)) →
    (framesOf m T a n).Nodup
  | 0, _, _ => List.nodup_nil
  | n + 1, a, h => by
    unfold framesOf
    refine List.nodup_cons.mpr ⟨fun hc => ?_, framesOf_nodup n (a + 4096) (fun u v huv hv => ?_)⟩
    · obtain ⟨u, hu, e⟩ := (mem_framesOf n (a + 4096) _).mp hc
      have := h 0 (u + 1) (by omega) (by omega)
      simp only [Nat.zero_mul, Nat.add_zero] at this
      rw [show a + (u + 1) * 4096 = a + 4096 + u * 4096 by omega] at this
      exact this e
    · have := h (u + 1) (v + 1) (by omega) (by omega)
      rw [show a + (u + 1) * 4096 = a + 4096 + u * 4096 by omega,
        show a + (v + 1) * 4096 = a + 4096 + v * 4096 by omega] at this
      exact this

theorem freeOK_head {L : MemLayout} {s s' : KState} {F : List Nat} (h : FreeOK L s F)
    (h' : FreeOK L s' F) : s'.freelist = s.freelist := by
  cases F with
  | nil => exact h'.1.trans h.1.symm
  | cons f F => exact h'.1.1.trans h.1.1.symm

/-- C12: `uvmunmap` postcondition.  On a well-formed table, for page-aligned `va` and
`npages` such that every page of `[va, va + npages*PGSIZE)` has a valid leaf (and, when
`do_free` is set, the frames of those leaves are distinct allocator frames that are
neither free nor page-table pages), `uvmunmap(T, va, npages, do_free)` returns, sets each
of those level-0 entries to 0 and changes no other entry: every other level-0 entry, the
root page and the level-1 pages are as before, the page-table pages are the same and none
of them is on the free list.  With `do_free` set exactly the frames of those leaves are
pushed on the free list, one push per page, lowest page first; with `do_free = 0` the free
list is unchanged. -/
theorem uvmunmap_post (L : MemLayout) (s : KState) (T va npages do_free : Nat) (F : List Nat)
    (hL : L.Sane) (hfo : FreeOK L s F) (hw : WFT s.mem T F) (hva : va % PGSIZE = 0)
    (hva64 : va < 2 ^ 64)
    (hmap : ∀ a, a % PGSIZE = 0 → va ≤ a → a < va + npages * PGSIZE →
      ∃ e, leafAt L s T a = some e ∧ isLeaf e)
    (hown : do_free ≠ 0 → (leafFrames L s T va npages).Nodup ∧
      ∀ d ∈ leafFrames L s T va npages, goodFrame L d ∧ d ∉ F ∧ ¬ IsTablePage s.mem T d) :
    ∃ s', uvmunmap L s T va npages do_free = .ok s' ∧
      (∀ a, a % PGSIZE = 0 → va ≤ a → a < va + npages * PGSIZE → pteAt L s' T a = 0) ∧
      (∀ x, (PGROUNDDOWN x < va ∨ va + npages * PGSIZE ≤ PGROUNDDOWN x) →
        pteAt L s' T x = pteAt L s T x) ∧
      (∀ i j k, i < 512 → j < 512 → k < 512 →
        (∀ u, u < npages → ¬ (i = PX 2 (va + u * PGSIZE) ∧ j = PX 1 (va + u * PGSIZE) ∧
          k = PX 0 (va + u * PGSIZE))) → ent s'.mem T i j k = ent s.mem T i j k) ∧
      SameTable s.mem s'.mem T ∧
      (∀ q, IsTablePage s'.mem T q ↔ IsTablePage s.mem T q) ∧
      (∀ q, IsTablePage s.mem T q →
        q ∉ (if do_free ≠ 0 then (leafFrames L s T va npages).reverse else []) ++ F) ∧
      FreeOK L s' ((if do_free ≠ 0 then (leafFrames L s T va npages).reverse else []) ++ F) ∧
      (do_free = 0 → s'.freelist = s.freelist) := by
  have hM := hL.maxva_le
  have hMa := hL.maxva_al
  unfold PGSIZE at hva hmap ⊢
  have hb : npages = 0 ∨ va + npages * 4096 ≤ L.MAXVA := by
    by_cases h0 : npages = 0
    · exact Or.inl h0
    · right
      obtain ⟨e, he, _⟩ := hmap (va + (npages - 1) * 4096) (by omega) (by omega) (by omega)
      have := (leafAt_some hw he).1
      have : va + npages * 4096 = va + (npages - 1) * 4096 + 4096 := by
        have : npages = npages - 1 + 1 := by omega
        rw [this]; simp only [Nat.add_sub_cancel]; ring
      omega
  rcases hb with h0 | hb
  · subst h0
    have hu : uvmunmap L s T va 0 do_free = .ok s := by
      unfold uvmunmap PGSIZE
      rw [if_neg (by omega), Nat.zero_mul]
      exact uvmunmap_loop_stop L _ s T va _ do_free (by omega)
    have hl : (if do_free ≠ 0 then (leafFrames L s T va 0).reverse else []) ++ F = F := by
      by_cases hdf : do_free ≠ 0
      · rw [if_pos hdf]; rfl
      · rw [if_neg hdf]; rfl
    rw [hl]
    exact ⟨s, hu, fun a _ h1 h2 => by omega, fun _ _ => rfl, fun _ _ _ _ _ _ _ => rfl,
      sameTable_refl _ _, fun _ => Iff.rfl, fun q hq => (WFT_page hw hq).2.2.2, hfo,
      fun _ => rfl⟩
  · have hfr := leafFrames_eq hw npages va hb
    rw [hfr] at hown ⊢
    obtain ⟨s', hcont, hst, hfo', hw', hpg, hupd, _⟩ := @uvmunmap_upto_spec L hL T do_free
      npages s F va hfo hw hva hb
      (fun u hu => by
        obtain ⟨e, he, hleaf⟩ := hmap (va + u * 4096) (by omega) (by omega) (by
          have : (u + 1) * 4096 ≤ npages * 4096 := Nat.mul_le_mul_right _ (by omega)
          omega)
        rw [(leafAt_some hw he).2.1]
        exact isLeaf_flags hleaf) hown
    have hu : uvmunmap L s T va npages do_free = .ok s' := by
      have hfuel : L.MAXVA / PGSIZE + 2 = (L.MAXVA / PGSIZE - npages + 1) + 1 + npages := by
        unfold PGSIZE; omega
      unfold uvmunmap
      rw [if_neg (by unfold PGSIZE; omega), hfuel]
      unfold PGSIZE
      rw [Nat.mod_eq_of_lt (by omega), hcont _ _ (Nat.le_refl _)]
      exact uvmunmap_loop_stop L _ s' T _ _ do_free (by omega)
    obtain ⟨hp1, hp2⟩ := entUpd_pteAt hL hw hw' hupd hva hb
    refine ⟨s', hu, fun a ha h1 h3 => ?_, fun x hx => hp2 x (fun k hk => ?_), hupd.2, hst, hpg,
      fun q hq => (WFT_page hw' ((hpg q).mpr hq)).2.2.2, hfo', fun h0 => ?_⟩
    · have := hp1 ((a - va) / 4096) (by
        have : (a - va) / 4096 * 4096 < npages * 4096 := by omega
        exact Nat.lt_of_mul_lt_mul_right this)
      rw [show va + (a - va) / 4096 * 4096 = a by omega] at this
      exact this
    · have : (k + 1) * 4096 ≤ npages * 4096 := Nat.mul_le_mul_right _ (by omega)
      omega
    · have hfo0 := hfo'
      rw [if_neg (by omega), List.nil_append] at hfo0
      exact freeOK_head hfo hfo0

theorem outcome_of_some {o : Outcome KState} (s0 : KState)
    (h : o.val (fun _ => 0) = some 0) : o = .ok (o.stateOf s0) := by
  cases o with
  | ok r => rfl
  | panic w => simp [Outcome.val] at h
  | diverge => simp [Outcome.val] at h

theorem pteAt_valid_lt {L : MemLayout} {s : KState} {T a : Nat}
    (h : pteValid (pteAt L s T a)) : a < L.MAXVA := by
  by_contra hc
  rw [pteAt_high (by omega)] at h
  exact not_pteValid_zero h

/-- The frames of mapped pages that are owned page by page form an owned list. -/
theorem framesOf_owned {L : MemLayout} {s : KState} {T va t : Nat} {F : List Nat}
    (hval : ∀ u, u < t → va + u * 4096 < L.MAXVA ∧
      pteValid (ent s.mem T (PX 2 (va + u * 4096)) (PX 1 (va + u * 4096))
        (PX 0 (va + u * 4096))))
    (hown : ∀ u, u < t → va + u * 4096 < L.MAXVA →
      pteValid (ent s.mem T (PX 2 (va + u * 4096)) (PX 1 (va + u * 4096))
        (PX 0 (va + u * 4096))) →
      goodFrame L (frameOf s.mem T (va + u * 4096)) ∧ frameOf s.mem T (va + u * 4096) ∉ F ∧
      ¬ IsTablePage s.mem T (frameOf s.mem T (va + u * 4096)) ∧
      ∀ v, v < u → pteValid (ent s.mem T (PX 2 (va + v * 4096)) (PX 1 (va + v * 4096))
          (PX 0 (va + v * 4096))) →
        frameOf s.mem T (va + v * 4096) ≠ frameOf s.mem T (va + u * 4096)) :
    (framesOf s.mem T va t).Nodup ∧ ∀ d ∈ framesOf s.mem T va t,
      goodFrame L d ∧ d ∉ F ∧ ¬ IsTablePage s.mem T d := by
  refine ⟨framesOf_nodup t va (fun u v huv hv =>
    (hown v hv (hval v hv).1 (hval v hv).2).2.2.2 u huv (hval u (by omega)).2), fun d hd => ?_⟩
  obtain ⟨u, hu, e⟩ := (mem_framesOf t va d).mp hd
  rw [e]
  obtain ⟨h1, h2, h3, _⟩ := hown u hu (hval u hu).1 (hval u hu).2
  exact ⟨h1, h2, h3⟩

/-- The loop of `uvmunmap` panics when some page below its bound is not a mapped leaf;
the panic is that of the first such page. -/
theorem uvmunmap_panics {L : MemLayout} (hL : L.Sane) {s : KState}
    {T va B do_free t : Nat} {F : List Nat} (hfo : FreeOK L s F) (hw : WFT s.mem T F)
    (hva : va % 4096 = 0) (hB : va + t * 4096 < B)
    (hown : do_free ≠ 0 → ∀ u, u < t → va + u * 4096 < L.MAXVA →
      pteValid (ent s.mem T (PX 2 (va + u * 4096)) (PX 1 (va + u * 4096))
        (PX 0 (va + u * 4096))) →
      goodFrame L (frameOf s.mem T (va + u * 4096)) ∧ frameOf s.mem T (va + u * 4096) ∉ F ∧
      ¬ IsTablePage s.mem T (frameOf s.mem T (va + u * 4096)) ∧
      ∀ v, v < u → pteValid (ent s.mem T (PX 2 (va + v * 4096)) (PX 1 (va + v * 4096))
          (PX 0 (va + v * 4096))) →
        frameOf s.mem T (va + v * 4096) ≠ frameOf s.mem T (va + u * 4096))
    (hbad : ¬ (va + t * 4096 < L.MAXVA ∧
      pteValid (ent s.mem T (PX 2 (va + t * 4096)) (PX 1 (va + t * 4096))
        (PX 0 (va + t * 4096))) ∧
      PTE_FLAGS (ent s.mem T (PX 2 (va + t * 4096)) (PX 1 (va + t * 4096))
        (PX 0 (va + t * 4096))) ≠ PTE_V)) :
    ∃ w, uvmunmap_loop L (L.MAXVA / PGSIZE + 2) s T va B do_free = .panic w := by
  classical
  have hM := hL.maxva_le
  have hMa := hL.maxva_al
  have hex : ∃ u, ¬ (va + u * 4096 < L.MAXVA ∧
      pteValid (ent s.mem T (PX 2 (va + u * 4096)) (PX 1 (va + u * 4096))
        (PX 0 (va + u * 4096))) ∧
      PTE_FLAGS (ent s.mem T (PX 2 (va + u * 4096)) (PX 1 (va + u * 4096))
        (PX 0 (va + u * 4096))) ≠ PTE_V) := ⟨t, hbad⟩
  have hle : Nat.find hex ≤ t := Nat.find_min' hex hbad
  have hgood : ∀ u, u < Nat.find hex → va + u * 4096 < L.MAXVA ∧
      pteValid (ent s.mem T (PX 2 (va + u * 4096)) (PX 1 (va + u * 4096))
        (PX 0 (va + u * 4096))) ∧
      PTE_FLAGS (ent s.mem T (PX 2 (va + u * 4096)) (PX 1 (va + u * 4096))
        (PX 0 (va + u * 4096))) ≠ PTE_V := fun u hu => not_not.mp (Nat.find_min hex hu)
  have hspec := Nat.find_spec hex
  generalize Nat.find hex = t0 at hle hgood hspec
  have hB0 : va + t0 * 4096 < B := by
    have : t0 * 4096 ≤ t * 4096 := Nat.mul_le_mul_right _ hle
    omega
  by_cases hhigh : L.MAXVA ≤ va
  · have hb : va < B := by omega
    exact ⟨_, (@uvmunmap_loop_bad L s T va B do_free _ F hw hb).1 hhigh⟩
  · have hpre : va + t0 * 4096 ≤ L.MAXVA := by
      cases t0 with
      | zero => omega
      | succ t1 =>
        have := (hgood t1 (by omega)).1
        omega
    obtain ⟨b1, b2, b3, b4⟩ := @uvmunmap_first_bad L hL s T va B do_free t0 F hfo hw hva hB0 hpre
      (fun u hu => (hgood u hu).2)
      (fun hdf => framesOf_owned (fun u hu => ⟨(hgood u hu).1, (hgood u hu).2.1⟩)
        (fun u hu => hown hdf u (by omega)))
    by_cases h1 : va + t0 * 4096 < L.MAXVA
    · by_cases h2 : pteValid (rootE s.mem T (PX 2 (va + t0 * 4096))) ∧
          pteValid (l1E s.mem T (PX 2 (va + t0 * 4096)) (PX 1 (va + t0 * 4096)))
      · by_cases h3 : pteValid (ent s.mem T (PX 2 (va + t0 * 4096)) (PX 1 (va + t0 * 4096))
            (PX 0 (va + t0 * 4096)))
        · refine ⟨_, b4 h1 h3 ?_⟩
          by_contra hc
          exact hspec ⟨h1, h3, hc⟩
        · exact ⟨_, b3 h1 h2.1 h2.2 h3⟩
      · exact ⟨_, b2 h1 h2⟩
    · exact ⟨_, b1 (by omega)⟩

theorem flags_V_valid {e : Nat} (h : PTE_FLAGS e = PTE_V) : pteValid e := by
  unfold PTE_FLAGS PTE_V at h
  rw [pteValid_iff]
  rw [show (0x3FF : Nat) = 2 ^ 10 - 1 by decide, Nat.and_pow_two_sub_one_eq_mod] at h
  omega

/-- Ownership of the frames of the mapped pages, from what `walk` sees to the entries. -/
theorem own_of_pteAt {L : MemLayout} {s : KState} {T va t : Nat} {F : List Nat}
    (hw : WFT s.mem T F)
    (hown : ∀ u, u < t → pteValid (pteAt L s T (va + u * PGSIZE)) →
      goodFrame L (PTE2PA (pteAt L s T (va + u * PGSIZE))) ∧
      PTE2PA (pteAt L s T (va + u * PGSIZE)) ∉ F ∧
      ¬ IsTablePage s.mem T (PTE2PA (pteAt L s T (va + u * PGSIZE))) ∧
      ∀ v, v < u → pteValid (pteAt L s T (va + v * PGSIZE)) →
        PTE2PA (pteAt L s T (va + v * PGSIZE)) ≠ PTE2PA (pteAt L s T (va + u * PGSIZE))) :
    ∀ u, u < t → va + u * 4096 < L.MAXVA →
      pteValid (ent s.mem T (PX 2 (va + u * 4096)) (PX 1 (va + u * 4096))
        (PX 0 (va + u * 4096))) →
      goodFrame L (frameOf s.mem T (va + u * 4096)) ∧ frameOf s.mem T (va + u * 4096) ∉ F ∧
      ¬ IsTablePage s.mem T (frameOf s.mem T (va + u * 4096)) ∧
      ∀ v, v < u → pteValid (ent s.mem T (PX 2 (va + v * 4096)) (PX 1 (va + v * 4096))
          (PX 0 (va + v * 4096))) →
        frameOf s.mem T (va + v * 4096) ≠ frameOf s.mem T (va + u * 4096) := by
  intro u hu hlt hv
  unfold PGSIZE at hown
  have e := @pteAt_eq L s T (va + u * 4096) F hw hlt
  obtain ⟨h1, h2, h3, h4⟩ := hown u hu (by rw [e]; exact hv)
  rw [e] at h1 h2 h3
  refine ⟨h1, h2, h3, fun v hv' hvv => ?_⟩
  have hlt' : va + v * 4096 < L.MAXVA := by
    have : v * 4096 ≤ u * 4096 := Nat.mul_le_mul_right _ (by omega)
    omega
  have e' := @pteAt_eq L s T (va + v * 4096) F hw hlt'
  have := h4 v hv' (by rw [e']; exact hvv)
  rw [e, e'] at this
  exact this

/-- C13 (as amended): `uvmunmap` rejects entries with only the Valid flag.  On a
well-formed table (where, with `do_free` set, the frames of the mapped target pages before
page `t` are distinct allocator frames, neither free nor page-table pages), if the
level-0 entry of a target page, one below the bound of the loop, has exactly the flag
bits `PTE_V` (`PTE_FLAGS(e) == PTE_V`: Valid set and every other flag clear), `uvmunmap`
panics; the panic is "not a leaf" when `va` is page-aligned and every target page before
it is mapped by an entry with other flags. -/
theorem uvmunmap_not_a_leaf (L : MemLayout) (s : KState) (T va npages do_free t : Nat)
    (F : List Nat) (hL : L.Sane) (hfo : FreeOK L s F) (hw : WFT s.mem T F)
    (ht : va + t * PGSIZE < (va + npages * PGSIZE) % 2 ^ 64)
    (hown : do_free ≠ 0 → ∀ u, u < t → pteValid (pteAt L s T (va + u * PGSIZE)) →
      goodFrame L (PTE2PA (pteAt L s T (va + u * PGSIZE))) ∧
      PTE2PA (pteAt L s T (va + u * PGSIZE)) ∉ F ∧
      ¬ IsTablePage s.mem T (PTE2PA (pteAt L s T (va + u * PGSIZE))) ∧
      ∀ v, v < u → pteValid (pteAt L s T (va + v * PGSIZE)) →
        PTE2PA (pteAt L s T (va + v * PGSIZE)) ≠ PTE2PA (pteAt L s T (va + u * PGSIZE)))
    (hbad : PTE_FLAGS (pteAt L s T (va + t * PGSIZE)) = PTE_V) :
    (∃ w, uvmunmap L s T va npages do_free = .panic w) ∧
    (va % PGSIZE = 0 →
      (∀ u, u < t → pteValid (pteAt L s T (va + u * PGSIZE)) ∧
        PTE_FLAGS (pteAt L s T (va + u * PGSIZE)) ≠ PTE_V) →
      uvmunmap L s T va npages do_free = .panic .uvmunmapNotALeaf) := by
  have hM := hL.maxva_le
  have hlt : va + t * 4096 < L.MAXVA := pteAt_valid_lt (flags_V_valid hbad)
  have et := @pteAt_eq L s T (va + t * 4096) F hw hlt
  have hown' := fun hdf => own_of_pteAt hw (hown hdf)
  unfold PGSIZE at ht hbad
  rw [et] at hbad
  by_cases hva : va % PGSIZE = 0
  · have hu : uvmunmap L s T va npages do_free = uvmunmap_loop L (L.MAXVA / PGSIZE + 2) s T va
        ((va + npages * 4096) % 2 ^ 64) do_free := by
      unfold uvmunmap
      rw [if_neg (by omega)]
      rfl
    rw [hu]
    refine ⟨uvmunmap_panics hL hfo hw hva ht hown' (fun hc => hc.2.2 hbad), fun _ hmap => ?_⟩
    have hmap' : ∀ u, u < t → va + u * 4096 < L.MAXVA ∧
        pteValid (ent s.mem T (PX 2 (va + u * 4096)) (PX 1 (va + u * 4096))
          (PX 0 (va + u * 4096))) ∧
        PTE_FLAGS (ent s.mem T (PX 2 (va + u * 4096)) (PX 1 (va + u * 4096))
          (PX 0 (va + u * 4096))) ≠ PTE_V := fun u hu => by
      have h := hmap u hu
      unfold PGSIZE at h
      have hl := pteAt_valid_lt h.1
      rw [pteAt_eq hw hl] at h
      exact ⟨hl, h⟩
    exact (uvmunmap_first_bad hL hfo hw hva ht (by omega) (fun u hu => (hmap' u hu).2)
      (fun hdf => framesOf_owned (fun u hu => ⟨(hmap' u hu).1, (hmap' u hu).2.1⟩)
        (hown' hdf))).2.2.2 hlt (flags_V_valid hbad) hbad
  · exact ⟨⟨_, by unfold uvmunmap; rw [if_pos hva]⟩, fun h => absurd h hva⟩

/-- C14 (as amended): double unmap is fatal.  On a well-formed table (where, when frames
are freed, the frames of the mapped target pages are distinct allocator frames, neither
free nor page-table pages), for `npages >= 1` and a range that does not wrap around
(`va + npages*PGSIZE < 2^64`): after a `uvmunmap(T, va, npages, f)` that completed without
panic, a second `uvmunmap(T, va, npages, f')` on the same range panics with "not mapped"
(it finds the invalid entry of the first page).  Likewise `uvmunmap` panics if `va` is
not page-aligned, and if any target page has no valid level-0 entry. -/
theorem uvmunmap_twice (L : MemLayout) (s : KState) (T va npages f : Nat) (F : List Nat)
    (hL : L.Sane) (hfo : FreeOK L s F) (hw : WFT s.mem T F)
    (hnw : va + npages * PGSIZE < 2 ^ 64)
    (hown : f ≠ 0 → ∀ u, u < npages → pteValid (pteAt L s T (va + u * PGSIZE)) →
      goodFrame L (PTE2PA (pteAt L s T (va + u * PGSIZE))) ∧
      PTE2PA (pteAt L s T (va + u * PGSIZE)) ∉ F ∧
      ¬ IsTablePage s.mem T (PTE2PA (pteAt L s T (va + u * PGSIZE))) ∧
      ∀ v, v < u → pteValid (pteAt L s T (va + v * PGSIZE)) →
        PTE2PA (pteAt L s T (va + v * PGSIZE)) ≠ PTE2PA (pteAt L s T (va + u * PGSIZE))) :
    (∀ s' f', 1 ≤ npages → uvmunmap L s T va npages f = .ok s' →
      uvmunmap L s' T va npages f' = .panic .uvmunmapNotMapped) ∧
    (va % PGSIZE ≠ 0 → uvmunmap L s T va npages f = .panic .uvmunmapNotAligned) ∧
    (∀ t, t < npages → ¬ pteValid (pteAt L s T (va + t * PGSIZE)) →
      ∃ w, uvmunmap L s T va npages f = .panic w) := by
  have hM := hL.maxva_le
  have hMa := hL.maxva_al
  have hown' := fun hdf => own_of_pteAt hw (hown hdf)
  unfold PGSIZE at hnw
  have hna : va % PGSIZE ≠ 0 → uvmunmap L s T va npages f = .panic .uvmunmapNotAligned :=
    fun h => by unfold uvmunmap; rw [if_pos h]
  have hu : ∀ (s1 : KState) (g : Nat), va % PGSIZE = 0 →
      uvmunmap L s1 T va npages g = uvmunmap_loop L (L.MAXVA / PGSIZE + 2) s1 T va
        (va + npages * 4096) g := by
    intro s1 g hva
    unfold uvmunmap
    rw [if_neg (by omega)]
    unfold PGSIZE
    rw [Nat.mod_eq_of_lt hnw]
  -- a page that is not a mapped leaf makes the call panic
  have hpanic : ∀ t, t < npages → ¬ (va + t * 4096 < L.MAXVA ∧
      pteValid (ent s.mem T (PX 2 (va + t * 4096)) (PX 1 (va + t * 4096))
        (PX 0 (va + t * 4096))) ∧
      PTE_FLAGS (ent s.mem T (PX 2 (va + t * 4096)) (PX 1 (va + t * 4096))
        (PX 0 (va + t * 4096))) ≠ PTE_V) →
      ∃ w, uvmunmap L s T va npages f = .panic w := by
    intro t ht hbad
    by_cases hva : va % PGSIZE = 0
    · rw [hu s f hva]
      have hB : va + t * 4096 < va + npages * 4096 := by
        have : (t + 1) * 4096 ≤ npages * 4096 := Nat.mul_le_mul_right _ (by omega)
        omega
      exact uvmunmap_panics hL hfo hw hva hB
        (fun hdf u hu => hown' hdf u (by omega)) hbad
    · exact ⟨_, hna hva⟩
  refine ⟨fun s' f' hn h1 => ?_, hna, fun t ht hinv => hpanic t ht (fun hc => hinv ?_)⟩
  · have hva : va % PGSIZE = 0 := by
      by_contra hc
      rw [hna hc] at h1; cases h1
    have hgood : ∀ u, u < npages → va + u * 4096 < L.MAXVA ∧
        pteValid (ent s.mem T (PX 2 (va + u * 4096)) (PX 1 (va + u * 4096))
          (PX 0 (va + u * 4096))) ∧
        PTE_FLAGS (ent s.mem T (PX 2 (va + u * 4096)) (PX 1 (va + u * 4096))
          (PX 0 (va + u * 4096))) ≠ PTE_V := by
      intro u hu
      by_contra hc
      obtain ⟨w, hw'⟩ := hpanic u hu hc
      rw [hw'] at h1; cases h1
    have hb : va + npages * 4096 ≤ L.MAXVA := by
      have := (hgood (npages - 1) (by omega)).1
      have e : va + npages * 4096 = va + (npages - 1) * 4096 + 4096 := by
        have : npages = npages - 1 + 1 := by omega
        rw [this]; simp only [Nat.add_sub_cancel]; ring
      unfold PGSIZE at hva
      omega
    obtain ⟨s1, hcont, hst, hfo1, hw1, hpg1, hupd1, _⟩ := @uvmunmap_upto_spec L hL T f
      npages s F va hfo hw hva hb (fun u hu => (hgood u hu).2)
      (fun hdf => framesOf_owned (fun u hu => ⟨(hgood u hu).1, (hgood u hu).2.1⟩) (hown' hdf))
    have hfuel : L.MAXVA / PGSIZE + 2 = (L.MAXVA / PGSIZE - npages + 1) + 1 + npages := by
      unfold PGSIZE; omega
    have hs' : s' = s1 := by
      rw [hu s f hva, hfuel, hcont _ _ (Nat.le_refl _),
        uvmunmap_loop_stop L _ s1 T _ _ f (by omega)] at h1
      simp only [Outcome.ok.injEq] at h1
      exact h1.symm
    rw [hs', hu s1 f' hva]
    have h0 := hgood 0 (by omega)
    simp only [Nat.zero_mul, Nat.add_zero] at h0
    obtain ⟨hv2, hv1⟩ := ent_valid_tables h0.2.1
    have hz := hupd1.1 0 (by omega)
    simp only [Nat.zero_mul, Nat.add_zero] at hz
    have hfb := (@uvmunmap_first_bad L hL s1 T va (va + npages * 4096) f' 0 _ hfo1 hw1 hva
      (by omega) (by omega) (fun u hu => absurd hu (Nat.not_lt_zero _))
      (fun _ => ⟨List.nodup_nil, fun d hd => absurd hd (List.not_mem_nil _)⟩)).2.2.1
    simp only [Nat.zero_mul, Nat.add_zero] at hfb
    refine hfb h0.1 (by rw [hst.1 _ (PX_lt _ _)]; exact hv2)
      (by rw [hst.2 _ _ (PX_lt _ _) (PX_lt _ _) hv2]; exact hv1) ?_
    rw [hz]
    exact not_pteValid_zero
  · unfold PGSIZE
    rw [pteAt_eq hw hc.1]
    exact hc.2.1

/-! ## Freeing a page-table tree: the loop over one page, in general

`freewalk` and `kvm_free_kernelpgtbl` run the same loop over the 512 entries of a page,
up to what they do with a valid entry that has one of R, W, X set.  The lemmas of this
section are stated for a loop `lp` that satisfies the three equations of such a loop. -/

/-- The loop over a page each of whose entries is skipped, or is an internal entry whose
lower-level table `child` frees (the frames `sub i`), or makes the loop panic (`bad i`):
without a bad entry the loop ends with the freed frames on the free list, those of the
last entry on top, and with a bad entry it panics. -/
theorem tableloop_spec {L : MemLayout} (lp : Nat → KState → Nat → Outcome KState)
    (child : KState → Nat → Outcome KState) (skipP : Nat → Prop) (w : Fatal)
    (pg : Nat) (s0 : KState) (sub : Nat → List Nat) (bad : Nat → Prop)
    (hend : ∀ fuel s i, ¬ i < 512 → lp (fuel + 1) s i = .ok s)
    (hskip : ∀ fuel s i, i < 512 → skipP (read64 s.mem (pg + 8 * i)) →
      lp (fuel + 1) s i = lp fuel s (i + 1))
    (hrec : ∀ fuel s i, i < 512 → pteValid (read64 s.mem (pg + 8 * i)) →
      read64 s.mem (pg + 8 * i) &&& (PTE_R ||| PTE_W ||| PTE_X) = 0 →
      lp (fuel + 1) s i = (child s (PTE2PA (read64 s.mem (pg + 8 * i)))).bind fun s1 =>
        lp fuel ⟨write64 s1.mem (pg + 8 * i) 0, s1.freelist⟩ (i + 1))
    (hpg : pg % 4096 = 0)
    (hsubal : ∀ i, i < 512 → ∀ f ∈ sub i, f % 4096 = 0 ∧ f ≠ pg)
    (hdisj : ∀ i j, i < j → j < 512 → ∀ f ∈ sub i, f ∉ sub j)
    (hcls : ∀ i, i < 512 →
      (¬ bad i ∧ skipP (read64 s0.mem (pg + 8 * i)) ∧ sub i = []) ∨
      (¬ bad i ∧ pteValid (read64 s0.mem (pg + 8 * i)) ∧
        read64 s0.mem (pg + 8 * i) &&& (PTE_R ||| PTE_W ||| PTE_X) = 0 ∧
        ∀ (s : KState) (G : List Nat), FreeOK L s G → (∀ f ∈ sub i, f ∉ G) →
          (∀ f ∈ sub i, ∀ x, f ≤ x → x < f + 4096 → s.mem x = s0.mem x) →
          ∃ s', child s (PTE2PA (read64 s0.mem (pg + 8 * i))) = .ok s' ∧
            FreeOK L s' (sub i ++ G) ∧
            ∀ x, (∀ f ∈ sub i, ¬ (f ≤ x ∧ x < f + 4096)) → s'.mem x = s.mem x) ∨
      (bad i ∧ ∀ (fuel : Nat) (s : KState) (G : List Nat), FreeOK L s G →
        (∀ f ∈ sub i, f ∉ G) →
        read64 s.mem (pg + 8 * i) = read64 s0.mem (pg + 8 * i) →
        (∀ f ∈ sub i, ∀ x, f ≤ x → x < f + 4096 → s.mem x = s0.mem x) →
        lp (fuel + 1) s i = .panic w)) :
    ∀ (n i : Nat), i + n = 512 → ∀ (fuel : Nat) (s : KState) (G : List Nat), n < fuel →
      FreeOK L s G → (∀ g ∈ G, g ≠ pg) →
      (∀ j, i ≤ j → j < 512 → ∀ f ∈ sub j, f ∉ G) →
      (∀ j, i ≤ j → j < 512 → read64 s.mem (pg + 8 * j) = read64 s0.mem (pg + 8 * j)) →
      (∀ j, i ≤ j → j < 512 → ∀ f ∈ sub j, ∀ x, f ≤ x → x < f + 4096 → s.mem x = s0.mem x) →
      ((∀ j, i ≤ j → j < 512 → ¬ bad j) →
        ∃ s', lp fuel s i = .ok s' ∧ FreeOK L s' (stackOf sub i n ++ G) ∧
          ∀ x, ¬ (pg ≤ x ∧ x < pg + 4096) →
            (∀ j, i ≤ j → j < 512 → ∀ f ∈ sub j, ¬ (f ≤ x ∧ x < f + 4096)) →
            s'.mem x = s.mem x) ∧
      ((∃ j, i ≤ j ∧ j < 512 ∧ bad j) → lp fuel s i = .panic w) := by
  intro n
  induction n with
  | zero =>
    intro i hi fuel s G hfuel hfo _ _ _ _
    obtain ⟨fuel, rfl⟩ : ∃ f, fuel = f + 1 := ⟨fuel - 1, by omega⟩
    refine ⟨fun _ => ⟨s, hend fuel s i (by omega), hfo, fun _ _ _ => rfl⟩, ?_⟩
    rintro ⟨j, h1, h2, _⟩
    omega
  | succ n ih =>
    intro i hi fuel s G hfuel hfo hGpg hGsub hent hfr
    obtain ⟨fuel, rfl⟩ : ∃ f, fuel = f + 1 := ⟨fuel - 1, by omega⟩
    have hi' : i < 512 := by omega
    have hei := hent i (Nat.le_refl i) hi'
    rcases hcls i hi' with ⟨hnb, hsk, hs0⟩ | ⟨hnb, hv, hpl, hchild⟩ | ⟨hb, hpan⟩
    · -- a skipped entry
      rw [hskip fuel s i hi' (by rw [hei]; exact hsk)]
      obtain ⟨ihok, ihbad⟩ := ih (i + 1) (by omega) fuel s G (by omega) hfo hGpg
        (fun j hj1 hj2 => hGsub j (by omega) hj2) (fun j hj1 hj2 => hent j (by omega) hj2)
        (fun j hj1 hj2 => hfr j (by omega) hj2)
      refine ⟨fun hall => ?_, ?_⟩
      · obtain ⟨s', hres, hfo', hout'⟩ := ihok (fun j hj1 hj2 => hall j (by omega) hj2)
        refine ⟨s', hres, ?_, fun x hx1 hx2 =>
          hout' x hx1 (fun j hj1 hj2 => hx2 j (by omega) hj2)⟩
        rw [stackOf, hs0, List.append_nil]; exact hfo'
      · rintro ⟨j, h1, h2, h3⟩
        have : j ≠ i := fun e => hnb (e ▸ h3)
        exact ihbad ⟨j, by omega, h2, h3⟩
    · -- a lower-level table: free it and clear the entry
      rw [hrec fuel s i hi' (by rw [hei]; exact hv) (by rw [hei]; exact hpl), hei]
      obtain ⟨s1, hc, hfo1, hout1⟩ := hchild s G hfo (hGsub i (Nat.le_refl i) hi')
        (hfr i (Nat.le_refl i) hi')
      rw [hc, bind_ok]
      have hGal : ∀ g ∈ sub i ++ G, g % 4096 = 0 ∧ g ≠ pg := fun g hg => by
        rcases List.mem_append.mp hg with h | h
        · exact hsubal i hi' g h
        · exact ⟨goodFrame_al (hfo.2.2 g h), hGpg g h⟩
      have hfo2 : FreeOK L ⟨write64 s1.mem (pg + 8 * i) 0, s1.freelist⟩ (sub i ++ G) := by
        refine FreeOK_congr hfo1 rfl fun g hg x hx1 hx2 => ?_
        have := hGal g hg
        exact write64_outside _ _ _ _ (by omega)
      have hsep : ∀ j, i + 1 ≤ j → j < 512 → ∀ f' ∈ sub j, ∀ x, f' ≤ x → x < f' + 4096 →
          ∀ f ∈ sub i, ¬ (f ≤ x ∧ x < f + 4096) := fun j hj1 hj2 f' hf' x hx1 hx2 f hf => by
        have hne : f ≠ f' := fun e => hdisj i j (by omega) hj2 f hf (e ▸ hf')
        have := (hsubal i hi' f hf).1
        have := (hsubal j hj2 f' hf').1
        omega
      obtain ⟨ihok, ihbad⟩ := ih (i + 1) (by omega) fuel
        ⟨write64 s1.mem (pg + 8 * i) 0, s1.freelist⟩ (sub i ++ G) (by omega) hfo2
        (fun g hg => (hGal g hg).2)
        (fun j hj1 hj2 f hf hc => by
          rcases List.mem_append.mp hc with h | h
          · exact hdisj i j (by omega) hj2 f h hf
          · exact hGsub j (by omega) hj2 f hf h)
        (fun j hj1 hj2 => by
          rw [← hent j (by omega) hj2]
          refine read64_congr fun x hx1 hx2 => ?_
          show write64 s1.mem (pg + 8 * i) 0 x = s.mem x
          rw [write64_outside _ _ _ _ (by omega)]
          refine hout1 x (fun f hf => ?_)
          have := hsubal i hi' f hf
          omega)
        (fun j hj1 hj2 f' hf' x hx1 hx2 => by
          rw [← hfr j (by omega) hj2 f' hf' x hx1 hx2]
          have := hsubal j hj2 f' hf'
          show write64 s1.mem (pg + 8 * i) 0 x = s.mem x
          rw [write64_outside _ _ _ _ (by omega)]
          exact hout1 x (hsep j hj1 hj2 f' hf' x hx1 hx2))
      refine ⟨fun hall => ?_, ?_⟩
      · obtain ⟨s', hres, hfo', hout'⟩ := ihok (fun j hj1 hj2 => hall j (by omega) hj2)
        refine ⟨s', hres, ?_, fun x hx1 hx2 => ?_⟩
        · rw [stackOf, List.append_assoc]; exact hfo'
        · rw [hout' x hx1 (fun j hj1 hj2 => hx2 j (by omega) hj2)]
          show write64 s1.mem (pg + 8 * i) 0 x = s.mem x
          rw [write64_outside _ _ _ _ (by omega)]
          exact hout1 x (hx2 i (Nat.le_refl i) hi')
      · rintro ⟨j, h1, h2, h3⟩
        have : j ≠ i := fun e => hnb (e ▸ h3)
        exact ihbad ⟨j, by omega, h2, h3⟩
    · -- an entry at which the loop panics
      exact ⟨fun hall => absurd hb (hall i (Nat.le_refl i) hi'),
        fun _ => hpan fuel s G hfo (hGsub i (Nat.le_refl i) hi') hei
          (hfr i (Nat.le_refl i) hi')⟩

/-! ## Freeing a page-table tree, level by level

`W` stands for `freewalk` or `kvm_free_kernelpgtbl`, `LP` for its loop over one page, and
`skipP` for the entries that the loop passes over. -/

theorem stackOf_nil : ∀ (n i : Nat), stackOf (fun _ => []) i n = []
  | 0, _ => rfl
  | n + 1, i => by rw [stackOf, stackOf_nil n (i + 1)]; rfl

theorem bind_panic {α β : Type} (w : Fatal) (f : α → Outcome β) :
    (Outcome.panic w : Outcome α).bind f = .panic w := rfl

/-- A page all of whose entries are passed over is freed. -/
theorem walker_l0 {L : MemLayout} (hL : L.Sane)
    (W : Nat → KState → Nat → Outcome KState)
    (LP : (KState → Nat → Outcome KState) → Nat → KState → Nat → Nat → Outcome KState)
    (skipP : Nat → Prop)
    (hW : ∀ d s pg, W (d + 1) s pg = (LP (W d) 513 s pg 0).bind fun s1 => kfree L s1 pg)
    (hend : ∀ child fuel s pg i, ¬ i < 512 → LP child (fuel + 1) s pg i = .ok s)
    (hskip : ∀ child fuel s pg i, i < 512 → skipP (read64 s.mem (pg + 8 * i)) →
      LP child (fuel + 1) s pg i = LP child fuel s pg (i + 1))
    (d : Nat) {s : KState} {p : Nat} {G : List Nat} (hfo : FreeOK L s G)
    (hg : goodFrame L p) (hn : p ∉ G)
    (hall : ∀ k, k < 512 → skipP (read64 s.mem (p + 8 * k))) :
    ∃ s', W (d + 1) s p = .ok s' ∧ FreeOK L s' (p :: G) ∧
      ∀ x, ¬ (p ≤ x ∧ x < p + 4096) → s'.mem x = s.mem x := by
  have hloop : ∀ (n i fuel : Nat), i + n = 512 → n < fuel → LP (W d) fuel s p i = .ok s := by
    intro n
    induction n with
    | zero =>
      intro i fuel hi hfuel
      obtain ⟨fuel, rfl⟩ : ∃ f, fuel = f + 1 := ⟨fuel - 1, by omega⟩
      exact hend _ fuel s p i (by omega)
    | succ n ih =>
      intro i fuel hi hfuel
      obtain ⟨fuel, rfl⟩ : ∃ f, fuel = f + 1 := ⟨fuel - 1, by omega⟩
      rw [hskip _ fuel s p i (by omega) (hall i (by omega))]
      exact ih (i + 1) fuel (by omega) (by omega)
  rw [hW, hloop 512 0 513 rfl (by decide), bind_ok]
  exact kfree_out hL hfo hg hn

/-- The level-1 page under root entry `i`: its level-0 pages are freed and then the page
itself, unless one of the level-0 pages makes `W` panic. -/
theorem walker_l1 {L : MemLayout} (hL : L.Sane)
    (W : Nat → KState → Nat → Outcome KState)
    (LP : (KState → Nat → Outcome KState) → Nat → KState → Nat → Nat → Outcome KState)
    (skipP : Nat → Prop) (w : Fatal)
    (hW : ∀ d s pg, W (d + 1) s pg = (LP (W d) 513 s pg 0).bind fun s1 => kfree L s1 pg)
    (hend : ∀ child fuel s pg i, ¬ i < 512 → LP child (fuel + 1) s pg i = .ok s)
    (hskip : ∀ child fuel s pg i, i < 512 → skipP (read64 s.mem (pg + 8 * i)) →
      LP child (fuel + 1) s pg i = LP child fuel s pg (i + 1))
    (hrec : ∀ child fuel s pg i, i < 512 → pteValid (read64 s.mem (pg + 8 * i)) →
      read64 s.mem (pg + 8 * i) &&& (PTE_R ||| PTE_W ||| PTE_X) = 0 →
      LP child (fuel + 1) s pg i = (child s (PTE2PA (read64 s.mem (pg + 8 * i)))).bind
        fun s1 => LP child fuel ⟨write64 s1.mem (pg + 8 * i) 0, s1.freelist⟩ pg (i + 1))
    (hinv : ∀ e, ¬ pteValid e → skipP e)
    (d : Nat) {s0 : KState} {T i : Nat} {F0 : List Nat} (hw : WFT s0.mem T F0)
    (hgood : ∀ q, IsTablePage s0.mem T q → goodFrame L q) (bad0 : Nat → Prop)
    (hok0 : ∀ j, j < 512 → pteValid (l1E s0.mem T i j) → ¬ bad0 j →
      ∀ k, k < 512 → skipP (read64 s0.mem (l0page s0.mem T i j + 8 * k)))
    (hbad0 : ∀ j, j < 512 → pteValid (l1E s0.mem T i j) → bad0 j → ∀ (s : KState),
      (∀ x, l0page s0.mem T i j ≤ x → x < l0page s0.mem T i j + 4096 → s.mem x = s0.mem x) →
      W (d + 1) s (l0page s0.mem T i j) = .panic w)
    (hi : i < 512) (hv : pteValid (rootE s0.mem T i)) (s : KState) (G : List Nat)
    (hfo : FreeOK L s G) (hG : ∀ f ∈ subtreeOf s0.mem T i, f ∉ G)
    (hag : ∀ f ∈ subtreeOf s0.mem T i, ∀ x, f ≤ x → x < f + 4096 → s.mem x = s0.mem x) :
    ((∀ j, j < 512 → pteValid (l1E s0.mem T i j) → ¬ bad0 j) →
      ∃ s', W (d + 2) s (l1page s0.mem T i) = .ok s' ∧
        FreeOK L s' (subtreeOf s0.mem T i ++ G) ∧
        ∀ x, (∀ f ∈ subtreeOf s0.mem T i, ¬ (f ≤ x ∧ x < f + 4096)) → s'.mem x = s.mem x) ∧
    ((∃ j, j < 512 ∧ pteValid (l1E s0.mem T i j) ∧ bad0 j) →
      W (d + 2) s (l1page s0.mem T i) = .panic w) := by
  obtain ⟨_, _, _, hs4, hs5⟩ := WFT_sep hw
  have hp1 : l1page s0.mem T i ∈ subtreeOf s0.mem T i := mem_subtreeOf.mpr ⟨hv, Or.inl rfl⟩
  have hp0 : ∀ j, j < 512 → pteValid (l1E s0.mem T i j) →
      l0page s0.mem T i j ∈ subtreeOf s0.mem T i := fun j hj hv2 =>
    mem_subtreeOf.mpr ⟨hv, Or.inr ⟨j, hj, hv2, rfl⟩⟩
  have hsubm : ∀ j f, f ∈ (if pteValid (l1E s0.mem T i j) then [l0page s0.mem T i j] else []) →
      pteValid (l1E s0.mem T i j) ∧ f = l0page s0.mem T i j := fun j f hf => by
    by_cases hv2 : pteValid (l1E s0.mem T i j)
    · rw [if_pos hv2, List.mem_singleton] at hf; exact ⟨hv2, hf⟩
    · rw [if_neg hv2] at hf; cases hf
  obtain ⟨hok, hbad⟩ := @tableloop_spec L (fun fuel s j => LP (W (d + 1)) fuel s
      (l1page s0.mem T i) j) (W (d + 1)) skipP w (l1page s0.mem T i) s0
    (fun j => if pteValid (l1E s0.mem T i j) then [l0page s0.mem T i j] else [])
    (fun j => pteValid (l1E s0.mem T i j) ∧ bad0 j)
    (fun fuel s j h => hend _ fuel s _ j h)
    (fun fuel s j h hs => hskip _ fuel s _ j h hs)
    (fun fuel s j h hv2 hp => hrec _ fuel s _ j h hv2 hp)
    (PTE2PA_aligned _)
    (fun j hj f hf => by
      obtain ⟨hv2, e⟩ := hsubm j f hf
      exact ⟨e ▸ PTE2PA_aligned _, e ▸ hs4 i j i hi hj hi hv hv2 hv⟩)
    (fun j j' hjj hj' f hf hf' => by
      obtain ⟨hv2, e⟩ := hsubm j f hf
      obtain ⟨hv2', e'⟩ := hsubm j' f hf'
      have := (hs5 i j i j' hi (by omega) hi hj' hv hv2 hv hv2' (e ▸ e')).2
      omega)
    (fun j hj => by
      by_cases hv2 : pteValid (l1E s0.mem T i j)
      · have hm : l0page s0.mem T i j ∈
            (if pteValid (l1E s0.mem T i j) then [l0page s0.mem T i j] else []) := by
          rw [if_pos hv2]; exact List.mem_singleton.mpr rfl
        by_cases hb : bad0 j
        · refine Or.inr (Or.inr ⟨⟨hv2, hb⟩, fun fuel s' _ _ _ he hag' => ?_⟩)
          have hv2' : pteValid (read64 s'.mem (l1page s0.mem T i + 8 * j)) := by
            rw [he]; exact hv2
          have hpl : read64 s'.mem (l1page s0.mem T i + 8 * j) &&&
              (PTE_R ||| PTE_W ||| PTE_X) = 0 := by
            rw [he]; exact (WFT_plain hw).2 i j hi hj hv hv2
          show LP (W (d + 1)) (fuel + 1) s' (l1page s0.mem T i) j = .panic w
          rw [hrec _ fuel s' _ j hj hv2' hpl, he]
          have := hbad0 j hj hv2 hb s' (hag' _ hm)
          unfold l0page l1E at this
          rw [this]
          rfl
        · refine Or.inr (Or.inl ⟨fun hc => hb hc.2, hv2,
            (WFT_plain hw).2 i j hi hj hv hv2, fun s' G' hfo' hG' hag' => ?_⟩)
          obtain ⟨s'', hr, hf'', ho''⟩ := @walker_l0 L hL W LP skipP hW hend hskip d s'
            (l0page s0.mem T i j) G' hfo'
            (hgood _ (Or.inr (Or.inr ⟨i, j, hi, hj, hv, hv2, rfl⟩))) (hG' _ hm)
            (fun k hk => by
              have e : read64 s'.mem (l0page s0.mem T i j + 8 * k) =
                  read64 s0.mem (l0page s0.mem T i j + 8 * k) :=
                read64_congr fun x hx1 hx2 => hag' _ hm x (by omega) (by omega)
              rw [e]
              exact hok0 j hj hv2 hb k hk)
          refine ⟨s'', hr, ?_, fun x hx => ho'' x (hx _ hm)⟩
          simp only [if_pos hv2]; exact hf''
      · exact Or.inl ⟨fun hc => hv2 hc.1, hinv _ hv2, if_neg hv2⟩)
    512 0 rfl 513 s G (by decide) hfo
    (fun g hg e => hG _ hp1 (e ▸ hg))
    (fun j _ hj f hf => by
      obtain ⟨hv2, e⟩ := hsubm j f hf
      exact e ▸ hG _ (hp0 j hj hv2))
    (fun j _ hj => read64_congr fun x hx1 hx2 => hag _ hp1 x (by omega) (by omega))
    (fun j _ hj f hf x hx1 hx2 => by
      obtain ⟨hv2, e⟩ := hsubm j f hf
      exact hag f (e ▸ hp0 j hj hv2) x hx1 hx2)
  refine ⟨fun hall => ?_, fun hex => ?_⟩
  · obtain ⟨s1, hres1, hfo1, hout1⟩ := hok (fun j _ hj hc => hall j hj hc.1 hc.2)
    have hfo1' : FreeOK L s1 (l0pagesOf s0.mem T i ++ G) := hfo1
    obtain ⟨s', hk, hfo', hout'⟩ := kfree_out hL hfo1'
      (hgood _ (Or.inr (Or.inl ⟨i, hi, hv, rfl⟩)))
      (fun hc => by
        rcases List.mem_append.mp hc with h | h
        · obtain ⟨j, hj, hv2, e⟩ := mem_l0pagesOf.mp h
          exact hs4 i j i hi hj hi hv hv2 hv e.symm
        · exact hG _ hp1 h)
    refine ⟨s', ?_, ?_, fun x hx => ?_⟩
    · rw [hW]
      have hres1' : LP (W (d + 1)) 513 s (l1page s0.mem T i) 0 = .ok s1 := hres1
      rw [hres1', bind_ok]; exact hk
    · unfold subtreeOf
      rw [if_pos hv]
      exact hfo'
    · rw [hout' x (hx _ hp1)]
      refine hout1 x (hx _ hp1) (fun j _ hj f hf => ?_)
      obtain ⟨hv2, e⟩ := hsubm j f hf
      exact hx f (e ▸ hp0 j hj hv2)
  · obtain ⟨j, hj, hv2, hb⟩ := hex
    have hp : LP (W (d + 1)) 513 s (l1page s0.mem T i) 0 = .panic w :=
      hbad ⟨j, Nat.zero_le j, hj, hv2, hb⟩
    rw [hW, hp]
    rfl

/-- The whole tree: every page-table page is freed, the root last, unless one of the
level-0 pages makes `W` panic.  Memory changes only inside the page-table pages. -/
theorem walker_root {L : MemLayout} (hL : L.Sane)
    (W : Nat → KState → Nat → Outcome KState)
    (LP : (KState → Nat → Outcome KState) → Nat → KState → Nat → Nat → Outcome KState)
    (skipP : Nat → Prop) (w : Fatal)
    (hW : ∀ d s pg, W (d + 1) s pg = (LP (W d) 513 s pg 0).bind fun s1 => kfree L s1 pg)
    (hend : ∀ child fuel s pg i, ¬ i < 512 → LP child (fuel + 1) s pg i = .ok s)
    (hskip : ∀ child fuel s pg i, i < 512 → skipP (read64 s.mem (pg + 8 * i)) →
      LP child (fuel + 1) s pg i = LP child fuel s pg (i + 1))
    (hrec : ∀ child fuel s pg i, i < 512 → pteValid (read64 s.mem (pg + 8 * i)) →
      read64 s.mem (pg + 8 * i) &&& (PTE_R ||| PTE_W ||| PTE_X) = 0 →
      LP child (fuel + 1) s pg i = (child s (PTE2PA (read64 s.mem (pg + 8 * i)))).bind
        fun s1 => LP child fuel ⟨write64 s1.mem (pg + 8 * i) 0, s1.freelist⟩ pg (i + 1))
    (hinv : ∀ e, ¬ pteValid e → skipP e)
    (d : Nat) {s : KState} {T : Nat} {G : List Nat} (hfo : FreeOK L s G)
    (hw : WFT s.mem T G) (hgood : ∀ q, IsTablePage s.mem T q → goodFrame L q)
    (bad0 : Nat → Nat → Prop)
    (hok0 : ∀ i j, i < 512 → j < 512 → pteValid (rootE s.mem T i) →
      pteValid (l1E s.mem T i j) → ¬ bad0 i j →
      ∀ k, k < 512 → skipP (read64 s.mem (l0page s.mem T i j + 8 * k)))
    (hbad0 : ∀ i j, i < 512 → j < 512 → pteValid (rootE s.mem T i) →
      pteValid (l1E s.mem T i j) → bad0 i j → ∀ (s' : KState),
      (∀ x, l0page s.mem T i j ≤ x → x < l0page s.mem T i j + 4096 → s'.mem x = s.mem x) →
      W (d + 1) s' (l0page s.mem T i j) = .panic w) :
    ((∀ i j, i < 512 → j < 512 → pteValid (rootE s.mem T i) → pteValid (l1E s.mem T i j) →
        ¬ bad0 i j) →
      ∃ s', W (d + 3) s T = .ok s' ∧ FreeOK L s' (T :: lowerPages s.mem T ++ G) ∧
        ∀ x, (∀ q, IsTablePage s.mem T q → ¬ (q ≤ x ∧ x < q + 4096)) → s'.mem x = s.mem x) ∧
    ((∃ i j, i < 512 ∧ j < 512 ∧ pteValid (rootE s.mem T i) ∧ pteValid (l1E s.mem T i j) ∧
        bad0 i j) → W (d + 3) s T = .panic w) := by
  obtain ⟨hs1, hs2, hs3, hs4, hs5⟩ := WFT_sep hw
  have hpage : ∀ i, i < 512 → ∀ f ∈ subtreeOf s.mem T i, IsTablePage s.mem T f := fun i hi f hf =>
    mem_tablePages.mp (List.mem_cons_of_mem _ (mem_lowerPages.mpr ⟨i, hi, hf⟩))
  have hTal := (WFT_page hw (Or.inl rfl)).1
  obtain ⟨hok, hbad⟩ := @tableloop_spec L (fun fuel s i => LP (W (d + 2)) fuel s T i)
      (W (d + 2)) skipP w T s (subtreeOf s.mem T)
    (fun i => pteValid (rootE s.mem T i) ∧
      ∃ j, j < 512 ∧ pteValid (l1E s.mem T i j) ∧ bad0 i j)
    (fun fuel s i h => hend _ fuel s _ i h)
    (fun fuel s i h hs => hskip _ fuel s _ i h hs)
    (fun fuel s i h hv2 hp => hrec _ fuel s _ i h hv2 hp)
    hTal
    (fun i hi f hf => by
      refine ⟨(WFT_page hw (hpage i hi f hf)).1, ?_⟩
      rcases mem_subtreeOf.mp hf with ⟨hv, e | ⟨j, hj, hv2, e⟩⟩
      · rw [e]; exact hs1 i hi hv
      · rw [e]; exact hs2 i j hi hj hv hv2)
    (fun i i' hii hi' f hf hf' => by
      have hi : i < 512 := by omega
      rcases mem_subtreeOf.mp hf with ⟨hv, e | ⟨j, hj, hv2, e⟩⟩ <;>
        rcases mem_subtreeOf.mp hf' with ⟨hv', e' | ⟨j', hj', hv2', e'⟩⟩
      · have := hs3 i i' hi hi' hv hv' (e.symm.trans e'); omega
      · exact hs4 i' j' i hi' hj' hi hv' hv2' hv (e'.symm.trans e)
      · exact hs4 i j i' hi hj hi' hv hv2 hv' (e.symm.trans e')
      · have := (hs5 i j i' j' hi hj hi' hj' hv hv2 hv' hv2' (e.symm.trans e')).1; omega)
    (fun i hi => by
      by_cases hv : pteValid (rootE s.mem T i)
      · have hl1 := fun (s' : KState) (G' : List Nat) (hfo' : FreeOK L s' G')
            (hG' : ∀ f ∈ subtreeOf s.mem T i, f ∉ G')
            (hag' : ∀ f ∈ subtreeOf s.mem T i, ∀ x, f ≤ x → x < f + 4096 →
              s'.mem x = s.mem x) =>
          @walker_l1 L hL W LP skipP w hW hend hskip hrec hinv d s T i G hw hgood (bad0 i)
            (fun j hj hv2 hb => hok0 i j hi hj hv hv2 hb)
            (fun j hj hv2 hb => hbad0 i j hi hj hv hv2 hb) hi hv s' G' hfo' hG' hag'
        by_cases hb : ∃ j, j < 512 ∧ pteValid (l1E s.mem T i j) ∧ bad0 i j
        · refine Or.inr (Or.inr ⟨⟨hv, hb⟩, fun fuel s' G' hfo' hG' he hag' => ?_⟩)
          have hv' : pteValid (read64 s'.mem (T + 8 * i)) := by rw [he]; exact hv
          have hpl : read64 s'.mem (T + 8 * i) &&& (PTE_R ||| PTE_W ||| PTE_X) = 0 := by
            rw [he]; exact (WFT_plain hw).1 i hi hv
          show LP (W (d + 2)) (fuel + 1) s' T i = .panic w
          rw [hrec _ fuel s' _ i hi hv' hpl, he]
          have := (hl1 s' G' hfo' hG' hag').2 hb
          unfold l1page rootE at this
          rw [this]
          rfl
        · exact Or.inr (Or.inl ⟨fun hc => hb hc.2, hv, (WFT_plain hw).1 i hi hv,
            fun s' G' hfo' hG' hag' => (hl1 s' G' hfo' hG' hag').1
              (fun j hj hv2 hbj => hb ⟨j, hj, hv2, hbj⟩)⟩)
      · exact Or.inl ⟨fun hc => hv hc.1, hinv _ hv, by unfold subtreeOf; exact if_neg hv⟩)
    512 0 rfl 513 s G (by decide) hfo
    (fun g hg e => (WFT_page hw (Or.inl rfl)).2.2.2 (e ▸ hg))
    (fun i _ hi f hf => (WFT_page hw (hpage i hi f hf)).2.2.2)
    (fun _ _ _ => rfl) (fun _ _ _ _ _ _ _ _ => rfl)
  refine ⟨fun hall => ?_, fun hex => ?_⟩
  · obtain ⟨s1, hres1, hfo1, hout1⟩ := hok (fun i _ hi hc => by
      obtain ⟨hv, j, hj, hv2, hb⟩ := hc
      exact hall i j hi hj hv hv2 hb)
    have hfo1' : FreeOK L s1 (lowerPages s.mem T ++ G) := hfo1
    obtain ⟨s', hk, hfo', hout'⟩ := kfree_out hL hfo1' (hgood T (Or.inl rfl)) (fun hc => by
      rcases List.mem_append.mp hc with h | h
      · obtain ⟨i, hi, hf⟩ := mem_lowerPages.mp h
        rcases mem_subtreeOf.mp hf with ⟨hv, e | ⟨j, hj, hv2, e⟩⟩
        · exact hs1 i hi hv e.symm
        · exact hs2 i j hi hj hv hv2 e.symm
      · exact (WFT_page hw (Or.inl rfl)).2.2.2 h)
    have hres1' : LP (W (d + 2)) 513 s T 0 = .ok s1 := hres1
    refine ⟨s', by rw [hW, hres1', bind_ok]; exact hk, hfo', fun x hx => ?_⟩
    rw [hout' x (hx T (Or.inl rfl))]
    exact hout1 x (hx T (Or.inl rfl)) (fun i _ hi f hf => hx f (hpage i hi f hf))
  · obtain ⟨i, j, hi, hj, hv, hv2, hb⟩ := hex
    have hp : LP (W (d + 2)) 513 s T 0 = .panic w :=
      hbad ⟨i, Nat.zero_le i, hi, hv, j, hj, hv2, hb⟩
    rw [hW, hp]
    rfl

/-! ## `freewalk` and `kvm_free_kernelpgtbl` as instances -/

theorem freewalk_loop_leaf (child : KState → Nat → Outcome KState) (fuel : Nat) (s : KState)
    (pg i : Nat) (h : i < 512) (hv : pteValid (read64 s.mem (pg + 8 * i)))
    (hp : read64 s.mem (pg + 8 * i) &&& (PTE_R ||| PTE_W ||| PTE_X) ≠ 0) :
    freewalk_loop child (fuel + 1) s pg i = .panic .freewalkLeaf := by
  have hv' : read64 s.mem (pg + 8 * i) &&& PTE_V ≠ 0 := hv
  have h1 : ¬ (read64 s.mem (pg + 8 * i) &&& PTE_V ≠ 0 ∧
      read64 s.mem (pg + 8 * i) &&& (PTE_R ||| PTE_W ||| PTE_X) = 0) := fun hc => hp hc.2
  rw [freewalk_loop, if_pos h]
  simp only [if_neg h1, if_pos hv']

theorem freewalk_succ (L : MemLayout) (d : Nat) (s : KState) (pg : Nat) :
    freewalk L (d + 1) s pg =
      (freewalk_loop (freewalk L d) 513 s pg 0).bind fun s1 => kfree L s1 pg := by
  rw [freewalk]

/-- `freewalk` of a page that has a valid entry, all of whose valid entries are leaves,
panics. -/
theorem freewalk_leaf_panic (L : MemLayout) (d : Nat) (s : KState) (p : Nat)
    (hleaf : ∀ k, k < 512 → pteValid (read64 s.mem (p + 8 * k)) →
      read64 s.mem (p + 8 * k) &&& (PTE_R ||| PTE_W ||| PTE_X) ≠ 0)
    (hex : ∃ k, k < 512 ∧ pteValid (read64 s.mem (p + 8 * k))) :
    freewalk L (d + 1) s p = .panic .freewalkLeaf := by
  have hloop : ∀ (n i fuel : Nat), i + n = 512 → n < fuel →
      (∃ k, i ≤ k ∧ k < 512 ∧ pteValid (read64 s.mem (p + 8 * k))) →
      freewalk_loop (freewalk L d) fuel s p i = .panic .freewalkLeaf := by
    intro n
    induction n with
    | zero =>
      rintro i fuel hi _ ⟨k, h1, h2, _⟩
      omega
    | succ n ih =>
      rintro i fuel hi hfuel ⟨k, h1, h2, h3⟩
      obtain ⟨fuel, rfl⟩ : ∃ f, fuel = f + 1 := ⟨fuel - 1, by omega⟩
      by_cases hv : pteValid (read64 s.mem (p + 8 * i))
      · exact freewalk_loop_leaf _ fuel s p i (by omega) hv (hleaf i (by omega) hv)
      · rw [freewalk_loop_skip _ fuel s p i (by omega) hv]
        have : k ≠ i := fun e => hv (e ▸ h3)
        exact ih (i + 1) fuel (by omega) (by omega) ⟨k, by omega, h2, h3⟩
  obtain ⟨k, hk, hv⟩ := hex
  rw [freewalk_succ, hloop 512 0 513 rfl (by decide) ⟨k, Nat.zero_le k, hk, hv⟩]
  rfl

theorem kvmfree_loop_end (child : KState → Nat → Outcome KState) (fuel : Nat) (s : KState)
    (pg i : Nat) (h : ¬ i < 512) : kvmfree_loop child (fuel + 1) s pg i = .ok s := by
  rw [kvmfree_loop, if_neg h]

theorem kvmfree_loop_skip (child : KState → Nat → Outcome KState) (fuel : Nat) (s : KState)
    (pg i : Nat) (h : i < 512)
    (hv : ¬ (pteValid (read64 s.mem (pg + 8 * i)) ∧
      read64 s.mem (pg + 8 * i) &&& (PTE_R ||| PTE_W ||| PTE_X) = 0)) :
    kvmfree_loop child (fuel + 1) s pg i = kvmfree_loop child fuel s pg (i + 1) := by
  have h1 : ¬ (read64 s.mem (pg + 8 * i) &&& PTE_V ≠ 0 ∧
      read64 s.mem (pg + 8 * i) &&& (PTE_R ||| PTE_W ||| PTE_X) = 0) := hv
  rw [kvmfree_loop, if_pos h]
  simp only [if_neg h1]

theorem kvmfree_loop_child (child : KState → Nat → Outcome KState) (fuel : Nat) (s : KState)
    (pg i : Nat) (h : i < 512) (hv : pteValid (read64 s.mem (pg + 8 * i)))
    (hp : read64 s.mem (pg + 8 * i) &&& (PTE_R ||| PTE_W ||| PTE_X) = 0) :
    kvmfree_loop child (fuel + 1) s pg i =
      (child s (PTE2PA (read64 s.mem (pg + 8 * i)))).bind fun s1 =>
        kvmfree_loop child fuel ⟨write64 s1.mem (pg + 8 * i) 0, s1.freelist⟩ pg (i + 1) := by
  have h1 : read64 s.mem (pg + 8 * i) &&& PTE_V ≠ 0 ∧
      read64 s.mem (pg + 8 * i) &&& (PTE_R ||| PTE_W ||| PTE_X) = 0 := ⟨hv, hp⟩
  rw [kvmfree_loop, if_pos h]
  simp only [if_pos h1]

theorem kvm_free_succ (L : MemLayout) (d : Nat) (s : KState) (pg : Nat) :
    kvm_free_kernelpgtbl L (d + 1) s pg =
      (kvmfree_loop (kvm_free_kernelpgtbl L d) 513 s pg 0).bind fun s1 => kfree L s1 pg := by
  rw [kvm_free_kernelpgtbl]

/-- `freewalk` on a well-formed table whose valid level-0 entries are leaves: it panics
when there is such an entry and frees every page-table page otherwise. -/
theorem freewalk_tree {L : MemLayout} (hL : L.Sane) (d : Nat) {s : KState} {T : Nat}
    {G : List Nat} (hfo : FreeOK L s G) (hw : WFT s.mem T G)
    (hgood : ∀ q, IsTablePage s.mem T q → goodFrame L q)
    (hdepth : ∀ i j k, i < 512 → j < 512 → k < 512 → pteValid (ent s.mem T i j k) →
      ent s.mem T i j k &&& (PTE_R ||| PTE_W ||| PTE_X) ≠ 0) :
    ((∀ i j k, i < 512 → j < 512 → k < 512 → ¬ pteValid (ent s.mem T i j k)) →
      ∃ s', freewalk L (d + 3) s T = .ok s' ∧ FreeOK L s' (T :: lowerPages s.mem T ++ G) ∧
        ∀ x, (∀ q, IsTablePage s.mem T q → ¬ (q ≤ x ∧ x < q + 4096)) → s'.mem x = s.mem x) ∧
    ((∃ i j k, i < 512 ∧ j < 512 ∧ k < 512 ∧ pteValid (ent s.mem T i j k)) →
      freewalk L (d + 3) s T = .panic .freewalkLeaf) := by
  obtain ⟨hok, hbad⟩ := @walker_root L hL (freewalk L) freewalk_loop (fun e => ¬ pteValid e)
    .freewalkLeaf (freewalk_succ L) freewalk_loop_end freewalk_loop_skip freewalk_loop_child
    (fun _ h => h) d s T G hfo hw hgood
    (fun i j => ∃ k, k < 512 ∧ pteValid (ent s.mem T i j k))
    (fun i j hi hj hv hv2 hnb k hk hc => hnb ⟨k, hk, by rw [ent_of_valid hv hv2]; exact hc⟩)
    (fun i j hi hj hv hv2 hb s' hag => by
      have he : ∀ k, k < 512 → read64 s'.mem (l0page s.mem T i j + 8 * k) =
          ent s.mem T i j k := fun k hk => by
        rw [ent_of_valid hv hv2]
        exact read64_congr fun x hx1 hx2 => hag x (by omega) (by omega)
      obtain ⟨k, hk, hvk⟩ := hb
      exact freewalk_leaf_panic L d s' _
        (fun k' hk' hv' => by
          rw [he k' hk'] at hv' ⊢
          exact hdepth i j k' hi hj hk' hv')
        ⟨k, hk, by rw [he k hk]; exact hvk⟩)
  refine ⟨fun hall => hok (fun i j hi hj hv hv2 hc => ?_), fun hex => hbad ?_⟩
  · obtain ⟨k, hk, hvk⟩ := hc
    exact hall i j k hi hj hk hvk
  · obtain ⟨i, j, k, hi, hj, hk, hvk⟩ := hex
    obtain ⟨hv, hv2⟩ := ent_valid_tables hvk
    exact ⟨i, j, hi, hj, hv, hv2, k, hk, hvk⟩

/-- `kvm_free_kernelpgtbl` on a well-formed table whose valid level-0 entries are leaves
frees every page-table page and changes memory only inside them. -/
theorem kvm_free_tree {L : MemLayout} (hL : L.Sane) (d : Nat) {s : KState} {T : Nat}
    {G : List Nat} (hfo : FreeOK L s G) (hw : WFT s.mem T G)
    (hgood : ∀ q, IsTablePage s.mem T q → goodFrame L q)
    (hleaf : ∀ i j k, i < 512 → j < 512 → k < 512 → pteValid (ent s.mem T i j k) →
      ent s.mem T i j k &&& (PTE_R ||| PTE_W ||| PTE_X) ≠ 0) :
    ∃ s', kvm_free_kernelpgtbl L (d + 3) s T = .ok s' ∧
      FreeOK L s' (T :: lowerPages s.mem T ++ G) ∧
      ∀ x, (∀ q, IsTablePage s.mem T q → ¬ (q ≤ x ∧ x < q + 4096)) → s'.mem x = s.mem x := by
  obtain ⟨hok, _⟩ := @walker_root L hL (kvm_free_kernelpgtbl L) kvmfree_loop
    (fun e => ¬ (pteValid e ∧ e &&& (PTE_R ||| PTE_W ||| PTE_X) = 0))
    .freewalkLeaf (kvm_free_succ L) kvmfree_loop_end kvmfree_loop_skip kvmfree_loop_child
    (fun _ h hc => h hc.1) d s T G hfo hw hgood (fun _ _ => False)
    (fun i j hi hj hv hv2 _ k hk hc => by
      rw [← ent_of_valid hv hv2] at hc
      exact hleaf i j k hi hj hk hc.1 hc.2)
    (fun i j hi hj hv hv2 hb => absurd hb not_false)
  exact hok (fun _ _ _ _ _ _ h => h)

theorem stackOf_congr {sub sub' : Nat → List Nat} : ∀ (n i : Nat),
    (∀ j, i ≤ j → j < i + n → sub' j = sub j) → stackOf sub' i n = stackOf sub i n
  | 0, _, _ => rfl
  | n + 1, i, h => by
    rw [stackOf, stackOf, h i (Nat.le_refl i) (by omega),
      stackOf_congr n (i + 1) (fun j h1 h2 => h j (by omega) (by omega))]

/-- The same root and level-1 pages give the same list of page-table pages. -/
theorem lowerPages_congr {m m' : Mem} {T : Nat} (h : SameTable m m' T) :
    lowerPages m' T = lowerPages m T := by
  unfold lowerPages
  refine stackOf_congr 512 0 (fun i _ hi => ?_)
  have hi' : i < 512 := by omega
  unfold subtreeOf
  rw [h.1 i hi']
  by_cases hv : pteValid (rootE m T i)
  · rw [if_pos hv, if_pos hv]
    have e1 : l1page m' T i = l1page m T i := by unfold l1page; rw [h.1 i hi']
    have e4 : l0pagesOf m' T i = l0pagesOf m T i := by
      unfold l0pagesOf
      refine stackOf_congr 512 0 (fun j _ hj => ?_)
      have hj' : j < 512 := by omega
      have e2 := h.2 i j hi' hj' hv
      have e3 : l0page m' T i j = l0page m T i j := by unfold l0page; rw [e2]
      simp only [e2, e3]
    rw [e1, e4]
  · rw [if_neg hv, if_neg hv]

/-- C18: `uvmfree` returns the whole address space.  For a well-formed three-level table
`T` whose page-table pages are allocator frames and whose leaves are exactly the pages of
`[0, PGROUNDUP(sz))` (each page is mapped by a leaf, every other level-0 entry is
invalid, and the data frames are distinct allocator frames that are neither free nor
page-table pages), `uvmfree(T, sz)` returns without a panic, and afterwards the free list
is the old free list, under it the data frames of the leaves, and on top every page-table
page of `T`: each frame exactly once, the root freed last, so that it is the head. -/
theorem uvmfree_all (L : MemLayout) (s : KState) (T sz d : Nat) (F : List Nat)
    (hL : L.Sane) (hfo : FreeOK L s F) (hw : WFT s.mem T F)
    (hgood : ∀ q, IsTablePage s.mem T q → goodFrame L q) (hsz : sz ≤ L.MAXVA)
    (hmap : ∀ a, a % PGSIZE = 0 → a < PGROUNDUP sz → ∃ e, leafAt L s T a = some e ∧ isLeaf e)
    (hother : ∀ i j k, i < 512 → j < 512 → k < 512 →
      (∀ a, a % PGSIZE = 0 → a < PGROUNDUP sz → ¬ (i = PX 2 a ∧ j = PX 1 a ∧ k = PX 0 a)) →
      ¬ pteValid (ent s.mem T i j k))
    (hown : (leafFrames L s T 0 (PGROUNDUP sz / PGSIZE)).Nodup ∧
      ∀ f ∈ leafFrames L s T 0 (PGROUNDUP sz / PGSIZE),
        goodFrame L f ∧ f ∉ F ∧ ¬ IsTablePage s.mem T f) :
    ∃ s', uvmfree L (d + 3) s T sz = .ok s' ∧
      FreeOK L s' (T :: lowerPages s.mem T ++
        ((leafFrames L s T 0 (PGROUNDUP sz / PGSIZE)).reverse ++ F)) ∧
      (∀ q, q ∈ T :: lowerPages s.mem T ↔ IsTablePage s.mem T q) ∧
      (T :: lowerPages s.mem T ++
        ((leafFrames L s T 0 (PGROUNDUP sz / PGSIZE)).reverse ++ F)).Nodup ∧
      s'.freelist = T := by
  have hM := hL.maxva_le
  have hMa := hL.maxva_al
  have hr := PGROUNDUP_facts sz (by omega)
  unfold PGSIZE at hmap hother hown ⊢
  have hb : 0 + PGROUNDUP sz / 4096 * 4096 ≤ L.MAXVA := by omega
  have hfr := leafFrames_eq hw (PGROUNDUP sz / 4096) 0 hb
  rw [hfr] at hown ⊢
  have key : ∃ s', uvmfree L (d + 3) s T sz = .ok s' ∧
      FreeOK L s' (T :: lowerPages s.mem T ++
        ((framesOf s.mem T 0 (PGROUNDUP sz / 4096)).reverse ++ F)) := by
    by_cases h0 : sz = 0
    · subst h0
      have e0 : PGROUNDUP 0 / 4096 = 0 := by decide
      rw [e0]
      obtain ⟨s', hres, hfo'⟩ := freewalk_root hL d hfo hw hgood
        (fun i j k hi hj hk => hother i j k hi hj hk (fun a _ ha => by
          have : PGROUNDUP 0 = 0 := by decide
          omega))
      refine ⟨s', ?_, by simpa [framesOf] using hfo'⟩
      unfold uvmfree
      rw [if_neg (by omega), bind_ok]
      exact hres
    · obtain ⟨s1, hcont, hst, hfo1, hw1, hpg1, hupd1, _⟩ := @uvmunmap_upto_spec L hL T 1
        (PGROUNDUP sz / 4096) s F 0 hfo hw (by omega) hb
        (fun u hu => by
          obtain ⟨e, he, hleaf⟩ := hmap (0 + u * 4096) (by omega) (by omega)
          rw [(leafAt_some hw he).2.1]
          exact isLeaf_flags hleaf) (fun _ => hown)
      rw [if_pos (by decide)] at hfo1 hw1
      have hu : uvmunmap L s T 0 (PGROUNDUP sz / PGSIZE) 1 = .ok s1 := by
        have hfuel : L.MAXVA / PGSIZE + 2 =
            (L.MAXVA / PGSIZE - PGROUNDUP sz / 4096 + 1) + 1 + PGROUNDUP sz / 4096 := by
          unfold PGSIZE; omega
        unfold uvmunmap
        rw [if_neg (by decide), hfuel]
        unfold PGSIZE
        rw [Nat.mod_eq_of_lt (by omega), hcont _ _ (Nat.le_refl _)]
        exact uvmunmap_loop_stop L _ s1 T _ _ 1 (by omega)
      obtain ⟨s', hres, hfo'⟩ := freewalk_root hL d hfo1 hw1
        (fun q hq => hgood q ((hpg1 q).mp hq))
        (fun i j k hi hj hk => by
          by_cases ht : ∃ u, u < PGROUNDUP sz / 4096 ∧ i = PX 2 (0 + u * 4096) ∧
              j = PX 1 (0 + u * 4096) ∧ k = PX 0 (0 + u * 4096)
          · obtain ⟨u, hu, e1, e2, e3⟩ := ht
            rw [e1, e2, e3, hupd1.1 u hu]
            exact not_pteValid_zero
          · rw [hupd1.2 i j k hi hj hk (fun u hu hc => ht ⟨u, hu, hc⟩)]
            refine hother i j k hi hj hk (fun a ha1 ha2 hc => ht ⟨a / 4096, by omega, ?_⟩)
            rw [show 0 + a / 4096 * 4096 = a by omega]
            exact hc)
      rw [lowerPages_congr hst] at hfo'
      refine ⟨s', ?_, hfo'⟩
      unfold uvmfree
      rw [if_pos (by omega), hu, bind_ok]
      exact hres
  obtain ⟨s', hres, hfo'⟩ := key
  exact ⟨s', hres, hfo', fun q => mem_tablePages, hfo'.2.1, hfo'.1.1⟩

/-- C19: `freewalk` phase separation.  On a well-formed three-level table (the valid
entries of the root and of the level-1 pages are internal, the page-table pages are
allocator frames, and a valid level-0 entry is a leaf, so that the depth is 3),
`freewalk` panics if and only if some leaf, a valid entry with one of R, W, X set, is
reachable from the root through internal entries; the panic is "freewalk: leaf", and
without a leaf `freewalk` returns with every page-table page on the free list, the pages
of a subtree before its parent and the root last.  In the loop an invalid entry is
skipped, a valid entry with one of R, W, X set is the panic, and an internal entry is
recursed into and then set to 0; the frame of the table is freed after the loop. -/
theorem freewalk_phases (L : MemLayout) (s : KState) (T d : Nat) (G : List Nat)
    (hL : L.Sane) (hfo : FreeOK L s G) (hw : WFT s.mem T G)
    (hgood : ∀ q, IsTablePage s.mem T q → goodFrame L q)
    (hdepth : ∀ i j k, i < 512 → j < 512 → k < 512 → pteValid (ent s.mem T i j k) →
      isLeaf (ent s.mem T i j k)) :
    ((∃ w, freewalk L (d + 3) s T = .panic w) ↔
      ∃ i j k, i < 512 ∧ j < 512 ∧ k < 512 ∧ isLeaf (ent s.mem T i j k)) ∧
    ((∃ i j k, i < 512 ∧ j < 512 ∧ k < 512 ∧ isLeaf (ent s.mem T i j k)) →
      freewalk L (d + 3) s T = .panic .freewalkLeaf) ∧
    ((¬ ∃ i j k, i < 512 ∧ j < 512 ∧ k < 512 ∧ isLeaf (ent s.mem T i j k)) →
      ∃ s', freewalk L (d + 3) s T = .ok s' ∧ FreeOK L s' (T :: lowerPages s.mem T ++ G)) ∧
    (∀ (child : KState → Nat → Outcome KState) (fuel : Nat) (s1 : KState) (pg i : Nat),
      i < 512 → ¬ pteValid (read64 s1.mem (pg + 8 * i)) →
      freewalk_loop child (fuel + 1) s1 pg i = freewalk_loop child fuel s1 pg (i + 1)) ∧
    (∀ (child : KState → Nat → Outcome KState) (fuel : Nat) (s1 : KState) (pg i : Nat),
      i < 512 → isLeaf (read64 s1.mem (pg + 8 * i)) →
      freewalk_loop child (fuel + 1) s1 pg i = .panic .freewalkLeaf) ∧
    (∀ (child : KState → Nat → Outcome KState) (fuel : Nat) (s1 : KState) (pg i : Nat),
      i < 512 → pteValid (read64 s1.mem (pg + 8 * i)) →
      read64 s1.mem (pg + 8 * i) &&& (PTE_R ||| PTE_W ||| PTE_X) = 0 →
      freewalk_loop child (fuel + 1) s1 pg i =
        (child s1 (PTE2PA (read64 s1.mem (pg + 8 * i)))).bind fun s2 =>
          freewalk_loop child fuel ⟨write64 s2.mem (pg + 8 * i) 0, s2.freelist⟩ pg (i + 1)) ∧
    (∀ (depth : Nat) (s1 : KState) (pg : Nat), freewalk L (depth + 1) s1 pg =
      (freewalk_loop (freewalk L depth) 513 s1 pg 0).bind fun s2 => kfree L s2 pg) := by
  obtain ⟨hok, hbad⟩ := freewalk_tree hL d hfo hw hgood
    (fun i j k hi hj hk hv => (hdepth i j k hi hj hk hv).2)
  have hpan : (∃ i j k, i < 512 ∧ j < 512 ∧ k < 512 ∧ isLeaf (ent s.mem T i j k)) →
      freewalk L (d + 3) s T = .panic .freewalkLeaf := by
    rintro ⟨i, j, k, hi, hj, hk, hl⟩
    exact hbad ⟨i, j, k, hi, hj, hk, hl.1⟩
  have hret : (¬ ∃ i j k, i < 512 ∧ j < 512 ∧ k < 512 ∧ isLeaf (ent s.mem T i j k)) →
      ∃ s', freewalk L (d + 3) s T = .ok s' ∧ FreeOK L s' (T :: lowerPages s.mem T ++ G) := by
    intro hno
    obtain ⟨s', h1, h2, _⟩ := hok (fun i j k hi hj hk hv =>
      hno ⟨i, j, k, hi, hj, hk, hdepth i j k hi hj hk hv⟩)
    exact ⟨s', h1, h2⟩
  refine ⟨⟨fun hp => ?_, fun hex => ⟨_, hpan hex⟩⟩, hpan, hret,
    fun child fuel s1 pg i hi hv => freewalk_loop_skip child fuel s1 pg i hi hv,
    fun child fuel s1 pg i hi hl => freewalk_loop_leaf child fuel s1 pg i hi hl.1 hl.2,
    fun child fuel s1 pg i hi hv hp => freewalk_loop_child child fuel s1 pg i hi hv hp,
    freewalk_succ L⟩
  by_contra hno
  obtain ⟨s', h1, _⟩ := hret hno
  obtain ⟨w, hw'⟩ := hp
  rw [h1] at hw'
  cases hw'

/-- C20: shadow-table destruction frees only table frames.  For a well-formed three-level
table `K` whose page-table pages are allocator frames and whose valid level-0 entries all
have one of R, W, X set, `kvm_free_kernelpgtbl(K)` returns without a panic, leaves or no
leaves; it pushes onto the free list exactly the page-table pages of `K`, the root last;
memory changes only inside those pages, so that a frame referenced by a leaf of `K` that
is not itself one of the page-table pages is neither freed nor written. -/
theorem kvm_free_tables_only (L : MemLayout) (s : KState) (K d : Nat) (G : List Nat)
    (hL : L.Sane) (hfo : FreeOK L s G) (hw : WFT s.mem K G)
    (hgood : ∀ q, IsTablePage s.mem K q → goodFrame L q)
    (hleaf : ∀ i j k, i < 512 → j < 512 → k < 512 → pteValid (ent s.mem K i j k) →
      isLeaf (ent s.mem K i j k)) :
    ∃ s', kvm_free_kernelpgtbl L (d + 3) s K = .ok s' ∧
      FreeOK L s' (K :: lowerPages s.mem K ++ G) ∧
      (∀ q, q ∈ K :: lowerPages s.mem K ↔ IsTablePage s.mem K q) ∧
      s'.freelist = K ∧
      (∀ x, s'.mem x ≠ s.mem x → ∃ q, IsTablePage s.mem K q ∧ q ≤ x ∧ x < q + 4096) ∧
      (∀ i j k, i < 512 → j < 512 → k < 512 → isLeaf (ent s.mem K i j k) →
        ¬ IsTablePage s.mem K (PTE2PA (ent s.mem K i j k)) →
        (PTE2PA (ent s.mem K i j k) ∉ G →
          PTE2PA (ent s.mem K i j k) ∉ K :: lowerPages s.mem K ++ G) ∧
        ∀ x, PTE2PA (ent s.mem K i j k) ≤ x → x < PTE2PA (ent s.mem K i j k) + 4096 →
          s'.mem x = s.mem x) := by
  obtain ⟨s', hres, hfo', hout⟩ := kvm_free_tree hL d hfo hw hgood
    (fun i j k hi hj hk hv => (hleaf i j k hi hj hk hv).2)
  refine ⟨s', hres, hfo', fun q => mem_tablePages, hfo'.1.1, fun x hx => ?_,
    fun i j k hi hj hk hl hnt => ⟨fun hnG hc => ?_, fun x hx1 hx2 => hout x (fun q hq hin => ?_)⟩⟩
  · by_contra hc
    refine hx (hout x (fun q hq hin => hc ⟨q, hq, hin.1, hin.2⟩))
  · have hc' : PTE2PA (ent s.mem K i j k) ∈ (K :: lowerPages s.mem K) ++ G := hc
    rcases List.mem_append.mp hc' with h | h
    · exact hnt (mem_tablePages.mp h)
    · exact hnG h
  · have hne : q ≠ PTE2PA (ent s.mem K i j k) := fun e => hnt (e ▸ hq)
    have := (WFT_page hw hq).1
    have := PTE2PA_aligned (ent s.mem K i j k)
    omega

/-! ## Facts about the example states -/

/-- The example state after mapping page 0 of the empty example table with the flags
`perm` is well formed. -/
theorem exMap_wft (perm : Nat) (hperm : perm < 2 ^ 64) (F' : List Nat)
    (hval : (mappages exL exS3 exT 0 4096 0x80000000 perm).val Prod.fst = some 0)
    (hfo' : FreeOK exL ((mappages exL exS3 exT 0 4096 0x80000000 perm).state exS3) F') :
    WFT ((mappages exL exS3 exT 0 4096 0x80000000 perm).state exS3).mem exT F' := by
  have hfo : FreeOK exL exS3 [0x87fff000, 0x87ffe000, 0x87ffd000] := by decide
  have hw := (zero_root (m := exS3.mem) (T := exT) (F := [0x87fff000, 0x87ffe000, 0x87ffd000])
    (by decide) (by decide) (by decide) (by decide) exS3_root).1
  obtain ⟨n, _, hcase⟩ := @mappages_spec exL exL_sane exS3 exT 0 4096 0x80000000 perm _ hfo hw
    (by decide) (by decide) hperm (by decide)
  rcases hcase with ⟨s', P, F'', he, hts, _⟩ | ⟨s', P, F'', t, _, he, _⟩ | ⟨he, _⟩
  · rw [he] at hfo' ⊢
    have hF : F'' = F' := FreeList_unique hts.free.1 hfo'.1
    rw [← hF]
    exact hts.wft
  · rw [he] at hval
    simp [Outcome.val] at hval
  · rw [he] at hval
    simp [Outcome.val] at hval

/-- The example state `exC2`, a table created by `uvmcreate` and grown by two pages: the
table is well formed, its page-table pages are the root and the frames `0x87ffd000` and
`0x87ffc000`, the two data frames are no page-table pages, and every level-0 entry but
those of the two pages is 0. -/
theorem exC2_facts : WFT exC2.mem 0x87fff000 [0x87ffa000] ∧
    (∀ q, IsTablePage exC2.mem 0x87fff000 q ↔
      q = 0x87fff000 ∨ q = 0x87ffd000 ∨ q = 0x87ffc000) ∧
    (∀ d ∈ [0x87ffe000, 0x87ffb000], ¬ IsTablePage exC2.mem 0x87fff000 d) ∧
    (∀ i j k, i < 512 → j < 512 → k < 512 →
      (∀ u, u < 2 → ¬ (i = PX 2 (0 + u * 4096) ∧ j = PX 1 (0 + u * 4096) ∧
        k = PX 0 (0 + u * 4096))) → ent exC2.mem 0x87fff000 i j k = 0) := by
  have hfo : FreeOK exL exS6
      [0x87fff000, 0x87ffe000, 0x87ffd000, 0x87ffc000, 0x87ffb000, 0x87ffa000] := by decide
  obtain ⟨s1, hc, hfo1, hz1, _⟩ := uvmcreate_spec hfo
  obtain ⟨hw1, hent1, hpg1⟩ := zero_root (m := s1.mem) (T := 0x87fff000)
    (F := [0x87ffe000, 0x87ffd000, 0x87ffc000, 0x87ffb000, 0x87ffa000]) (by decide) (by decide)
    (by decide) (by decide) hz1
  obtain ⟨s2, hgrow, hfo2, hw2, hpg2, _, _, hfrT2, hoth2⟩ :=
    grow_two exL_sane (by decide) hfo1 hw1 hent1 hpg1
  have e1 : exC1 = s1 := by unfold exC1; rw [hc]
  have e2 : exC2 = s2 := by unfold exC2; rw [e1, hgrow]; rfl
  rw [e2]
  exact ⟨hw2, hpg2, hfrT2, hoth2⟩

theorem exC2_good (q : Nat) (h : IsTablePage exC2.mem 0x87fff000 q) : goodFrame exL q := by
  rcases (exC2_facts.2.1 q).mp h with e | e | e <;> subst e <;> decide

theorem exC2_depth (i j k : Nat) (hi : i < 512) (hj : j < 512) (hk : k < 512)
    (hv : pteValid (ent exC2.mem 0x87fff000 i j k)) : isLeaf (ent exC2.mem 0x87fff000 i j k) := by
  by_cases h : (i = 0 ∧ j = 0 ∧ k = 0) ∨ (i = 0 ∧ j = 0 ∧ k = 1)
  · rcases h with ⟨rfl, rfl, rfl⟩ | ⟨rfl, rfl, rfl⟩ <;> decide
  · exfalso
    rw [exC2_facts.2.2.2 i j k hi hj hk (fun u hu hc => h (by
      have h0 : PX 2 (0 + 0 * 4096) = 0 ∧ PX 1 (0 + 0 * 4096) = 0 ∧ PX 0 (0 + 0 * 4096) = 0 := by
        decide
      have h1 : PX 2 (0 + 1 * 4096) = 0 ∧ PX 1 (0 + 1 * 4096) = 0 ∧ PX 0 (0 + 1 * 4096) = 1 := by
        decide
      have : u = 0 ∨ u = 1 := by omega
      rcases this with rfl | rfl
      · left; rw [h0.1, h0.2.1, h0.2.2] at hc; exact hc
      · right; rw [h1.1, h1.2.1, h1.2.2] at hc; exact hc))] at hv
    exact not_pteValid_zero hv

/-- C12, witness: unmapping and freeing the two pages of the example table `exG`. -/
theorem uvmunmap_post_witness :
    FreeOK exL exG [0x87ffb000, 0x87ffa000] ∧
    leafFrames exL exG exT 0 2 = [0x87fff000, 0x87ffc000] ∧
    ∃ s', uvmunmap exL exG exT 0 2 1 = .ok s' ∧
      (∀ a, a % PGSIZE = 0 → 0 ≤ a → a < 0 + 2 * PGSIZE → pteAt exL s' exT a = 0) ∧
      FreeOK exL s' ([0x87ffc000, 0x87fff000] ++ [0x87ffb000, 0x87ffa000]) := by
  have e : leafFrames exL exG exT 0 2 = [0x87fff000, 0x87ffc000] := by decide
  obtain ⟨s', h1, h2, _, _, _, _, _, h3, _⟩ := uvmunmap_post exL exG exT 0 2 1
    [0x87ffb000, 0x87ffa000] exL_sane (by decide) exG_facts.1 (by decide) (by decide)
    (fun a ha h1 h2 => by
      unfold PGSIZE at ha h2
      have : a = 0 ∨ a = 4096 := by omega
      rcases this with rfl | rfl
      · exact ⟨570424351, by decide, by decide⟩
      · exact ⟨570421279, by decide, by decide⟩)
    (fun _ => ⟨by decide, fun d hd => by
      rw [e] at hd
      refine ⟨?_, ?_, exG_facts.2 d hd⟩
      · rcases List.mem_cons.mp hd with rfl | hd
        · decide
        · rw [List.mem_singleton] at hd; subst hd; decide
      · rcases List.mem_cons.mp hd with rfl | hd
        · decide
        · rw [List.mem_singleton] at hd; subst hd; decide⟩)
  rw [e, if_pos (by decide)] at h3
  exact ⟨by decide, e, s', h1, h2, h3⟩

/-- C13, witness: page 0 of the example table `exV` is mapped by an entry with no flag but
`V`; `uvmunmap` of that page panics with "not a leaf". -/
theorem uvmunmap_not_a_leaf_witness :
    FreeOK exL exV [0x87ffd000] ∧ PTE_FLAGS (pteAt exL exV exT 0) = PTE_V ∧
    uvmunmap exL exV exT 0 1 0 = .panic .uvmunmapNotALeaf :=
  ⟨by decide, by decide,
    (uvmunmap_not_a_leaf exL exV exT 0 1 0 0 [0x87ffd000] exL_sane (by decide)
      (exMap_wft 0 (by decide) _ (by decide) (by decide)) (by decide)
      (fun h => absurd rfl h) (by decide)).2 (by decide)
      (fun u hu => absurd hu (Nat.not_lt_zero u))⟩

/-- C13, counterexample: page 0 of the well-formed example table `exU` is mapped by an
entry with the flags `V|U`: Valid set and R, W, X all clear, an internal entry in the
sense of the data model.  It is a target of `uvmunmap(exT, 0, 1, 0)`, and the call does
not panic. -/
theorem uvmunmap_user_entry_counterexample :
    FreeOK exL exU [0x87ffd000] ∧ WFT exU.mem exT [0x87ffd000] ∧
    pteValid (pteAt exL exU exT 0) ∧
    pteAt exL exU exT 0 &&& (PTE_R ||| PTE_W ||| PTE_X) = 0 ∧
    PTE_FLAGS (pteAt exL exU exT 0) = PTE_V ||| PTE_U ∧
    (∃ s', uvmunmap exL exU exT 0 1 0 = .ok s') ∧
    ¬ ∃ w, uvmunmap exL exU exT 0 1 0 = .panic w := by
  have h : uvmunmap exL exU exT 0 1 0 = .ok ((uvmunmap exL exU exT 0 1 0).stateOf exU) :=
    outcome_of_some exU (by decide)
  refine ⟨by decide, exMap_wft PTE_U (by decide) _ (by decide) (by decide), by decide,
    by decide, by decide, ⟨_, h⟩, ?_⟩
  rintro ⟨w, hw⟩
  rw [h] at hw
  cases hw

/-- C14, witness: the two pages of the example table `exG` are unmapped and freed; a
second `uvmunmap` of the same range panics with "not mapped". -/
theorem uvmunmap_twice_witness :
    FreeOK exL exG [0x87ffb000, 0x87ffa000] ∧
    ∃ s', uvmunmap exL exG exT 0 2 1 = .ok s' ∧
      uvmunmap exL s' exT 0 2 0 = .panic .uvmunmapNotMapped := by
  have h1 : uvmunmap exL exG exT 0 2 1 = .ok ((uvmunmap exL exG exT 0 2 1).stateOf exG) :=
    outcome_of_some exG (by decide)
  have e0 : PTE2PA (pteAt exL exG exT (0 + 0 * PGSIZE)) = 0x87fff000 := by decide
  have e1 : PTE2PA (pteAt exL exG exT (0 + 1 * PGSIZE)) = 0x87ffc000 := by decide
  refine ⟨by decide, _, h1, (uvmunmap_twice exL exG exT 0 2 1 [0x87ffb000, 0x87ffa000]
    exL_sane (by decide) exG_facts.1 (by decide) (fun _ u hu _ => ?_)).1 _ 0 (by decide) h1⟩
  have : u = 0 ∨ u = 1 := by omega
  rcases this with rfl | rfl
  · rw [e0]
    exact ⟨by decide, by decide, exG_facts.2 _ (by simp), fun v hv _ => absurd hv (by omega)⟩
  · rw [e1]
    refine ⟨by decide, by decide, exG_facts.2 _ (by simp), fun v hv _ => ?_⟩
    have : v = 0 := by omega
    subst this
    rw [e0]
    decide

/-- C14, counterexample: `va = 0` is page-aligned and `npages = 2^52 >= 1`, but
`npages * PGSIZE` wraps around to 0, so the loop of `uvmunmap(exT, 0, 2^52, 0)` does not
run: the call completes without panic and leaves the state `exS3` as it is, and the second
call on the same range, which is the same call in the same state, does not panic
either. -/
theorem uvmunmap_wrap_counterexample :
    FreeOK exL exS3 [0x87fff000, 0x87ffe000, 0x87ffd000] ∧
    WFT exS3.mem exT [0x87fff000, 0x87ffe000, 0x87ffd000] ∧
    (0 : Nat) % PGSIZE = 0 ∧ 1 ≤ 2 ^ 52 ∧
    uvmunmap exL exS3 exT 0 (2 ^ 52) 0 = .ok exS3 ∧
    ¬ ∃ w, uvmunmap exL exS3 exT 0 (2 ^ 52) 0 = .panic w := by
  have h : uvmunmap exL exS3 exT 0 (2 ^ 52) 0 = .ok exS3 := by
    unfold uvmunmap
    rw [if_neg (by decide)]
    exact uvmunmap_loop_stop exL _ exS3 exT 0 _ 0 (by decide)
  refine ⟨by decide, (zero_root (by decide) (by decide) (by decide) (by decide) exS3_root).1,
    by decide, by decide, h, ?_⟩
  rintro ⟨w, hw⟩
  rw [h] at hw
  cases hw

/-- C18, witness: `uvmfree` of the example table `exC2` of two pages: the root, the two
page-table pages and the two data frames are free afterwards, the root on top. -/
theorem uvmfree_all_witness :
    FreeOK exL exC2 [0x87ffa000] ∧
    leafFrames exL exC2 0x87fff000 0 (PGROUNDUP 8192 / PGSIZE) = [0x87ffe000, 0x87ffb000] ∧
    ∃ s', uvmfree exL (0 + 3) exC2 0x87fff000 8192 = .ok s' ∧
      FreeOK exL s' (0x87fff000 :: lowerPages exC2.mem 0x87fff000 ++
        ([0x87ffb000, 0x87ffe000] ++ [0x87ffa000])) ∧
      s'.freelist = 0x87fff000 := by
  have e : leafFrames exL exC2 0x87fff000 0 (PGROUNDUP 8192 / PGSIZE) =
      [0x87ffe000, 0x87ffb000] := by decide
  obtain ⟨s', h1, h2, _, _, h3⟩ := uvmfree_all exL exC2 0x87fff000 8192 0 [0x87ffa000] exL_sane
    (by decide) exC2_facts.1 exC2_good (by decide)
    (fun a ha h2 => by
      have e8 : PGROUNDUP 8192 = 8192 := by decide
      unfold PGSIZE at ha
      have : a = 0 ∨ a = 4096 := by omega
      rcases this with rfl | rfl
      · exact ⟨570423327, by decide, by decide⟩
      · exact ⟨570420255, by decide, by decide⟩)
    (fun i j k hi hj hk hnt => by
      rw [exC2_facts.2.2.2 i j k hi hj hk (fun u hu hc =>
        hnt (0 + u * 4096) (by unfold PGSIZE; omega) (by
          have e8 : PGROUNDUP 8192 = 8192 := by decide
          omega) hc)]
      exact not_pteValid_zero)
    ⟨by decide, fun d hd => by
      rw [e] at hd
      refine ⟨?_, ?_, exC2_facts.2.2.1 d hd⟩
      · rcases List.mem_cons.mp hd with rfl | hd
        · decide
        · rw [List.mem_singleton] at hd; subst hd; decide
      · rcases List.mem_cons.mp hd with rfl | hd
        · decide
        · rw [List.mem_singleton] at hd; subst hd; decide⟩
  rw [e] at h2
  exact ⟨by decide, e, s', h1, h2, h3⟩

/-- C19, witness: the example table `exC2` still has its two leaves; `freewalk` panics
with "freewalk: leaf". -/
theorem freewalk_phases_witness :
    FreeOK exL exC2 [0x87ffa000] ∧ isLeaf (ent exC2.mem 0x87fff000 0 0 0) ∧
    freewalk exL (0 + 3) exC2 0x87fff000 = .panic .freewalkLeaf :=
  ⟨by decide, by decide,
    (freewalk_phases exL exC2 0x87fff000 0 [0x87ffa000] exL_sane (by decide) exC2_facts.1
      exC2_good exC2_depth).2.1 ⟨0, 0, 0, by decide, by decide, by decide, by decide⟩⟩

/-- C20, witness: `kvm_free_kernelpgtbl` of the example table `exC2`, which has two
leaves: the call returns, the root is the new head of the free list, and the data frame
`0x87ffe000` of page 0 is as it was. -/
theorem kvm_free_tables_only_witness :
    FreeOK exL exC2 [0x87ffa000] ∧ isLeaf (ent exC2.mem 0x87fff000 0 0 0) ∧
    PTE2PA (ent exC2.mem 0x87fff000 0 0 0) = 0x87ffe000 ∧
    ∃ s', kvm_free_kernelpgtbl exL (0 + 3) exC2 0x87fff000 = .ok s' ∧
      FreeOK exL s' (0x87fff000 :: lowerPages exC2.mem 0x87fff000 ++ [0x87ffa000]) ∧
      0x87ffe000 ∉ 0x87fff000 :: lowerPages exC2.mem 0x87fff000 ++ [0x87ffa000] ∧
      ∀ x, 0x87ffe000 ≤ x → x < 0x87ffe000 + 4096 → s'.mem x = exC2.mem x := by
  have e : PTE2PA (ent exC2.mem 0x87fff000 0 0 0) = 0x87ffe000 := by decide
  obtain ⟨s', h1, h2, _, _, _, h3⟩ := kvm_free_tables_only exL exC2 0x87fff000 0 [0x87ffa000]
    exL_sane (by decide) exC2_facts.1 exC2_good exC2_depth
  have h4 := h3 0 0 0 (by decide) (by decide) (by decide) (by decide)
    (by rw [e]; exact exC2_facts.2.2.1 _ (by simp))
  rw [e] at h4
  exact ⟨by decide, by decide, e, s', h1, h2, h4.1 (by decide), h4.2⟩

/-! ## The allocator: order of reuse, `kalloc`, the check of `kfree` -/

theorem kfree_final_eq (L : MemLayout) (s : KState) (pa : Nat) :
    kfree_final L s pa = (kfree L s pa).stateOf s := by
  unfold kfree_final kfree
  by_cases h : pa % PGSIZE ≠ 0 ∨ pa < L.kend ∨ pa ≥ L.PHYSTOP
  · rw [if_pos h, if_pos h]; rfl
  · rw [if_neg h, if_neg h]; rfl

theorem kfree_panic_iff (L : MemLayout) (s : KState) (pa : Nat) :
    (∃ w, kfree L s pa = .panic w) ↔ (pa % PGSIZE ≠ 0 ∨ pa < L.kend ∨ pa ≥ L.PHYSTOP) := by
  unfold kfree
  by_cases h : pa % PGSIZE ≠ 0 ∨ pa < L.kend ∨ pa ≥ L.PHYSTOP
  · rw [if_pos h]; exact ⟨fun _ => h, fun _ => ⟨_, rfl⟩⟩
  · rw [if_neg h]
    exact ⟨fun ⟨w, hw⟩ => (by cases hw), fun h' => absurd h' h⟩

/-- C25: allocator LIFO order.  For a free list with the frames `F` and two distinct
frames `A` and `B` that `kfree` accepts and that are not in `F`, `kfree(A)` and then
`kfree(B)` return, the next `kalloc()` returns `B`, the one after it returns `A`, and the
free list is then the list `F` again, with the head it had at the start. -/
theorem kalloc_lifo (L : MemLayout) (s : KState) (F : List Nat) (A B : Nat) (hL : L.Sane)
    (hfo : FreeOK L s F) (hA : goodFrame L A) (hB : goodFrame L B) (hne : A ≠ B)
    (hAF : A ∉ F) (hBF : B ∉ F) :
    ∃ s1 s2, kfree L s A = .ok s1 ∧ kfree L s1 B = .ok s2 ∧
      (kalloc s2).1 = B ∧ (kalloc (kalloc s2).2).1 = A ∧
      FreeOK L (kalloc (kalloc s2).2).2 F ∧ (kalloc (kalloc s2).2).2.freelist = s.freelist := by
  obtain ⟨h1, hfo1⟩ := kfree_ok hL hfo hA hAF
  have hB1 : B ∉ A :: F := by
    intro h
    rcases List.mem_cons.mp h with h | h
    · exact hne h.symm
    · exact hBF h
  obtain ⟨h2, hfo2⟩ := kfree_ok hL hfo1 hB hB1
  obtain ⟨k1, _, hfo3⟩ := kalloc_cons hfo2
  refine ⟨_, _, h1, h2, ?_, ?_⟩
  · rw [k1]
  · rw [k1]
    obtain ⟨k2, _, hfo4⟩ := kalloc_cons hfo3
    rw [k2]
    refine ⟨rfl, hfo4, ?_⟩
    have hlt := FreeList_head_lt hL hfo
    have hAal := goodFrame_al hA
    have hBal := goodFrame_al hB
    show read64 (memset (write64 (memset (write64 (memset s.mem A 1 PGSIZE) A s.freelist)
      B 1 PGSIZE) B A) B 5 PGSIZE) A = s.freelist
    have e : read64 (memset (write64 (memset (write64 (memset s.mem A 1 PGSIZE) A s.freelist)
        B 1 PGSIZE) B A) B 5 PGSIZE) A = read64 (write64 (memset s.mem A 1 PGSIZE) A s.freelist) A := by
      refine read64_congr fun x hx1 hx2 => ?_
      have hd : ¬ (B ≤ x ∧ x < B + 4096) :=
        frames_disjoint hAal hBal hne ⟨hx1, by omega⟩
      rw [memset_outside _ _ _ _ _ (by unfold PGSIZE; omega),
        write64_outside _ _ _ _ (by omega),
        memset_outside _ _ _ _ _ (by unfold PGSIZE; omega)]
    rw [e, read64_write64_same, Nat.mod_eq_of_lt hlt]

/-- C26: `kalloc` pops or reports exhaustion.  With an empty free list `kalloc()` returns
0 and the state is unchanged; with the free list `f :: F1` it returns the head `f`, the
free list becomes the tail `F1` (same frames in the same order), every one of the 4096
bytes of the returned frame is the junk byte `0x05`, and no byte outside the frame
changes. -/
theorem kalloc_pop (L : MemLayout) (s : KState) (F : List Nat) (hfo : FreeOK L s F) :
    (F = [] → kalloc s = (0, s)) ∧
    (∀ f F1, F = f :: F1 →
      (kalloc s).1 = f ∧ f ≠ 0 ∧ FreeOK L (kalloc s).2 F1 ∧ F1.length + 1 = F.length ∧
      (∀ x, f ≤ x → x < f + PGSIZE → (kalloc s).2.mem x = 5) ∧
      (∀ x, ¬ (f ≤ x ∧ x < f + PGSIZE) → (kalloc s).2.mem x = s.mem x)) := by
  refine ⟨fun h => ?_, fun f F1 h => ?_⟩
  · subst h; exact kalloc_nil hfo
  · subst h
    obtain ⟨k, h0, hfo1⟩ := kalloc_cons hfo
    rw [k]
    refine ⟨rfl, h0, hfo1, by simp, fun x h1 h2 => ?_, fun x hx => ?_⟩
    · show memset s.mem f 5 PGSIZE x = 5
      rw [memset_inside _ _ _ _ _ h1 h2]
    · show memset s.mem f 5 PGSIZE x = s.mem x
      exact memset_outside _ _ _ _ _ (by omega)

/-- C27: the validity check of `kfree`.  `kfree(pa)` panics if and only if `pa` is not a
multiple of 4096, or `pa < end`, or `pa >= PHYSTOP`.  When it panics it stops in the state
of the call, so the free list is unchanged; otherwise it returns, `pa` is the new head of
the free list and its `next` field holds the previous head, so that the free list is
`pa :: F` when it was `F` (for `pa` not already in `F`). -/
theorem kfree_check (L : MemLayout) (s : KState) (F : List Nat) (pa : Nat) (hL : L.Sane)
    (hfo : FreeOK L s F) :
    ((∃ w, kfree L s pa = .panic w) ↔ (pa % 4096 ≠ 0 ∨ pa < L.kend ∨ L.PHYSTOP ≤ pa)) ∧
    ((∃ w, kfree L s pa = .panic w) →
      kfree_final L s pa = s ∧ FreeOK L (kfree_final L s pa) F) ∧
    (¬ (pa % 4096 ≠ 0 ∨ pa < L.kend ∨ L.PHYSTOP ≤ pa) →
      kfree L s pa = .ok (kfree_final L s pa) ∧ (kfree_final L s pa).freelist = pa ∧
      read64 (kfree_final L s pa).mem pa = s.freelist ∧
      (pa ∉ F → FreeOK L (kfree_final L s pa) (pa :: F))) := by
  have hiff := kfree_panic_iff L s pa
  refine ⟨hiff, fun hp => ?_, fun hn => ?_⟩
  · have hc := hiff.mp hp
    have e : kfree_final L s pa = s := by unfold kfree_final; rw [if_pos hc]
    rw [e]; exact ⟨rfl, hfo⟩
  · have hn' : ¬ (pa % PGSIZE ≠ 0 ∨ pa < L.kend ∨ pa ≥ L.PHYSTOP) := hn
    have e : kfree_final L s pa =
        { mem := write64 (memset s.mem pa 1 PGSIZE) pa s.freelist, freelist := pa } := by
      unfold kfree_final; rw [if_neg hn']
    have ek : kfree L s pa =
        .ok { mem := write64 (memset s.mem pa 1 PGSIZE) pa s.freelist, freelist := pa } := by
      unfold kfree; rw [if_neg hn']
    rw [e]
    refine ⟨ek, rfl, ?_, fun hnF => ?_⟩
    · show read64 (write64 (memset s.mem pa 1 PGSIZE) pa s.freelist) pa = s.freelist
      rw [read64_write64_same, Nat.mod_eq_of_lt (FreeList_head_lt hL hfo)]
    · have hg : goodFrame L pa := by
        unfold goodFrame PGSIZE
        omega
      exact (kfree_ok hL hfo hg hnF).2

/-- C28: `walk` without allocation is read-only and repeatable.  For `va < MAXVA`,
`walk(T, va, 0)` returns a slot address `p` (0 when a table on the path is missing) in the
unchanged state: the memory, with every page-table entry and every frame, and the free
list are those of the call.  A second call therefore returns the same `p`. -/
theorem walk_readonly (L : MemLayout) (s : KState) (T va : Nat) (hva : va < L.MAXVA) :
    ∃ p, walk L s T va 0 = .ok (p, s) ∧
      ((walk L s T va 0).bind fun r => walk L r.2 T va 0) = .ok (p, s) := by
  have h : walk L s T va 0 = .ok ((walk_loop 2 s T va 0).1, s) := by
    rw [walk_ok hva, walk_loop_lookup]
  exact ⟨_, h, by rw [h]; exact h⟩

/-- C25, witness: the frames `0x87ffd000` and `0x87ffc000` are freed onto the two-frame
free list of the example state and allocated again. -/
theorem kalloc_lifo_witness :
    FreeOK exL exS2 [0x87fff000, 0x87ffe000] ∧
    ∃ s1 s2, kfree exL exS2 0x87ffd000 = .ok s1 ∧ kfree exL s1 0x87ffc000 = .ok s2 ∧
      (kalloc s2).1 = 0x87ffc000 ∧ (kalloc (kalloc s2).2).1 = 0x87ffd000 ∧
      FreeOK exL (kalloc (kalloc s2).2).2 [0x87fff000, 0x87ffe000] ∧
      (kalloc (kalloc s2).2).2.freelist = exS2.freelist :=
  ⟨by decide, kalloc_lifo exL exS2 [0x87fff000, 0x87ffe000] 0x87ffd000 0x87ffc000 exL_sane
    (by decide) (by decide) (by decide) (by decide) (by decide) (by decide)⟩

/-- C26, witness: `kalloc` on the two-frame free list of the example state. -/
theorem kalloc_pop_witness :
    FreeOK exL exS2 [0x87fff000, 0x87ffe000] ∧ (kalloc exS2).1 = 0x87fff000 ∧
    FreeOK exL (kalloc exS2).2 [0x87ffe000] ∧
    (∀ x, 0x87fff000 ≤ x → x < 0x87fff000 + PGSIZE → (kalloc exS2).2.mem x = 5) :=
  have h := (kalloc_pop exL exS2 [0x87fff000, 0x87ffe000] (by decide)).2
    0x87fff000 [0x87ffe000] rfl
  ⟨by decide, h.1, h.2.2.1, h.2.2.2.2.1⟩

/-- C27, witness: `kfree` of the misaligned address `0x87ffd001` panics and `kfree` of the
frame `0x87ffd000` pushes it onto the free list of the example state. -/
theorem kfree_check_witness :
    FreeOK exL exS2 [0x87fff000, 0x87ffe000] ∧
    (∃ w, kfree exL exS2 0x87ffd001 = .panic w) ∧ kfree_final exL exS2 0x87ffd001 = exS2 ∧
    FreeOK exL (kfree_final exL exS2 0x87ffd000) [0x87ffd000, 0x87fff000, 0x87ffe000] :=
  have h1 := kfree_check exL exS2 [0x87fff000, 0x87ffe000] 0x87ffd001 exL_sane (by decide)
  have h2 := kfree_check exL exS2 [0x87fff000, 0x87ffe000] 0x87ffd000 exL_sane (by decide)
  have hp : ∃ w, kfree exL exS2 0x87ffd001 = .panic w := h1.1.mpr (by decide)
  ⟨by decide, hp, (h1.2.1 hp).1, (h2.2.2 (by decide)).2.2.2 (by decide)⟩

/-- C28, witness: the lookup of page 0 in the example table with two mapped pages. -/
theorem walk_readonly_witness :
    (0 : Nat) < exL.MAXVA ∧ ∃ p, walk exL exG exT 0 0 = .ok (p, exG) ∧
      ((walk exL exG exT 0 0).bind fun r => walk exL r.2 exT 0 0) = .ok (p, exG) :=
  ⟨by decide, walk_readonly exL exG exT 0 (by decide)⟩

/-! ## Density -/

theorem bind_eq_ok {α β : Type} {x : Outcome α} {f : α → Outcome β} {v : β}
    (h : x.bind f = .ok v) : ∃ u, x = .ok u ∧ f u = .ok v := by
  cases x with
  | ok u => exact ⟨u, rfl, h⟩
  | panic w => cases h
  | diverge => cases h

theorem mappages_high (L : MemLayout) (s : KState) (T a pa perm : Nat)
    (ha : a % 4096 = 0) (hlt : a < 2 ^ 64) (h : L.MAXVA ≤ a) :
    mappages L s T a PGSIZE pa perm = .panic .walk := by
  unfold mappages
  rw [if_neg (by decide)]
  exact mappages_loop_high L (L.MAXVA / PGSIZE + 1) s T _ _ pa perm
    (by rw [PGROUNDDOWN_aligned_eq ha hlt]; exact h)

/-- The loop of `uvmalloc` cannot reach a new size above `MAXVA`: every value it returns
for such a size is 0. -/
theorem uvmalloc_loop_beyond {L : MemLayout} (hL : L.Sane) {T lo newsz : Nat}
    (hnew : L.MAXVA < newsz) :
    ∀ (fuel : Nat) (s : KState) (a : Nat), a % 4096 = 0 → a ≤ L.MAXVA →
      ∀ r s', uvmalloc_loop L fuel s T a lo newsz = .ok (r, s') → r = 0
  | 0, _, _, _, _, _, _, h => by cases h
  | fuel + 1, s, a, ha, hle, r, s', h => by
    have hM := hL.maxva_le
    have hMa := hL.maxva_al
    by_cases hk : s.freelist = 0
    · have hk0 : kalloc s = (0, s) := by
        unfold kalloc
        simp only [hk, ne_eq, not_true_eq_false, if_false]
      rw [uvmalloc_loop_nil L fuel s T a lo newsz (by omega) hk0] at h
      obtain ⟨d, _, hd⟩ := bind_eq_ok h
      injection hd with hd
      exact (congrArg Prod.fst hd).symm
    · have hk1 : kalloc s = (s.freelist, ⟨memset s.mem s.freelist 5 PGSIZE,
          read64 s.mem s.freelist⟩) := by
        unfold kalloc
        simp only [ne_eq, hk, not_false_eq_true, if_true]
      rw [uvmalloc_loop_cons L fuel s _ _ T a lo newsz _ (by omega) hk1 hk] at h
      obtain ⟨mp, hmp, hrest⟩ := bind_eq_ok h
      by_cases hmp1 : mp.1 ≠ 0
      · rw [if_pos hmp1] at hrest
        obtain ⟨s4, _, h4⟩ := bind_eq_ok hrest
        obtain ⟨d, _, hd⟩ := bind_eq_ok h4
        injection hd with hd
        exact (congrArg Prod.fst hd).symm
      · rw [if_neg hmp1] at hrest
        by_cases hend : a = L.MAXVA
        · rw [mappages_high L _ T a _ _ ha (by omega) (by omega)] at hmp
          cases hmp
        · have e : (a + PGSIZE) % 2 ^ 64 = a + 4096 := by
            unfold PGSIZE; omega
          rw [e] at hrest
          exact uvmalloc_loop_beyond hL hnew fuel mp.2 (a + 4096) (by omega) (by omega) r s'
            hrest

theorem dense_le {L : MemLayout} (hL : L.Sane) {s : KState} {T sz : Nat}
    (hd : Dense L s T sz) : sz ≤ L.MAXVA := by
  by_contra hc
  obtain ⟨e, he⟩ := (hd L.MAXVA hL.maxva_al).1 (by omega)
  rw [leafAt_high (Nat.le_refl _)] at he
  cases he

/-- A successful `uvmalloc` on a table that is dense for the old size leaves it dense for
the size it returns. -/
theorem dense_grow {L : MemLayout} (hL : L.Sane) {s s' : KState} {T sz n r : Nat}
    {F : List Nat} (hfo : FreeOK L s F) (hw : WFT s.mem T F) (hd : Dense L s T sz)
    (hres : uvmalloc L s T sz n = .ok (r, s')) (hr : r ≠ 0 ∨ n = 0) : Dense L s' T r := by
  have hM := hL.maxva_le
  have hMa := hL.maxva_al
  have hsz := dense_le hL hd
  by_cases hlt : n < sz
  · unfold uvmalloc at hres
    rw [if_pos hlt] at hres
    injection hres with hres
    have e1 : sz = r := congrArg Prod.fst hres
    have e2 : s = s' := congrArg Prod.snd hres
    subst e1 e2
    exact hd
  have hlo := PGROUNDUP_facts sz (by omega)
  by_cases hbig : L.MAXVA < n
  · exfalso
    unfold uvmalloc at hres
    rw [if_neg hlt] at hres
    have := uvmalloc_loop_beyond hL hbig _ s (PGROUNDUP sz) hlo.1 (by omega) r s' hres
    omega
  have hun : ∀ a, a % PGSIZE = 0 → PGROUNDUP sz ≤ a → a < n → leafAt L s T a = none :=
    fun a ha h1 _ => (hd a ha).2 (by omega)
  rcases uvmalloc_spec hL hfo hw (by omega) (by omega) hun with
    ⟨s1, D, Pt, F', hres1, hok, _⟩ | ⟨s1, Pt, F', hres1, hlen, _⟩
  · rw [hres] at hres1
    injection hres1 with hres1
    have e1 : r = n := congrArg Prod.fst hres1
    have e2 : s' = s1 := congrArg Prod.snd hres1
    subst e1 e2
    have hb : PGROUNDUP sz + (r + 4095 - PGROUNDUP sz) / 4096 * 4096 ≤ L.MAXVA := by omega
    obtain ⟨hp1, hp2⟩ := entUpd_pteAt hL hw hok.wft hok.upd hlo.1 hb
    intro a ha
    unfold PGSIZE at ha
    rw [leafAt_eq]
    constructor
    · intro har
      by_cases hold : a < sz
      · obtain ⟨e, he⟩ := (hd a ha).1 hold
        rw [hp2 a (fun k hk => by
          rw [PGROUNDDOWN_aligned_eq ha (by omega)]; omega)]
        rw [leafAt_eq] at he
        exact ⟨e, he⟩
      · have := hp1 ((a - PGROUNDUP sz) / 4096) (by omega)
        rw [show PGROUNDUP sz + (a - PGROUNDUP sz) / 4096 * 4096 = a by omega] at this
        rw [this, if_pos (pteValid_or_V _)]
        exact ⟨_, rfl⟩
    · intro har
      by_cases hva : a < L.MAXVA
      · rw [hp2 a (fun k hk => by
          rw [PGROUNDDOWN_aligned_eq ha (by omega)]; omega)]
        have := (hd a ha).2 (by omega)
        rw [leafAt_eq] at this
        exact this
      · rw [pteAt_high (by omega), if_neg not_pteValid_zero]
  · rw [hres] at hres1
    injection hres1 with hres1
    have e1 : r = 0 := congrArg Prod.fst hres1
    rcases hr with hr | hr
    · exact absurd e1 hr
    · subst hr
      omega

/-- `uvmdealloc` on a table that is dense for the old size, whose pages above the new size
are leaves with exclusively owned allocator frames, returns and leaves the table dense for
the size it returns. -/
theorem dense_shrink {L : MemLayout} (hL : L.Sane) {s : KState} {T sz n : Nat}
    {F : List Nat} (hfo : FreeOK L s F) (hw : WFT s.mem T F) (hd : Dense L s T sz)
    (hleaf : ∀ a e, leafAt L s T a = some e → isLeaf e)
    (hnd : (leafFrames L s T (PGROUNDUP n) ((PGROUNDUP sz - PGROUNDUP n) / PGSIZE)).Nodup)
    (hgood : ∀ d ∈ leafFrames L s T (PGROUNDUP n) ((PGROUNDUP sz - PGROUNDUP n) / PGSIZE),
      goodFrame L d ∧ d ∉ F ∧ ¬ IsTablePage s.mem T d) :
    ∃ r s', uvmdealloc L s T sz n = .ok (r, s') ∧ Dense L s' T r := by
  have hM := hL.maxva_le
  have hMa := hL.maxva_al
  have hsz := dense_le hL hd
  by_cases hle : sz ≤ n
  · exact ⟨sz, s, uvmdealloc_noop L s T sz n hle, hd⟩
  have hlo := PGROUNDUP_facts n (by omega)
  have hhi := PGROUNDUP_facts sz (by omega)
  by_cases h2 : PGROUNDUP n < PGROUNDUP sz
  · unfold PGSIZE at hnd hgood
    have hb : PGROUNDUP n + (PGROUNDUP sz - PGROUNDUP n) / 4096 * 4096 ≤ L.MAXVA := by omega
    have hfr := leafFrames_eq hw ((PGROUNDUP sz - PGROUNDUP n) / 4096) (PGROUNDUP n) hb
    rw [hfr] at hnd hgood
    obtain ⟨s', hres, hfo', hw', hpg, hupd, _⟩ := uvmdealloc_spec hL hfo hw (by omega) hb
      (fun u hu => by
        obtain ⟨e, he⟩ := (hd (PGROUNDUP n + u * 4096) (by unfold PGSIZE; omega)).1 (by omega)
        rw [(leafAt_some hw he).2.1]
        exact isLeaf_flags (hleaf _ _ he)) ⟨hnd, hgood⟩
    obtain ⟨hp1, hp2⟩ := entUpd_pteAt hL hw hw' hupd hlo.1 hb
    refine ⟨n, s', hres, fun a ha => ?_⟩
    unfold PGSIZE at ha
    rw [leafAt_eq]
    constructor
    · intro han
      obtain ⟨e, he⟩ := (hd a ha).1 (by omega)
      rw [hp2 a (fun k hk => by
        rw [PGROUNDDOWN_aligned_eq ha (by omega)]; omega)]
      rw [leafAt_eq] at he
      exact ⟨e, he⟩
    · intro han
      by_cases hin : a < PGROUNDUP sz
      · have := hp1 ((a - PGROUNDUP n) / 4096) (by omega)
        rw [show PGROUNDUP n + (a - PGROUNDUP n) / 4096 * 4096 = a by omega] at this
        rw [this, if_neg not_pteValid_zero]
      · by_cases hva : a < L.MAXVA
        · rw [hp2 a (fun k hk => by
            rw [PGROUNDDOWN_aligned_eq ha (by omega)]; omega)]
          have := (hd a ha).2 (by omega)
          rw [leafAt_eq] at this
          exact this
        · rw [pteAt_high (by omega), if_neg not_pteValid_zero]
  · refine ⟨n, s, uvmdealloc_same_page L s T sz n (by omega) h2, fun a ha => ?_⟩
    unfold PGSIZE at ha
    exact ⟨fun han => (hd a ha).1 (by omega), fun han => (hd a ha).2 (by omega)⟩

/-- C23: density is preserved by the size-changing operations.  Let the well-formed
table `T` be dense for size `sz`.  If `uvmalloc(T, sz, n)` succeeds (it returns a
non-zero size, or `n` is 0), `T` is dense for the size it returns.  If moreover the valid
level-0 entries of `T` are leaves and the frames of the pages that `uvmdealloc(T, sz, n)`
removes are exclusively owned allocator frames (distinct, accepted by `kfree`, not free
and no page-table pages), `uvmdealloc(T, sz, n)` returns and `T` is dense for the size it
returns. -/
theorem dense_preserved (L : MemLayout) (s : KState) (T sz n : Nat) (F : List Nat)
    (hL : L.Sane) (hfo : FreeOK L s F) (hw : WFT s.mem T F) (hd : Dense L s T sz) :
    (∀ r s', uvmalloc L s T sz n = .ok (r, s') → (r ≠ 0 ∨ n = 0) → Dense L s' T r) ∧
    ((∀ a e, leafAt L s T a = some e → isLeaf e) →
      (leafFrames L s T (PGROUNDUP n) ((PGROUNDUP sz - PGROUNDUP n) / PGSIZE)).Nodup →
      (∀ d ∈ leafFrames L s T (PGROUNDUP n) ((PGROUNDUP sz - PGROUNDUP n) / PGSIZE),
        goodFrame L d ∧ d ∉ F ∧ ¬ IsTablePage s.mem T d) →
      ∃ r s', uvmdealloc L s T sz n = .ok (r, s') ∧ Dense L s' T r) :=
  ⟨fun _ _ hres hr => dense_grow hL hfo hw hd hres hr,
    fun hleaf hnd hgood => dense_shrink hL hfo hw hd hleaf hnd hgood⟩

theorem exG_dense : Dense exL exG exT 8192 :=
  have hg : uvmalloc exL exS6 exT 0 8192 = .ok (8192, exG) := outcome_of_val exS6 (by decide)
  @dense_grow exL exL_sane exS6 exG exT 0 8192 8192 exF6 (by decide)
    (zero_root (by decide) (by decide) (by decide) (by decide) exS6_root).1
    (fun a _ => ⟨fun h => absurd h (Nat.not_lt_zero a), fun _ =>
      @zero_root_leafAt exL exS6 exT exF6 (by decide) (by decide) (by decide) (by decide)
        exS6_root a⟩)
    hg (Or.inl (by decide))

/-- C23, witness: the example table with two mapped pages is dense for 8192; growing it
to 12288 or shrinking it to 4096 keeps it dense. -/
theorem dense_preserved_witness :
    FreeOK exL exG [0x87ffb000, 0x87ffa000] ∧ Dense exL exG exT 8192 ∧
    (∀ r s', uvmalloc exL exG exT 8192 12288 = .ok (r, s') → (r ≠ 0 ∨ 12288 = 0) →
      Dense exL s' exT r) ∧
    ((∀ a e, leafAt exL exG exT a = some e → isLeaf e) →
      (leafFrames exL exG exT (PGROUNDUP 4096)
        ((PGROUNDUP 8192 - PGROUNDUP 4096) / PGSIZE)).Nodup →
      (∀ d ∈ leafFrames exL exG exT (PGROUNDUP 4096)
          ((PGROUNDUP 8192 - PGROUNDUP 4096) / PGSIZE),
        goodFrame exL d ∧ d ∉ [0x87ffb000, 0x87ffa000] ∧ ¬ IsTablePage exG.mem exT d) →
      ∃ r s', uvmdealloc exL exG exT 8192 4096 = .ok (r, s') ∧ Dense exL s' exT r) :=
  ⟨by decide, exG_dense,
    (dense_preserved exL exG exT 8192 12288 [0x87ffb000, 0x87ffa000] exL_sane (by decide)
      exG_facts.1 exG_dense).1,
    (dense_preserved exL exG exT 8192 4096 [0x87ffb000, 0x87ffa000] exL_sane (by decide)
      exG_facts.1 exG_dense).2⟩

/-! ## `kvmcopymappings` -/

set_option maxRecDepth 100000 in
/-- Clearing the User bit of the ten flag bits of a valid entry. -/
theorem strip_facts : ∀ f, f < 1024 → f % 2 = 1 →
    ((f &&& (2 ^ 64 - 1 - PTE_U)) ||| PTE_V = f &&& (2 ^ 64 - 1 - PTE_U)) ∧
    ((f &&& (2 ^ 64 - 1 - PTE_U)) &&& PTE_U = 0) ∧
    (f &&& (PTE_R ||| PTE_W ||| PTE_X) ≠ 0 →
      (f &&& (2 ^ 64 - 1 - PTE_U)) ||| PTE_V ≠ PTE_V) ∧
    (f &&& (2 ^ 64 - 1 - PTE_U)) &&& (PTE_R ||| PTE_W ||| PTE_X) =
      f &&& (PTE_R ||| PTE_W ||| PTE_X) := by
  decide

theorem strip_lt (e : Nat) : PTE_FLAGS e &&& (2 ^ 64 - 1 - PTE_U) < 1024 :=
  Nat.lt_of_le_of_lt Nat.and_le_left (flags_lt e)

theorem flags_odd {e : Nat} (h : pteValid e) : PTE_FLAGS e % 2 = 1 := by
  rw [PTE_FLAGS_eq]; rw [pteValid_iff] at h; omega

theorem flags_rwx (e : Nat) :
    PTE_FLAGS e &&& (PTE_R ||| PTE_W ||| PTE_X) = e &&& (PTE_R ||| PTE_W ||| PTE_X) := by
  unfold PTE_FLAGS
  rw [Nat.and_assoc]
  rfl

/-- The mirror of a valid entry references the same frame and has the same flag bits with
the User bit cleared. -/
theorem mirrorOf_facts {e : Nat} (h : pteValid e) :
    pteValid (mirrorOf e) ∧ PTE2PA (mirrorOf e) = PTE2PA e ∧
      PTE_FLAGS (mirrorOf e) = PTE_FLAGS e &&& (2 ^ 64 - 1 - PTE_U) ∧
      mirrorOf e &&& PTE_U = 0 ∧ mirrorOf e < 2 ^ 64 ∧
      (isLeaf e → PTE_FLAGS (mirrorOf e) ≠ PTE_V) := by
  obtain ⟨h1, h2, h3, _⟩ := strip_facts (PTE_FLAGS e) (flags_lt e) (flags_odd h)
  have hfl : PTE_FLAGS (mirrorOf e) = PTE_FLAGS e &&& (2 ^ 64 - 1 - PTE_U) := by
    unfold mirrorOf
    rw [entry_flags (strip_lt e), h1]
  refine ⟨pteValid_or_V _, ?_, hfl, ?_, pte_val_lt (Nat.lt_trans (strip_lt e) (by decide)),
    fun hl => ?_⟩
  · unfold mirrorOf
    exact entry_pa (PTE2PA_aligned e) (PTE2PA_lt e) (strip_lt e)
  · have e1 : mirrorOf e &&& PTE_U = PTE_FLAGS (mirrorOf e) &&& PTE_U := by
      unfold PTE_FLAGS
      rw [Nat.and_assoc]
      rfl
    rw [e1, hfl, h2]
  · rw [hfl, ← h1]
    exact h3 (by rw [flags_rwx]; exact hl.2)

/-- A step on the destination table leaves the source table as it is. -/
theorem src_keep {L : MemLayout} {s s' : KState} {O N : Nat} {F F' P : List Nat}
    (hfo : FreeOK L s F) (hwN : WFT s.mem N F) (hwO : WFT s.mem O F)
    (hsep : ∀ q, IsTablePage s.mem O q → ¬ IsTablePage s.mem N q)
    (hts : TableStep L N s F s' F' P) :
    (∀ i j k, i < 512 → j < 512 → k < 512 → ent s'.mem O i j k = ent s.mem O i j k) ∧
    (∀ q, IsTablePage s'.mem O q ↔ IsTablePage s.mem O q) ∧ WFT s'.mem O F' ∧
    (∀ q, IsTablePage s.mem O q → ∀ x, q ≤ x → x < q + 4096 → s'.mem x = s.mem x) ∧
    (∀ q, IsTablePage s'.mem O q → ¬ IsTablePage s'.mem N q) := by
  have hPF : ∀ f ∈ P, f ∈ F := fun f hf => by
    rw [hts.split]; exact List.mem_append_left _ hf
  have hF'F : ∀ f ∈ F', f ∈ F := fun f hf => by
    rw [hts.split]; exact List.mem_append_right _ hf
  have hag : ∀ p, IsTablePage s.mem O p → ∀ x, p ≤ x → x < p + 4096 → s'.mem x = s.mem x :=
    fun p hp x hx1 hx2 => frame_not_in hts.foot (WFT_page hwO hp).1 ⟨hx1, hx2⟩
      (fun f hf => ⟨goodFrame_al (hfo.2.2 f (hPF f hf)),
        fun e => (WFT_page hwO hp).2.2.2 (e ▸ hPF f hf)⟩)
      (fun q hq => ⟨(WFT_page hwN hq).1, fun e => hsep p hp (e ▸ hq)⟩)
  obtain ⟨h1, h2⟩ := agree_tables_WFT hwO hag
  refine ⟨(agree_tables hag).2.2, h2, WFT_mono h1 hF'F, hag, fun q hq hc => ?_⟩
  have hq' := (h2 q).mp hq
  rcases (hts.pages q).mp hc with h | h
  · exact hsep q hq' h
  · exact (WFT_page hwO hq').2.2.2 (hPF q h)

theorem kvm_loop_done (L : MemLayout) (fuel : Nat) (s : KState) (O N start i B : Nat)
    (h : ¬ i < B) : kvmcopymappings_loop L (fuel + 1) s O N start i B = .ok (0, s) := by
  rw [kvmcopymappings_loop, if_neg h]

theorem kvm_iter (L : MemLayout) (fuel : Nat) (s : KState) (O N start i B p : Nat)
    (h : i < B) (hwalk : walk L s O i 0 = .ok (p, s)) (hp : p ≠ 0)
    (hv : pteValid (read64 s.mem p)) :
    kvmcopymappings_loop L (fuel + 1) s O N start i B =
      (mappages L s N i PGSIZE (PTE2PA (read64 s.mem p))
        (PTE_FLAGS (read64 s.mem p) &&& (2 ^ 64 - 1 - PTE_U))).bind fun mp =>
          if mp.1 ≠ 0 then kvmcopymappings_err L mp.2 N start i
          else kvmcopymappings_loop L fuel mp.2 O N start ((i + PGSIZE) % 2 ^ 64) B := by
  have hv' : ¬ read64 s.mem p &&& PTE_V = 0 := hv
  rw [kvmcopymappings_loop, if_pos h, hwalk, bind_ok]
  simp only [if_neg hp, if_neg hv']

/-- The iterations of the loop of `kvmcopymappings` that end in a panic of its own. -/
theorem kvm_iter_bad (L : MemLayout) (fuel : Nat) (s : KState) (O N start i B : Nat)
    (h : i < B) :
    (L.MAXVA ≤ i → kvmcopymappings_loop L (fuel + 1) s O N start i B = .panic .walk) ∧
    (i < L.MAXVA → ¬ pteValid (ent s.mem O (PX 2 i) (PX 1 i) (PX 0 i)) →
      kvmcopymappings_loop L (fuel + 1) s O N start i B = .panic .kvmcopymappingsPte ∨
      kvmcopymappings_loop L (fuel + 1) s O N start i B =
        .panic .kvmcopymappingsNotPresent) := by
  refine ⟨fun hh => ?_, fun hlt hv => ?_⟩
  · rw [kvmcopymappings_loop, if_pos h]
    unfold walk
    rw [if_pos hh]
    rfl
  · rw [kvmcopymappings_loop, if_pos h, walk_ok hlt, bind_ok, walk_loop_lookup]
    by_cases ht : pteValid (rootE s.mem O (PX 2 i)) ∧ pteValid (l1E s.mem O (PX 2 i) (PX 1 i))
    · simp only [if_pos ht]
      by_cases h0 : l0page s.mem O (PX 2 i) (PX 1 i) + 8 * PX 0 i = 0
      · left; rw [if_pos h0]
      · right
        rw [if_neg h0]
        rw [ent_of_valid ht.1 ht.2] at hv
        rw [if_pos (by unfold pteValid at hv; simpa using hv)]
    · left
      simp only [if_neg ht, if_true]

/-- The loop of `kvmcopymappings` over `n` pages that are mapped in the source: it mirrors
them and goes on with the next page, or `mappages` returns -1 at one of them and the loop
jumps to `err`, or `mappages` panics at a page that the destination already maps. -/
theorem kvm_upto {L : MemLayout} (hL : L.Sane) {O N start B : Nat} :
    ∀ (n fuel : Nat) (s : KState) (F : List Nat) (a : Nat),
      FreeOK L s F → WFT s.mem N F → WFT s.mem O F →
      (∀ q, IsTablePage s.mem O q → ¬ IsTablePage s.mem N q) →
      a % 4096 = 0 → a + n * 4096 ≤ L.MAXVA → (n = 0 ∨ a + (n - 1) * 4096 < B) →
      (∀ u, u < n → pteValid (ent s.mem O (PX 2 (a + u * 4096)) (PX 1 (a + u * 4096))
        (PX 0 (a + u * 4096)))) →
      (∃ s' P F', kvmcopymappings_loop L (fuel + n) s O N start a B =
          kvmcopymappings_loop L fuel s' O N start (a + n * 4096) B ∧
        TableStep L N s F s' F' P ∧
        EntUpd s.mem s'.mem N a n (fun u => mirrorOf (ent s.mem O (PX 2 (a + u * 4096))
          (PX 1 (a + u * 4096)) (PX 0 (a + u * 4096)))) ∧
        (∀ u, u < n → ¬ pteValid (ent s.mem N (PX 2 (a + u * 4096)) (PX 1 (a + u * 4096))
          (PX 0 (a + u * 4096))))) ∨
      (∃ t s' P, t < n ∧ kvmcopymappings_loop L (fuel + n) s O N start a B =
          kvmcopymappings_err L s' N start (a + t * 4096) ∧
        TableStep L N s F s' [] P ∧
        EntUpd s.mem s'.mem N a t (fun u => mirrorOf (ent s.mem O (PX 2 (a + u * 4096))
          (PX 1 (a + u * 4096)) (PX 0 (a + u * 4096)))) ∧
        (∀ u, u < t → ¬ pteValid (ent s.mem N (PX 2 (a + u * 4096)) (PX 1 (a + u * 4096))
          (PX 0 (a + u * 4096)))) ∧
        ∃ s0 pa perm, mappages L s0 N (a + t * 4096) PGSIZE pa perm = .ok (-1, s')) ∨
      (∃ t, t < n ∧ kvmcopymappings_loop L (fuel + n) s O N start a B =
          .panic .mappagesRemap ∧
        pteValid (ent s.mem N (PX 2 (a + t * 4096)) (PX 1 (a + t * 4096))
          (PX 0 (a + t * 4096))))
  | 0, fuel, s, F, a, hfo, hwN, _, _, _, _, _, _ =>
    Or.inl ⟨s, [], F, by rw [Nat.zero_mul, Nat.add_zero, Nat.add_zero],
      TableStep.refl hfo hwN, entUpd_zero (fun _ _ _ _ _ _ => rfl),
      fun u hu => absurd hu (Nat.not_lt_zero u)⟩
  | n + 1, fuel, s, F, a, hfo, hwN, hwO, hsep, ha, hlt, hB, hsrc => by
    have hM := hL.maxva_le
    have haB : a < B := by
      rcases hB with h | h
      · omega
      · simp only [Nat.add_sub_cancel] at h; omega
    have hsrc0 := hsrc 0 (by omega)
    simp only [Nat.zero_mul, Nat.add_zero] at hsrc0
    obtain ⟨p, hwalk, hp, hrd⟩ := @walk_old L s O a F hwO (by omega) hsrc0
    have hit := kvm_iter L (fuel + n) s O N start a B p haB hwalk hp (by rw [hrd]; exact hsrc0)
    rw [hrd] at hit
    have hfuel : fuel + (n + 1) = fuel + n + 1 := rfl
    rw [hfuel, hit]
    have hval0 : (fun u => mirrorOf (ent s.mem O (PX 2 (a + u * 4096)) (PX 1 (a + u * 4096))
        (PX 0 (a + u * 4096)))) 0 = mirrorOf (ent s.mem O (PX 2 a) (PX 1 a) (PX 0 a)) := by
      simp only [Nat.zero_mul, Nat.add_zero]
    have hidx : ∀ u, a + 4096 + u * 4096 = a + (u + 1) * 4096 := fun u => by omega
    rcases mappages_single hL hfo hwN ha (by omega)
        (Nat.lt_trans (strip_lt (ent s.mem O (PX 2 a) (PX 1 a) (PX 0 a))) (by decide))
        (PTE2PA_lt (ent s.mem O (PX 2 a) (PX 1 a) (PX 0 a))) with
      ⟨s1, P1, F1, hres, hts, _, hupd, hinv⟩ | ⟨s1, P1, hres, hts, _, hent⟩ | ⟨hres, hv⟩
    · rw [hres, bind_ok]
      simp only [ne_eq, not_true_eq_false, if_false]
      rw [show (a + PGSIZE) % 2 ^ 64 = a + 4096 by unfold PGSIZE; omega]
      obtain ⟨hentO, hpgO, hwO1, _, hsep1⟩ := src_keep hfo hwN hwO hsep hts
      have hupd1 : EntUpd s.mem s1.mem N a 1 (fun u => mirrorOf (ent s.mem O
          (PX 2 (a + u * 4096)) (PX 1 (a + u * 4096)) (PX 0 (a + u * 4096)))) :=
        entUpd_val_congr hupd (fun u hu => by
          have : u = 0 := by omega
          subst this
          simp only [Nat.zero_mul, Nat.add_zero]
          rfl)
      have hkeep : ∀ u, ent s1.mem N (PX 2 (a + 4096 + u * 4096)) (PX 1 (a + 4096 + u * 4096))
          (PX 0 (a + 4096 + u * 4096)) = ent s.mem N (PX 2 (a + 4096 + u * 4096))
          (PX 1 (a + 4096 + u * 4096)) (PX 0 (a + 4096 + u * 4096)) ∨ L.MAXVA ≤ a + 4096 + u * 4096 :=
        fun u => by
          by_cases hu : a + 4096 + u * 4096 < L.MAXVA
          · left
            refine hupd.2 _ _ _ (PX_lt _ _) (PX_lt _ _) (PX_lt _ _) (fun v hv hc => ?_)
            have : v = 0 := by omega
            subst this
            simp only [Nat.zero_mul, Nat.add_zero] at hc
            exact idx_ne_succ ha (by omega) ⟨hc.1.symm, hc.2.1.symm, hc.2.2.symm⟩
          · right; omega
      have hsrc1 : ∀ u, u < n → pteValid (ent s1.mem O (PX 2 (a + 4096 + u * 4096))
          (PX 1 (a + 4096 + u * 4096)) (PX 0 (a + 4096 + u * 4096))) := fun u hu => by
        rw [hentO _ _ _ (PX_lt _ _) (PX_lt _ _) (PX_lt _ _), hidx]
        exact hsrc (u + 1) (by omega)
      have hvalc : ∀ u, mirrorOf (ent s1.mem O (PX 2 (a + 4096 + u * 4096))
          (PX 1 (a + 4096 + u * 4096)) (PX 0 (a + 4096 + u * 4096))) =
          (fun u => mirrorOf (ent s.mem O (PX 2 (a + u * 4096)) (PX 1 (a + u * 4096))
            (PX 0 (a + u * 4096)))) (u + 1) := fun u => by
        rw [hentO _ _ _ (PX_lt _ _) (PX_lt _ _) (PX_lt _ _), hidx]
      rcases kvm_upto hL n fuel s1 F1 (a + 4096) hts.free hts.wft hwO1 hsep1 (by omega)
          (by omega) (by
            rcases hB with h | h
            · omega
            · simp only [Nat.add_sub_cancel] at h
              by_cases hn : n = 0
              · left; exact hn
              · right
                rw [show a + 4096 + (n - 1) * 4096 = a + n * 4096 by omega]
                exact h) hsrc1 with
        ⟨s', P', F', hcont, hts', hupd', hinv'⟩ | ⟨t, s', P', ht, hcont, hts', hupd', hinv', hmp⟩ |
        ⟨t, ht, hcont, hv'⟩
      · left
        refine ⟨s', P1 ++ P', F', ?_, hts.trans hts', ?_, fun u hu => ?_⟩
        · rw [hcont, hidx]
        · exact entUpd_cons hupd1 (entUpd_val_congr hupd' (fun u _ => hvalc u)) ha (by omega)
        · cases u with
          | zero => simpa using hinv
          | succ u =>
            have := hinv' u (by omega)
            rcases hkeep u with h | h
            · rw [h, hidx] at this; exact this
            · omega
      · right; left
        refine ⟨t + 1, s', P1 ++ P', by omega, ?_, hts.trans hts', ?_, fun u hu => ?_, ?_⟩
        · rw [hcont, hidx]
        · exact entUpd_cons hupd1 (entUpd_val_congr hupd' (fun u _ => hvalc u)) ha (by omega)
        · cases u with
          | zero => simpa using hinv
          | succ u =>
            have := hinv' u (by omega)
            rcases hkeep u with h | h
            · rw [h, hidx] at this; exact this
            · omega
        · rw [← hidx]; exact hmp
      · right; right
        refine ⟨t + 1, by omega, hcont, ?_⟩
        rcases hkeep t with h | h
        · rw [h, hidx] at hv'; exact hv'
        · omega
    · right; left
      rw [hres, bind_ok]
      simp only [ne_eq, Int.reduceNeg, Int.neg_eq_zero, one_ne_zero, not_false_eq_true, if_true]
      refine ⟨0, s1, P1, by omega, by rw [Nat.zero_mul, Nat.add_zero], hts,
        entUpd_zero hent, fun u hu => absurd hu (Nat.not_lt_zero u), ?_⟩
      rw [Nat.zero_mul, Nat.add_zero]
      exact ⟨_, _, _, hres⟩
    · right; right
      rw [hres]
      exact ⟨0, by omega, rfl, by simpa using hv⟩

/-- The ways in which `kvmcopymappings` ends.  With `t` the number of pages from
`PGROUNDUP(start)` on that lie below the bound of the loop and below `MAXVA` and are mapped
in the source, the call mirrors the `t` pages and returns 0 (when page `t` is not below the
bound), or panics at page `t`, or jumps to `err` at a page `j < t` where `mappages`
returned -1, or panics in `mappages` at a page `j < t` that the destination maps. -/
theorem kvm_cases {L : MemLayout} (hL : L.Sane) {s : KState} {O N start sz : Nat}
    {F : List Nat} (hfo : FreeOK L s F) (hwN : WFT s.mem N F) (hwO : WFT s.mem O F)
    (hsep : ∀ q, IsTablePage s.mem O q → ¬ IsTablePage s.mem N q) :
    ∃ t, (∀ u, u < t → PGROUNDUP start + u * 4096 < (start + sz) % 2 ^ 64 ∧
        PGROUNDUP start + u * 4096 < L.MAXVA ∧
        pteValid (ent s.mem O (PX 2 (PGROUNDUP start + u * 4096))
          (PX 1 (PGROUNDUP start + u * 4096)) (PX 0 (PGROUNDUP start + u * 4096)))) ∧
      ((∃ s' P F', kvmcopymappings L s O N start sz = .ok (0, s') ∧
          ¬ PGROUNDUP start + t * 4096 < (start + sz) % 2 ^ 64 ∧
          TableStep L N s F s' F' P ∧
          EntUpd s.mem s'.mem N (PGROUNDUP start) t
            (fun u => mirrorOf (ent s.mem O (PX 2 (PGROUNDUP start + u * 4096))
              (PX 1 (PGROUNDUP start + u * 4096)) (PX 0 (PGROUNDUP start + u * 4096)))) ∧
          (∀ u, u < t → ¬ pteValid (ent s.mem N (PX 2 (PGROUNDUP start + u * 4096))
            (PX 1 (PGROUNDUP start + u * 4096)) (PX 0 (PGROUNDUP start + u * 4096))))) ∨
       (∃ w, kvmcopymappings L s O N start sz = .panic w ∧
          (w = .walk ∨ w = .kvmcopymappingsPte ∨ w = .kvmcopymappingsNotPresent) ∧
          PGROUNDUP start + t * 4096 < (start + sz) % 2 ^ 64 ∧
          ¬ (PGROUNDUP start + t * 4096 < L.MAXVA ∧
            pteValid (ent s.mem O (PX 2 (PGROUNDUP start + t * 4096))
              (PX 1 (PGROUNDUP start + t * 4096)) (PX 0 (PGROUNDUP start + t * 4096))))) ∨
       (∃ j s1 P, j < t ∧ kvmcopymappings L s O N start sz =
            kvmcopymappings_err L s1 N start (PGROUNDUP start + j * 4096) ∧
          TableStep L N s F s1 [] P ∧
          EntUpd s.mem s1.mem N (PGROUNDUP start) j
            (fun u => mirrorOf (ent s.mem O (PX 2 (PGROUNDUP start + u * 4096))
              (PX 1 (PGROUNDUP start + u * 4096)) (PX 0 (PGROUNDUP start + u * 4096)))) ∧
          (∀ u, u < j → ¬ pteValid (ent s.mem N (PX 2 (PGROUNDUP start + u * 4096))
            (PX 1 (PGROUNDUP start + u * 4096)) (PX 0 (PGROUNDUP start + u * 4096)))) ∧
          ∃ s0 pa perm, mappages L s0 N (PGROUNDUP start + j * 4096) PGSIZE pa perm =
            .ok (-1, s1)) ∨
       (∃ j, j < t ∧ kvmcopymappings L s O N start sz = .panic .mappagesRemap ∧
          pteValid (ent s.mem N (PX 2 (PGROUNDUP start + j * 4096))
            (PX 1 (PGROUNDUP start + j * 4096)) (PX 0 (PGROUNDUP start + j * 4096))))) := by
  classical
  have hM := hL.maxva_le
  have hMa := hL.maxva_al
  have ha0 := PGROUNDUP_aligned start
  generalize hA : PGROUNDUP start = a0 at ha0 ⊢
  generalize hBd : (start + sz) % 2 ^ 64 = B
  have hex : ∃ u, ¬ (a0 + u * 4096 < B ∧ a0 + u * 4096 < L.MAXVA ∧
      pteValid (ent s.mem O (PX 2 (a0 + u * 4096)) (PX 1 (a0 + u * 4096))
        (PX 0 (a0 + u * 4096)))) := ⟨L.MAXVA, fun h => by omega⟩
  have hgood : ∀ u, u < Nat.find hex → a0 + u * 4096 < B ∧ a0 + u * 4096 < L.MAXVA ∧
      pteValid (ent s.mem O (PX 2 (a0 + u * 4096)) (PX 1 (a0 + u * 4096))
        (PX 0 (a0 + u * 4096))) := fun u hu => not_not.mp (Nat.find_min hex hu)
  have hspec := Nat.find_spec hex
  generalize Nat.find hex = t at hgood hspec
  refine ⟨t, hgood, ?_⟩
  have hres : kvmcopymappings L s O N start sz =
      kvmcopymappings_loop L (L.MAXVA / 4096 + 1 - t + 1 + t) s O N start a0 B := by
    unfold kvmcopymappings
    rw [hA, hBd]
    have ht : t ≤ L.MAXVA / 4096 := by
      cases t with
      | zero => omega
      | succ t1 =>
        have := (hgood t1 (by omega)).2.1
        omega
    rw [show L.MAXVA / PGSIZE + 2 = L.MAXVA / 4096 + 1 - t + 1 + t by unfold PGSIZE; omega]
  -- the behaviour at page `t`, where the loop stops
  have hstop : ∀ (s' : KState), (∀ i j k, i < 512 → j < 512 → k < 512 →
        ent s'.mem O i j k = ent s.mem O i j k) →
      (¬ a0 + t * 4096 < B ∧ kvmcopymappings_loop L (L.MAXVA / 4096 + 1 - t + 1) s' O N start
          (a0 + t * 4096) B = .ok (0, s')) ∨
      (a0 + t * 4096 < B ∧ ∃ w, kvmcopymappings_loop L (L.MAXVA / 4096 + 1 - t + 1) s' O N start
          (a0 + t * 4096) B = .panic w ∧
        (w = .walk ∨ w = .kvmcopymappingsPte ∨ w = .kvmcopymappingsNotPresent)) := by
    intro s' hent
    by_cases hb : a0 + t * 4096 < B
    · right
      refine ⟨hb, ?_⟩
      obtain ⟨b1, b2⟩ := kvm_iter_bad L (L.MAXVA / 4096 + 1 - t) s' O N start (a0 + t * 4096) B hb
      by_cases hhi : a0 + t * 4096 < L.MAXVA
      · have hinv : ¬ pteValid (ent s'.mem O (PX 2 (a0 + t * 4096)) (PX 1 (a0 + t * 4096))
            (PX 0 (a0 + t * 4096))) := by
          rw [hent _ _ _ (PX_lt _ _) (PX_lt _ _) (PX_lt _ _)]
          exact fun hv => hspec ⟨hb, hhi, hv⟩
        rcases b2 hhi hinv with h | h
        · exact ⟨_, h, Or.inr (Or.inl rfl)⟩
        · exact ⟨_, h, Or.inr (Or.inr rfl)⟩
      · exact ⟨_, b1 (by omega), Or.inl rfl⟩
    · left
      exact ⟨hb, kvm_loop_done L _ s' O N start _ B hb⟩
  by_cases hpre : a0 + t * 4096 ≤ L.MAXVA
  · rcases @kvm_upto L hL O N start B t
        (L.MAXVA / 4096 + 1 - t + 1) s F a0 hfo hwN hwO hsep ha0.1 hpre (by
          cases t with
          | zero => left; rfl
          | succ t1 =>
            right
            simp only [Nat.add_sub_cancel]
            exact (hgood t1 (by omega)).1) (fun u hu => (hgood u hu).2.2) with
      ⟨s', P, F', hcont, hts, hupd, hinv⟩ | ⟨j, s1, P, hj, hcont, hts, hupd, hinv, hmp⟩ |
      ⟨j, hj, hcont, hv⟩
    · obtain ⟨hentO, _⟩ := src_keep hfo hwN hwO hsep hts
      rcases hstop s' hentO with ⟨hb, hdone⟩ | ⟨hb, w, hpan, hw⟩
      · left
        exact ⟨s', P, F', by rw [hres, hcont, hdone], hb, hts, hupd, hinv⟩
      · right; left
        exact ⟨w, by rw [hres, hcont, hpan], hw, hb, fun h => hspec ⟨hb, h.1, h.2⟩⟩
    · right; right; left
      exact ⟨j, s1, P, hj, by rw [hres, hcont], hts, hupd, hinv, hmp⟩
    · right; right; right
      exact ⟨j, hj, by rw [hres, hcont], hv⟩
  · have ht0 : t = 0 := by
      cases t with
      | zero => rfl
      | succ t1 =>
        have := (hgood t1 (by omega)).2.1
        omega
    subst ht0
    rw [Nat.add_zero] at hres
    rcases hstop s (fun _ _ _ _ _ _ => rfl) with ⟨hb, hdone⟩ | ⟨hb, w, hpan, hw⟩
    · left
      refine ⟨s, [], F, ?_, hb, TableStep.refl hfo hwN, entUpd_zero (fun _ _ _ _ _ _ => rfl),
        fun u hu => absurd hu (Nat.not_lt_zero u)⟩
      rw [hres]
      simpa using hdone
    · right; left
      refine ⟨w, ?_, hw, hb, fun h => hspec ⟨hb, h.1, h.2⟩⟩
      rw [hres]
      simpa using hpan

/-- The code at label `err` of `kvmcopymappings` after `j` mirrored pages: the pages are
unmapped again, no frame is freed, and the call returns -1. -/
theorem kvm_rollback {L : MemLayout} (hL : L.Sane) {s s1 : KState} {O N start j : Nat}
    {F P : List Nat} (hts : TableStep L N s F s1 [] P)
    (hupd : EntUpd s.mem s1.mem N (PGROUNDUP start) j
      (fun u => mirrorOf (ent s.mem O (PX 2 (PGROUNDUP start + u * 4096))
        (PX 1 (PGROUNDUP start + u * 4096)) (PX 0 (PGROUNDUP start + u * 4096)))))
    (hinv : ∀ u, u < j → ¬ pteValid (ent s.mem N (PX 2 (PGROUNDUP start + u * 4096))
      (PX 1 (PGROUNDUP start + u * 4096)) (PX 0 (PGROUNDUP start + u * 4096))))
    (hlt : PGROUNDUP start + j * 4096 ≤ L.MAXVA)
    (hleaf : ∀ u, u < j → isLeaf (ent s.mem O (PX 2 (PGROUNDUP start + u * 4096))
      (PX 1 (PGROUNDUP start + u * 4096)) (PX 0 (PGROUNDUP start + u * 4096)))) :
    ∃ s', kvmcopymappings_err L s1 N start (PGROUNDUP start + j * 4096) = .ok (-1, s') ∧
      FreeOK L s' [] ∧ WFT s'.mem N [] ∧ F = P ∧
      (∀ q, IsTablePage s'.mem N q ↔ IsTablePage s.mem N q ∨ q ∈ P) ∧
      (∀ i k l, i < 512 → k < 512 → l < 512 → ent s'.mem N i k l = ent s.mem N i k l ∨
        (¬ pteValid (ent s.mem N i k l) ∧ ent s'.mem N i k l = 0)) ∧
      (∀ x, s'.mem x ≠ s.mem x → (∃ f, f ∈ P ∧ f ≤ x ∧ x < f + 4096) ∨
        (∃ q, IsTablePage s.mem N q ∧ q ≤ x ∧ x < q + 4096)) := by
  have hM := hL.maxva_le
  have ha0 := PGROUNDUP_aligned start
  obtain ⟨s', hres, hfo', hw', hpg, hupd', hfoot⟩ := @uvmunmap_spec L hL s1 N (PGROUNDUP start)
    j 0 [] hts.free hts.wft ha0.1 hlt
    (fun u hu => by
      rw [hupd.1 u hu]
      have hf := mirrorOf_facts (hleaf u hu).1
      exact ⟨hf.1, hf.2.2.2.2.2 (hleaf u hu)⟩)
    (fun h => absurd rfl h)
  simp only [ne_eq, not_true_eq_false, if_false, List.append_nil, false_and, false_or]
    at hfo' hw' hfoot
  refine ⟨s', ?_, hfo', hw', by simpa using hts.split, fun q => (hpg q).trans (hts.pages q),
    fun i k l hi hk hl => ?_, fun x hx => ?_⟩
  · unfold kvmcopymappings_err
    rw [show (PGROUNDUP start + j * 4096 + 2 ^ 64 - PGROUNDUP start) % 2 ^ 64 / PGSIZE = j by
      unfold PGSIZE; omega, hres, bind_ok]
  · by_cases hin : ∃ u, u < j ∧ i = PX 2 (PGROUNDUP start + u * 4096) ∧
        k = PX 1 (PGROUNDUP start + u * 4096) ∧ l = PX 0 (PGROUNDUP start + u * 4096)
    · obtain ⟨u, hu, h2, h1, h0⟩ := hin
      right
      rw [h2, h1, h0]
      exact ⟨hinv u hu, hupd'.1 u hu⟩
    · left
      have hne : ∀ u, u < j → ¬ (i = PX 2 (PGROUNDUP start + u * 4096) ∧
          k = PX 1 (PGROUNDUP start + u * 4096) ∧ l = PX 0 (PGROUNDUP start + u * 4096)) :=
        fun u hu hc => hin ⟨u, hu, hc⟩
      rw [hupd'.2 i k l hi hk hl hne, hupd.2 i k l hi hk hl hne]
  · by_cases h1 : s'.mem x = s1.mem x
    · exact hts.foot x (by rw [← h1]; exact hx)
    · obtain ⟨q, hq, hx1⟩ := hfoot x h1
      rcases (hts.pages q).mp hq with h | h
      · exact Or.inr ⟨q, h, hx1⟩
      · exact Or.inl ⟨q, h, hx1⟩

theorem pteAt_congr {L : MemLayout} {s s' : KState} {T : Nat} {F F' : List Nat}
    (hw : WFT s.mem T F) (hw' : WFT s'.mem T F')
    (h : ∀ i j k, i < 512 → j < 512 → k < 512 → ent s'.mem T i j k = ent s.mem T i j k)
    (va : Nat) : pteAt L s' T va = pteAt L s T va := by
  by_cases hva : va < L.MAXVA
  · rw [pteAt_eq hw' hva, pteAt_eq hw hva, h _ _ _ (PX_lt _ _) (PX_lt _ _) (PX_lt _ _)]
  · rw [pteAt_high (by omega), pteAt_high (by omega)]

/-- The lookups of the destination after `t` pages from `a` on have been given the
entries `val`. -/
theorem entUpd_lookup {L : MemLayout} (hL : L.Sane) {s s' : KState} {T a t : Nat}
    {val : Nat → Nat} {F F' : List Nat} (hw : WFT s.mem T F) (hw' : WFT s'.mem T F')
    (h : EntUpd s.mem s'.mem T a t val) (ha : a % 4096 = 0)
    (hlt : t = 0 ∨ a + t * 4096 ≤ L.MAXVA) :
    (∀ k, k < t → pteAt L s' T (a + k * 4096) = val k) ∧
    (∀ x, (∀ k, k < t → PGROUNDDOWN x ≠ a + k * 4096) → pteAt L s' T x = pteAt L s T x) := by
  rcases hlt with h0 | hlt
  · subst h0
    refine ⟨fun k hk => absurd hk (Nat.not_lt_zero k), fun x _ => ?_⟩
    exact pteAt_congr hw hw' (fun i j k hi hj hk =>
      h.2 i j k hi hj hk (fun u hu => absurd hu (Nat.not_lt_zero u))) x
  · exact entUpd_pteAt hL hw hw' h ha hlt

theorem kvm_err_ne_zero {L : MemLayout} {s1 s' : KState} {N start i : Nat}
    (h : kvmcopymappings_err L s1 N start i = .ok (0, s')) : False := by
  unfold kvmcopymappings_err at h
  obtain ⟨u, _, hu⟩ := bind_eq_ok h
  injection hu with hu
  have := congrArg Prod.fst hu
  simp at this

/-- A call of `kvmcopymappings` that returns 0 has mirrored every page of its range. -/
theorem kvm_success {L : MemLayout} (hL : L.Sane) {s s' : KState} {src dst start sz : Nat}
    {F : List Nat} (hfo : FreeOK L s F) (hwS : WFT s.mem src F) (hwD : WFT s.mem dst F)
    (hsep : ∀ q, IsTablePage s.mem src q → ¬ IsTablePage s.mem dst q)
    (hres : kvmcopymappings L s src dst start sz = .ok (0, s')) :
    (∀ i, i % PGSIZE = 0 → PGROUNDUP start ≤ i → i < (start + sz) % 2 ^ 64 →
      ∃ e, leafAt L s src i = some e ∧ pteAt L s' dst i = mirrorOf e ∧
        PTE2PA (pteAt L s' dst i) = PTE2PA e ∧
        PTE_FLAGS (pteAt L s' dst i) = PTE_FLAGS e &&& (2 ^ 64 - 1 - PTE_U) ∧
        pteAt L s' dst i &&& PTE_U = 0 ∧ ¬ pteValid (pteAt L s dst i)) ∧
    (∀ x, (PGROUNDDOWN x < PGROUNDUP start ∨ (start + sz) % 2 ^ 64 ≤ PGROUNDDOWN x) →
      pteAt L s' dst x = pteAt L s dst x) ∧
    (∀ va, pteAt L s' src va = pteAt L s src va) ∧
    (∀ q, IsTablePage s.mem src q → ∀ x, q ≤ x → x < q + PGSIZE → s'.mem x = s.mem x) ∧
    (∃ Pt F', F = Pt ++ F' ∧ FreeOK L s' F' ∧
      (∀ q, IsTablePage s'.mem dst q ↔ IsTablePage s.mem dst q ∨ q ∈ Pt) ∧
      ∀ x, s'.mem x ≠ s.mem x → ∃ q, IsTablePage s'.mem dst q ∧ q ≤ x ∧ x < q + PGSIZE) := by
  have hM := hL.maxva_le
  have hMa := hL.maxva_al
  have ha0 := PGROUNDUP_aligned start
  obtain ⟨t, hgood, hcase⟩ := @kvm_cases L hL s src dst start sz F hfo hwD hwS hsep
  rcases hcase with ⟨s1, P, F', he, hb, hts, hupd, hinv⟩ | ⟨w, he, _⟩ |
    ⟨j, s1, P, _, he, _⟩ | ⟨j, _, he, _⟩
  · rw [hres] at he
    injection he with he
    have hs : s' = s1 := congrArg Prod.snd he
    subst hs
    obtain ⟨hentO, _, hwO1, hagO, _⟩ := src_keep hfo hwD hwS hsep hts
    have hlt : t = 0 ∨ PGROUNDUP start + t * 4096 ≤ L.MAXVA := by
      cases t with
      | zero => left; rfl
      | succ t1 =>
        right
        have := (hgood t1 (by omega)).2.1
        omega
    obtain ⟨hp1, hp2⟩ := entUpd_lookup hL hwD hts.wft hupd ha0.1 hlt
    refine ⟨fun i hi h1 h2 => ?_, fun x hx => ?_, fun va => pteAt_congr hwS hwO1 hentO va,
      hagO, P, F', hts.split, hts.free, hts.pages, fun x hx => ?_⟩
    · unfold PGSIZE at hi
      have hu : (i - PGROUNDUP start) / 4096 < t := by omega
      have hi' : PGROUNDUP start + (i - PGROUNDUP start) / 4096 * 4096 = i := by omega
      obtain ⟨_, g2, g3⟩ := hgood _ hu
      have hpt := hp1 _ hu
      simp only [hi'] at g2 g3 hpt
      have hf := mirrorOf_facts g3
      refine ⟨_, leafAt_of_ent hwS g2 g3, hpt, ?_, ?_, ?_, ?_⟩
      · rw [hpt]; exact hf.2.1
      · rw [hpt]; exact hf.2.2.1
      · rw [hpt]; exact hf.2.2.2.1
      · rw [pteAt_eq hwD g2]
        have := hinv _ hu
        simp only [hi'] at this
        exact this
    · exact hp2 x (fun k hk => by
        have := (hgood k hk).1
        omega)
    · rcases hts.foot x hx with ⟨f, hf, hx1⟩ | ⟨q, hq, hx1⟩
      · exact ⟨f, (hts.pages f).mpr (Or.inr hf), hx1⟩
      · exact ⟨q, (hts.pages q).mpr (Or.inl hq), hx1⟩
  · rw [hres] at he; cases he
  · rw [hres] at he; exact (kvm_err_ne_zero he.symm).elim
  · rw [hres] at he; cases he

/-- A call of `kvmcopymappings` whose range holds a page that the source does not map
panics, unless `mappages` returns -1 at an earlier page. -/
theorem kvm_no_source {L : MemLayout} (hL : L.Sane) {s : KState} {src dst start sz i : Nat}
    {F : List Nat} (hfo : FreeOK L s F) (hwS : WFT s.mem src F) (hwD : WFT s.mem dst F)
    (hsep : ∀ q, IsTablePage s.mem src q → ¬ IsTablePage s.mem dst q)
    (hi : i % PGSIZE = 0) (h1 : PGROUNDUP start ≤ i) (h2 : i < (start + sz) % 2 ^ 64)
    (hnone : leafAt L s src i = none) :
    (∃ w, kvmcopymappings L s src dst start sz = .panic w) ∨
    (∃ j s0 s1 pa perm, j % PGSIZE = 0 ∧ PGROUNDUP start ≤ j ∧ j < i ∧
      mappages L s0 dst j PGSIZE pa perm = .ok (-1, s1) ∧
      kvmcopymappings L s src dst start sz = kvmcopymappings_err L s1 dst start j) := by
  have ha0 := PGROUNDUP_aligned start
  unfold PGSIZE at hi
  obtain ⟨t, hgood, hcase⟩ := @kvm_cases L hL s src dst start sz F hfo hwD hwS hsep
  have hi' : PGROUNDUP start + (i - PGROUNDUP start) / 4096 * 4096 = i := by omega
  have htu : t ≤ (i - PGROUNDUP start) / 4096 := by
    by_contra hc
    obtain ⟨_, g2, g3⟩ := hgood ((i - PGROUNDUP start) / 4096) (by omega)
    simp only [hi'] at g2 g3
    rw [leafAt_of_ent hwS g2 g3] at hnone
    cases hnone
  rcases hcase with ⟨s1, P, F', _, hb, _⟩ | ⟨w, he, _⟩ |
    ⟨j, s1, P, hj, he, _, _, _, s0, pa, perm, hmp⟩ | ⟨j, _, he, _⟩
  · exfalso
    have : t * 4096 ≤ (i - PGROUNDUP start) / 4096 * 4096 := Nat.mul_le_mul_right _ htu
    omega
  · exact Or.inl ⟨w, he⟩
  · right
    have : (j + 1) * 4096 ≤ (i - PGROUNDUP start) / 4096 * 4096 :=
      Nat.mul_le_mul_right _ (by omega)
    exact ⟨_, s0, s1, pa, perm, by unfold PGSIZE; omega, by omega, by omega, hmp, he⟩
  · exact Or.inl ⟨_, he⟩

/-- C21 (as amended): `kvmcopymappings` mirrors leaves with User stripped.  Let `src` and
`dst` be well-formed tables that share no page-table page, and let the range be the
page-aligned `i` with `PGROUNDUP(start) <= i < start+sz` (the bound as the loop computes
it).  If `kvmcopymappings(src, dst, start, sz)` returns 0, then for every `i` of the range
the level-0 entry of `i` in `dst`, invalid before, references the frame of the entry `e`
of `i` in `src` and has the flag bits of `e` with `PTE_U` cleared; the entries of `dst`
outside the range and the entries and page-table pages of `src` are unchanged; the frames
`Pt` taken from the free list are exactly the new page-table pages of `dst`, nothing is
freed, and memory changes only inside page-table pages of `dst`, so no data frame is
allocated, copied or freed.  If a source page of the range has no valid level-0 entry,
the call panics, unless `mappages` returns -1 at an earlier page `j` of the range, where
the call takes the path of the label `err`. -/
theorem kvmcopymappings_mirror (L : MemLayout) (s : KState) (src dst start sz : Nat)
    (F : List Nat) (hL : L.Sane) (hfo : FreeOK L s F) (hwS : WFT s.mem src F)
    (hwD : WFT s.mem dst F)
    (hsep : ∀ q, IsTablePage s.mem src q → ¬ IsTablePage s.mem dst q) :
    (∀ s', kvmcopymappings L s src dst start sz = .ok (0, s') →
      (∀ i, i % PGSIZE = 0 → PGROUNDUP start ≤ i → i < (start + sz) % 2 ^ 64 →
        ∃ e, leafAt L s src i = some e ∧ pteAt L s' dst i = mirrorOf e ∧
          PTE2PA (pteAt L s' dst i) = PTE2PA e ∧
          PTE_FLAGS (pteAt L s' dst i) = PTE_FLAGS e &&& (2 ^ 64 - 1 - PTE_U) ∧
          pteAt L s' dst i &&& PTE_U = 0 ∧ ¬ pteValid (pteAt L s dst i)) ∧
      (∀ x, (PGROUNDDOWN x < PGROUNDUP start ∨ (start + sz) % 2 ^ 64 ≤ PGROUNDDOWN x) →
        pteAt L s' dst x = pteAt L s dst x) ∧
      (∀ va, pteAt L s' src va = pteAt L s src va) ∧
      (∀ q, IsTablePage s.mem src q → ∀ x, q ≤ x → x < q + PGSIZE → s'.mem x = s.mem x) ∧
      (∃ Pt F', F = Pt ++ F' ∧ FreeOK L s' F' ∧
        (∀ q, IsTablePage s'.mem dst q ↔ IsTablePage s.mem dst q ∨ q ∈ Pt) ∧
        ∀ x, s'.mem x ≠ s.mem x → ∃ q, IsTablePage s'.mem dst q ∧ q ≤ x ∧ x < q + PGSIZE)) ∧
    (∀ i, i % PGSIZE = 0 → PGROUNDUP start ≤ i → i < (start + sz) % 2 ^ 64 →
      leafAt L s src i = none →
      (∃ w, kvmcopymappings L s src dst start sz = .panic w) ∨
      (∃ j s0 s1 pa perm, j % PGSIZE = 0 ∧ PGROUNDUP start ≤ j ∧ j < i ∧
        mappages L s0 dst j PGSIZE pa perm = .ok (-1, s1) ∧
        kvmcopymappings L s src dst start sz = kvmcopymappings_err L s1 dst start j)) :=
  ⟨fun _ hres => kvm_success hL hfo hwS hwD hsep hres,
    fun _ hi h1 h2 hnone => kvm_no_source hL hfo hwS hwD hsep hi h1 h2 hnone⟩

/-- The ways in which `kvmcopymappings` ends when the pages that the source maps in the
range are leaves: it returns 0, or it returns -1 after `mappages` returned -1 at a page
of the range, with the destination's lookups, the source and the free frames as the claim
on the rollback says, or it panics for a source page that is not mapped or a destination
page that is. -/
theorem kvm_trichotomy {L : MemLayout} (hL : L.Sane) {s : KState} {src dst start sz : Nat}
    {F : List Nat} (hfo : FreeOK L s F) (hwS : WFT s.mem src F) (hwD : WFT s.mem dst F)
    (hsep : ∀ q, IsTablePage s.mem src q → ¬ IsTablePage s.mem dst q)
    (hleaf : ∀ i e, i % PGSIZE = 0 → PGROUNDUP start ≤ i → i < (start + sz) % 2 ^ 64 →
      leafAt L s src i = some e → isLeaf e) :
    (∃ s', kvmcopymappings L s src dst start sz = .ok (0, s')) ∨
    (∃ s' i s0 s1 pa perm, kvmcopymappings L s src dst start sz = .ok (-1, s') ∧
      i % PGSIZE = 0 ∧ PGROUNDUP start ≤ i ∧ i < (start + sz) % 2 ^ 64 ∧
      mappages L s0 dst i PGSIZE pa perm = .ok (-1, s1) ∧
      kvmcopymappings_err L s1 dst start i = .ok (-1, s') ∧
      (∀ va, leafAt L s' dst va = leafAt L s dst va) ∧
      (∀ va, leafAt L s' src va = leafAt L s src va) ∧
      (∀ q, IsTablePage s.mem src q → ∀ x, q ≤ x → x < q + PGSIZE → s'.mem x = s.mem x) ∧
      FreeOK L s' [] ∧
      (∀ q, IsTablePage s'.mem dst q ↔ IsTablePage s.mem dst q ∨ q ∈ F) ∧
      (∀ x, s'.mem x ≠ s.mem x → ∃ q, IsTablePage s'.mem dst q ∧ q ≤ x ∧ x < q + PGSIZE)) ∨
    (∃ w i, kvmcopymappings L s src dst start sz = .panic w ∧
      i % PGSIZE = 0 ∧ PGROUNDUP start ≤ i ∧ i < (start + sz) % 2 ^ 64 ∧
      ((w = .mappagesRemap ∧ pteValid (pteAt L s dst i)) ∨
       ((w = .walk ∨ w = .kvmcopymappingsPte ∨ w = .kvmcopymappingsNotPresent) ∧
        leafAt L s src i = none))) := by
  have hM := hL.maxva_le
  have hMa := hL.maxva_al
  have ha0 := PGROUNDUP_aligned start
  obtain ⟨t, hgood, hcase⟩ := @kvm_cases L hL s src dst start sz F hfo hwD hwS hsep
  have hal : ∀ u, (PGROUNDUP start + u * 4096) % PGSIZE = 0 := fun u => by
    unfold PGSIZE; omega
  rcases hcase with ⟨s1, P, F', he, _⟩ | ⟨w, he, hw, hb, hbad⟩ |
    ⟨j, s1, P, hj, he, hts, hupd, hinv, s0, pa, perm, hmp⟩ | ⟨j, hj, he, hv⟩
  · exact Or.inl ⟨s1, he⟩
  · right; right
    refine ⟨w, PGROUNDUP start + t * 4096, he, hal t, by omega, hb, Or.inr ⟨hw, ?_⟩⟩
    by_cases hlt : PGROUNDUP start + t * 4096 < L.MAXVA
    · rw [leafAt_none_iff hwS hlt]
      exact fun hv => hbad ⟨hlt, hv⟩
    · exact leafAt_high (by omega)
  · right; left
    obtain ⟨g1, g2, _⟩ := hgood j hj
    have hlf : ∀ u, u < j → isLeaf (ent s.mem src (PX 2 (PGROUNDUP start + u * 4096))
        (PX 1 (PGROUNDUP start + u * 4096)) (PX 0 (PGROUNDUP start + u * 4096))) :=
      fun u hu => by
        obtain ⟨k1, k2, k3⟩ := hgood u (by omega)
        exact hleaf _ _ (hal u) (by omega) k1 (leafAt_of_ent hwS k2 k3)
    obtain ⟨s', hres, hfo', hw', hFP, hpg, hent, hfoot⟩ :=
      kvm_rollback hL hts hupd hinv (by omega) hlf
    subst hFP
    have hfootD : ∀ x, s'.mem x ≠ s.mem x →
        ∃ q, IsTablePage s'.mem dst q ∧ q ≤ x ∧ x < q + PGSIZE := fun x hx => by
      rcases hfoot x hx with ⟨f, hf, hx1⟩ | ⟨q, hq, hx1⟩
      · exact ⟨f, (hpg f).mpr (Or.inr hf), hx1⟩
      · exact ⟨q, (hpg q).mpr (Or.inl hq), hx1⟩
    have hagO : ∀ p, IsTablePage s.mem src p → ∀ x, p ≤ x → x < p + 4096 →
        s'.mem x = s.mem x :=
      fun p hp x hx1 hx2 => frame_not_in hfoot (WFT_page hwS hp).1 ⟨hx1, hx2⟩
        (fun f hf => ⟨goodFrame_al (hfo.2.2 f hf), fun e => (WFT_page hwS hp).2.2.2 (e ▸ hf)⟩)
        (fun q hq => ⟨(WFT_page hwD hq).1, fun e => hsep p hp (e ▸ hq)⟩)
    obtain ⟨hwS', _⟩ := agree_tables_WFT hwS hagO
    refine ⟨s', _, s0, s1, pa, perm, by rw [he, hres], hal j, by omega, g1, hmp, hres,
      fun va => ?_, fun va => ?_, hagO, hfo', hpg, hfootD⟩
    · refine leafAt_congr hwD hw' (fun _ => ?_)
      rcases hent _ _ _ (PX_lt 2 va) (PX_lt 1 va) (PX_lt 0 va) with h | ⟨h1, h2⟩
      · exact Or.inl h
      · exact Or.inr ⟨h1, by rw [h2]; exact not_pteValid_zero⟩
    · exact leafAt_congr hwS hwS' (fun _ => Or.inl
        ((agree_tables hagO).2.2 _ _ _ (PX_lt 2 va) (PX_lt 1 va) (PX_lt 0 va)))
  · right; right
    obtain ⟨g1, g2, _⟩ := hgood j hj
    refine ⟨_, PGROUNDUP start + j * 4096, he, hal j, by omega, g1, Or.inl ⟨rfl, ?_⟩⟩
    rw [pteAt_eq hwD g2]
    exact hv

/-- C29: the rollback of `kvmcopymappings` is exact.  Let `src` and `dst` be well-formed
tables that share no page-table page, with every page that `src` maps in the range a leaf.
Then the call returns 0, or returns -1, or panics, and a panic is never one of the
rollback: it is `mappages` finding a destination page of the range mapped, or the loop
finding a source page of the range unmapped.  When the call does not return 0, `mappages`
returned -1 at a page `i` of the range, the code at `err` returned -1 without a panic,
every lookup in `dst` is as before the call (the entries installed for the pages before
`i` are cleared), every lookup in `src` and the page-table pages of `src` are unchanged,
and the free list is empty: no frame was pushed onto it, the frames that were free are
now page-table pages of `dst`. -/
theorem kvmcopymappings_rollback (L : MemLayout) (s : KState) (src dst start sz : Nat)
    (F : List Nat) (hL : L.Sane) (hfo : FreeOK L s F) (hwS : WFT s.mem src F)
    (hwD : WFT s.mem dst F)
    (hsep : ∀ q, IsTablePage s.mem src q → ¬ IsTablePage s.mem dst q)
    (hleaf : ∀ i e, i % PGSIZE = 0 → PGROUNDUP start ≤ i → i < (start + sz) % 2 ^ 64 →
      leafAt L s src i = some e → isLeaf e) :
    ((∃ r s', kvmcopymappings L s src dst start sz = .ok (r, s')) ∨
      ∃ w i, kvmcopymappings L s src dst start sz = .panic w ∧
        i % PGSIZE = 0 ∧ PGROUNDUP start ≤ i ∧ i < (start + sz) % 2 ^ 64 ∧
        ((w = .mappagesRemap ∧ pteValid (pteAt L s dst i)) ∨
         ((w = .walk ∨ w = .kvmcopymappingsPte ∨ w = .kvmcopymappingsNotPresent) ∧
          leafAt L s src i = none))) ∧
    (∀ r s', kvmcopymappings L s src dst start sz = .ok (r, s') → r ≠ 0 →
      r = -1 ∧
      (∃ i s0 s1 pa perm, i % PGSIZE = 0 ∧ PGROUNDUP start ≤ i ∧
        i < (start + sz) % 2 ^ 64 ∧ mappages L s0 dst i PGSIZE pa perm = .ok (-1, s1) ∧
        kvmcopymappings_err L s1 dst start i = .ok (-1, s')) ∧
      (∀ va, leafAt L s' dst va = leafAt L s dst va) ∧
      (∀ va, leafAt L s' src va = leafAt L s src va) ∧
      (∀ q, IsTablePage s.mem src q → ∀ x, q ≤ x → x < q + PGSIZE → s'.mem x = s.mem x) ∧
      FreeOK L s' [] ∧
      (∀ q, IsTablePage s'.mem dst q ↔ IsTablePage s.mem dst q ∨ q ∈ F) ∧
      (∀ x, s'.mem x ≠ s.mem x → ∃ q, IsTablePage s'.mem dst q ∧ q ≤ x ∧ x < q + PGSIZE)) := by
  rcases kvm_trichotomy hL hfo hwS hwD hsep hleaf with ⟨s1, he⟩ |
    ⟨s1, i, s0, s2, pa, perm, he, a1, a2, a3, a4, a5, a6, a7, a8, a9, a10, a11⟩ | ⟨w, i, he, hw⟩
  · refine ⟨Or.inl ⟨_, _, he⟩, fun r s' hres hr => ?_⟩
    rw [he] at hres
    injection hres with hres
    exact absurd (congrArg Prod.fst hres).symm hr
  · refine ⟨Or.inl ⟨_, _, he⟩, fun r s' hres hr => ?_⟩
    rw [he] at hres
    injection hres with hres
    have e1 : -1 = r := congrArg Prod.fst hres
    have e2 : s1 = s' := congrArg Prod.snd hres
    subst e1 e2
    exact ⟨rfl, ⟨i, s0, s2, pa, perm, a1, a2, a3, a4, a5⟩, a6, a7, a8, a9, a10, a11⟩
  · refine ⟨Or.inr ⟨w, i, he, hw⟩, fun r s' hres _ => ?_⟩
    rw [he] at hres
    cases hres

/-! ## The example with two tables -/

theorem exS5_low (x : Nat) (h : x < 0x87ffa000) : exS5.mem x = 0 := by
  have e : exS5.mem = memset (write64 (write64 (write64 (write64 (write64 (fun _ => 0)
      0x87fff000 0x87ffe000) 0x87ffe000 0x87ffd000) 0x87ffd000 0x87ffc000) 0x87ffc000
      0x87ffb000) 0x87ffb000 0x87ffa000) 0x87fff000 5 PGSIZE := rfl
  rw [e, memset_outside _ _ _ _ _ (by omega), write64_outside _ _ _ _ (by omega),
    write64_outside _ _ _ _ (by omega), write64_outside _ _ _ _ (by omega),
    write64_outside _ _ _ _ (by omega), write64_outside _ _ _ _ (by omega)]

/-- The example state `exM`: the table `exT` maps two pages and is well formed, the page
at `exN` is still zero, so that `exN` is the root of an empty table, and the two tables
share no page-table page. -/
theorem exM_facts : WFT exM.mem exT [0x87ffb000, 0x87ffa000] ∧
    WFT exM.mem exN [0x87ffb000, 0x87ffa000] ∧
    (∀ q, IsTablePage exM.mem exT q → ¬ IsTablePage exM.mem exN q) := by
  have hfo : FreeOK exL exS5 [0x87ffe000, 0x87ffd000, 0x87ffc000, 0x87ffb000, 0x87ffa000] := by
    decide
  have hz := zero_root (m := exS5.mem) (T := exT)
    (F := [0x87ffe000, 0x87ffd000, 0x87ffc000, 0x87ffb000, 0x87ffa000]) (by decide)
    (by decide) (by decide) (by decide)
    (fun x h1 h2 => exS5_low x (by unfold exT at h2; omega))
  obtain ⟨n, _, hcase⟩ := @mappages_spec exL exL_sane exS5 exT 0x1ff000 0x2000 0x80000000
    (PTE_R ||| PTE_U) _ hfo hz.1 (by decide) (by decide) (by decide) (by decide)
  have hval : (mappages exL exS5 exT 0x1ff000 0x2000 0x80000000 (PTE_R ||| PTE_U)).val
      Prod.fst = some 0 := by decide
  have hfo' : FreeOK exL exM [0x87ffb000, 0x87ffa000] := by decide
  rcases hcase with ⟨s', P, F'', he, hts, _⟩ | ⟨s', P, F'', t, _, he, _⟩ | ⟨he, _⟩
  · have hs : exM = s' := by unfold exM; rw [he]; rfl
    rw [hs] at hfo' ⊢
    have hF : F'' = [0x87ffb000, 0x87ffa000] := FreeList_unique hts.free.1 hfo'.1
    subst hF
    have hF5 : ∀ f ∈ [0x87ffe000, 0x87ffd000, 0x87ffc000, 0x87ffb000, 0x87ffa000],
        f % 4096 = 0 ∧ 0x87ffa000 ≤ f := by decide
    have hPF : ∀ f ∈ P, f ∈ [0x87ffe000, 0x87ffd000, 0x87ffc000, 0x87ffb000, 0x87ffa000] :=
      fun f hf => by rw [hts.split]; exact List.mem_append_left _ hf
    have hzero : ∀ x, exN ≤ x → x < exN + 4096 → s'.mem x = 0 := by
      intro x h1 h2
      unfold exN at h1 h2
      rw [← exS5_low x (by omega)]
      by_contra hne
      rcases hts.foot x hne with ⟨f, hf, hx⟩ | ⟨q, hq, hx⟩
      · have := hF5 f (hPF f hf); omega
      · have : q = exT := (hz.2.2 q).mp hq
        unfold exT at this
        omega
    obtain ⟨hwN, _, hpN⟩ := zero_root (m := s'.mem) (T := exN) (F := [0x87ffb000, 0x87ffa000])
      (by decide) (by decide) (by decide) (by decide) hzero
    refine ⟨hts.wft, hwN, fun q hq hc => ?_⟩
    have hqN : q = exN := (hpN q).mp hc
    subst hqN
    rcases (hts.pages exN).mp hq with h | h
    · have := (hz.2.2 exN).mp h
      revert this; decide
    · have := hPF exN h
      revert this; decide
  · rw [he] at hval
    simp [Outcome.val] at hval
  · rw [he] at hval
    simp [Outcome.val] at hval

theorem exM_leaves (i e : Nat) (hi : i % PGSIZE = 0) (h1 : PGROUNDUP 0x1ff000 ≤ i)
    (h2 : i < (0x1ff000 + 0x3000) % 2 ^ 64) (h : leafAt exL exM exT i = some e) :
    isLeaf e := by
  have e0 : PGROUNDUP 0x1ff000 = 0x1ff000 := by decide
  rw [e0] at h1
  unfold PGSIZE at hi
  have hc : i = 0x1ff000 ∨ i = 0x200000 ∨ i = 0x201000 := by omega
  rcases hc with rfl | rfl | rfl
  · have h0 : leafAt exL exM exT 0x1ff000 =
        some (PA2PTE 0x80000000 ||| (PTE_R ||| PTE_U) ||| PTE_V) := by decide
    rw [h0] at h
    injection h with h
    subst h
    decide
  · have h0 : leafAt exL exM exT 0x200000 =
        some (PA2PTE 0x80001000 ||| (PTE_R ||| PTE_U) ||| PTE_V) := by decide
    rw [h0] at h
    injection h with h
    subst h
    decide
  · have h0 : leafAt exL exM exT 0x201000 = none := by decide
    rw [h0] at h
    cases h

/-- C21, counterexample: in the example state the source table `exT` maps the pages
`0x1ff000` and `0x200000` but not the page `0x201000`, which lies in the range of
`kvmcopymappings(exT, exN, 0x1ff000, 0x3000)`; with two free frames `mappages` returns -1
at the page `0x200000`, and the call returns -1: it does not panic. -/
theorem kvmcopymappings_unmapped_counterexample :
    0x201000 % PGSIZE = 0 ∧ PGROUNDUP 0x1ff000 ≤ 0x201000 ∧ 0x201000 < 0x1ff000 + 0x3000 ∧
    leafAt exL exM exT 0x201000 = none ∧
    (kvmcopymappings exL exM exT exN 0x1ff000 0x3000).val Prod.fst = some (-1) ∧
    (kvmcopymappings exL exM exT exN 0x1ff000 0x3000).fatal = none := by
  decide

/-- C21, witness: with two free frames the page `0x1ff000` of the example table is
mirrored into the empty table `exN`. -/
theorem kvmcopymappings_mirror_witness :
    FreeOK exL exM [0x87ffb000, 0x87ffa000] ∧
    (kvmcopymappings exL exM exT exN 0x1ff000 0x1000).val Prod.fst = some 0 ∧
    (∀ i, i % PGSIZE = 0 → PGROUNDUP 0x1ff000 ≤ i → i < (0x1ff000 + 0x1000) % 2 ^ 64 →
      ∃ e, leafAt exL exM exT i = some e ∧
        pteAt exL ((kvmcopymappings exL exM exT exN 0x1ff000 0x1000).state exM) exN i =
          mirrorOf e ∧
        PTE2PA (pteAt exL ((kvmcopymappings exL exM exT exN 0x1ff000 0x1000).state exM) exN i) =
          PTE2PA e ∧
        PTE_FLAGS (pteAt exL ((kvmcopymappings exL exM exT exN 0x1ff000 0x1000).state exM)
          exN i) = PTE_FLAGS e &&& (2 ^ 64 - 1 - PTE_U) ∧
        pteAt exL ((kvmcopymappings exL exM exT exN 0x1ff000 0x1000).state exM) exN i &&&
          PTE_U = 0 ∧
        ¬ pteValid (pteAt exL exM exN i)) :=
  have hv : (kvmcopymappings exL exM exT exN 0x1ff000 0x1000).val Prod.fst = some 0 := by
    decide
  ⟨by decide, hv,
    ((kvmcopymappings_mirror exL exM exT exN 0x1ff000 0x1000 [0x87ffb000, 0x87ffa000] exL_sane
      (by decide) exM_facts.1 exM_facts.2.1 exM_facts.2.2).1 _ (outcome_of_val exM hv)).1⟩

/-- C29, witness: `kvmcopymappings(exT, exN, 0x1ff000, 0x3000)` in the example state with
two free frames mirrors the page `0x1ff000`, fails at the page `0x200000`, unmaps the page
`0x1ff000` again and returns -1. -/
theorem kvmcopymappings_rollback_witness :
    FreeOK exL exM [0x87ffb000, 0x87ffa000] ∧
    (kvmcopymappings exL exM exT exN 0x1ff000 0x3000).val Prod.fst = some (-1) ∧
    (∀ va, leafAt exL ((kvmcopymappings exL exM exT exN 0x1ff000 0x3000).state exM) exN va =
      leafAt exL exM exN va) ∧
    (∀ va, leafAt exL ((kvmcopymappings exL exM exT exN 0x1ff000 0x3000).state exM) exT va =
      leafAt exL exM exT va) ∧
    FreeOK exL ((kvmcopymappings exL exM exT exN 0x1ff000 0x3000).state exM) [] :=
  have hv : (kvmcopymappings exL exM exT exN 0x1ff000 0x3000).val Prod.fst = some (-1) := by
    decide
  have h := (kvmcopymappings_rollback exL exM exT exN 0x1ff000 0x3000 [0x87ffb000, 0x87ffa000]
    exL_sane (by decide) exM_facts.1 exM_facts.2.1 exM_facts.2.2 exM_leaves).2 _ _
    (outcome_of_val exM hv) (by decide)
  ⟨by decide, hv, h.2.2.1, h.2.2.2.1, h.2.2.2.2.2.1⟩

/-! ## The label `bad` of `exec` -/

theorem walkaddr_eq (L : MemLayout) (s : KState) (T va : Nat) :
    walkaddr L s T va = .ok (if pteValid (pteAt L s T va) ∧ pteAt L s T va &&& PTE_U ≠ 0
      then PTE2PA (pteAt L s T va) else 0, s) := by
  by_cases hva : va < L.MAXVA
  · have hwk := @walk_ok L s T va 0 hva
    have hwa : walkaddr L s T va =
        if (walk_loop 2 s T va 0).1 = 0 then .ok (0, s)
        else if read64 s.mem (walk_loop 2 s T va 0).1 &&& PTE_V = 0 then .ok (0, s)
        else if read64 s.mem (walk_loop 2 s T va 0).1 &&& PTE_U = 0 then .ok (0, s)
        else .ok (PTE2PA (read64 s.mem (walk_loop 2 s T va 0).1), s) := by
      unfold walkaddr
      rw [if_neg (by omega), hwk, bind_ok, walk_loop_lookup]
    have hpt : pteAt L s T va =
        if (walk_loop 2 s T va 0).1 = 0 then 0 else read64 s.mem (walk_loop 2 s T va 0).1 := by
      unfold pteAt
      rw [hwk, walk_loop_lookup]
    rw [hwa, hpt]
    by_cases h0 : (walk_loop 2 s T va 0).1 = 0
    · rw [if_pos h0, if_pos h0, if_neg (fun h => not_pteValid_zero h.1)]
    · rw [if_neg h0, if_neg h0]
      by_cases hv : read64 s.mem (walk_loop 2 s T va 0).1 &&& PTE_V = 0
      · rw [if_pos hv, if_neg (fun h => h.1 hv)]
      · rw [if_neg hv]
        by_cases hu : read64 s.mem (walk_loop 2 s T va 0).1 &&& PTE_U = 0
        · rw [if_pos hu, if_neg (fun h => h.2 hu)]
        · rw [if_neg hu, if_pos ⟨hv, hu⟩]
  · have hwa : walkaddr L s T va = .ok (0, s) := by
      unfold walkaddr; rw [if_pos (by omega)]
    rw [hwa, pteAt_high (by omega), if_neg (fun h => not_pteValid_zero h.1)]

theorem uaddr_eq (L : MemLayout) (s : KState) (T va : Nat) :
    uaddr L s T va = if pteValid (pteAt L s T va) ∧ pteAt L s T va &&& PTE_U ≠ 0
      then PTE2PA (pteAt L s T va) else 0 := by
  unfold uaddr
  rw [walkaddr_eq]

theorem walkaddr_uaddr (L : MemLayout) (s : KState) (T va : Nat) :
    walkaddr L s T va = .ok (uaddr L s T va, s) := by
  rw [uaddr_eq, walkaddr_eq]

/-- What a translation that is not 0 says about the page and the frame. -/
theorem uaddr_ne_zero {L : MemLayout} {s : KState} {T va : Nat} (h : uaddr L s T va ≠ 0) :
    va < L.MAXVA ∧ pteValid (pteAt L s T va) ∧ pteAt L s T va &&& PTE_U ≠ 0 ∧
      uaddr L s T va = PTE2PA (pteAt L s T va) ∧ uaddr L s T va % 4096 = 0 ∧
      uaddr L s T va < 2 ^ 64 := by
  rw [uaddr_eq] at h ⊢
  by_cases hc : pteValid (pteAt L s T va) ∧ pteAt L s T va &&& PTE_U ≠ 0
  · rw [if_pos hc]
    exact ⟨pteAt_valid_lt hc.1, hc.1, hc.2, rfl, PTE2PA_aligned _, PTE2PA_lt _⟩
  · rw [if_neg hc] at h
    exact absurd rfl h

theorem uaddr_congr {L : MemLayout} {s s' : KState} {T : Nat} {F F' : List Nat}
    (hw : WFT s.mem T F) (hw' : WFT s'.mem T F')
    (h : ∀ i j k, i < 512 → j < 512 → k < 512 → ent s'.mem T i j k = ent s.mem T i j k)
    (va : Nat) : uaddr L s' T va = uaddr L s T va := by
  rw [uaddr_eq, uaddr_eq, pteAt_congr hw hw' h va]

theorem copyout_done (L : MemLayout) (fuel : Nat) (s : KState) (T dstva src : Nat) :
    copyout_loop L (fuel + 1) s T dstva src 0 = .ok (0, s) := by
  rw [copyout_loop, if_neg (by omega)]

theorem copyout_fail (L : MemLayout) (fuel : Nat) (s : KState) (T dstva src len : Nat)
    (hlen : 0 < len) (h : uaddr L s T (PGROUNDDOWN dstva) = 0) :
    copyout_loop L (fuel + 1) s T dstva src len = .ok (-1, s) := by
  rw [copyout_loop, if_pos hlen]
  simp only [walkaddr_uaddr, bind_ok, h, if_true]

theorem copyout_step (L : MemLayout) (hL : L.Sane) (fuel : Nat) (s : KState)
    (T dstva src len : Nat) (hlen : 0 < len) (hd : dstva < 2 ^ 64) (h : uaddr L s T (PGROUNDDOWN dstva) ≠ 0) :
    copyout_loop L (fuel + 1) s T dstva src len =
      copyout_loop L fuel
        ⟨memmove s.mem (uaddr L s T (PGROUNDDOWN dstva) + (dstva - PGROUNDDOWN dstva)) src
          (min (4096 - (dstva - PGROUNDDOWN dstva)) len), s.freelist⟩ T
        (PGROUNDDOWN dstva + 4096)
        ((src + min (4096 - (dstva - PGROUNDDOWN dstva)) len) % 2 ^ 64)
        (len - min (4096 - (dstva - PGROUNDDOWN dstva)) len) := by
  have hf := PGROUNDDOWN_facts dstva hd
  obtain ⟨hva, _, _, _, hal, hlt⟩ := uaddr_ne_zero h
  rw [copyout_loop, if_pos hlen]
  simp only [walkaddr_uaddr, bind_ok, if_neg h]
  have e1 : (dstva + 2 ^ 64 - PGROUNDDOWN dstva) % 2 ^ 64 = dstva - PGROUNDDOWN dstva := by
    omega
  have e2 : (PGSIZE + 2 ^ 64 - (dstva - PGROUNDDOWN dstva)) % 2 ^ 64 =
      4096 - (dstva - PGROUNDDOWN dstva) := by unfold PGSIZE; omega
  rw [e1, e2]
  have e3 : (uaddr L s T (PGROUNDDOWN dstva) + (dstva - PGROUNDDOWN dstva)) % 2 ^ 64 =
      uaddr L s T (PGROUNDDOWN dstva) + (dstva - PGROUNDDOWN dstva) := by omega
  have e4 : (if 4096 - (dstva - PGROUNDDOWN dstva) > len then len
      else 4096 - (dstva - PGROUNDDOWN dstva)) = min (4096 - (dstva - PGROUNDDOWN dstva)) len := by
    by_cases hc : 4096 - (dstva - PGROUNDDOWN dstva) > len
    · rw [if_pos hc, Nat.min_eq_right (by omega)]
    · rw [if_neg hc, Nat.min_eq_left (by omega)]
  have hM := hL.maxva_le
  rw [e3, e4, show (PGROUNDDOWN dstva + PGSIZE) % 2 ^ 64 = PGROUNDDOWN dstva + 4096 by
    unfold PGSIZE; omega]

theorem PGROUNDDOWN_div {y : Nat} (h : y < 2 ^ 64) : PGROUNDDOWN y = y / 4096 * 4096 := by
  rw [PGROUNDDOWN_eq, Nat.mod_eq_of_lt h]

/-- The loop of `copyout`, for a table whose user frames in the range are distinct, are
no page-table pages and do not hold the source bytes: it returns 0 with the bytes
copied, or -1 at the first page that does not translate. -/
theorem copyout_loop_spec {L : MemLayout} (hL : L.Sane) {T : Nat} {F : List Nat} :
    ∀ (n fuel : Nat) (s : KState) (dstva src len : Nat), n < fuel →
      L.MAXVA < PGROUNDDOWN dstva + n * 4096 → dstva < 2 ^ 64 → src + len < 2 ^ 64 →
      WFT s.mem T F →
      (∀ a, a % 4096 = 0 → dstva < a + 4096 → a < dstva + len → uaddr L s T a ≠ 0 →
        ¬ IsTablePage s.mem T (uaddr L s T a)) →
      (∀ a b, a % 4096 = 0 → dstva < a + 4096 → a < dstva + len →
        b % 4096 = 0 → dstva < b + 4096 → b < dstva + len →
        uaddr L s T a ≠ 0 → uaddr L s T a = uaddr L s T b → a = b) →
      (∀ a, a % 4096 = 0 → dstva < a + 4096 → a < dstva + len → uaddr L s T a ≠ 0 →
        ∀ k, k < len → ¬ (uaddr L s T a ≤ src + k ∧ src + k < uaddr L s T a + 4096)) →
      ∃ r s', copyout_loop L fuel s T dstva src len = .ok (r, s') ∧
        s'.freelist = s.freelist ∧
        (∀ q, IsTablePage s.mem T q → ∀ x, q ≤ x → x < q + 4096 → s'.mem x = s.mem x) ∧
        ((r = 0 ∧
          (len = 0 ∨ ∀ a, a % 4096 = 0 → dstva < a + 4096 → a < dstva + len →
            uaddr L s T a ≠ 0) ∧
          (∀ k, k < len → s'.mem (uaddr L s T (PGROUNDDOWN (dstva + k)) +
            (dstva + k) % 4096) = s.mem (src + k)) ∧
          (∀ x, (∀ k, k < len → x ≠ uaddr L s T (PGROUNDDOWN (dstva + k)) +
            (dstva + k) % 4096) → s'.mem x = s.mem x)) ∨
         (r = -1 ∧ 0 < len ∧ ∃ a, a % 4096 = 0 ∧ dstva < a + 4096 ∧ a < dstva + len ∧
            uaddr L s T a = 0))
  | n, 0, _, _, _, _, hn, _, _, _, _, _, _, _ => absurd hn (Nat.not_lt_zero n)
  | n, fuel + 1, s, dstva, src, len, hn, hmax, hd, hs, hw, hsafe, hinj, hsrc => by
    have hM := hL.maxva_le
    have hMa := hL.maxva_al
    have hf := PGROUNDDOWN_facts dstva hd
    by_cases hlen : len = 0
    · subst hlen
      exact ⟨0, s, copyout_done L fuel s T dstva src, rfl, fun _ _ _ _ _ => rfl,
        Or.inl ⟨rfl, Or.inl rfl, fun k hk => absurd hk (Nat.not_lt_zero k), fun _ _ => rfl⟩⟩
    by_cases hu : uaddr L s T (PGROUNDDOWN dstva) = 0
    · exact ⟨-1, s, copyout_fail L fuel s T dstva src len (by omega) hu, rfl,
        fun _ _ _ _ _ => rfl,
        Or.inr ⟨rfl, by omega, PGROUNDDOWN dstva, hf.1, hf.2.2, by omega, hu⟩⟩
    obtain ⟨hva, _, _, _, hal, hlt⟩ := uaddr_ne_zero hu
    cases n with
    | zero => omega
    | succ n =>
    rw [copyout_step L hL fuel s T dstva src len (by omega) hd hu]
    generalize hva0 : PGROUNDDOWN dstva = va0 at hf hu hva hal hlt hmax ⊢
    generalize hpa0 : uaddr L s T va0 = pa0 at hu hal hlt ⊢
    have hcn : min (4096 - (dstva - va0)) len ≤ len ∧
        min (4096 - (dstva - va0)) len ≤ 4096 - (dstva - va0) ∧
        0 < min (4096 - (dstva - va0)) len ∧
        (min (4096 - (dstva - va0)) len = len ∨
          (min (4096 - (dstva - va0)) len = 4096 - (dstva - va0) ∧
            4096 - (dstva - va0) ≤ len)) := by
      by_cases hc : 4096 - (dstva - va0) ≤ len
      · rw [Nat.min_eq_left hc]; omega
      · rw [Nat.min_eq_right (by omega)]; omega
    generalize min (4096 - (dstva - va0)) len = cn at hcn ⊢
    obtain ⟨hcn1, hcn2, hcn3, hcn4⟩ := hcn
    rw [Nat.mod_eq_of_lt (by omega : src + cn < 2 ^ 64)]
    have hR0 : va0 % 4096 = 0 ∧ dstva < va0 + 4096 ∧ va0 < dstva + len :=
      ⟨hf.1, hf.2.2, by omega⟩
    have hnt : ¬ IsTablePage s.mem T pa0 := by
      have := hsafe va0 hR0.1 hR0.2.1 hR0.2.2 (by rw [hpa0]; exact hu)
      rw [hpa0] at this
      exact this
    obtain ⟨s2, hs2⟩ : ∃ s2 : KState,
        s2 = ⟨memmove s.mem (pa0 + (dstva - va0)) src cn, s.freelist⟩ := ⟨_, rfl⟩
    have hm2 : s2.mem = memmove s.mem (pa0 + (dstva - va0)) src cn := by rw [hs2]
    have hf2 : s2.freelist = s.freelist := by rw [hs2]
    rw [← hs2]
    have hout : ∀ x, ¬ (pa0 ≤ x ∧ x < pa0 + 4096) → s2.mem x = s.mem x := fun x hx => by
      rw [hm2]
      exact memmove_outside _ _ _ _ _ (by omega)
    obtain ⟨hw2, hpg2, hent2, _⟩ := @data_change s.mem s2.mem T pa0 F hw hal hnt hout
    have hua : ∀ a, uaddr L s2 T a = uaddr L s T a := fun a => uaddr_congr hw hw2 hent2 a
    have hsub : ∀ a, a % 4096 = 0 → va0 + 4096 < a + 4096 → a < va0 + 4096 + (len - cn) →
        dstva < a + 4096 ∧ a < dstva + len ∧ a ≠ va0 := fun a _ h1 h2 => by omega
    have hpd : PGROUNDDOWN (va0 + 4096) = va0 + 4096 :=
      PGROUNDDOWN_aligned_eq (by omega) (by omega)
    have hdiv : va0 = dstva / 4096 * 4096 := by
      rw [← hva0]; exact PGROUNDDOWN_div hd
    -- the target of byte `k` of the first chunk
    have htg0 : ∀ k, k < cn → uaddr L s T (PGROUNDDOWN (dstva + k)) + (dstva + k) % 4096 =
        pa0 + (dstva - va0) + k := fun k hk => by
      have e1 : PGROUNDDOWN (dstva + k) = va0 := by
        rw [PGROUNDDOWN_div (by omega)]; omega
      rw [e1, hpa0]; omega
    -- the target of a later byte is the target of a byte of the rest
    have htg1 : ∀ k, k < len - cn → dstva + (cn + k) = va0 + 4096 + k := fun k hk => by omega
    obtain ⟨r, s', hres, hfl, htab, hpost⟩ := copyout_loop_spec hL n fuel
      s2 (va0 + 4096) (src + cn)
      (len - cn) (by omega) (by rw [hpd]; omega) (by omega) (by omega) hw2
      (fun a ha h1 h2 hne => by
        rw [hua] at hne ⊢
        obtain ⟨g1, g2, _⟩ := hsub a ha h1 h2
        exact fun hc => hsafe a ha g1 g2 hne ((hpg2 _).mp hc))
      (fun a b ha h1 h2 hb h3 h4 hne he => by
        rw [hua] at hne he
        rw [hua] at he
        obtain ⟨g1, g2, _⟩ := hsub a ha h1 h2
        obtain ⟨g3, g4, _⟩ := hsub b hb h3 h4
        exact hinj a b ha g1 g2 hb g3 g4 hne he)
      (fun a ha h1 h2 hne k hk => by
        rw [hua] at hne ⊢
        obtain ⟨g1, g2, _⟩ := hsub a ha h1 h2
        have := hsrc a ha g1 g2 hne (cn + k) (by omega)
        rw [show src + cn + k = src + (cn + k) by omega]
        exact this)
    have htab' : ∀ q, IsTablePage s.mem T q → ∀ x, q ≤ x → x < q + 4096 →
        s'.mem x = s.mem x := fun q hq x hx1 hx2 => by
      rw [htab q ((hpg2 q).mpr hq) x hx1 hx2]
      exact hout x (frames_disjoint (WFT_page hw hq).1 hal (fun e => hnt (e ▸ hq)) ⟨hx1, hx2⟩)
    refine ⟨r, s', hres, hfl.trans hf2, htab', ?_⟩
    have hsrc0 := hsrc va0 hR0.1 hR0.2.1 hR0.2.2 (by rw [hpa0]; exact hu)
    rw [hpa0] at hsrc0
    rcases hpost with ⟨hr, hall, hbytes, hothers⟩ | ⟨hr, hlen', a, ha, h1, h2, h0⟩
    · left
      -- a range all of whose pages translate ends below `MAXVA`
      have hend : len - cn = 0 ∨ va0 + 4096 + (len - cn) ≤ L.MAXVA := by
        by_contra hc
        rcases hall with h | h
        · exact hc (Or.inl h)
        · have := (uaddr_ne_zero (h L.MAXVA hMa (by omega) (by omega))).1
          omega
      -- the frames of the rest are disjoint from the frame of the first page
      have hrest : ∀ k, k < len - cn →
          ¬ (pa0 ≤ uaddr L s T (PGROUNDDOWN (va0 + 4096 + k)) + (va0 + 4096 + k) % 4096 ∧
            uaddr L s T (PGROUNDDOWN (va0 + 4096 + k)) + (va0 + 4096 + k) % 4096 <
              pa0 + 4096) := fun k hk => by
        have hpk := PGROUNDDOWN_facts (va0 + 4096 + k) (by omega)
        have hdk := PGROUNDDOWN_div (by omega : va0 + 4096 + k < 2 ^ 64)
        have hRk : PGROUNDDOWN (va0 + 4096 + k) % 4096 = 0 ∧
            va0 + 4096 < PGROUNDDOWN (va0 + 4096 + k) + 4096 ∧
            PGROUNDDOWN (va0 + 4096 + k) < va0 + 4096 + (len - cn) :=
          ⟨hpk.1, by omega, by omega⟩
        have hne : uaddr L s T (PGROUNDDOWN (va0 + 4096 + k)) ≠ 0 := by
          rcases hall with h | h
          · omega
          · have := h _ hRk.1 hRk.2.1 hRk.2.2
            rw [hua] at this
            exact this
        obtain ⟨g1, g2, g3⟩ := hsub _ hRk.1 hRk.2.1 hRk.2.2
        have hdiff : uaddr L s T (PGROUNDDOWN (va0 + 4096 + k)) ≠ pa0 := fun e => g3
          (hinj _ va0 hRk.1 g1 g2 hR0.1 hR0.2.1 hR0.2.2 hne (by rw [e, hpa0]))
        have hal' := (uaddr_ne_zero hne).2.2.2.2.1
        generalize uaddr L s T (PGROUNDDOWN (va0 + 4096 + k)) = pk at hdiff hal' ⊢
        omega
      refine ⟨hr, Or.inr fun a ha h1 h2 => ?_, fun k hk => ?_, fun x hx => ?_⟩
      · by_cases hav : a = va0
        · rw [hav, hpa0]; exact hu
        · have hR' : va0 + 4096 < a + 4096 ∧ a < va0 + 4096 + (len - cn) := by omega
          rcases hall with h | h
          · omega
          · have := h a ha hR'.1 hR'.2
            rw [hua] at this
            exact this
      · by_cases hk0 : k < cn
        · rw [htg0 k hk0, hothers _ (fun k' hk' => by
            rw [hua]
            intro e
            exact hrest k' hk' (by rw [← e]; omega))]
          rw [hm2, memmove_inside _ _ _ _ _ (by omega) (by omega)]
          congr 1
          omega
        · have hk' : k - cn < len - cn := by omega
          have e1 := hbytes (k - cn) hk'
          rw [hua, show va0 + 4096 + (k - cn) = dstva + k by omega,
            show src + cn + (k - cn) = src + k by omega] at e1
          rw [e1, hm2]
          have := hsrc0 k hk
          exact memmove_outside _ _ _ _ _ (by omega)
      · rw [hothers x (fun k' hk' => by
          rw [hua]
          have := hx (cn + k') (by omega)
          rw [htg1 k' hk'] at this
          exact this)]
        rw [hm2]
        refine memmove_outside _ _ _ _ _ ?_
        by_contra hc
        have := hx (x - (pa0 + (dstva - va0))) (by omega)
        rw [htg0 _ (by omega)] at this
        omega
    · right
      rw [hua] at h0
      obtain ⟨g1, g2, _⟩ := hsub a ha h1 h2
      exact ⟨hr, by omega, a, ha, g1, g2, h0⟩

/-- C22: `copyout` correctness.  Let `T` be a well-formed table, `src` the kernel address
of `len` source bytes, and let the pages that overlap `[dstva, dstva+len)` and translate
through `walkaddr` reference distinct frames that are no page-table pages of `T` and do
not hold source bytes.  Then `copyout(T, dstva, src, len)` returns 0 or -1, and it returns
0 if and only if `len` is 0 or every page that overlaps `[dstva, dstva+len)` translates
through `walkaddr` (the answer of `walkaddr` is not 0).  When it returns 0, for every
`k < len` the byte at the physical address
`walkaddr(T, PGROUNDDOWN(dstva+k)) + (dstva+k) % PGSIZE` is the source byte `k`, and no
other byte of memory has changed.  In either case no page-table entry is modified: every
lookup in `T` and every byte of its page-table pages is as before, and so is the free
list. -/
theorem copyout_correct (L : MemLayout) (s : KState) (T dstva src len : Nat) (F : List Nat)
    (hL : L.Sane) (hw : WFT s.mem T F) (hd : dstva < 2 ^ 64) (hs : src + len < 2 ^ 64)
    (hsafe : ∀ a, a % PGSIZE = 0 → dstva < a + PGSIZE → a < dstva + len →
      uaddr L s T a ≠ 0 → ¬ IsTablePage s.mem T (uaddr L s T a))
    (hinj : ∀ a b, a % PGSIZE = 0 → dstva < a + PGSIZE → a < dstva + len →
      b % PGSIZE = 0 → dstva < b + PGSIZE → b < dstva + len →
      uaddr L s T a ≠ 0 → uaddr L s T a = uaddr L s T b → a = b)
    (hsrc : ∀ a, a % PGSIZE = 0 → dstva < a + PGSIZE → a < dstva + len →
      uaddr L s T a ≠ 0 → ∀ k, k < len →
      ¬ (uaddr L s T a ≤ src + k ∧ src + k < uaddr L s T a + PGSIZE)) :
    ∃ r s', copyout L s T dstva src len = .ok (r, s') ∧ (r = 0 ∨ r = -1) ∧
      (r = 0 ↔ (len = 0 ∨ ∀ a, a % PGSIZE = 0 → dstva < a + PGSIZE → a < dstva + len →
        ∃ pa, walkaddr L s T a = .ok (pa, s) ∧ pa ≠ 0)) ∧
      (r = 0 →
        (∀ k, k < len → s'.mem (uaddr L s T (PGROUNDDOWN (dstva + k)) +
          (dstva + k) % PGSIZE) = s.mem (src + k)) ∧
        (∀ x, (∀ k, k < len → x ≠ uaddr L s T (PGROUNDDOWN (dstva + k)) +
          (dstva + k) % PGSIZE) → s'.mem x = s.mem x)) ∧
      (∀ va, pteAt L s' T va = pteAt L s T va) ∧
      (∀ q, IsTablePage s.mem T q → ∀ x, q ≤ x → x < q + PGSIZE → s'.mem x = s.mem x) ∧
      s'.freelist = s.freelist := by
  have hM := hL.maxva_le
  have hMa := hL.maxva_al
  have hf := PGROUNDDOWN_facts dstva hd
  obtain ⟨r, s', hres, hfl, htab, hpost⟩ := @copyout_loop_spec L hL T F (L.MAXVA / 4096 + 1)
    (L.MAXVA / PGSIZE + 2) s dstva src len (by unfold PGSIZE; omega) (by omega) hd hs hw
    hsafe hinj hsrc
  obtain ⟨hw', _⟩ := agree_tables_WFT hw htab
  have hpte : ∀ va, pteAt L s' T va = pteAt L s T va :=
    pteAt_congr hw hw' (agree_tables htab).2.2
  refine ⟨r, s', hres, ?_, ?_, ?_, hpte, htab, hfl⟩
  · rcases hpost with h | h
    · exact Or.inl h.1
    · exact Or.inr h.1
  · rcases hpost with ⟨hr, hall, _⟩ | ⟨hr, hlen, a, ha, h1, h2, h0⟩
    · refine ⟨fun _ => ?_, fun _ => hr⟩
      rcases hall with h | h
      · exact Or.inl h
      · exact Or.inr fun a ha h1 h2 => ⟨_, walkaddr_uaddr L s T a, h a ha h1 h2⟩
    · refine ⟨fun h => ?_, fun h => ?_⟩
      · rw [hr] at h; cases h
      · exfalso
        rcases h with h | h
        · omega
        · obtain ⟨pa, hpa, hne⟩ := h a ha h1 h2
          rw [walkaddr_uaddr, h0] at hpa
          injection hpa with hpa
          exact hne (congrArg Prod.fst hpa).symm
  · intro hr0
    rcases hpost with ⟨_, _, hb, ho⟩ | ⟨hr, _⟩
    · exact ⟨hb, ho⟩
    · rw [hr] at hr0; cases hr0

theorem exC2_uaddr : uaddr exL exC2 0x87fff000 0 = 0x87ffe000 ∧
    uaddr exL exC2 0x87fff000 4096 = 0x87ffb000 := by
  decide

/-- C22, witness: sixteen bytes of the level-0 page of the example table are copied to the
user addresses from 4090 on, across the boundary of the two mapped pages. -/
theorem copyout_correct_witness :
    (copyout exL exC2 0x87fff000 4090 0x87ffc000 16).val Prod.fst = some 0 ∧
    ∃ r s', copyout exL exC2 0x87fff000 4090 0x87ffc000 16 = .ok (r, s') ∧ (r = 0 ∨ r = -1) ∧
      (r = 0 ↔ ((16 : Nat) = 0 ∨ ∀ a, a % PGSIZE = 0 → 4090 < a + PGSIZE → a < 4090 + 16 →
        ∃ pa, walkaddr exL exC2 0x87fff000 a = .ok (pa, exC2) ∧ pa ≠ 0)) ∧
      (r = 0 →
        (∀ k, k < 16 → s'.mem (uaddr exL exC2 0x87fff000 (PGROUNDDOWN (4090 + k)) +
          (4090 + k) % PGSIZE) = exC2.mem (0x87ffc000 + k)) ∧
        (∀ x, (∀ k, k < 16 → x ≠ uaddr exL exC2 0x87fff000 (PGROUNDDOWN (4090 + k)) +
          (4090 + k) % PGSIZE) → s'.mem x = exC2.mem x)) ∧
      (∀ va, pteAt exL s' 0x87fff000 va = pteAt exL exC2 0x87fff000 va) ∧
      (∀ q, IsTablePage exC2.mem 0x87fff000 q → ∀ x, q ≤ x → x < q + PGSIZE →
        s'.mem x = exC2.mem x) ∧
      s'.freelist = exC2.freelist :=
  have hpages : ∀ a, a % PGSIZE = 0 → 4090 < a + PGSIZE → a < 4090 + 16 →
      a = 0 ∨ a = 4096 := fun a h1 h2 h3 => by unfold PGSIZE at h1 h2; omega
  have hfr : ∀ a, a % PGSIZE = 0 → 4090 < a + PGSIZE → a < 4090 + 16 →
      uaddr exL exC2 0x87fff000 a = 0x87ffe000 ∨ uaddr exL exC2 0x87fff000 a = 0x87ffb000 :=
    fun a h1 h2 h3 => by
      rcases hpages a h1 h2 h3 with rfl | rfl
      · exact Or.inl exC2_uaddr.1
      · exact Or.inr exC2_uaddr.2
  ⟨by decide, copyout_correct exL exC2 0x87fff000 4090 0x87ffc000 16 [0x87ffa000] exL_sane
    exC2_facts.1 (by decide) (by decide)
    (fun a h1 h2 h3 _ => by
      rcases hfr a h1 h2 h3 with e | e
      · rw [e]; exact exC2_facts.2.2.1 _ (by decide)
      · rw [e]; exact exC2_facts.2.2.1 _ (by decide))
    (fun a b h1 h2 h3 h4 h5 h6 _ he => by
      rcases hpages a h1 h2 h3 with rfl | rfl <;> rcases hpages b h4 h5 h6 with rfl | rfl
      · rfl
      · rw [exC2_uaddr.1, exC2_uaddr.2] at he; omega
      · rw [exC2_uaddr.1, exC2_uaddr.2] at he; omega
      · rfl)
    (fun a h1 h2 h3 _ k hk => by
      unfold PGSIZE
      rcases hfr a h1 h2 h3 with e | e <;> rw [e] <;> omega)⟩

/-! ## Exclusive ownership -/

theorem WFT_ext {m : Mem} {T : Nat} {F : List Nat} (hw : WFT m T F) :
    ∀ (F' : List Nat), (∀ g ∈ F', ¬ IsTablePage m T g) → WFT m T F'
  | [], _ => WFT_mono hw (fun g hg => absurd hg (List.not_mem_nil g))
  | d :: F', h =>
    WFT_cons_free (WFT_ext hw F' (fun g hg => h g (List.mem_cons_of_mem _ hg)))
      (h d (List.mem_cons_self _ _))

/-- A step on the table `T` of a state with exclusive ownership keeps the ownership
exclusive, when the new free frames were free or were frames of leaves of `T`, the new
page-table pages of `T` were free, memory changed only in such frames and in page-table
pages of `T`, and every valid level-0 entry of `T` is an entry kept from before whose
frame is not free now, or a new leaf whose frame was free and is neither free nor a
page-table page of `T` now, different new leaves having different frames. -/
theorem excl_step {L : MemLayout} {s s' : KState} {Ts F F' : List Nat} {T : Nat}
    (hE : Exclusive L s Ts F) (hT : T ∈ Ts) (hfo' : FreeOK L s' F') (hwT : WFT s'.mem T F')
    (hFsub : ∀ f ∈ F', f ∈ F ∨ ∃ i j k, i < 512 ∧ j < 512 ∧ k < 512 ∧
      pteValid (ent s.mem T i j k) ∧ f = PTE2PA (ent s.mem T i j k))
    (hpg : ∀ q, IsTablePage s'.mem T q → IsTablePage s.mem T q ∨ q ∈ F)
    (hfoot : ∀ x, s'.mem x ≠ s.mem x →
      (∃ f, (f ∈ F ∨ ∃ i j k, i < 512 ∧ j < 512 ∧ k < 512 ∧
        pteValid (ent s.mem T i j k) ∧ f = PTE2PA (ent s.mem T i j k)) ∧
        f ≤ x ∧ x < f + 4096) ∨
      (∃ q, IsTablePage s.mem T q ∧ q ≤ x ∧ x < q + 4096))
    (hent : ∀ i j k, i < 512 → j < 512 → k < 512 → pteValid (ent s'.mem T i j k) →
      (ent s'.mem T i j k = ent s.mem T i j k ∧ pteValid (ent s.mem T i j k) ∧
        PTE2PA (ent s.mem T i j k) ∉ F') ∨
      (isLeaf (ent s'.mem T i j k) ∧ PTE2PA (ent s'.mem T i j k) ∈ F ∧
        PTE2PA (ent s'.mem T i j k) ∉ F' ∧
        ¬ IsTablePage s'.mem T (PTE2PA (ent s'.mem T i j k))))
    (hnew : ∀ i j k i' j' k', i < 512 → j < 512 → k < 512 → i' < 512 → j' < 512 → k' < 512 →
      pteValid (ent s'.mem T i j k) → pteValid (ent s'.mem T i' j' k') →
      PTE2PA (ent s'.mem T i j k) ∈ F →
      PTE2PA (ent s'.mem T i j k) = PTE2PA (ent s'.mem T i' j' k') →
      i = i' ∧ j = j' ∧ k = k') :
    Exclusive L s' Ts F' := by
  -- a frame that was free or was a leaf frame of `T` is aligned and no page of any table
  have hA : ∀ f, (f ∈ F ∨ ∃ i j k, i < 512 ∧ j < 512 ∧ k < 512 ∧
      pteValid (ent s.mem T i j k) ∧ f = PTE2PA (ent s.mem T i j k)) →
      f % 4096 = 0 ∧ ∀ T' ∈ Ts, ¬ IsTablePage s.mem T' f := by
    rintro f (hf | ⟨i, j, k, hi, hj, hk, hv, rfl⟩)
    · exact ⟨goodFrame_al (hE.free.2.2 f hf), fun T' hT' hc => (WFT_page (hE.wft T' hT') hc).2.2.2 hf⟩
    · exact ⟨PTE2PA_aligned _, (hE.leaf T hT i j k hi hj hk hv).2.2.2⟩
  -- the other tables are untouched
  have hag : ∀ T' ∈ Ts, T' ≠ T → ∀ p, IsTablePage s.mem T' p → ∀ x, p ≤ x → x < p + 4096 →
      s'.mem x = s.mem x := by
    intro T' hT' hne p hp x hx1 hx2
    by_contra hc
    have hpa := (WFT_page (hE.wft T' hT') hp).1
    rcases hfoot x hc with ⟨f, hf, hx⟩ | ⟨q, hq, hx⟩
    · obtain ⟨hal, hnt⟩ := hA f hf
      have : f ≠ p := fun e => hnt T' hT' (e ▸ hp)
      omega
    · have hqa := (WFT_page (hE.wft T hT) hq).1
      have : q ≠ p := fun e => hne (hE.sepT T' hT' T hT p hp (e ▸ hq))
      omega
  have hoth : ∀ T' ∈ Ts, T' ≠ T →
      (∀ i j k, i < 512 → j < 512 → k < 512 → ent s'.mem T' i j k = ent s.mem T' i j k) ∧
      (∀ p, IsTablePage s'.mem T' p ↔ IsTablePage s.mem T' p) ∧ WFT s'.mem T' F := by
    intro T' hT' hne
    obtain ⟨h1, h2⟩ := agree_tables_WFT (hE.wft T' hT') (hag T' hT' hne)
    exact ⟨(agree_tables (hag T' hT' hne)).2.2, h2, h1⟩
  -- the page-table pages of any table, after the step
  have hpages : ∀ T' ∈ Ts, ∀ q, IsTablePage s'.mem T' q →
      IsTablePage s.mem T' q ∨ (T' = T ∧ q ∈ F) := by
    intro T' hT' q hq
    by_cases hne : T' = T
    · subst hne
      rcases hpg q hq with h | h
      · exact Or.inl h
      · exact Or.inr ⟨rfl, h⟩
    · exact Or.inl (((hoth T' hT' hne).2.1 q).mp hq)
  -- the valid level-0 entries of any table, after the step
  have hents : ∀ T' ∈ Ts, ∀ i j k, i < 512 → j < 512 → k < 512 →
      pteValid (ent s'.mem T' i j k) →
      (ent s'.mem T' i j k = ent s.mem T' i j k ∧ pteValid (ent s.mem T' i j k) ∧
        PTE2PA (ent s.mem T' i j k) ∉ F') ∨
      (T' = T ∧ isLeaf (ent s'.mem T i j k) ∧ PTE2PA (ent s'.mem T i j k) ∈ F ∧
        PTE2PA (ent s'.mem T i j k) ∉ F' ∧
        ¬ IsTablePage s'.mem T (PTE2PA (ent s'.mem T i j k))) := by
    intro T' hT' i j k hi hj hk hv
    by_cases hne : T' = T
    · subst hne
      rcases hent i j k hi hj hk hv with h | h
      · exact Or.inl h
      · exact Or.inr ⟨rfl, h⟩
    · left
      have e := (hoth T' hT' hne).1 i j k hi hj hk
      rw [e] at hv ⊢
      refine ⟨rfl, hv, fun hc => ?_⟩
      rcases hFsub _ hc with h | ⟨i', j', k', hi', hj', hk', hv', he⟩
      · exact (hE.leaf T' hT' i j k hi hj hk hv).2.2.1 h
      · exact hne (hE.inj T' hT' T hT i j k i' j' k' hi hj hk hi' hj' hk' hv hv' he).1
  refine ⟨hfo', fun T' hT' => ?_, fun T1 h1 T2 h2 q hq1 hq2 => ?_,
    fun T1 h1 i j k hi hj hk hv => ?_,
    fun T1 h1 T2 h2 i j k i' j' k' hi hj hk hi' hj' hk' hv hv' he => ?_⟩
  · by_cases hne : T' = T
    · subst hne; exact hwT
    · refine WFT_ext (hoth T' hT' hne).2.2 F' (fun g hg hc => ?_)
      have hc' := ((hoth T' hT' hne).2.1 g).mp hc
      exact (hA g (hFsub g hg)).2 T' hT' hc'
  · rcases hpages T1 h1 q hq1 with a1 | ⟨e1, a1⟩ <;> rcases hpages T2 h2 q hq2 with a2 | ⟨e2, a2⟩
    · exact hE.sepT T1 h1 T2 h2 q a1 a2
    · exact absurd a2 (WFT_page (hE.wft T1 h1) a1).2.2.2
    · exact absurd a1 (WFT_page (hE.wft T2 h2) a2).2.2.2
    · rw [e1, e2]
  · rcases hents T1 h1 i j k hi hj hk hv with ⟨e, hv0, hnF⟩ | ⟨e1, hl, hF, hnF, hnt⟩
    · obtain ⟨g1, g2, g3, g4⟩ := hE.leaf T1 h1 i j k hi hj hk hv0
      rw [e]
      refine ⟨g1, g2, hnF, fun T' hT' hc => ?_⟩
      rcases hpages T' hT' _ hc with h | ⟨_, h⟩
      · exact g4 T' hT' h
      · exact g3 h
    · subst e1
      refine ⟨hl, hE.free.2.2 _ hF, hnF, fun T' hT' hc => ?_⟩
      by_cases hne : T' = T1
      · subst hne; exact hnt hc
      · exact (WFT_page (hE.wft T' hT') (((hoth T' hT' hne).2.1 _).mp hc)).2.2.2 hF
  · rcases hents T1 h1 i j k hi hj hk hv with ⟨e, hv0, _⟩ | ⟨e1, _, hF, _, _⟩ <;>
      rcases hents T2 h2 i' j' k' hi' hj' hk' hv' with ⟨e', hv0', _⟩ | ⟨e2, _, hF', _, _⟩
    · rw [e, e'] at he
      exact hE.inj T1 h1 T2 h2 i j k i' j' k' hi hj hk hi' hj' hk' hv0 hv0' he
    · subst e2
      rw [e] at he
      exact absurd (he ▸ hF') (hE.leaf T1 h1 i j k hi hj hk hv0).2.2.1
    · subst e1
      rw [e'] at he
      exact absurd (he ▸ hF) (hE.leaf T2 h2 i' j' k' hi' hj' hk' hv0').2.2.1
    · subst e1
      subst e2
      exact ⟨rfl, hnew i j k i' j' k' hi hj hk hi' hj' hk' hv hv' hF he⟩

/-! ## Exclusive ownership: the steps -/

theorem isLeaf_entry {d perm : Nat} (hp : perm < 1024)
    (hr : perm &&& (PTE_R ||| PTE_W ||| PTE_X) ≠ 0) : isLeaf (PA2PTE d ||| perm ||| PTE_V) := by
  have hf : PTE_FLAGS (PA2PTE d ||| perm ||| PTE_V) = perm ||| PTE_V := entry_flags hp
  have hb : (perm ||| PTE_V) % 2 = 1 := by
    have := Nat.testBit_or perm PTE_V 0
    simp only [Nat.testBit_zero] at this
    have h1 : PTE_V % 2 = 1 := by decide
    rw [h1] at this
    simpa using this
  have hv : pteValid (PA2PTE d ||| perm ||| PTE_V) := by
    rw [pteValid_iff]
    rw [PTE_FLAGS_eq] at hf
    omega
  refine ⟨hv, ?_⟩
  rw [← flags_rwx, hf]
  intro hc
  apply hr
  apply Nat.eq_of_testBit_eq
  intro i
  have := congrArg (fun z => Nat.testBit z i) hc
  simp only [Nat.testBit_and, Nat.testBit_or, Nat.zero_testBit] at this ⊢
  by_cases hpi : perm.testBit i
  · simp only [hpi, Bool.true_or, Bool.true_and] at this ⊢
    exact this
  · simp [hpi]

/-- A step on the table `T` after which every valid level-0 entry of `T` is an entry kept
from before whose frame is not free. -/
theorem excl_step_kept {L : MemLayout} {s s' : KState} {Ts F F' : List Nat} {T : Nat}
    (hE : Exclusive L s Ts F) (hT : T ∈ Ts) (hfo' : FreeOK L s' F') (hwT : WFT s'.mem T F')
    (hFsub : ∀ f ∈ F', f ∈ F ∨ ∃ i j k, i < 512 ∧ j < 512 ∧ k < 512 ∧
      pteValid (ent s.mem T i j k) ∧ f = PTE2PA (ent s.mem T i j k))
    (hpg : ∀ q, IsTablePage s'.mem T q → IsTablePage s.mem T q ∨ q ∈ F)
    (hfoot : ∀ x, s'.mem x ≠ s.mem x →
      (∃ f, (f ∈ F ∨ ∃ i j k, i < 512 ∧ j < 512 ∧ k < 512 ∧
        pteValid (ent s.mem T i j k) ∧ f = PTE2PA (ent s.mem T i j k)) ∧
        f ≤ x ∧ x < f + 4096) ∨
      (∃ q, IsTablePage s.mem T q ∧ q ≤ x ∧ x < q + 4096))
    (hent : ∀ i j k, i < 512 → j < 512 → k < 512 → pteValid (ent s'.mem T i j k) →
      ent s'.mem T i j k = ent s.mem T i j k ∧ pteValid (ent s.mem T i j k) ∧
        PTE2PA (ent s.mem T i j k) ∉ F') :
    Exclusive L s' Ts F' := by
  refine excl_step hE hT hfo' hwT hFsub hpg hfoot
    (fun i j k hi hj hk hv => Or.inl (hent i j k hi hj hk hv))
    (fun i j k i' j' k' hi hj hk _ _ _ hv _ hF _ => ?_)
  obtain ⟨e, hv0, _⟩ := hent i j k hi hj hk hv
  rw [e] at hF
  exact absurd hF (hE.leaf T hT i j k hi hj hk hv0).2.2.1

/-- A successful grow of the table `T` by leaves keeps the ownership exclusive. -/
theorem excl_grow {L : MemLayout} (hL : L.Sane) {s s' : KState} {Ts F D Pt F' : List Nat}
    {T a n : Nat} {fl : Nat → Nat} (hE : Exclusive L s Ts F) (hT : T ∈ Ts)
    (h : GrowOK L T s F a n fl s' D Pt F') (hfl : ∀ u, fl u < 1024)
    (hrwx : ∀ u, u < n → fl u &&& (PTE_R ||| PTE_W ||| PTE_X) ≠ 0) :
    Exclusive L s' Ts F' := by
  obtain ⟨_, hnd, hD, hP⟩ := growOK_frames hL hE.free (hE.wft T hT) h hfl
  have hsub : ∀ f ∈ F', f ∈ F := fun f hf => h.perm.mem_iff.mpr (List.mem_append_right _ hf)
  have hcase : ∀ i j k, i < 512 → j < 512 → k < 512 →
      (∃ u, u < n ∧ ent s'.mem T i j k = PA2PTE (D.getD u 0) ||| fl u ||| PTE_V ∧
        D.getD u 0 ∈ D ∧ PTE2PA (ent s'.mem T i j k) = D.getD u 0 ∧
        i = PX 2 (a + u * 4096) ∧ j = PX 1 (a + u * 4096) ∧ k = PX 0 (a + u * 4096)) ∨
      ent s'.mem T i j k = ent s.mem T i j k := by
    intro i j k hi hj hk
    by_cases hr : ∃ u, u < n ∧ i = PX 2 (a + u * 4096) ∧ j = PX 1 (a + u * 4096) ∧
        k = PX 0 (a + u * 4096)
    · obtain ⟨u, hu, e1, e2, e3⟩ := hr
      left
      have hmem : D.getD u 0 ∈ D := by
        rw [List.getD_eq_getElem _ _ (by rw [h.len]; exact hu)]; exact List.getElem_mem _
      have hg := (hD _ hmem).1
      have hval := h.upd.1 u hu
      rw [← e1, ← e2, ← e3] at hval
      refine ⟨u, hu, hval, hmem, ?_, e1, e2, e3⟩
      rw [hval]
      exact entry_pa (goodFrame_al hg) (goodFrame_lt hL hg) (hfl u)
    · right
      exact h.upd.2 i j k hi hj hk (fun u hu hc => hr ⟨u, hu, hc⟩)
  have hold : ∀ i j k, i < 512 → j < 512 → k < 512 → pteValid (ent s'.mem T i j k) →
      ent s'.mem T i j k = ent s.mem T i j k → PTE2PA (ent s'.mem T i j k) ∉ F :=
    fun i j k hi hj hk hv e => by
      rw [e] at hv ⊢
      exact (hE.leaf T hT i j k hi hj hk hv).2.2.1
  refine excl_step hE hT h.free h.wft (fun f hf => Or.inl (hsub f hf))
    (fun q hq => ?_) (fun x hx => ?_) (fun i j k hi hj hk hv => ?_)
    (fun i j k i' j' k' hi hj hk hi' hj' hk' hv hv' hF he => ?_)
  · rcases (h.pages q).mp hq with h1 | h1
    · exact Or.inl h1
    · exact Or.inr (hP q h1).1
  · rcases h.foot x hx with ⟨f, hf, hx'⟩ | h1
    · refine Or.inl ⟨f, Or.inl ?_, hx'⟩
      rcases List.mem_append.mp hf with h2 | h2
      · exact (hD f h2).2.1
      · exact (hP f h2).1
    · exact Or.inr h1
  · rcases hcase i j k hi hj hk with ⟨u, hu, hval, hmem, hpa, _⟩ | e
    · right
      obtain ⟨_, g2, g3, _, g5⟩ := hD _ hmem
      rw [hpa]
      refine ⟨?_, g2, g3, g5⟩
      rw [hval]
      exact isLeaf_entry (hfl u) (hrwx u hu)
    · left
      have hnF := hold i j k hi hj hk hv e
      rw [e] at hv hnF
      exact ⟨e, hv, fun hc => hnF (hsub _ hc)⟩
  · rcases hcase i j k hi hj hk with ⟨u, hu, _, _, hpa, e1, e2, e3⟩ | e
    · rcases hcase i' j' k' hi' hj' hk' with ⟨v, hv2, _, _, hpa', e1', e2', e3'⟩ | e'
      · rw [hpa, hpa'] at he
        have hu' : u < D.length := by rw [h.len]; exact hu
        have hv' : v < D.length := by rw [h.len]; exact hv2
        rw [List.getD_eq_getElem _ _ hu', List.getD_eq_getElem _ _ hv'] at he
        have : u = v := (List.Nodup.getElem_inj_iff hnd).mp he
        subst this
        exact ⟨e1.trans e1'.symm, e2.trans e2'.symm, e3.trans e3'.symm⟩
      · exact absurd (he ▸ hF) (hold i' j' k' hi' hj' hk' hv' e')
    · exact absurd hF (hold i j k hi hj hk hv e)

/-- A failed grow of the table `T`, which mapped nothing, keeps the ownership exclusive. -/
theorem excl_fail {L : MemLayout} {s s' : KState} {Ts F Pt F' : List Nat} {T lo : Nat}
    (hE : Exclusive L s Ts F) (hT : T ∈ Ts) (h : GrowFail L T s F lo 0 s' Pt F') :
    Exclusive L s' Ts F' := by
  have hperm : F.Perm (Pt ++ F') := h.perm
  have hsub : ∀ f ∈ F', f ∈ F := fun f hf => hperm.mem_iff.mpr (List.mem_append_right _ hf)
  refine excl_step_kept hE hT h.free h.wft (fun f hf => Or.inl (hsub f hf))
    (fun q hq => ?_) (fun x hx => ?_) (fun i j k hi hj hk hv => ?_)
  · rcases (h.pages q).mp hq with h1 | h1
    · exact Or.inl h1
    · exact Or.inr (hperm.mem_iff.mpr (List.mem_append_left _ h1))
  · rcases h.foot x hx with ⟨f, hf, hx'⟩ | h1
    · exact Or.inl ⟨f, Or.inl hf, hx'⟩
    · exact Or.inr h1
  · rcases h.others i j k hi hj hk (fun u hu => absurd hu (Nat.not_lt_zero u)) with e | ⟨_, e⟩
    · rw [e] at hv ⊢
      exact ⟨rfl, hv, fun hc => (hE.leaf T hT i j k hi hj hk hv).2.2.1 (hsub _ hc)⟩
    · rw [e] at hv
      exact absurd hv not_pteValid_zero

/-- What `uvmunmap` with `do_free = 1` needs of a range of mapped pages follows from
exclusive ownership. -/
theorem excl_pre {L : MemLayout} (hL : L.Sane) {s : KState} {Ts F : List Nat} {T va n : Nat}
    (hE : Exclusive L s Ts F) (hT : T ∈ Ts) (hva : va % 4096 = 0)
    (hlt : va + n * 4096 ≤ L.MAXVA)
    (hmap : ∀ u, u < n → pteValid (ent s.mem T (PX 2 (va + u * 4096)) (PX 1 (va + u * 4096))
      (PX 0 (va + u * 4096)))) :
    (∀ u, u < n →
      pteValid (ent s.mem T (PX 2 (va + u * 4096)) (PX 1 (va + u * 4096))
        (PX 0 (va + u * 4096))) ∧
      PTE_FLAGS (ent s.mem T (PX 2 (va + u * 4096)) (PX 1 (va + u * 4096))
        (PX 0 (va + u * 4096))) ≠ PTE_V) ∧
    (framesOf s.mem T va n).Nodup ∧
    (∀ d ∈ framesOf s.mem T va n, goodFrame L d ∧ d ∉ F ∧ ¬ IsTablePage s.mem T d) := by
  have hM := hL.maxva_le
  refine ⟨fun u hu => isLeaf_flags
      (hE.leaf T hT _ _ _ (PX_lt _ _) (PX_lt _ _) (PX_lt _ _) (hmap u hu)).1,
    framesOf_nodup n va (fun u v huv hv he => ?_), fun d hd => ?_⟩
  · have := hE.inj T hT T hT _ _ _ _ _ _ (PX_lt _ _) (PX_lt _ _) (PX_lt _ _) (PX_lt _ _)
      (PX_lt _ _) (PX_lt _ _) (hmap u (by omega)) (hmap v hv) he
    have := PX_inj (show (va + u * 4096) % 4096 = 0 by omega)
      (show (va + v * 4096) % 4096 = 0 by omega) (by omega) (by omega) this.2.1 this.2.2.1
      this.2.2.2
    omega
  · obtain ⟨u, hu, rfl⟩ := (mem_framesOf n va d).mp hd
    obtain ⟨_, g2, g3, g4⟩ :=
      hE.leaf T hT _ _ _ (PX_lt _ _) (PX_lt _ _) (PX_lt _ _) (hmap u hu)
    exact ⟨g2, g3, g4 T hT⟩

/-- Unmapping a range of mapped pages of the table `T` and freeing their frames keeps the
ownership exclusive. -/
theorem excl_unmap_post {L : MemLayout} {s s' : KState} {Ts F : List Nat}
    {T va n : Nat} (hE : Exclusive L s Ts F) (hT : T ∈ Ts)
    (hmap : ∀ u, u < n → pteValid (ent s.mem T (PX 2 (va + u * 4096)) (PX 1 (va + u * 4096))
      (PX 0 (va + u * 4096))))
    (hfo' : FreeOK L s' ((framesOf s.mem T va n).reverse ++ F))
    (hw' : WFT s'.mem T ((framesOf s.mem T va n).reverse ++ F))
    (hpg : ∀ q, IsTablePage s'.mem T q ↔ IsTablePage s.mem T q)
    (hupd : EntUpd s.mem s'.mem T va n (fun _ => 0))
    (hfoot : ∀ x, s'.mem x ≠ s.mem x →
      (∃ d, d ∈ framesOf s.mem T va n ∧ d ≤ x ∧ x < d + 4096) ∨
      (∃ q, IsTablePage s.mem T q ∧ q ≤ x ∧ x < q + 4096)) :
    Exclusive L s' Ts ((framesOf s.mem T va n).reverse ++ F) := by
  have hfr : ∀ d, d ∈ framesOf s.mem T va n → ∃ u, u < n ∧ ∃ i j k, i < 512 ∧ j < 512 ∧
      k < 512 ∧ pteValid (ent s.mem T i j k) ∧ d = PTE2PA (ent s.mem T i j k) ∧
      i = PX 2 (va + u * 4096) ∧ j = PX 1 (va + u * 4096) ∧ k = PX 0 (va + u * 4096) := by
    intro d hd
    obtain ⟨u, hu, e⟩ := (mem_framesOf n va d).mp hd
    exact ⟨u, hu, _, _, _, PX_lt _ _, PX_lt _ _, PX_lt _ _, hmap u hu, e, rfl, rfl, rfl⟩
  refine excl_step_kept hE hT hfo' hw' (fun f hf => ?_) (fun q hq => Or.inl ((hpg q).mp hq))
    (fun x hx => ?_) (fun i j k hi hj hk hv => ?_)
  · rcases List.mem_append.mp hf with h1 | h1
    · obtain ⟨u, _, i, j, k, hi, hj, hk, hv, e, _⟩ := hfr f (List.mem_reverse.mp h1)
      exact Or.inr ⟨i, j, k, hi, hj, hk, hv, e⟩
    · exact Or.inl h1
  · rcases hfoot x hx with ⟨d, hd, hx'⟩ | h1
    · obtain ⟨u, _, i, j, k, hi, hj, hk, hv, e, _⟩ := hfr d hd
      exact Or.inl ⟨d, Or.inr ⟨i, j, k, hi, hj, hk, hv, e⟩, hx'⟩
    · exact Or.inr h1
  · by_cases hr : ∃ u, u < n ∧ i = PX 2 (va + u * 4096) ∧ j = PX 1 (va + u * 4096) ∧
        k = PX 0 (va + u * 4096)
    · obtain ⟨u, hu, e1, e2, e3⟩ := hr
      have := hupd.1 u hu
      rw [← e1, ← e2, ← e3] at this
      rw [this] at hv
      exact absurd hv not_pteValid_zero
    · have e := hupd.2 i j k hi hj hk (fun u hu hc => hr ⟨u, hu, hc⟩)
      rw [e] at hv ⊢
      refine ⟨rfl, hv, fun hc => ?_⟩
      rcases List.mem_append.mp hc with h1 | h1
      · obtain ⟨u, hu, i', j', k', hi', hj', hk', hv', e', e1, e2, e3⟩ :=
          hfr _ (List.mem_reverse.mp h1)
        obtain ⟨_, g1, g2, g3⟩ :=
          hE.inj T hT T hT i j k i' j' k' hi hj hk hi' hj' hk' hv hv' e'
        exact hr ⟨u, hu, g1.trans e1, g2.trans e2, g3.trans e3⟩
      · exact (hE.leaf T hT i j k hi hj hk hv).2.2.1 h1

/-! ## Exclusive ownership: the operations -/

/-- A new table from `uvmcreate()` joins the live tables, and the ownership stays
exclusive. -/
theorem excl_create {L : MemLayout} (hL : L.Sane) {s : KState} {Ts F1 : List Nat} {f : Nat}
    (hE : Exclusive L s Ts (f :: F1)) :
    ∃ s1, uvmcreate s = (f, s1) ∧ f ≠ 0 ∧ Exclusive L s1 (f :: Ts) F1 := by
  obtain ⟨s1, hres, hfo1, hz, hout⟩ := uvmcreate_spec hE.free
  have hfF : f ∈ f :: F1 := List.mem_cons_self _ _
  have hg := hE.free.2.2 f hfF
  have hf0 : f ≠ 0 := (kalloc_cons hE.free).2.1
  have hfn : f ∉ F1 := (List.nodup_cons.mp hE.free.2.1).1
  obtain ⟨hwf, hef, hpf⟩ := @zero_root s1.mem f F1 (goodFrame_al hg) (goodFrame_lt hL hg) hf0
    hfn hz
  have hnT : ∀ T ∈ Ts, ¬ IsTablePage s.mem T f := fun T hT hc =>
    (WFT_page (hE.wft T hT) hc).2.2.2 hfF
  have hag : ∀ T ∈ Ts, ∀ p, IsTablePage s.mem T p → ∀ x, p ≤ x → x < p + 4096 →
      s1.mem x = s.mem x := by
    intro T hT p hp x hx1 hx2
    refine hout x (fun hc => ?_)
    have hpa := (WFT_page (hE.wft T hT) hp).1
    have hfa := goodFrame_al hg
    have : f ≠ p := fun e => hnT T hT (e ▸ hp)
    omega
  have hoth : ∀ T ∈ Ts,
      (∀ i j k, i < 512 → j < 512 → k < 512 → ent s1.mem T i j k = ent s.mem T i j k) ∧
      (∀ p, IsTablePage s1.mem T p ↔ IsTablePage s.mem T p) ∧ WFT s1.mem T (f :: F1) := by
    intro T hT
    obtain ⟨h1, h2⟩ := agree_tables_WFT (hE.wft T hT) (hag T hT)
    exact ⟨(agree_tables (hag T hT)).2.2, h2, h1⟩
  have hfT : f ∉ Ts := fun hc => hnT f hc (Or.inl rfl)
  have hnv : ∀ i j k, i < 512 → ¬ pteValid (ent s1.mem f i j k) := fun i j k hi => by
    rw [hef i j k hi]; exact not_pteValid_zero
  have hpages : ∀ T ∈ f :: Ts, ∀ q, IsTablePage s1.mem T q →
      (T = f ∧ q = f) ∨ (T ∈ Ts ∧ IsTablePage s.mem T q) := by
    intro T hT q hq
    rcases List.mem_cons.mp hT with rfl | hT
    · exact Or.inl ⟨rfl, (hpf q).mp hq⟩
    · exact Or.inr ⟨hT, ((hoth T hT).2.1 q).mp hq⟩
  have hents : ∀ T ∈ f :: Ts, ∀ i j k, i < 512 → j < 512 → k < 512 →
      pteValid (ent s1.mem T i j k) →
      T ∈ Ts ∧ ent s1.mem T i j k = ent s.mem T i j k ∧ pteValid (ent s.mem T i j k) := by
    intro T hT i j k hi hj hk hv
    rcases List.mem_cons.mp hT with rfl | hT
    · exact absurd hv (hnv i j k hi)
    · have e := (hoth T hT).1 i j k hi hj hk
      rw [e] at hv
      exact ⟨hT, e, hv⟩
  refine ⟨s1, hres, hf0, hfo1, fun T hT => ?_, fun T1 h1 T2 h2 q hq1 hq2 => ?_,
    fun T1 h1 i j k hi hj hk hv => ?_,
    fun T1 h1 T2 h2 i j k i' j' k' hi hj hk hi' hj' hk' hv hv' he => ?_⟩
  · rcases List.mem_cons.mp hT with rfl | hT
    · exact hwf
    · exact WFT_mono (hoth T hT).2.2 (fun g hg' => List.mem_cons_of_mem _ hg')
  · rcases hpages T1 h1 q hq1 with ⟨e1, a1⟩ | ⟨m1, a1⟩ <;>
      rcases hpages T2 h2 q hq2 with ⟨e2, a2⟩ | ⟨m2, a2⟩
    · rw [e1, e2]
    · exact absurd (a1 ▸ a2) (hnT T2 m2)
    · exact absurd (a2 ▸ a1) (hnT T1 m1)
    · exact hE.sepT T1 m1 T2 m2 q a1 a2
  · obtain ⟨m1, e, hv0⟩ := hents T1 h1 i j k hi hj hk hv
    obtain ⟨g1, g2, g3, g4⟩ := hE.leaf T1 m1 i j k hi hj hk hv0
    rw [e]
    refine ⟨g1, g2, fun hc => g3 (List.mem_cons_of_mem _ hc), fun T' hT' hc => ?_⟩
    rcases hpages T' hT' _ hc with ⟨_, a⟩ | ⟨m', a⟩
    · exact g3 (a ▸ hfF)
    · exact g4 T' m' a
  · obtain ⟨m1, e, hv0⟩ := hents T1 h1 i j k hi hj hk hv
    obtain ⟨m2, e', hv0'⟩ := hents T2 h2 i' j' k' hi' hj' hk' hv'
    rw [e, e'] at he
    exact hE.inj T1 m1 T2 m2 i j k i' j' k' hi hj hk hi' hj' hk' hv0 hv0' he

theorem uflags_rwx : (PTE_W ||| PTE_X ||| PTE_R ||| PTE_U) &&& (PTE_R ||| PTE_W ||| PTE_X) ≠ 0 := by
  decide

/-- `uvmunmap` with `do_free = 1` over mapped pages keeps the ownership exclusive. -/
theorem excl_uvmunmap {L : MemLayout} (hL : L.Sane) {s : KState} {Ts F : List Nat}
    {T va n : Nat} (hE : Exclusive L s Ts F) (hT : T ∈ Ts) (hva : va % 4096 = 0)
    (hlt : va + n * 4096 ≤ L.MAXVA)
    (hmap : ∀ u, u < n → pteValid (ent s.mem T (PX 2 (va + u * 4096)) (PX 1 (va + u * 4096))
      (PX 0 (va + u * 4096)))) :
    ∃ s', uvmunmap L s T va n 1 = .ok s' ∧
      Exclusive L s' Ts ((framesOf s.mem T va n).reverse ++ F) := by
  obtain ⟨p1, p2, p3⟩ := excl_pre hL hE hT hva hlt hmap
  obtain ⟨s', hres, hfo', hw', hpg, hupd, hfoot⟩ :=
    @uvmunmap_spec L hL s T va n 1 F hE.free (hE.wft T hT) hva hlt p1 (fun _ => ⟨p2, p3⟩)
  simp only [ne_eq, one_ne_zero, not_false_eq_true, if_true, true_and] at hfo' hw' hfoot
  exact ⟨s', hres, excl_unmap_post hE hT hmap hfo' hw' hpg hupd hfoot⟩

/-! ## C24: exclusive frame ownership is an invariant -/

theorem excl_mapped {L : MemLayout} {s : KState} {Ts F : List Nat} {T a e : Nat}
    (hE : Exclusive L s Ts F) (hT : T ∈ Ts) (h : leafAt L s T a = some e) :
    a < L.MAXVA ∧ ent s.mem T (PX 2 a) (PX 1 a) (PX 0 a) = e ∧ isLeaf e ∧ PTE2PA e ∉ F ∧
      ∀ T' ∈ Ts, ¬ IsTablePage s.mem T' (PTE2PA e) := by
  obtain ⟨h1, h2, _, h4⟩ := leafAt_some (hE.wft T hT) h
  have hv : pteValid (ent s.mem T (PX 2 a) (PX 1 a) (PX 0 a)) := h2 ▸ h4
  obtain ⟨g1, _, g3, g4⟩ := hE.leaf T hT _ _ _ (PX_lt _ _) (PX_lt _ _) (PX_lt _ _) hv
  rw [h2] at g1 g3 g4
  exact ⟨h1, h2, g1, g3, g4⟩

theorem excl_uvmalloc {L : MemLayout} (hL : L.Sane) {s : KState} {Ts F : List Nat}
    (hE : Exclusive L s Ts F) (T oldsz newsz : Nat) (hT : T ∈ Ts) (hnew : newsz ≤ L.MAXVA)
    (hun : ∀ a, a % PGSIZE = 0 → PGROUNDUP oldsz ≤ a → a < newsz → leafAt L s T a = none) :
    ∃ r s' F', uvmalloc L s T oldsz newsz = .ok (r, s') ∧ Exclusive L s' Ts F' := by
  by_cases hlt : newsz < oldsz
  · refine ⟨oldsz, s, F, ?_, hE⟩
    unfold uvmalloc; rw [if_pos hlt]
  · rcases uvmalloc_spec hL hE.free (hE.wft T hT) (by omega) hnew hun with
      ⟨s', D, Pt, F', hres, hg, _⟩ | ⟨s', Pt, F', hres, _, hf⟩
    · exact ⟨_, s', F', hres, excl_grow hL hE hT hg (fun _ => by decide)
        (fun _ _ => uflags_rwx)⟩
    · exact ⟨_, s', F', hres, excl_fail hE hT hf⟩

theorem excl_uvmdealloc {L : MemLayout} (hL : L.Sane) {s : KState} {Ts F : List Nat}
    (hE : Exclusive L s Ts F) (T oldsz newsz : Nat) (hT : T ∈ Ts)
    (hmap : ∀ a, a % PGSIZE = 0 → PGROUNDUP newsz ≤ a → a < PGROUNDUP oldsz →
      ∃ e, leafAt L s T a = some e) :
    ∃ r s' F', uvmdealloc L s T oldsz newsz = .ok (r, s') ∧ Exclusive L s' Ts F' := by
  have hMa := hL.maxva_al
  have hlo := PGROUNDUP_aligned newsz
  have hhi := PGROUNDUP_aligned oldsz
  unfold PGSIZE at hmap
  by_cases hle : oldsz ≤ newsz
  · exact ⟨_, s, F, uvmdealloc_noop L s T oldsz newsz hle, hE⟩
  · by_cases h2 : PGROUNDUP newsz < PGROUNDUP oldsz
    · have hlast : PGROUNDUP oldsz - 4096 < L.MAXVA := by
        obtain ⟨e, he⟩ := hmap (PGROUNDUP oldsz - 4096) (by omega) (by omega) (by omega)
        exact (excl_mapped hE hT he).1
      have hb : PGROUNDUP newsz + (PGROUNDUP oldsz - PGROUNDUP newsz) / 4096 * 4096 ≤
          L.MAXVA := by omega
      have hv : ∀ u, u < (PGROUNDUP oldsz - PGROUNDUP newsz) / 4096 →
          pteValid (ent s.mem T (PX 2 (PGROUNDUP newsz + u * 4096))
            (PX 1 (PGROUNDUP newsz + u * 4096)) (PX 0 (PGROUNDUP newsz + u * 4096))) := by
        intro u hu
        obtain ⟨e, he⟩ := hmap (PGROUNDUP newsz + u * 4096) (by omega) (by omega) (by omega)
        obtain ⟨_, g2, g3, _⟩ := excl_mapped hE hT he
        rw [g2]; exact g3.1
      obtain ⟨p1, p2, p3⟩ := excl_pre hL hE hT hlo.1 hb hv
      obtain ⟨s', hres, hfo', hw', hpg, hupd, hfoot⟩ :=
        uvmdealloc_spec hL hE.free (hE.wft T hT) (by omega) hb p1 ⟨p2, p3⟩
      exact ⟨_, s', _, hres, excl_unmap_post hE hT hv hfo' hw' hpg hupd hfoot⟩
    · exact ⟨_, s, F, uvmdealloc_same_page L s T oldsz newsz (by omega) h2, hE⟩

theorem excl_uvmcopy {L : MemLayout} (hL : L.Sane) {s : KState} {Ts F : List Nat}
    (hE : Exclusive L s Ts F) (old new sz : Nat) (hO : old ∈ Ts) (hN : new ∈ Ts)
    (hne : old ≠ new) (hsz : sz ≤ L.MAXVA)
    (hmap : ∀ a, a % PGSIZE = 0 → a < sz → ∃ e, leafAt L s old a = some e)
    (hnone : ∀ a, a % PGSIZE = 0 → a < sz → leafAt L s new a = none) :
    ∃ r s' F', uvmcopy L s old new sz = .ok (r, s') ∧ Exclusive L s' Ts F' := by
  rcases uvmcopy_spec hL hE.free (hE.wft old hO) (hE.wft new hN) hsz
      (fun a ha hlt => by
        obtain ⟨e, he⟩ := hmap a ha hlt
        exact ⟨e, he, (excl_mapped hE hO he).2.2.1⟩)
      hnone (fun q hq hc => hne (hE.sepT old hO new hN q hq hc))
      (fun a e _ _ he => ⟨(excl_mapped hE hO he).2.2.2.1,
        (excl_mapped hE hO he).2.2.2.2 new hN⟩) with
    ⟨s', D, Pt, F', hres, hg, _⟩ | ⟨s', Pt, F', hres, _, hf⟩
  · refine ⟨_, s', F', hres, excl_grow hL hE hN hg (fun _ => flags_lt _) (fun u hu => ?_)⟩
    obtain ⟨e, he⟩ := hmap (u * 4096) (by unfold PGSIZE; omega) (by omega)
    obtain ⟨_, g2, g3, _⟩ := excl_mapped hE hO he
    rw [g2, flags_rwx]
    exact g3.2
  · exact ⟨_, s', F', hres, excl_fail hE hN hf⟩

/-- C24: exclusive frame ownership is an invariant.  In a state with exclusive ownership
(`Exclusive`: the three conditions of the claim, for tables that are well-formed trees and
leaves that reference allocator frames) the free list has no duplicate frame, no free frame
is a page-table page or the frame of a valid level-0 entry of a live table, and no frame is
referenced by two level-0 entries of the live tables; a frame returned by `kalloc` is not
referenced by a valid level-0 entry of a live table; and `uvmcreate`, `uvmalloc` (success
or failure), `uvmdealloc`, `uvmcopy` (success or failure) and `uvmunmap` with
`do_free = 1`, called on a live table within the preconditions under which they return,
return in a state with exclusive ownership again. -/
theorem exclusive_invariant (L : MemLayout) (s : KState) (Ts F : List Nat) (hL : L.Sane)
    (hE : Exclusive L s Ts F) :
    (F.Nodup ∧
      (∀ f ∈ F, ∀ T ∈ Ts, ¬ IsTablePage s.mem T f ∧
        ∀ i j k, i < 512 → j < 512 → k < 512 → pteValid (ent s.mem T i j k) →
          PTE2PA (ent s.mem T i j k) ≠ f) ∧
      (∀ T ∈ Ts, ∀ T' ∈ Ts, ∀ i j k i' j' k', i < 512 → j < 512 → k < 512 →
        i' < 512 → j' < 512 → k' < 512 →
        pteValid (ent s.mem T i j k) → pteValid (ent s.mem T' i' j' k') →
        PTE2PA (ent s.mem T i j k) = PTE2PA (ent s.mem T' i' j' k') →
        T = T' ∧ i = i' ∧ j = j' ∧ k = k')) ∧
    (∀ f s1, kalloc s = (f, s1) → f ≠ 0 → ∀ T ∈ Ts,
      ∀ i j k, i < 512 → j < 512 → k < 512 → pteValid (ent s.mem T i j k) →
        PTE2PA (ent s.mem T i j k) ≠ f) ∧
    (∀ f s1, uvmcreate s = (f, s1) →
      (f = 0 ∧ Exclusive L s1 Ts F) ∨ (f ≠ 0 ∧ Exclusive L s1 (f :: Ts) F.tail)) ∧
    (∀ T oldsz newsz, T ∈ Ts → newsz ≤ L.MAXVA →
      (∀ a, a % PGSIZE = 0 → PGROUNDUP oldsz ≤ a → a < newsz → leafAt L s T a = none) →
      ∃ r s' F', uvmalloc L s T oldsz newsz = .ok (r, s') ∧ Exclusive L s' Ts F') ∧
    (∀ T oldsz newsz, T ∈ Ts →
      (∀ a, a % PGSIZE = 0 → PGROUNDUP newsz ≤ a → a < PGROUNDUP oldsz →
        ∃ e, leafAt L s T a = some e) →
      ∃ r s' F', uvmdealloc L s T oldsz newsz = .ok (r, s') ∧ Exclusive L s' Ts F') ∧
    (∀ old new sz, old ∈ Ts → new ∈ Ts → old ≠ new → sz ≤ L.MAXVA →
      (∀ a, a % PGSIZE = 0 → a < sz → ∃ e, leafAt L s old a = some e) →
      (∀ a, a % PGSIZE = 0 → a < sz → leafAt L s new a = none) →
      ∃ r s' F', uvmcopy L s old new sz = .ok (r, s') ∧ Exclusive L s' Ts F') ∧
    (∀ T va npages, T ∈ Ts → va % PGSIZE = 0 → va + npages * PGSIZE ≤ L.MAXVA →
      (∀ u, u < npages → ∃ e, leafAt L s T (va + u * PGSIZE) = some e) →
      ∃ s' F', uvmunmap L s T va npages 1 = .ok s' ∧ Exclusive L s' Ts F') := by
  have hfree : ∀ f ∈ F, ∀ T ∈ Ts, ∀ i j k, i < 512 → j < 512 → k < 512 →
      pteValid (ent s.mem T i j k) → PTE2PA (ent s.mem T i j k) ≠ f :=
    fun f hf T hT i j k hi hj hk hv e => (hE.leaf T hT i j k hi hj hk hv).2.2.1 (e ▸ hf)
  refine ⟨⟨hE.free.2.1, fun f hf T hT => ⟨fun hc => (WFT_page (hE.wft T hT) hc).2.2.2 hf,
      hfree f hf T hT⟩, hE.inj⟩, ?_, ?_, fun T oldsz newsz => excl_uvmalloc hL hE T oldsz newsz,
    fun T oldsz newsz => excl_uvmdealloc hL hE T oldsz newsz,
    fun old new sz => excl_uvmcopy hL hE old new sz, ?_⟩
  · intro f s1 hk hf0
    cases F with
    | nil =>
      rw [kalloc_nil hE.free] at hk
      exact absurd (congrArg Prod.fst hk).symm hf0
    | cons f0 F1 =>
      rw [(kalloc_cons hE.free).1] at hk
      have e : f0 = f := congrArg Prod.fst hk
      exact hfree f (e ▸ List.mem_cons_self _ _)
  · intro f s1 hc
    cases F with
    | nil =>
      have hk := kalloc_nil hE.free
      have e : uvmcreate s = (0, s) := by
        unfold uvmcreate
        simp only [hk, if_true]
      rw [e] at hc
      have e1 : 0 = f := congrArg Prod.fst hc
      have e2 : s = s1 := congrArg Prod.snd hc
      subst e1 e2
      exact Or.inl ⟨rfl, hE⟩
    | cons f0 F1 =>
      obtain ⟨s2, hres, hf0, hE2⟩ := excl_create hL hE
      rw [hres] at hc
      have e1 : f0 = f := congrArg Prod.fst hc
      have e2 : s2 = s1 := congrArg Prod.snd hc
      subst e1 e2
      exact Or.inr ⟨hf0, hE2⟩
  · intro T va npages hT hva hlt hmap
    unfold PGSIZE at hva hlt hmap
    obtain ⟨s', hres, hE'⟩ := excl_uvmunmap hL hE hT hva hlt (fun u hu => by
      obtain ⟨e, he⟩ := hmap u hu
      obtain ⟨_, g2, g3, _⟩ := excl_mapped hE hT he
      rw [g2]; exact g3.1)
    exact ⟨s', _, hres, hE'⟩

theorem exC2_idx (i j k : Nat) (hi : i < 512) (hj : j < 512) (hk : k < 512)
    (hv : pteValid (ent exC2.mem 0x87fff000 i j k)) :
    (i = 0 ∧ j = 0 ∧ k = 0) ∨ (i = 0 ∧ j = 0 ∧ k = 1) := by
  by_contra h
  rw [exC2_facts.2.2.2 i j k hi hj hk (fun u hu hc => h (by
    have h0 : PX 2 (0 + 0 * 4096) = 0 ∧ PX 1 (0 + 0 * 4096) = 0 ∧ PX 0 (0 + 0 * 4096) = 0 := by
      decide
    have h1 : PX 2 (0 + 1 * 4096) = 0 ∧ PX 1 (0 + 1 * 4096) = 0 ∧ PX 0 (0 + 1 * 4096) = 1 := by
      decide
    have : u = 0 ∨ u = 1 := by omega
    rcases this with rfl | rfl
    · left; rw [h0.1, h0.2.1, h0.2.2] at hc; exact hc
    · right; rw [h1.1, h1.2.1, h1.2.2] at hc; exact hc))] at hv
  exact not_pteValid_zero hv

theorem exC2_frames : PTE2PA (ent exC2.mem 0x87fff000 0 0 0) = 0x87ffe000 ∧
    PTE2PA (ent exC2.mem 0x87fff000 0 0 1) = 0x87ffb000 := by
  decide

/-- In the example state `exC2` the table `0x87fff000` with its two mapped pages and the
one free frame are in exclusive ownership. -/
theorem exC2_exclusive : Exclusive exL exC2 [0x87fff000] [0x87ffa000] := by
  refine ⟨by decide, fun T hT => ?_, fun T hT T' hT' _ _ _ => ?_,
    fun T hT i j k hi hj hk hv => ?_,
    fun T hT T' hT' i j k i' j' k' hi hj hk hi' hj' hk' hv hv' he => ?_⟩
  · rw [List.mem_singleton] at hT; subst hT; exact exC2_facts.1
  · rw [List.mem_singleton] at hT hT'; rw [hT, hT']
  · rw [List.mem_singleton] at hT; subst hT
    refine ⟨exC2_depth i j k hi hj hk hv, ?_⟩
    rcases exC2_idx i j k hi hj hk hv with ⟨rfl, rfl, rfl⟩ | ⟨rfl, rfl, rfl⟩
    · rw [exC2_frames.1]
      refine ⟨by decide, by decide, fun T' hT' => ?_⟩
      rw [List.mem_singleton] at hT'; subst hT'
      exact exC2_facts.2.2.1 _ (by decide)
    · rw [exC2_frames.2]
      refine ⟨by decide, by decide, fun T' hT' => ?_⟩
      rw [List.mem_singleton] at hT'; subst hT'
      exact exC2_facts.2.2.1 _ (by decide)
  · rw [List.mem_singleton] at hT hT'; subst hT; subst hT'
    rcases exC2_idx i j k hi hj hk hv with ⟨rfl, rfl, rfl⟩ | ⟨rfl, rfl, rfl⟩ <;>
      rcases exC2_idx i' j' k' hi' hj' hk' hv' with ⟨rfl, rfl, rfl⟩ | ⟨rfl, rfl, rfl⟩
    · exact ⟨rfl, rfl, rfl, rfl⟩
    · rw [exC2_frames.1, exC2_frames.2] at he; exact absurd he (by decide)
    · rw [exC2_frames.1, exC2_frames.2] at he; exact absurd he (by decide)
    · exact ⟨rfl, rfl, rfl, rfl⟩

/-- C24, witness: the example state `exC2`, with one live table that maps two pages and one
free frame, is in exclusive ownership, and `uvmdealloc(T, 8192, 0)` returns there in a
state with exclusive ownership. -/
theorem exclusive_invariant_witness :
    exL.Sane ∧ Exclusive exL exC2 [0x87fff000] [0x87ffa000] ∧
    ∃ r s' F', uvmdealloc exL exC2 0x87fff000 8192 0 = .ok (r, s') ∧
      Exclusive exL s' [0x87fff000] F' :=
  ⟨exL_sane, exC2_exclusive,
    (exclusive_invariant exL exC2 [0x87fff000] [0x87ffa000] exL_sane
      exC2_exclusive).2.2.2.2.1 0x87fff000 8192 0 (List.mem_singleton.mpr rfl)
      (fun a ha h1 h2 => by
        have h3 : PGROUNDUP 8192 = 8192 := by decide
        have h4 : PGROUNDUP 0 = 0 := by decide
        unfold PGSIZE at ha
        have : a = 0 ∨ a = 4096 := by omega
        rcases this with rfl | rfl
        · exact ⟨_, (leafAt_of_ent exC2_facts.1 (by decide) (by decide))⟩
        · exact ⟨_, (leafAt_of_ent exC2_facts.1 (by decide) (by decide))⟩)⟩

/-! ## C30: the size that `exec` passes to the cleanup -/

end XV6
